import Mathlib

/-! # Rolling-window statistics (`roll.h`): a shallow embedding and its properties

The workers of `src/roll.h` are embedded over an arbitrary linearly ordered field `α`
("arithmetic taken exactly": no rounding).  Two value types are used.

* `LD α` is a `long double` accumulator: either an exact finite value `fin v`, or `nonfin`,
  the outcome of a division by zero (IEEE gives `±Inf` or `NaN` there).  `nonfin` is
  absorbing for `+`, `-`, `*`, `/` and every comparison with it is false.
* `Cell α` is a `double` entry of an R matrix: a finite value, R's `NA_real_`, or `NaN`.
  `std::isnan` is true for the last two.

Indices are natural numbers; `n_obs` and `min_obs` are C `int`s and are integers here.
The weight index `n - count - 1` is read with truncated subtraction, which is exact as soon
as `count < n` (the engines' precondition `width ≤ n`).
-/

namespace Roll

/-! ## Values -/

/-- A `long double` accumulator: an exact finite value, or the non-finite outcome of a
division by zero. -/
inductive LD (α : Type) where
  | fin (v : α)
  | nonfin
deriving DecidableEq, Repr

/-- A `double` entry of an R numeric matrix. -/
inductive Cell (α : Type) where
  | val (v : α)
  | NA
  | NaN
deriving DecidableEq, Repr

namespace LD

variable {α : Type}

instance [Zero α] : Zero (LD α) := ⟨fin 0⟩
instance [One α] : One (LD α) := ⟨fin 1⟩

/-- Addition of accumulators. -/
def add [Add α] : LD α → LD α → LD α
  | fin a, fin b => fin (a + b)
  | _, _ => nonfin

/-- Subtraction of accumulators. -/
def sub [Sub α] : LD α → LD α → LD α
  | fin a, fin b => fin (a - b)
  | _, _ => nonfin

/-- Multiplication of accumulators. -/
def mul [Mul α] : LD α → LD α → LD α
  | fin a, fin b => fin (a * b)
  | _, _ => nonfin

/-- Division of accumulators; a zero divisor gives a non-finite result. -/
def div [Div α] [Zero α] [DecidableEq α] : LD α → LD α → LD α
  | fin a, fin b => if b = 0 then nonfin else fin (a / b)
  | _, _ => nonfin

instance [Add α] : Add (LD α) := ⟨add⟩
instance [Sub α] : Sub (LD α) := ⟨sub⟩
instance [Mul α] : Mul (LD α) := ⟨mul⟩
instance [Div α] [Zero α] [DecidableEq α] : Div (LD α) := ⟨div⟩

/-- The C call `pow(a, 2.0)`. -/
def pow2 [Mul α] : LD α → LD α
  | fin a => fin (a * a)
  | nonfin => nonfin

/-- The C call `sqrt(a)`, over a square-root function `sq` for non-negative arguments;
the square root of a negative number is `NaN`. -/
def sqrt [Zero α] [LT α] [DecidableRel (fun a b : α => a < b)] (sq : α → α) : LD α → LD α
  | fin a => if a < 0 then nonfin else fin (sq a)
  | nonfin => nonfin

/-- The C comparison `a <= b`; false when an operand is not finite. -/
def le [LE α] [DecidableRel (fun a b : α => a ≤ b)] : LD α → LD α → Bool
  | fin a, fin b => decide (a ≤ b)
  | _, _ => false

/-- Storing an accumulator into a `double` cell. -/
def toCell : LD α → Cell α
  | fin v => Cell.val v
  | nonfin => Cell.NaN

end LD

namespace Cell

variable {α : Type}

/-- The C call `std::isnan`: true for `NA` and for `NaN`. -/
def isnan : Cell α → Bool
  | val _ => false
  | NA => true
  | NaN => true

/-- Reading a cell into a `long double`. -/
def toLD : Cell α → LD α
  | val v => LD.fin v
  | NA => LD.nonfin
  | NaN => LD.nonfin

/-- The number held by a cell (`0` for a missing cell); used to state results. -/
def get [Zero α] : Cell α → α
  | val v => v
  | NA => 0
  | NaN => 0

end Cell

/-- An output matrix `arma::mat`, indexed `(row, column)`. -/
abbrev Mat (α : Type) := ℕ → ℕ → Cell α

/-- An output tensor `arma::cube`, indexed `(row, column, slice)`. -/
abbrev Cube (α : Type) := ℕ → ℕ → ℕ → Cell α

/-- The assignment `m(i, j) = v`. -/
def Mat.set {α : Type} (m : Mat α) (i j : ℕ) (v : Cell α) : Mat α :=
  fun a b => if a = i ∧ b = j then v else m a b

/-- The assignment `c(j, k, i) = v`. -/
def Cube.set {α : Type} (c : Cube α) (j k i : ℕ) (v : Cell α) : Cube α :=
  fun a b t => if a = j ∧ b = k ∧ t = i then v else c a b t

/-! ## Arguments of a worker -/

/-- The fields of the worker structs (`x`, `n`, `n_rows_x`, `n_cols_x`, `width`,
`arma_weights`, `center`, `scale`, `intercept`, `min_obs`, `arma_any_na`, `na_restore`).
A worker reads only the fields its own struct declares. -/
structure Args (α : Type) where
  x : ℕ → ℕ → Cell α
  n : ℕ
  n_rows_x : ℕ
  n_cols_x : ℕ
  width : ℕ
  arma_weights : ℕ → α
  center : Bool
  scale : Bool
  intercept : Bool
  min_obs : ℤ
  arma_any_na : ℕ → ℕ
  na_restore : Bool

/-- An output vector `arma::vec`. -/
abbrev Vec (α : Type) := ℕ → Cell α

/-- The assignment `v[i] = c`. -/
def Vec.set {α : Type} (v : Vec α) (i : ℕ) (c : Cell α) : Vec α :=
  fun a => if a = i then c else v a

/-- The four destinations of the regression covariance workers. -/
structure LmDst (α : Type) where
  arma_n_obs : Vec α
  arma_sum_w : Vec α
  arma_mean : Mat α
  arma_cov : Cube α

/-- The two numeric primitives the workers take from outside the repository: `std::sqrt`
on a non-negative argument, and the constant `arma::datum::eps`. -/
structure Prim (α : Type) where
  sqrt : α → α
  eps : α

section Engines

variable {α : Type} [LinearOrderedField α]

/-- The test `(arma_any_na[i] != 0) || std::isnan(x(i, j))`. -/
@[reducible] def isNA (p : Args α) (i j : ℕ) : Prop :=
  p.arma_any_na i ≠ 0 ∨ (p.x i j).isnan = true

/-- The test `(arma_any_na[i] == 0) && !std::isnan(x(i, j))`. -/
@[reducible] def notNA (p : Args α) (i j : ℕ) : Prop :=
  p.arma_any_na i = 0 ∧ ¬ (p.x i j).isnan = true

/-- The test `(!na_restore) || (na_restore && !std::isnan(x(i, j)))`. -/
@[reducible] def compute (p : Args α) (i j : ℕ) : Prop :=
  p.na_restore = false ∨ (p.na_restore = true ∧ ¬ (p.x i j).isnan = true)

/-- The test `(arma_any_na[i] != 0) || std::isnan(x(i, j)) || std::isnan(x(i, k))`. -/
@[reducible] def isNA2 (p : Args α) (i j k : ℕ) : Prop :=
  p.arma_any_na i ≠ 0 ∨ (p.x i j).isnan = true ∨ (p.x i k).isnan = true

/-- The test `(arma_any_na[i] == 0) && !std::isnan(x(i, j)) && !std::isnan(x(i, k))`. -/
@[reducible] def notNA2 (p : Args α) (i j k : ℕ) : Prop :=
  p.arma_any_na i = 0 ∧ ¬ (p.x i j).isnan = true ∧ ¬ (p.x i k).isnan = true

/-- The test
`(!na_restore) || (na_restore && !std::isnan(x(i, j)) && !std::isnan(x(i, k)))`. -/
@[reducible] def compute2 (p : Args α) (i j k : ℕ) : Prop :=
  p.na_restore = false ∨
    (p.na_restore = true ∧ ¬ (p.x i j).isnan = true ∧ ¬ (p.x i k).isnan = true)

/-- The value stored for a pair whose own row is missing:
`if (std::isnan(x(i, j))) x(i, j) else x(i, k)`. -/
def restored (p : Args α) (i j k : ℕ) : Cell α :=
  if (p.x i j).isnan = true then p.x i j else p.x i k

/-- The decay factor: `arma_weights[n - 2] / arma_weights[n - 1]` if `width > 1`,
else `arma_weights[n - 1]`. -/
def lambda (p : Args α) : LD α :=
  if p.width > 1 then LD.fin (p.arma_weights (p.n - 2)) / LD.fin (p.arma_weights (p.n - 1))
  else LD.fin (p.arma_weights (p.n - 1))

/-! ## Loops -/

/-- Auxiliary for `whileWindow`: at most `fuel` further iterations from `count`. -/
def whileWindow.go {σ : Type} (width i : ℕ) (body : ℕ → σ → σ) : ℕ → ℕ → σ → σ
  | 0, _, s => s
  | fuel + 1, count, s =>
    if width > count ∧ i ≥ count then
      whileWindow.go width i body fuel (count + 1) (body count s)
    else s

/-- The loop `while ((width > count) && (i >= count)) { body; count += 1; }` entered with
`count = 0`.  The guard fails once `count = width`, so `width` iterations are always enough
(`whileWindow_go_fuel`). -/
def whileWindow {σ : Type} (width i : ℕ) (body : ℕ → σ → σ) (s : σ) : σ :=
  whileWindow.go width i body width 0 s

/-- The loop `for (k = lo; k < hi; k++) body`. -/
def forLoop {σ : Type} (lo hi : ℕ) (body : ℕ → σ → σ) (s : σ) : σ :=
  (List.range' lo (hi - lo)).foldl (fun s k => body k s) s

/-- The state of an online worker after the first `i` passes of its row loop
`for (int i = 0; i < n_rows_x; i++)`. -/
def onlineState {σ : Type} (step : ℕ → σ → σ) (init : σ) : ℕ → σ
  | 0 => init
  | i + 1 => step i (onlineState step init i)

/-- The row loop of an online worker for column `j`: every pass updates the accumulators
and stores one cell of column `j`. -/
def onlineRows {σ : Type} (step : ℕ → σ → σ) (emit : ℕ → σ → Cell α) (init : σ)
    (n_rows j : ℕ) (dst : Mat α) : Mat α :=
  (forLoop 0 n_rows (fun i (r : σ × Mat α) =>
    let s := step i r.1
    (s, r.2.set i j (emit i s))) (init, dst)).2

/-- The body `operator()(begin_col, end_col)` of a matrix worker that iterates by column. -/
def onlineWorker {σ : Type} (step : ℕ → ℕ → σ → σ) (emit : ℕ → ℕ → σ → Cell α) (init : σ)
    (n_rows begin_col end_col : ℕ) (dst : Mat α) : Mat α :=
  forLoop begin_col end_col (fun j d => onlineRows (step j) (emit j) init n_rows j d) dst

/-- The body `operator()(begin_index, end_index)` of a matrix worker that iterates by
flattened index: `i = z / n_cols_x`, `j = z % n_cols_x`. -/
def parallelWorker (cell : ℕ → ℕ → Cell α) (n_cols begin_index end_index : ℕ)
    (dst : Mat α) : Mat α :=
  forLoop begin_index end_index (fun z d => d.set (z / n_cols) (z % n_cols)
    (cell (z / n_cols) (z % n_cols))) dst

/-- The row loop of a covariance worker that iterates by column, for the pair `(j, k)`:
every pass updates the accumulators, stores `arma_cov(j, k, i)` and then mirrors it,
`arma_cov(k, j, i) = arma_cov(j, k, i)`. -/
def onlineSlices {σ : Type} (step : ℕ → σ → σ) (emit : ℕ → σ → Cell α) (init : σ)
    (n_rows j k : ℕ) (dst : Cube α) : Cube α :=
  (forLoop 0 n_rows (fun i (r : σ × Cube α) =>
    let s := step i r.1
    let c := r.2.set j k i (emit i s)
    (s, c.set k j i (c j k i))) (init, dst)).2

/-- The body `operator()(begin_col, end_col)` of a covariance worker that iterates by
column: `for (j = begin_col; j < end_col; j++) for (k = 0; k <= j; k++)`. -/
def onlineCubeWorker {σ : Type} (step : ℕ → ℕ → ℕ → σ → σ) (emit : ℕ → ℕ → ℕ → σ → Cell α)
    (init : σ) (n_rows begin_col end_col : ℕ) (dst : Cube α) : Cube α :=
  forLoop begin_col end_col (fun j d =>
    forLoop 0 (j + 1) (fun k d =>
      onlineSlices (step j k) (emit j k) init n_rows j k d) d) dst

/-- The declaration `int n_unique = n_cols_x * (n_cols_x + 1) / 2`. -/
def n_unique (n_cols : ℕ) : ℕ := n_cols * (n_cols + 1) / 2

/-- The value of a C `int` expression whose exact value is `v`: 32 bits, two's complement, so
a result outside `[-2147483648, 2147483647]` wraps. -/
def int32 (v : ℤ) : ℤ := (v + 2147483648) % 4294967296 - 2147483648

/-- The column index `k` of the lower triangle as the source computes it,
`int k = n_cols_x - floor((sqrt((long double)(4 * n_cols_x * (n_cols_x + 1) -
(7 + 8 * z_unique))) - 1) / 2) - 1`.  The radicand is an `int` expression, so each of its
operations wraps to 32 bits.  For a radicand `d ≥ 0` the square root is taken exactly: the
floor of `(sqrt(d) - 1) / 2` is `(Nat.sqrt d - 1) / 2` (`floor_sqrt_sub_one_half`).  For a
negative radicand the square root is a NaN, and the conversion of a NaN to `int` is taken
as `INT_MIN = -2147483648`, the value the x86 conversion instructions store. -/
def triK (n_cols z_unique : ℕ) : ℤ :=
  let d := int32 (int32 (int32 (4 * (n_cols : ℤ)) * int32 ((n_cols : ℤ) + 1)) -
    int32 (7 + int32 (8 * (z_unique : ℤ))))
  if d < 0 then -2147483648
  else (n_cols : ℤ) - ((d.toNat.sqrt : ℤ) - 1) / 2 - 1

/-- The row index `j` of the lower triangle as the source computes it,
`int j = z_unique - n_cols_x * k + k * (k + 1) / 2`, an `int` expression: each operation
wraps to 32 bits and the division truncates toward zero. -/
def triJ (n_cols z_unique : ℕ) : ℤ :=
  int32 (int32 ((z_unique : ℤ) - int32 ((n_cols : ℤ) * triK n_cols z_unique)) +
    (int32 (triK n_cols z_unique * int32 (triK n_cols z_unique + 1))).tdiv 2)

/-- The closed-form inverse of the triangular index in the words of the specification, in
exact integers: the column index
`k = n_cols - floor((sqrt(4 * n_cols * (n_cols + 1) - (7 + 8 * z_unique)) - 1) / 2) - 1`
with the exact square root (`closedFormK_eq_floor`).  It is the value of `triK` as long as
the `int` expressions of the source do not overflow, that is for `n_cols ≤ 23169`
(`triK_eq_closedForm`). -/
def closedFormK (n_cols z_unique : ℕ) : ℤ :=
  (n_cols : ℤ) -
    (((4 * (n_cols : ℤ) * ((n_cols : ℤ) + 1) - (7 + 8 * (z_unique : ℤ))).toNat.sqrt : ℤ) - 1) / 2
    - 1

/-- The closed-form inverse of the triangular index in exact integers: the row index
`j = z_unique - n_cols * k + k * (k + 1) / 2`.  It is the value of `triJ` for
`n_cols ≤ 23169` (`triJ_eq_closedForm`). -/
def closedFormJ (n_cols z_unique : ℕ) : ℤ :=
  (z_unique : ℤ) - (n_cols : ℤ) * closedFormK n_cols z_unique +
    closedFormK n_cols z_unique * (closedFormK n_cols z_unique + 1) / 2

/-- The body `operator()(begin_index, end_index)` of a covariance worker that iterates by
flattened index over the lower triangle: the entry `(j, k, i)` is stored and then mirrored,
`arma_cov(k, j, i) = arma_cov(j, k, i)`.  The subscripts `k` and `j` are decoded in exact
integers; they are the source's `int` values `triK` and `triJ` for every `n_cols_x ≤ 23169`
(`triK_eq_closedForm`, `triJ_eq_closedForm`).  At `n_cols_x = 23170` the `int` decode
overflows and leaves the bounds of the tensor (`triK_overflow`); this total function does
not describe such a run. -/
def parallelCubeWorker (cell : ℕ → ℕ → ℕ → Cell α) (n_cols begin_index end_index : ℕ)
    (dst : Cube α) : Cube α :=
  forLoop begin_index end_index (fun z d =>
    let i := z / n_unique n_cols
    let z_unique := z % n_unique n_cols
    let k := (closedFormK n_cols z_unique).toNat
    let j := (closedFormJ n_cols z_unique).toNat
    let c := d.set j k i (cell i j k)
    c.set k j i (c j k i)) dst

/-! ## Rolling sums -/

namespace RollSumOnline

/-- The variables of `RollSumOnline` that live across rows. -/
structure State (α : Type) where
  n_obs : ℤ
  sum_x : LD α

/-- The declarations `int n_obs = 0; long double sum_x = 0;`. -/
def init : State α := ⟨0, 0⟩

/-- One pass of the row loop of `RollSumOnline`, before the store. -/
def step (p : Args α) (j i : ℕ) (s : State α) : State α :=
  let lambda := lambda p
  let w_new : LD α := if isNA p i j then 0 else LD.fin (p.arma_weights (p.n - 1))
  let x_new : LD α := if isNA p i j then 0 else (p.x i j).toLD
  if i < p.width then
    -- expanding window
    { n_obs := if notNA p i j then s.n_obs + 1 else s.n_obs
      sum_x := lambda * s.sum_x + w_new * x_new }
  else
    -- rolling window
    let n_obs :=
      if notNA p i j ∧ isNA p (i - p.width) j then s.n_obs + 1
      else if isNA p i j ∧ notNA p (i - p.width) j then s.n_obs - 1
      else s.n_obs
    let w_old : LD α := if isNA p (i - p.width) j then 0 else LD.fin (p.arma_weights 0)
    let x_old : LD α := if isNA p (i - p.width) j then 0 else (p.x (i - p.width) j).toLD
    { n_obs := n_obs
      sum_x := lambda * s.sum_x + w_new * x_new - lambda * w_old * x_old }

/-- The store into `arma_sum(i, j)` that ends a pass. -/
def emit (p : Args α) (j i : ℕ) (s : State α) : Cell α :=
  if compute p i j then
    if s.n_obs ≥ p.min_obs then s.sum_x.toCell else Cell.NA
  else p.x i j

/-- The value `RollSumOnline` stores into `arma_sum(i, j)`. -/
def cell (p : Args α) (i j : ℕ) : Cell α :=
  emit p j i (onlineState (step p j) init (i + 1))

/-- The worker body `RollSumOnline::operator()`. -/
def operator (p : Args α) (begin_col end_col : ℕ) (arma_sum : Mat α) : Mat α :=
  onlineWorker (step p) (emit p) init p.n_rows_x begin_col end_col arma_sum

end RollSumOnline

namespace RollSumParallel

/-- The variables of the window loop of `RollSumParallel`. -/
structure State (α : Type) where
  n_obs : ℤ
  sum_x : LD α

/-- The body of the window loop. -/
def body (p : Args α) (i j count : ℕ) (s : State α) : State α :=
  if notNA p (i - count) j then
    { sum_x := s.sum_x + LD.fin (p.arma_weights (p.n - count - 1)) * (p.x (i - count) j).toLD
      n_obs := s.n_obs + 1 }
  else s

/-- The value `RollSumParallel` stores into `arma_sum(i, j)`. -/
def cell (p : Args α) (i j : ℕ) : Cell α :=
  if compute p i j then
    let s := whileWindow p.width i (body p i j) ⟨0, 0⟩
    if s.n_obs ≥ p.min_obs then s.sum_x.toCell else Cell.NA
  else p.x i j

/-- The worker body `RollSumParallel::operator()`. -/
def operator (p : Args α) (begin_index end_index : ℕ) (arma_sum : Mat α) : Mat α :=
  parallelWorker (cell p) p.n_cols_x begin_index end_index arma_sum

end RollSumParallel

/-! ## Rolling means -/

namespace RollMeanOnline

/-- The variables of `RollMeanOnline` that live across rows. -/
structure State (α : Type) where
  n_obs : ℤ
  sum_w : LD α
  sum_x : LD α

/-- The declarations `int n_obs = 0; long double sum_w = 0; long double sum_x = 0;`. -/
def init : State α := ⟨0, 0, 0⟩

/-- One pass of the row loop of `RollMeanOnline`, before the store. -/
def step (p : Args α) (j i : ℕ) (s : State α) : State α :=
  let lambda := lambda p
  let w_new : LD α := if isNA p i j then 0 else LD.fin (p.arma_weights (p.n - 1))
  let x_new : LD α := if isNA p i j then 0 else (p.x i j).toLD
  if i < p.width then
    -- expanding window
    { n_obs := if notNA p i j then s.n_obs + 1 else s.n_obs
      sum_w := lambda * s.sum_w + w_new
      sum_x := lambda * s.sum_x + w_new * x_new }
  else
    -- rolling window
    let n_obs :=
      if notNA p i j ∧ isNA p (i - p.width) j then s.n_obs + 1
      else if isNA p i j ∧ notNA p (i - p.width) j then s.n_obs - 1
      else s.n_obs
    let w_old : LD α := if isNA p (i - p.width) j then 0 else LD.fin (p.arma_weights 0)
    let x_old : LD α := if isNA p (i - p.width) j then 0 else (p.x (i - p.width) j).toLD
    { n_obs := n_obs
      sum_w := lambda * s.sum_w + w_new - lambda * w_old
      sum_x := lambda * s.sum_x + w_new * x_new - lambda * w_old * x_old }

/-- The store into `arma_mean(i, j)` that ends a pass. -/
def emit (p : Args α) (j i : ℕ) (s : State α) : Cell α :=
  if compute p i j then
    if s.n_obs ≥ p.min_obs then (s.sum_x / s.sum_w).toCell else Cell.NA
  else p.x i j

/-- The value `RollMeanOnline` stores into `arma_mean(i, j)`. -/
def cell (p : Args α) (i j : ℕ) : Cell α :=
  emit p j i (onlineState (step p j) init (i + 1))

/-- The worker body `RollMeanOnline::operator()`. -/
def operator (p : Args α) (begin_col end_col : ℕ) (arma_mean : Mat α) : Mat α :=
  onlineWorker (step p) (emit p) init p.n_rows_x begin_col end_col arma_mean

end RollMeanOnline

namespace RollMeanParallel

/-- The variables of the window loop of `RollMeanParallel`. -/
structure State (α : Type) where
  n_obs : ℤ
  sum_w : LD α
  sum_x : LD α

/-- The body of the window loop. -/
def body (p : Args α) (i j count : ℕ) (s : State α) : State α :=
  if notNA p (i - count) j then
    { sum_w := s.sum_w + LD.fin (p.arma_weights (p.n - count - 1))
      sum_x := s.sum_x + LD.fin (p.arma_weights (p.n - count - 1)) * (p.x (i - count) j).toLD
      n_obs := s.n_obs + 1 }
  else s

/-- The value `RollMeanParallel` stores into `arma_mean(i, j)`. -/
def cell (p : Args α) (i j : ℕ) : Cell α :=
  if compute p i j then
    let s := whileWindow p.width i (body p i j) ⟨0, 0, 0⟩
    if s.n_obs ≥ p.min_obs then (s.sum_x / s.sum_w).toCell else Cell.NA
  else p.x i j

/-- The worker body `RollMeanParallel::operator()`. -/
def operator (p : Args α) (begin_index end_index : ℕ) (arma_mean : Mat α) : Mat α :=
  parallelWorker (cell p) p.n_cols_x begin_index end_index arma_mean

end RollMeanParallel

/-! ## Rolling products -/

namespace RollProdOnline

/-- The variables of `RollProdOnline` that live across rows.  `n_old` is a `long double`
that only ever holds the value of an `int`; it is an integer here. -/
structure State (α : Type) where
  n_obs : ℤ
  n_old : ℤ
  n_exp : LD α
  prod_w : LD α
  prod_x : LD α

/-- The declarations `n_obs = 0`, `n_old = 0`, `n_exp = 0`, `prod_w = 1`, `prod_x = 1`. -/
def init : State α := ⟨0, 0, 0, 1, 1⟩

/-- The update of `n_exp` from `n_new` and `n_old`. -/
def next_exp (lambda : LD α) (n_new n_old : ℤ) (n_exp : LD α) : LD α :=
  if n_new = 0 then 1
  else if n_new > n_old then n_exp * lambda
  else if n_new < n_old then n_exp / lambda
  else n_exp

/-- One pass of the row loop of `RollProdOnline`, before the store. -/
def step (p : Args α) (j i : ℕ) (s : State α) : State α :=
  let lambda := lambda p
  if i < p.width then
    -- expanding window
    let n_obs := if notNA p i j then s.n_obs + 1 else s.n_obs
    let n_new : ℤ := if isNA p i j then n_obs else n_obs - 1
    let w_new : LD α := if isNA p i j then 1 else LD.fin (p.arma_weights (p.n - 1))
    let x_new : LD α := if isNA p i j then 1 else (p.x i j).toLD
    let n_exp := next_exp lambda n_new s.n_old s.n_exp
    { n_obs := n_obs
      n_old := n_new
      n_exp := n_exp
      prod_w := s.prod_w * (w_new * n_exp)
      prod_x := s.prod_x * x_new }
  else
    -- rolling window
    let n_obs :=
      if notNA p i j ∧ isNA p (i - p.width) j then s.n_obs + 1
      else if isNA p i j ∧ notNA p (i - p.width) j then s.n_obs - 1
      else s.n_obs
    let n_new : ℤ := if isNA p i j then n_obs else n_obs - 1
    let w_new : LD α := if isNA p i j then 1 else LD.fin (p.arma_weights (p.n - 1))
    let x_new : LD α := if isNA p i j then 1 else (p.x i j).toLD
    let w_old : LD α := if isNA p (i - p.width) j then 1 else LD.fin (p.arma_weights 0)
    let x_old : LD α := if isNA p (i - p.width) j then 1 else (p.x (i - p.width) j).toLD
    let n_exp := next_exp lambda n_new s.n_old s.n_exp
    { n_obs := n_obs
      n_old := n_new
      n_exp := n_exp
      prod_w := s.prod_w * (w_new * n_exp / w_old)
      prod_x := s.prod_x * (x_new / x_old) }

/-- The store into `arma_prod(i, j)` that ends a pass. -/
def emit (p : Args α) (j i : ℕ) (s : State α) : Cell α :=
  if compute p i j then
    if s.n_obs ≥ p.min_obs then (s.prod_w * s.prod_x).toCell else Cell.NA
  else p.x i j

/-- The value `RollProdOnline` stores into `arma_prod(i, j)`. -/
def cell (p : Args α) (i j : ℕ) : Cell α :=
  emit p j i (onlineState (step p j) init (i + 1))

/-- The worker body `RollProdOnline::operator()`. -/
def operator (p : Args α) (begin_col end_col : ℕ) (arma_prod : Mat α) : Mat α :=
  onlineWorker (step p) (emit p) init p.n_rows_x begin_col end_col arma_prod

end RollProdOnline

namespace RollProdParallel

/-- The variables of the window loop of `RollProdParallel`. -/
structure State (α : Type) where
  n_obs : ℤ
  prod_x : LD α

/-- The body of the window loop. -/
def body (p : Args α) (i j count : ℕ) (s : State α) : State α :=
  if notNA p (i - count) j then
    { prod_x := s.prod_x *
        (LD.fin (p.arma_weights (p.n - count - 1)) * (p.x (i - count) j).toLD)
      n_obs := s.n_obs + 1 }
  else s

/-- The value `RollProdParallel` stores into `arma_prod(i, j)`. -/
def cell (p : Args α) (i j : ℕ) : Cell α :=
  if compute p i j then
    let s := whileWindow p.width i (body p i j) ⟨0, 1⟩
    if s.n_obs ≥ p.min_obs then s.prod_x.toCell else Cell.NA
  else p.x i j

/-- The worker body `RollProdParallel::operator()`. -/
def operator (p : Args α) (begin_index end_index : ℕ) (arma_prod : Mat α) : Mat α :=
  parallelWorker (cell p) p.n_cols_x begin_index end_index arma_prod

end RollProdParallel

/-! ## Rolling variances -/

namespace RollVarOnline

/-- The variables of `RollVarOnline` that live across rows. -/
structure State (α : Type) where
  n_obs : ℤ
  sum_w : LD α
  sum_x : LD α
  sumsq_w : LD α
  sumsq_x : LD α
  mean_prev_x : LD α
  mean_x : LD α

/-- All accumulators are declared `= 0`. -/
def init : State α := ⟨0, 0, 0, 0, 0, 0, 0⟩

/-- One pass of the row loop of `RollVarOnline`, before the store. -/
def step (p : Args α) (j i : ℕ) (s : State α) : State α :=
  let lambda := lambda p
  let w_new : LD α := if isNA p i j then 0 else LD.fin (p.arma_weights (p.n - 1))
  let x_new : LD α := if isNA p i j then 0 else (p.x i j).toLD
  if i < p.width then
    -- expanding window
    let n_obs := if notNA p i j then s.n_obs + 1 else s.n_obs
    let sum_w := lambda * s.sum_w + w_new
    let sum_x := lambda * s.sum_x + w_new * x_new
    let sumsq_w := LD.pow2 lambda * s.sumsq_w + LD.pow2 w_new
    -- compute the mean
    let mean_prev_x := if p.center = true ∧ n_obs > 0 then s.mean_x else s.mean_prev_x
    let mean_x := if p.center = true ∧ n_obs > 0 then sum_x / sum_w else s.mean_x
    -- compute the sum of squares
    let sumsq_x :=
      if notNA p i j ∧ n_obs > 1 then
        lambda * s.sumsq_x + w_new * (x_new - mean_x) * (x_new - mean_prev_x)
      else if isNA p i j then
        lambda * s.sumsq_x
      else if notNA p i j ∧ n_obs = 1 ∧ p.center = false then
        w_new * LD.pow2 x_new
      else s.sumsq_x
    { n_obs := n_obs, sum_w := sum_w, sum_x := sum_x, sumsq_w := sumsq_w, sumsq_x := sumsq_x
      mean_prev_x := mean_prev_x, mean_x := mean_x }
  else
    -- rolling window
    let n_obs :=
      if notNA p i j ∧ isNA p (i - p.width) j then s.n_obs + 1
      else if isNA p i j ∧ notNA p (i - p.width) j then s.n_obs - 1
      else s.n_obs
    let w_old : LD α := if isNA p (i - p.width) j then 0 else LD.fin (p.arma_weights 0)
    let x_old : LD α := if isNA p (i - p.width) j then 0 else (p.x (i - p.width) j).toLD
    let sum_w := lambda * s.sum_w + w_new - lambda * w_old
    let sum_x := lambda * s.sum_x + w_new * x_new - lambda * w_old * x_old
    let sumsq_w := LD.pow2 lambda * s.sumsq_w + LD.pow2 w_new - LD.pow2 (lambda * w_old)
    -- compute the mean
    let mean_prev_x := if p.center = true ∧ n_obs > 0 then s.mean_x else s.mean_prev_x
    let mean_x := if p.center = true ∧ n_obs > 0 then sum_x / sum_w else s.mean_x
    -- compute the sum of squares
    let sumsq_x :=
      if notNA p i j ∧ notNA p (i - p.width) j then
        lambda * s.sumsq_x + w_new * (x_new - mean_x) * (x_new - mean_prev_x) -
          lambda * w_old * (x_old - mean_x) * (x_old - mean_prev_x)
      else if notNA p i j ∧ isNA p (i - p.width) j then
        lambda * s.sumsq_x + w_new * (x_new - mean_x) * (x_new - mean_prev_x)
      else if isNA p i j ∧ notNA p (i - p.width) j then
        lambda * s.sumsq_x - lambda * w_old * (x_old - mean_x) * (x_old - mean_prev_x)
      else if isNA p i j ∨ isNA p (i - p.width) j then
        lambda * s.sumsq_x
      else s.sumsq_x
    { n_obs := n_obs, sum_w := sum_w, sum_x := sum_x, sumsq_w := sumsq_w, sumsq_x := sumsq_x
      mean_prev_x := mean_prev_x, mean_x := mean_x }

/-- The store into `arma_var(i, j)` that ends a pass. -/
def emit (p : Args α) (j i : ℕ) (s : State α) : Cell α :=
  if compute p i j then
    if s.n_obs > 1 ∧ s.n_obs ≥ p.min_obs then
      (s.sumsq_x / (s.sum_w - s.sumsq_w / s.sum_w)).toCell
    else Cell.NA
  else p.x i j

/-- The value `RollVarOnline` stores into `arma_var(i, j)`. -/
def cell (p : Args α) (i j : ℕ) : Cell α :=
  emit p j i (onlineState (step p j) init (i + 1))

/-- The worker body `RollVarOnline::operator()`. -/
def operator (p : Args α) (begin_col end_col : ℕ) (arma_var : Mat α) : Mat α :=
  onlineWorker (step p) (emit p) init p.n_rows_x begin_col end_col arma_var

end RollVarOnline

namespace RollVarParallel

/-- The variables of the first window loop (the one under `if (center)`). -/
structure MeanState (α : Type) where
  sum_w : LD α
  sum_x : LD α

/-- The body of the first window loop. -/
def meanBody (p : Args α) (i j count : ℕ) (s : MeanState α) : MeanState α :=
  if notNA p (i - count) j then
    { sum_w := s.sum_w + LD.fin (p.arma_weights (p.n - count - 1))
      sum_x := s.sum_x + LD.fin (p.arma_weights (p.n - count - 1)) * (p.x (i - count) j).toLD }
  else s

/-- The local `mean_x`: `0`, or `sum_x / sum_w` of the first loop when `center`. -/
def mean_x (p : Args α) (i j : ℕ) : LD α :=
  if p.center = true then
    let s := whileWindow p.width i (meanBody p i j) ⟨0, 0⟩
    s.sum_x / s.sum_w
  else 0

/-- The variables of the second window loop. -/
structure State (α : Type) where
  n_obs : ℤ
  sum_w : LD α
  sumsq_w : LD α
  sumsq_x : LD α

/-- The body of the second window loop. -/
def body (p : Args α) (mean_x : LD α) (i j count : ℕ) (s : State α) : State α :=
  if notNA p (i - count) j then
    { sum_w := s.sum_w + LD.fin (p.arma_weights (p.n - count - 1))
      sumsq_w := s.sumsq_w + LD.pow2 (LD.fin (p.arma_weights (p.n - count - 1)))
      sumsq_x :=
        if p.center = true then
          s.sumsq_x + LD.fin (p.arma_weights (p.n - count - 1)) *
            LD.pow2 ((p.x (i - count) j).toLD - mean_x)
        else
          s.sumsq_x + LD.fin (p.arma_weights (p.n - count - 1)) *
            LD.pow2 (p.x (i - count) j).toLD
      n_obs := s.n_obs + 1 }
  else s

/-- The value `RollVarParallel` stores into `arma_var(i, j)`. -/
def cell (p : Args α) (i j : ℕ) : Cell α :=
  if compute p i j then
    let s := whileWindow p.width i (body p (mean_x p i j) i j) ⟨0, 0, 0, 0⟩
    if s.n_obs > 1 ∧ s.n_obs ≥ p.min_obs then
      (s.sumsq_x / (s.sum_w - s.sumsq_w / s.sum_w)).toCell
    else Cell.NA
  else p.x i j

/-- The worker body `RollVarParallel::operator()`. -/
def operator (p : Args α) (begin_index end_index : ℕ) (arma_var : Mat α) : Mat α :=
  parallelWorker (cell p) p.n_cols_x begin_index end_index arma_var

end RollVarParallel

/-! ## Rolling standard deviations -/

namespace RollSdOnline

/-- The store into `arma_sd(i, j)` that ends a pass.  The row loop of `RollSdOnline` up to
this store is, line for line, the one of `RollVarOnline`. -/
def emit (m : Prim α) (p : Args α) (j i : ℕ) (s : RollVarOnline.State α) : Cell α :=
  if compute p i j then
    if s.n_obs > 1 ∧ s.n_obs ≥ p.min_obs then
      (LD.sqrt m.sqrt (s.sumsq_x / (s.sum_w - s.sumsq_w / s.sum_w))).toCell
    else Cell.NA
  else p.x i j

/-- The value `RollSdOnline` stores into `arma_sd(i, j)`. -/
def cell (m : Prim α) (p : Args α) (i j : ℕ) : Cell α :=
  emit m p j i (onlineState (RollVarOnline.step p j) RollVarOnline.init (i + 1))

/-- The worker body `RollSdOnline::operator()`. -/
def operator (m : Prim α) (p : Args α) (begin_col end_col : ℕ) (arma_sd : Mat α) : Mat α :=
  onlineWorker (RollVarOnline.step p) (emit m p) RollVarOnline.init p.n_rows_x
    begin_col end_col arma_sd

end RollSdOnline

namespace RollSdParallel

/-- The value `RollSdParallel` stores into `arma_sd(i, j)`.  Its two window loops are, line
for line, the ones of `RollVarParallel`. -/
def cell (m : Prim α) (p : Args α) (i j : ℕ) : Cell α :=
  if compute p i j then
    let s := whileWindow p.width i
      (RollVarParallel.body p (RollVarParallel.mean_x p i j) i j) ⟨0, 0, 0, 0⟩
    if s.n_obs > 1 ∧ s.n_obs ≥ p.min_obs then
      (LD.sqrt m.sqrt (s.sumsq_x / (s.sum_w - s.sumsq_w / s.sum_w))).toCell
    else Cell.NA
  else p.x i j

/-- The worker body `RollSdParallel::operator()`. -/
def operator (m : Prim α) (p : Args α) (begin_index end_index : ℕ) (arma_sd : Mat α) :
    Mat α :=
  parallelWorker (cell m p) p.n_cols_x begin_index end_index arma_sd

end RollSdParallel

/-! ## Rolling centering and scaling -/

/-- The final selection of the scale workers, under `n_obs >= min_obs`:
`NA` if `scale` and (`n_obs <= 1` or `sqrt(var_x) <= sqrt(eps)`), else the value picked by
the `center`/`scale` combination. -/
def scaleValue (m : Prim α) (p : Args α) (n_obs : ℤ) (x_ij mean_x var_x : LD α) : Cell α :=
  if p.scale = true ∧
      (n_obs ≤ 1 ∨ LD.le (LD.sqrt m.sqrt var_x) (LD.sqrt m.sqrt (LD.fin m.eps)) = true) then
    Cell.NA
  else if p.center = true ∧ p.scale = true then
    ((x_ij - mean_x) / LD.sqrt m.sqrt var_x).toCell
  else if p.center = false ∧ p.scale = true then
    (x_ij / LD.sqrt m.sqrt var_x).toCell
  else if p.center = true ∧ p.scale = false then
    (x_ij - mean_x).toCell
  else
    x_ij.toCell

namespace RollScaleOnline

/-- The variables of `RollScaleOnline` that live across rows. -/
structure State (α : Type) where
  n_obs : ℤ
  sum_w : LD α
  sum_x : LD α
  sumsq_w : LD α
  sumsq_x : LD α
  mean_prev_x : LD α
  mean_x : LD α
  var_x : LD α
  x_ij : LD α

/-- All accumulators are declared `= 0`. -/
def init : State α := ⟨0, 0, 0, 0, 0, 0, 0, 0, 0⟩

/-- One pass of the row loop of `RollScaleOnline`, before the store. -/
def step (p : Args α) (j i : ℕ) (s : State α) : State α :=
  let lambda := lambda p
  let w_new : LD α := if isNA p i j then 0 else LD.fin (p.arma_weights (p.n - 1))
  let x_new : LD α := if isNA p i j then 0 else (p.x i j).toLD
  let x_ij : LD α := if isNA p i j then s.x_ij else (p.x i j).toLD
  if i < p.width then
    -- expanding window
    let n_obs := if notNA p i j then s.n_obs + 1 else s.n_obs
    let sum_w := lambda * s.sum_w + w_new
    let sum_x := lambda * s.sum_x + w_new * x_new
    let sumsq_w := LD.pow2 lambda * s.sumsq_w + LD.pow2 w_new
    -- compute the mean
    let mean_prev_x := if p.center = true ∧ n_obs > 0 then s.mean_x else s.mean_prev_x
    let mean_x := if p.center = true ∧ n_obs > 0 then sum_x / sum_w else s.mean_x
    -- compute the sum of squares
    let sumsq_x :=
      if p.scale = true then
        if notNA p i j ∧ n_obs > 1 then
          lambda * s.sumsq_x + w_new * (x_new - mean_x) * (x_new - mean_prev_x)
        else if isNA p i j then
          lambda * s.sumsq_x
        else if notNA p i j ∧ n_obs = 1 ∧ p.center = false then
          w_new * LD.pow2 x_new
        else s.sumsq_x
      else s.sumsq_x
    let var_x := if p.scale = true then sumsq_x / (sum_w - sumsq_w / sum_w) else s.var_x
    { n_obs := n_obs, sum_w := sum_w, sum_x := sum_x, sumsq_w := sumsq_w, sumsq_x := sumsq_x
      mean_prev_x := mean_prev_x, mean_x := mean_x, var_x := var_x, x_ij := x_ij }
  else
    -- rolling window
    let n_obs :=
      if notNA p i j ∧ isNA p (i - p.width) j then s.n_obs + 1
      else if isNA p i j ∧ notNA p (i - p.width) j then s.n_obs - 1
      else s.n_obs
    let w_old : LD α := if isNA p (i - p.width) j then 0 else LD.fin (p.arma_weights 0)
    let x_old : LD α := if isNA p (i - p.width) j then 0 else (p.x (i - p.width) j).toLD
    let sum_w := lambda * s.sum_w + w_new - lambda * w_old
    let sum_x := lambda * s.sum_x + w_new * x_new - lambda * w_old * x_old
    let sumsq_w := LD.pow2 lambda * s.sumsq_w + LD.pow2 w_new - LD.pow2 (lambda * w_old)
    -- compute the mean
    let mean_prev_x := if p.center = true ∧ n_obs > 0 then s.mean_x else s.mean_prev_x
    let mean_x := if p.center = true ∧ n_obs > 0 then sum_x / sum_w else s.mean_x
    -- compute the sum of squares
    let sumsq_x :=
      if p.scale = true then
        if notNA p i j ∧ notNA p (i - p.width) j then
          lambda * s.sumsq_x + w_new * (x_new - mean_x) * (x_new - mean_prev_x) -
            lambda * w_old * (x_old - mean_x) * (x_old - mean_prev_x)
        else if notNA p i j ∧ isNA p (i - p.width) j then
          lambda * s.sumsq_x + w_new * (x_new - mean_x) * (x_new - mean_prev_x)
        else if isNA p i j ∧ notNA p (i - p.width) j then
          lambda * s.sumsq_x - lambda * w_old * (x_old - mean_x) * (x_old - mean_prev_x)
        else if isNA p i j ∨ isNA p (i - p.width) j then
          lambda * s.sumsq_x
        else s.sumsq_x
      else s.sumsq_x
    let var_x := if p.scale = true then sumsq_x / (sum_w - sumsq_w / sum_w) else s.var_x
    { n_obs := n_obs, sum_w := sum_w, sum_x := sum_x, sumsq_w := sumsq_w, sumsq_x := sumsq_x
      mean_prev_x := mean_prev_x, mean_x := mean_x, var_x := var_x, x_ij := x_ij }

/-- The store into `arma_scale(i, j)` that ends a pass. -/
def emit (m : Prim α) (p : Args α) (j i : ℕ) (s : State α) : Cell α :=
  if compute p i j then
    if s.n_obs ≥ p.min_obs then scaleValue m p s.n_obs s.x_ij s.mean_x s.var_x
    else Cell.NA
  else p.x i j

/-- The value `RollScaleOnline` stores into `arma_scale(i, j)`. -/
def cell (m : Prim α) (p : Args α) (i j : ℕ) : Cell α :=
  emit m p j i (onlineState (step p j) init (i + 1))

/-- The worker body `RollScaleOnline::operator()`. -/
def operator (m : Prim α) (p : Args α) (begin_col end_col : ℕ) (arma_scale : Mat α) :
    Mat α :=
  onlineWorker (step p) (emit m p) init p.n_rows_x begin_col end_col arma_scale

end RollScaleOnline

namespace RollScaleParallel

/-- The local `var_x`: `0`, or `sumsq_x / (sum_w - sumsq_w / sum_w)` of the second window
loop when `scale`.  The first two window loops are the ones of `RollVarParallel`. -/
def var_x (p : Args α) (i j : ℕ) : LD α :=
  if p.scale = true then
    let s := whileWindow p.width i
      (RollVarParallel.body p (RollVarParallel.mean_x p i j) i j) ⟨0, 0, 0, 0⟩
    s.sumsq_x / (s.sum_w - s.sumsq_w / s.sum_w)
  else 0

/-- The variables of the third window loop. -/
structure State (α : Type) where
  n_obs : ℤ
  any_na : Bool
  x_ij : LD α

/-- The body of the third window loop: keep the first non-missing value. -/
def body (p : Args α) (i j count : ℕ) (s : State α) : State α :=
  if notNA p (i - count) j then
    { x_ij := if s.any_na = false then (p.x (i - count) j).toLD else s.x_ij
      any_na := true
      n_obs := s.n_obs + 1 }
  else s

/-- The value `RollScaleParallel` stores into `arma_scale(i, j)`. -/
def cell (m : Prim α) (p : Args α) (i j : ℕ) : Cell α :=
  if compute p i j then
    let s := whileWindow p.width i (body p i j) ⟨0, false, 0⟩
    if s.n_obs ≥ p.min_obs then
      scaleValue m p s.n_obs s.x_ij (RollVarParallel.mean_x p i j) (var_x p i j)
    else Cell.NA
  else p.x i j

/-- The worker body `RollScaleParallel::operator()`. -/
def operator (m : Prim α) (p : Args α) (begin_index end_index : ℕ) (arma_scale : Mat α) :
    Mat α :=
  parallelWorker (cell m p) p.n_cols_x begin_index end_index arma_scale

end RollScaleParallel

/-! ## Rolling covariances of one matrix with itself -/

namespace RollCovOnlineXX

/-- The variables of `RollCovOnlineXX` that live across rows. -/
structure State (α : Type) where
  n_obs : ℤ
  sum_w : LD α
  sum_x : LD α
  sum_y : LD α
  sumsq_w : LD α
  sumsq_x : LD α
  sumsq_y : LD α
  sumsq_xy : LD α
  mean_prev_x : LD α
  mean_prev_y : LD α
  mean_x : LD α
  mean_y : LD α

/-- All accumulators are declared `= 0`. -/
def init : State α := ⟨0, 0, 0, 0, 0, 0, 0, 0, 0, 0, 0, 0⟩

/-- One pass of the row loop of `RollCovOnlineXX` for the pair `(j, k)`, before the store. -/
def step (p : Args α) (j k i : ℕ) (s : State α) : State α :=
  let lambda := lambda p
  let w_new : LD α := if isNA2 p i j k then 0 else LD.fin (p.arma_weights (p.n - 1))
  let x_new : LD α := if isNA2 p i j k then 0 else (p.x i j).toLD
  let y_new : LD α := if isNA2 p i j k then 0 else (p.x i k).toLD
  if i < p.width then
    -- expanding window
    let n_obs := if notNA2 p i j k then s.n_obs + 1 else s.n_obs
    let sum_w := lambda * s.sum_w + w_new
    let sum_x := lambda * s.sum_x + w_new * x_new
    let sum_y := lambda * s.sum_y + w_new * y_new
    let sumsq_w := LD.pow2 lambda * s.sumsq_w + LD.pow2 w_new
    -- compute the mean
    let mean_prev_x := if p.center = true ∧ n_obs > 0 then s.mean_x else s.mean_prev_x
    let mean_prev_y := if p.center = true ∧ n_obs > 0 then s.mean_y else s.mean_prev_y
    let mean_x := if p.center = true ∧ n_obs > 0 then sum_x / sum_w else s.mean_x
    let mean_y := if p.center = true ∧ n_obs > 0 then sum_y / sum_w else s.mean_y
    -- compute the sum of squares (only `if (scale)`)
    let sumsq_x :=
      if p.scale = true then
        if notNA2 p i j k ∧ n_obs > 1 then
          lambda * s.sumsq_x + w_new * (x_new - mean_x) * (x_new - mean_prev_x)
        else if isNA2 p i j k then
          lambda * s.sumsq_x
        else if notNA2 p i j k ∧ n_obs = 1 ∧ p.center = false then
          w_new * LD.pow2 x_new
        else s.sumsq_x
      else s.sumsq_x
    let sumsq_y :=
      if p.scale = true then
        if notNA2 p i j k ∧ n_obs > 1 then
          lambda * s.sumsq_y + w_new * (y_new - mean_y) * (y_new - mean_prev_y)
        else if isNA2 p i j k then
          lambda * s.sumsq_y
        else if notNA2 p i j k ∧ n_obs = 1 ∧ p.center = false then
          w_new * LD.pow2 y_new
        else s.sumsq_y
      else s.sumsq_y
    -- compute the sum of cross products
    let sumsq_xy :=
      if notNA2 p i j k ∧ n_obs > 1 then
        lambda * s.sumsq_xy + w_new * (x_new - mean_x) * (y_new - mean_prev_y)
      else if isNA2 p i j k then
        lambda * s.sumsq_xy
      else if notNA2 p i j k ∧ n_obs = 1 ∧ p.center = false then
        w_new * x_new * y_new
      else s.sumsq_xy
    { n_obs := n_obs, sum_w := sum_w, sum_x := sum_x, sum_y := sum_y, sumsq_w := sumsq_w
      sumsq_x := sumsq_x, sumsq_y := sumsq_y, sumsq_xy := sumsq_xy
      mean_prev_x := mean_prev_x, mean_prev_y := mean_prev_y
      mean_x := mean_x, mean_y := mean_y }
  else
    -- rolling window
    let n_obs :=
      if notNA2 p i j k ∧ isNA2 p (i - p.width) j k then s.n_obs + 1
      else if isNA2 p i j k ∧ notNA2 p (i - p.width) j k then s.n_obs - 1
      else s.n_obs
    let w_old : LD α := if isNA2 p (i - p.width) j k then 0 else LD.fin (p.arma_weights 0)
    let x_old : LD α :=
      if isNA2 p (i - p.width) j k then 0 else (p.x (i - p.width) j).toLD
    let y_old : LD α :=
      if isNA2 p (i - p.width) j k then 0 else (p.x (i - p.width) k).toLD
    let sum_w := lambda * s.sum_w + w_new - lambda * w_old
    let sum_x := lambda * s.sum_x + w_new * x_new - lambda * w_old * x_old
    let sum_y := lambda * s.sum_y + w_new * y_new - lambda * w_old * y_old
    let sumsq_w := LD.pow2 lambda * s.sumsq_w + LD.pow2 w_new - LD.pow2 (lambda * w_old)
    -- compute the mean
    let mean_prev_x := if p.center = true ∧ n_obs > 0 then s.mean_x else s.mean_prev_x
    let mean_prev_y := if p.center = true ∧ n_obs > 0 then s.mean_y else s.mean_prev_y
    let mean_x := if p.center = true ∧ n_obs > 0 then sum_x / sum_w else s.mean_x
    let mean_y := if p.center = true ∧ n_obs > 0 then sum_y / sum_w else s.mean_y
    -- compute the sum of squares (only `if (scale)`)
    let sumsq_x :=
      if p.scale = true then
        if notNA2 p i j k ∧ notNA2 p (i - p.width) j k then
          lambda * s.sumsq_x + w_new * (x_new - mean_x) * (x_new - mean_prev_x) -
            lambda * w_old * (x_old - mean_x) * (x_old - mean_prev_x)
        else if notNA2 p i j k ∧ isNA2 p (i - p.width) j k then
          lambda * s.sumsq_x + w_new * (x_new - mean_x) * (x_new - mean_prev_x)
        else if isNA2 p i j k ∧ notNA2 p (i - p.width) j k then
          lambda * s.sumsq_x - lambda * w_old * (x_old - mean_x) * (x_old - mean_prev_x)
        else if isNA2 p i j k ∨ isNA2 p (i - p.width) j k then
          lambda * s.sumsq_x
        else s.sumsq_x
      else s.sumsq_x
    let sumsq_y :=
      if p.scale = true then
        if notNA2 p i j k ∧ notNA2 p (i - p.width) j k then
          lambda * s.sumsq_y + w_new * (y_new - mean_y) * (y_new - mean_prev_y) -
            lambda * w_old * (y_old - mean_y) * (y_old - mean_prev_y)
        else if notNA2 p i j k ∧ isNA2 p (i - p.width) j k then
          lambda * s.sumsq_y + w_new * (y_new - mean_y) * (y_new - mean_prev_y)
        else if isNA2 p i j k ∧ notNA2 p (i - p.width) j k then
          lambda * s.sumsq_y - lambda * w_old * (y_old - mean_y) * (y_old - mean_prev_y)
        else if isNA2 p i j k ∨ isNA2 p (i - p.width) j k then
          lambda * s.sumsq_y
        else s.sumsq_y
      else s.sumsq_y
    -- compute the sum of cross products
    let sumsq_xy :=
      if notNA2 p i j k ∧ notNA2 p (i - p.width) j k then
        lambda * s.sumsq_xy + w_new * (x_new - mean_x) * (y_new - mean_prev_y) -
          lambda * w_old * (x_old - mean_x) * (y_old - mean_prev_y)
      else if notNA2 p i j k ∧ isNA2 p (i - p.width) j k then
        lambda * s.sumsq_xy + w_new * (x_new - mean_x) * (y_new - mean_prev_y)
      else if isNA2 p i j k ∧ notNA2 p (i - p.width) j k then
        lambda * s.sumsq_xy - lambda * w_old * (x_old - mean_x) * (y_old - mean_prev_y)
      else if isNA2 p i j k ∨ isNA2 p (i - p.width) j k then
        lambda * s.sumsq_xy
      else s.sumsq_xy
    { n_obs := n_obs, sum_w := sum_w, sum_x := sum_x, sum_y := sum_y, sumsq_w := sumsq_w
      sumsq_x := sumsq_x, sumsq_y := sumsq_y, sumsq_xy := sumsq_xy
      mean_prev_x := mean_prev_x, mean_prev_y := mean_prev_y
      mean_x := mean_x, mean_y := mean_y }

/-- The store into `arma_cov(j, k, i)` that ends a pass (before the mirror store). -/
def emit (m : Prim α) (p : Args α) (j k i : ℕ) (s : State α) : Cell α :=
  if compute2 p i j k then
    if s.n_obs > 1 ∧ s.n_obs ≥ p.min_obs then
      if p.scale = true then
        -- don't compute if the standard deviation is zero
        if LD.le (LD.sqrt m.sqrt s.sumsq_x) (LD.sqrt m.sqrt (LD.fin m.eps)) = true ∨
            LD.le (LD.sqrt m.sqrt s.sumsq_y) (LD.sqrt m.sqrt (LD.fin m.eps)) = true then
          Cell.NA
        else
          (s.sumsq_xy / (LD.sqrt m.sqrt s.sumsq_x * LD.sqrt m.sqrt s.sumsq_y)).toCell
      else
        (s.sumsq_xy / (s.sum_w - s.sumsq_w / s.sum_w)).toCell
    else Cell.NA
  else restored p i j k

/-- The value `RollCovOnlineXX` stores into `arma_cov(j, k, i)` in the pass of the pair
`(j, k)`. -/
def cell (m : Prim α) (p : Args α) (j k i : ℕ) : Cell α :=
  emit m p j k i (onlineState (step p j k) init (i + 1))

/-- The worker body `RollCovOnlineXX::operator()`. -/
def operator (m : Prim α) (p : Args α) (begin_col end_col : ℕ) (arma_cov : Cube α) :
    Cube α :=
  onlineCubeWorker (step p) (emit m p) init p.n_rows_x begin_col end_col arma_cov

end RollCovOnlineXX

namespace RollCovParallelXX

/-- The variables of the first window loop (the one under `if (center)`). -/
structure MeanState (α : Type) where
  sum_w : LD α
  sum_x : LD α
  sum_y : LD α

/-- The body of the first window loop. -/
def meanBody (p : Args α) (i j k count : ℕ) (s : MeanState α) : MeanState α :=
  if notNA2 p (i - count) j k then
    { sum_w := s.sum_w + LD.fin (p.arma_weights (p.n - count - 1))
      sum_x := s.sum_x + LD.fin (p.arma_weights (p.n - count - 1)) * (p.x (i - count) j).toLD
      sum_y := s.sum_y + LD.fin (p.arma_weights (p.n - count - 1)) * (p.x (i - count) k).toLD }
  else s

/-- The result of the first window loop. -/
def means (p : Args α) (i j k : ℕ) : MeanState α :=
  whileWindow p.width i (meanBody p i j k) ⟨0, 0, 0⟩

/-- The local `mean_x`: `0`, or `sum_x / sum_w` of the first loop when `center`. -/
def mean_x (p : Args α) (i j k : ℕ) : LD α :=
  if p.center = true then (means p i j k).sum_x / (means p i j k).sum_w else 0

/-- The local `mean_y`: `0`, or `sum_y / sum_w` of the first loop when `center`. -/
def mean_y (p : Args α) (i j k : ℕ) : LD α :=
  if p.center = true then (means p i j k).sum_y / (means p i j k).sum_w else 0

/-- The variables of the second window loop (the one under `if (scale)`). -/
structure SqState (α : Type) where
  sumsq_x : LD α
  sumsq_y : LD α

/-- The body of the second window loop. -/
def sqBody (p : Args α) (mean_x mean_y : LD α) (i j k count : ℕ) (s : SqState α) :
    SqState α :=
  if notNA2 p (i - count) j k then
    if p.center = true then
      { sumsq_x := s.sumsq_x + LD.fin (p.arma_weights (p.n - count - 1)) *
          LD.pow2 ((p.x (i - count) j).toLD - mean_x)
        sumsq_y := s.sumsq_y + LD.fin (p.arma_weights (p.n - count - 1)) *
          LD.pow2 ((p.x (i - count) k).toLD - mean_y) }
    else
      { sumsq_x := s.sumsq_x + LD.fin (p.arma_weights (p.n - count - 1)) *
          LD.pow2 (p.x (i - count) j).toLD
        sumsq_y := s.sumsq_y + LD.fin (p.arma_weights (p.n - count - 1)) *
          LD.pow2 (p.x (i - count) k).toLD }
  else s

/-- The locals `var_x`, `var_y`: `0`, or the sums of the second loop when `scale`. -/
def vars (p : Args α) (i j k : ℕ) : SqState α :=
  if p.scale = true then
    whileWindow p.width i (sqBody p (mean_x p i j k) (mean_y p i j k) i j k) ⟨0, 0⟩
  else ⟨0, 0⟩

/-- The variables of the third window loop. -/
structure State (α : Type) where
  n_obs : ℤ
  sum_w : LD α
  sumsq_w : LD α
  sumsq_xy : LD α

/-- The body of the third window loop. -/
def body (p : Args α) (mean_x mean_y : LD α) (i j k count : ℕ) (s : State α) : State α :=
  if notNA2 p (i - count) j k then
    { sum_w := s.sum_w + LD.fin (p.arma_weights (p.n - count - 1))
      sumsq_w := s.sumsq_w + LD.pow2 (LD.fin (p.arma_weights (p.n - count - 1)))
      sumsq_xy :=
        if p.center = true then
          s.sumsq_xy + LD.fin (p.arma_weights (p.n - count - 1)) *
            ((p.x (i - count) j).toLD - mean_x) * ((p.x (i - count) k).toLD - mean_y)
        else
          s.sumsq_xy + LD.fin (p.arma_weights (p.n - count - 1)) *
            (p.x (i - count) j).toLD * (p.x (i - count) k).toLD
      n_obs := s.n_obs + 1 }
  else s

/-- The value `RollCovParallelXX` stores into `arma_cov(j, k, i)` (before the mirror
store). -/
def cell (m : Prim α) (p : Args α) (i j k : ℕ) : Cell α :=
  if compute2 p i j k then
    let s := whileWindow p.width i (body p (mean_x p i j k) (mean_y p i j k) i j k)
      ⟨0, 0, 0, 0⟩
    if s.n_obs > 1 ∧ s.n_obs ≥ p.min_obs then
      if p.scale = true then
        -- don't compute if the standard deviation is zero
        if LD.le (LD.sqrt m.sqrt (vars p i j k).sumsq_x) (LD.sqrt m.sqrt (LD.fin m.eps)) = true ∨
            LD.le (LD.sqrt m.sqrt (vars p i j k).sumsq_y) (LD.sqrt m.sqrt (LD.fin m.eps)) = true
        then
          Cell.NA
        else
          (s.sumsq_xy / (LD.sqrt m.sqrt (vars p i j k).sumsq_x *
            LD.sqrt m.sqrt (vars p i j k).sumsq_y)).toCell
      else
        (s.sumsq_xy / (s.sum_w - s.sumsq_w / s.sum_w)).toCell
    else Cell.NA
  else restored p i j k

/-- The worker body `RollCovParallelXX::operator()`. -/
def operator (m : Prim α) (p : Args α) (begin_index end_index : ℕ) (arma_cov : Cube α) :
    Cube α :=
  parallelCubeWorker (cell m p) p.n_cols_x begin_index end_index arma_cov

end RollCovParallelXX

/-! ## Rolling covariances for the regression solver -/

namespace RollCovOnlineLm

/-- The variables of `RollCovOnlineLm` that live across rows. -/
structure State (α : Type) where
  n_obs : ℤ
  sum_w : LD α
  sum_x : LD α
  sum_y : LD α
  sumsq_w : LD α
  sumsq_xy : LD α
  mean_prev_y : LD α
  mean_x : LD α
  mean_y : LD α

/-- All accumulators are declared `= 0`. -/
def init : State α := ⟨0, 0, 0, 0, 0, 0, 0, 0, 0⟩

/-- One pass of the row loop of `RollCovOnlineLm` for the pair `(j, k)`, before the
stores. -/
def step (p : Args α) (j k i : ℕ) (s : State α) : State α :=
  let lambda := lambda p
  let w_new : LD α := if isNA2 p i j k then 0 else LD.fin (p.arma_weights (p.n - 1))
  let x_new : LD α := if isNA2 p i j k then 0 else (p.x i j).toLD
  let y_new : LD α := if isNA2 p i j k then 0 else (p.x i k).toLD
  if i < p.width then
    -- expanding window
    let n_obs := if notNA2 p i j k then s.n_obs + 1 else s.n_obs
    let sum_w := lambda * s.sum_w + w_new
    let sum_x := lambda * s.sum_x + w_new * x_new
    let sum_y := lambda * s.sum_y + w_new * y_new
    let sumsq_w := LD.pow2 lambda * s.sumsq_w + LD.pow2 w_new
    -- compute the mean
    let mean_prev_y := if p.intercept = true ∧ n_obs > 0 then s.mean_y else s.mean_prev_y
    let mean_x := if p.intercept = true ∧ n_obs > 0 then sum_x / sum_w else s.mean_x
    let mean_y := if p.intercept = true ∧ n_obs > 0 then sum_y / sum_w else s.mean_y
    -- compute the sum of cross products
    let sumsq_xy :=
      if notNA2 p i j k ∧ n_obs > 1 then
        lambda * s.sumsq_xy + w_new * (x_new - mean_x) * (y_new - mean_prev_y)
      else if isNA2 p i j k then
        lambda * s.sumsq_xy
      else if notNA2 p i j k ∧ n_obs = 1 ∧ p.intercept = false then
        w_new * x_new * y_new
      else s.sumsq_xy
    { n_obs := n_obs, sum_w := sum_w, sum_x := sum_x, sum_y := sum_y, sumsq_w := sumsq_w
      sumsq_xy := sumsq_xy, mean_prev_y := mean_prev_y, mean_x := mean_x, mean_y := mean_y }
  else
    -- rolling window
    let n_obs :=
      if notNA2 p i j k ∧ isNA2 p (i - p.width) j k then s.n_obs + 1
      else if isNA2 p i j k ∧ notNA2 p (i - p.width) j k then s.n_obs - 1
      else s.n_obs
    let w_old : LD α := if isNA2 p (i - p.width) j k then 0 else LD.fin (p.arma_weights 0)
    let x_old : LD α :=
      if isNA2 p (i - p.width) j k then 0 else (p.x (i - p.width) j).toLD
    let y_old : LD α :=
      if isNA2 p (i - p.width) j k then 0 else (p.x (i - p.width) k).toLD
    let sum_w := lambda * s.sum_w + w_new - lambda * w_old
    let sum_x := lambda * s.sum_x + w_new * x_new - lambda * w_old * x_old
    let sum_y := lambda * s.sum_y + w_new * y_new - lambda * w_old * y_old
    let sumsq_w := LD.pow2 lambda * s.sumsq_w + LD.pow2 w_new - LD.pow2 (lambda * w_old)
    -- compute the mean
    let mean_prev_y := if p.intercept = true ∧ n_obs > 0 then s.mean_y else s.mean_prev_y
    let mean_x := if p.intercept = true ∧ n_obs > 0 then sum_x / sum_w else s.mean_x
    let mean_y := if p.intercept = true ∧ n_obs > 0 then sum_y / sum_w else s.mean_y
    -- compute the sum of cross products
    let sumsq_xy :=
      if notNA2 p i j k ∧ notNA2 p (i - p.width) j k then
        lambda * s.sumsq_xy + w_new * (x_new - mean_x) * (y_new - mean_prev_y) -
          lambda * w_old * (x_old - mean_x) * (y_old - mean_prev_y)
      else if notNA2 p i j k ∧ isNA2 p (i - p.width) j k then
        lambda * s.sumsq_xy + w_new * (x_new - mean_x) * (y_new - mean_prev_y)
      else if isNA2 p i j k ∧ notNA2 p (i - p.width) j k then
        lambda * s.sumsq_xy - lambda * w_old * (x_old - mean_x) * (y_old - mean_prev_y)
      else if isNA2 p i j k ∨ isNA2 p (i - p.width) j k then
        lambda * s.sumsq_xy
      else s.sumsq_xy
    { n_obs := n_obs, sum_w := sum_w, sum_x := sum_x, sum_y := sum_y, sumsq_w := sumsq_w
      sumsq_xy := sumsq_xy, mean_prev_y := mean_prev_y, mean_x := mean_x, mean_y := mean_y }

/-- The store into `arma_cov(j, k, i)` that ends a pass (before the mirror store). -/
def emit (p : Args α) (j k i : ℕ) (s : State α) : Cell α :=
  if compute2 p i j k then
    if s.n_obs > 1 ∧ s.n_obs ≥ p.min_obs then s.sumsq_xy.toCell else Cell.NA
  else restored p i j k

/-- The stores that end a pass of the row loop: `arma_n_obs[i]` and `arma_sum_w[i]` for the
last pair, `arma_mean(i, j)` on the diagonal, `arma_cov(j, k, i)` and its mirror. -/
def store (p : Args α) (j k i : ℕ) (s : State α) (d : LmDst α) : LmDst α :=
  let d1 : LmDst α :=
    if (j : ℤ) = (p.n_cols_x : ℤ) - 1 ∧ (k : ℤ) = (p.n_cols_x : ℤ) - 1 then
      { d with arma_n_obs := d.arma_n_obs.set i (Cell.val (s.n_obs : α))
               arma_sum_w := d.arma_sum_w.set i s.sum_w.toCell }
    else d
  let d2 : LmDst α :=
    if j = k then { d1 with arma_mean := d1.arma_mean.set i j s.mean_x.toCell } else d1
  let c := d2.arma_cov.set j k i (emit p j k i s)
  { d2 with arma_cov := c.set k j i (c j k i) }

/-- The row loop of `RollCovOnlineLm` for the pair `(j, k)`. -/
def rows (p : Args α) (j k : ℕ) (d : LmDst α) : LmDst α :=
  (forLoop 0 p.n_rows_x (fun i (r : State α × LmDst α) =>
    let s := step p j k i r.1
    (s, store p j k i s r.2)) (init, d)).2

/-- The worker body `RollCovOnlineLm::operator()`. -/
def operator (p : Args α) (begin_col end_col : ℕ) (d : LmDst α) : LmDst α :=
  forLoop begin_col end_col (fun j d => forLoop 0 (j + 1) (fun k d => rows p j k d) d) d

end RollCovOnlineLm

namespace RollCovParallelLm

/-- The local `mean_x`: `0`, or `sum_x / sum_w` of the first loop when `intercept`.  The
first window loop is, line for line, the one of `RollCovParallelXX`. -/
def mean_x (p : Args α) (i j k : ℕ) : LD α :=
  if p.intercept = true then
    (RollCovParallelXX.means p i j k).sum_x / (RollCovParallelXX.means p i j k).sum_w
  else 0

/-- The local `mean_y`: `0`, or `sum_y / sum_w` of the first loop when `intercept`. -/
def mean_y (p : Args α) (i j k : ℕ) : LD α :=
  if p.intercept = true then
    (RollCovParallelXX.means p i j k).sum_y / (RollCovParallelXX.means p i j k).sum_w
  else 0

/-- The body of the second window loop. -/
def body (p : Args α) (mean_x mean_y : LD α) (i j k count : ℕ)
    (s : RollCovParallelXX.State α) : RollCovParallelXX.State α :=
  if notNA2 p (i - count) j k then
    { sum_w := s.sum_w + LD.fin (p.arma_weights (p.n - count - 1))
      sumsq_w := s.sumsq_w + LD.pow2 (LD.fin (p.arma_weights (p.n - count - 1)))
      sumsq_xy :=
        if p.intercept = true then
          s.sumsq_xy + LD.fin (p.arma_weights (p.n - count - 1)) *
            ((p.x (i - count) j).toLD - mean_x) * ((p.x (i - count) k).toLD - mean_y)
        else
          s.sumsq_xy + LD.fin (p.arma_weights (p.n - count - 1)) *
            (p.x (i - count) j).toLD * (p.x (i - count) k).toLD
      n_obs := s.n_obs + 1 }
  else s

/-- The result of the second window loop. -/
def sums (p : Args α) (i j k : ℕ) : RollCovParallelXX.State α :=
  whileWindow p.width i (body p (mean_x p i j k) (mean_y p i j k) i j k) ⟨0, 0, 0, 0⟩

/-- The value `RollCovParallelLm` stores into `arma_cov(j, k, i)` (before the mirror
store). -/
def cell (p : Args α) (i j k : ℕ) : Cell α :=
  if compute2 p i j k then
    if (sums p i j k).n_obs > 1 ∧ (sums p i j k).n_obs ≥ p.min_obs then
      (sums p i j k).sumsq_xy.toCell
    else Cell.NA
  else restored p i j k

/-- The stores of one index `z` with `i`, `j`, `k` decoded. -/
def store (p : Args α) (i j k : ℕ) (d : LmDst α) : LmDst α :=
  let d2 : LmDst α :=
    if compute2 p i j k then
      let d1 : LmDst α :=
        if (j : ℤ) = (p.n_cols_x : ℤ) - 1 ∧ (k : ℤ) = (p.n_cols_x : ℤ) - 1 then
          { d with arma_n_obs := d.arma_n_obs.set i (Cell.val ((sums p i j k).n_obs : α))
                   arma_sum_w := d.arma_sum_w.set i (sums p i j k).sum_w.toCell }
        else d
      if j = k then { d1 with arma_mean := d1.arma_mean.set i j (mean_x p i j k).toCell }
      else d1
    else d
  let c := d2.arma_cov.set j k i (cell p i j k)
  { d2 with arma_cov := c.set k j i (c j k i) }

/-- The worker body `RollCovParallelLm::operator()`.  As in `parallelCubeWorker` the
subscripts `k` and `j` are decoded in exact integers, which are the source's `int` values for
every `n_cols_x ≤ 23169`. -/
def operator (p : Args α) (begin_index end_index : ℕ) (d : LmDst α) : LmDst α :=
  forLoop begin_index end_index (fun z d =>
    let i := z / n_unique p.n_cols_x
    let z_unique := z % n_unique p.n_cols_x
    let k := (closedFormK p.n_cols_x z_unique).toNat
    let j := (closedFormJ p.n_cols_x z_unique).toNat
    store p i j k d) d

end RollCovParallelLm

/-! ## Windows -/

/-- The rows of the trailing window of row `i`: `max(0, i - width + 1), …, i`. -/
def window (p : Args α) (i : ℕ) : Finset ℕ := Finset.Icc (i + 1 - p.width) i

/-- The rows of the window of row `i` that are valid for column `j`: mask flag `0` and value
not `NaN`. -/
def validRows (p : Args α) (i j : ℕ) : Finset ℕ :=
  (window p i).filter (fun r => notNA p r j)

/-- The rows of the window of row `i` that are valid for both columns `j` and `k`. -/
def validRows2 (p : Args α) (i j k : ℕ) : Finset ℕ :=
  (window p i).filter (fun r => notNA2 p r j k)

/-- The weighted sum, over the rows `r` of the last `width` rows before row `t` that are
valid for both columns `j` and `k`, of `u (t - 1 - r) * f r`: `u` gives the weight of a lag
and `f` the summand of a row.  With `t = i + 1` the rows are those of the window of row
`i`. -/
def lagSum (p : Args α) (j k : ℕ) (u : ℕ → α) (f : ℕ → α) (t : ℕ) : α :=
  ∑ r in (Finset.Ico (t - p.width) t).filter (fun r => notNA2 p r j k), u (t - 1 - r) * f r

/-- The number of rows among the last `width` rows before row `t` that are valid for both
columns `j` and `k`. -/
def lagCount (p : Args α) (j k : ℕ) (t : ℕ) : ℕ :=
  ((Finset.Ico (t - p.width) t).filter (fun r => notNA2 p r j k)).card

/-- The weight of lag `c`: `arma_weights[n - 1 - c]`. -/
def lagWeight (p : Args α) (c : ℕ) : α := p.arma_weights (p.n - 1 - c)

/-- The finite value of the decay factor `lambda`. -/
def lambdaVal (p : Args α) : α :=
  if p.width > 1 then p.arma_weights (p.n - 2) / p.arma_weights (p.n - 1)
  else p.arma_weights (p.n - 1)

/-- The store of a covariance engine when `scale` is false, from the cross term `sxy` its
loops have accumulated and from the count and the weight sums of the window:
`sxy / (sum_w - sumsq_w / sum_w)` when the row is computed and has enough observations. -/
def covFrom (p : Args α) (i j k : ℕ) (sxy : LD α) : Cell α :=
  if compute2 p i j k then
    if (lagCount p j k (i + 1) : ℤ) > 1 ∧ (lagCount p j k (i + 1) : ℤ) ≥ p.min_obs then
      (sxy / (LD.fin (lagSum p j k (lagWeight p) (fun _ => 1) (i + 1)) -
          LD.fin (lagSum p j k (fun c => lagWeight p c * lagWeight p c) (fun _ => 1) (i + 1)) /
            LD.fin (lagSum p j k (lagWeight p) (fun _ => 1) (i + 1)))).toCell
    else Cell.NA
  else restored p i j k

/-- The value both covariance engines store when `scale` is false and the weight of every
non-empty window is not zero, from the sums of the window: the cross term is
`P - X * Y / W` when `center` is set and `P` otherwise. -/
def covValue (p : Args α) (i j k : ℕ) : Cell α :=
  covFrom p i j k
    (LD.fin (if p.center = true then
      lagSum p j k (lagWeight p) (fun r => (p.x r j).get * (p.x r k).get) (i + 1) -
        lagSum p j k (lagWeight p) (fun r => (p.x r j).get) (i + 1) *
          lagSum p j k (lagWeight p) (fun r => (p.x r k).get) (i + 1) /
          lagSum p j k (lagWeight p) (fun _ => 1) (i + 1)
      else lagSum p j k (lagWeight p) (fun r => (p.x r j).get * (p.x r k).get) (i + 1)))

/-- The two-pass covariance of the window of row `i` for the columns `j` and `k`, in the
words of the specification: the sum over the valid rows of `w * (x - mean_x) * (y - mean_y)`
divided by `sum_w - sumsq_w / sum_w`, the means being the weighted means of the window when
`center` is set and `0` otherwise. -/
def covTwoPass (p : Args α) (i j k : ℕ) : α :=
  let w : ℕ → α := fun r => p.arma_weights (p.n - 1 - (i - r))
  let sum_w : α := ∑ r in validRows2 p i j k, w r
  let sumsq_w : α := ∑ r in validRows2 p i j k, w r * w r
  let mean_x : α :=
    if p.center = true then (∑ r in validRows2 p i j k, w r * (p.x r j).get) / sum_w else 0
  let mean_y : α :=
    if p.center = true then (∑ r in validRows2 p i j k, w r * (p.x r k).get) / sum_w else 0
  (∑ r in validRows2 p i j k, w r * ((p.x r j).get - mean_x) * ((p.x r k).get - mean_y)) /
    (sum_w - sumsq_w / sum_w)

/-- The classical unbiased sample variance of the valid observations of the window of row
`i` in column `j`, in the words of the specification: the sum of `(x - xbar)^2` over the
valid observations divided by `m - 1`, with `m` their number and `xbar` their arithmetic
mean. -/
def sampleVariance (p : Args α) (i j : ℕ) : α :=
  let m : α := ((validRows p i j).card : α)
  let xbar : α := (∑ r in validRows p i j, (p.x r j).get) / m
  (∑ r in validRows p i j, ((p.x r j).get - xbar) ^ 2) / (m - 1)

/-- The number of rows among the last `width` rows before row `t` that are valid for column
`j`.  With `t = i + 1` these are the valid rows of the window of row `i`. -/
def validCount (p : Args α) (j t : ℕ) : ℕ :=
  ((Finset.Ico (t - p.width) t).filter (fun r => notNA p r j)).card

/-- The weighted mean of column `a` over the rows of the window of row `i` that are valid
for both columns `j` and `k`; `0` when `center` is false. -/
def winMean (p : Args α) (i j k a : ℕ) : α :=
  if p.center = true then
    (∑ r in validRows2 p i j k, p.arma_weights (p.n - 1 - (i - r)) * (p.x r a).get) /
      (∑ r in validRows2 p i j k, p.arma_weights (p.n - 1 - (i - r)))
  else 0

/-- The weighted sum of the products of the deviations of the columns `a` and `b` from their
means, over the rows of the window of row `i` that are valid for both columns `j` and `k`. -/
def winCross (p : Args α) (i j k a b : ℕ) : α :=
  ∑ r in validRows2 p i j k, p.arma_weights (p.n - 1 - (i - r)) *
    ((p.x r a).get - winMean p i j k a) * ((p.x r b).get - winMean p i j k b)

/-- The denominator `sum_w - sumsq_w / sum_w` over the rows of the window of row `i` that
are valid for both columns `j` and `k`. -/
def winDenom (p : Args α) (i j k : ℕ) : α :=
  (∑ r in validRows2 p i j k, p.arma_weights (p.n - 1 - (i - r))) -
    (∑ r in validRows2 p i j k,
      p.arma_weights (p.n - 1 - (i - r)) * p.arma_weights (p.n - 1 - (i - r))) /
      (∑ r in validRows2 p i j k, p.arma_weights (p.n - 1 - (i - r)))

/-- The weighted covariance of the columns `a` and `b` over the rows of the window of row
`i` that are valid for both columns `j` and `k`, in the words of the specification: the
sum of the products of the deviations divided by `sum_w - sumsq_w / sum_w`.  With `a = b`
it is the weighted variance of column `a` over those rows. -/
def covWindow (p : Args α) (i j k a b : ℕ) : α :=
  winCross p i j k a b / winDenom p i j k

/-! ## Rolling covariances of two matrices -/

/-- The fields of the two-matrix covariance workers (`x`, `y`, `n`, `n_rows_xy`, `n_cols_x`,
`n_cols_y`, `width`, `arma_weights`, `center`, `scale`, `min_obs`, `arma_any_na`,
`na_restore`). -/
structure ArgsXY (α : Type) where
  x : ℕ → ℕ → Cell α
  y : ℕ → ℕ → Cell α
  n : ℕ
  n_rows_xy : ℕ
  n_cols_x : ℕ
  n_cols_y : ℕ
  width : ℕ
  arma_weights : ℕ → α
  center : Bool
  scale : Bool
  min_obs : ℤ
  arma_any_na : ℕ → ℕ
  na_restore : Bool

/-- The test `(arma_any_na[i] == 0) && !std::isnan(x(i, j)) && !std::isnan(y(i, k))`. -/
@[reducible] def notNAxy (q : ArgsXY α) (i j k : ℕ) : Prop :=
  q.arma_any_na i = 0 ∧ ¬ (q.x i j).isnan = true ∧ ¬ (q.y i k).isnan = true

/-- The test
`(!na_restore) || (na_restore && !std::isnan(x(i, j)) && !std::isnan(y(i, k)))`. -/
@[reducible] def computeXY (q : ArgsXY α) (i j k : ℕ) : Prop :=
  q.na_restore = false ∨
    (q.na_restore = true ∧ ¬ (q.x i j).isnan = true ∧ ¬ (q.y i k).isnan = true)

/-- The value stored for a pair whose own row is missing:
`if (std::isnan(x(i, j))) x(i, j) else y(i, k)`. -/
def restoredXY (q : ArgsXY α) (i j k : ℕ) : Cell α :=
  if (q.x i j).isnan = true then q.x i j else q.y i k

namespace RollCovParallelXY

/-- The body of the first window loop (the one under `if (center)`). -/
def meanBody (q : ArgsXY α) (i j k count : ℕ) (s : RollCovParallelXX.MeanState α) :
    RollCovParallelXX.MeanState α :=
  if notNAxy q (i - count) j k then
    { sum_w := s.sum_w + LD.fin (q.arma_weights (q.n - count - 1))
      sum_x := s.sum_x + LD.fin (q.arma_weights (q.n - count - 1)) * (q.x (i - count) j).toLD
      sum_y := s.sum_y + LD.fin (q.arma_weights (q.n - count - 1)) * (q.y (i - count) k).toLD }
  else s

/-- The result of the first window loop. -/
def means (q : ArgsXY α) (i j k : ℕ) : RollCovParallelXX.MeanState α :=
  whileWindow q.width i (meanBody q i j k) ⟨0, 0, 0⟩

/-- The local `mean_x`: `0`, or `sum_x / sum_w` of the first loop when `center`. -/
def mean_x (q : ArgsXY α) (i j k : ℕ) : LD α :=
  if q.center = true then (means q i j k).sum_x / (means q i j k).sum_w else 0

/-- The local `mean_y`: `0`, or `sum_y / sum_w` of the first loop when `center`. -/
def mean_y (q : ArgsXY α) (i j k : ℕ) : LD α :=
  if q.center = true then (means q i j k).sum_y / (means q i j k).sum_w else 0

/-- The body of the second window loop (the one under `if (scale)`). -/
def sqBody (q : ArgsXY α) (mean_x mean_y : LD α) (i j k count : ℕ)
    (s : RollCovParallelXX.SqState α) : RollCovParallelXX.SqState α :=
  if notNAxy q (i - count) j k then
    if q.center = true then
      { sumsq_x := s.sumsq_x + LD.fin (q.arma_weights (q.n - count - 1)) *
          LD.pow2 ((q.x (i - count) j).toLD - mean_x)
        sumsq_y := s.sumsq_y + LD.fin (q.arma_weights (q.n - count - 1)) *
          LD.pow2 ((q.y (i - count) k).toLD - mean_y) }
    else
      { sumsq_x := s.sumsq_x + LD.fin (q.arma_weights (q.n - count - 1)) *
          LD.pow2 (q.x (i - count) j).toLD
        sumsq_y := s.sumsq_y + LD.fin (q.arma_weights (q.n - count - 1)) *
          LD.pow2 (q.y (i - count) k).toLD }
  else s

/-- The locals `var_x`, `var_y`: `0`, or the sums of the second loop when `scale`. -/
def vars (q : ArgsXY α) (i j k : ℕ) : RollCovParallelXX.SqState α :=
  if q.scale = true then
    whileWindow q.width i (sqBody q (mean_x q i j k) (mean_y q i j k) i j k) ⟨0, 0⟩
  else ⟨0, 0⟩

/-- The body of the third window loop. -/
def body (q : ArgsXY α) (mean_x mean_y : LD α) (i j k count : ℕ)
    (s : RollCovParallelXX.State α) : RollCovParallelXX.State α :=
  if notNAxy q (i - count) j k then
    { sum_w := s.sum_w + LD.fin (q.arma_weights (q.n - count - 1))
      sumsq_w := s.sumsq_w + LD.pow2 (LD.fin (q.arma_weights (q.n - count - 1)))
      sumsq_xy :=
        if q.center = true then
          s.sumsq_xy + LD.fin (q.arma_weights (q.n - count - 1)) *
            ((q.x (i - count) j).toLD - mean_x) * ((q.y (i - count) k).toLD - mean_y)
        else
          s.sumsq_xy + LD.fin (q.arma_weights (q.n - count - 1)) *
            (q.x (i - count) j).toLD * (q.y (i - count) k).toLD
      n_obs := s.n_obs + 1 }
  else s

/-- The value `RollCovParallelXY` stores into `arma_cov(j, k, i)`. -/
def cell (m : Prim α) (q : ArgsXY α) (i j k : ℕ) : Cell α :=
  if computeXY q i j k then
    let s := whileWindow q.width i (body q (mean_x q i j k) (mean_y q i j k) i j k)
      ⟨0, 0, 0, 0⟩
    if s.n_obs > 1 ∧ s.n_obs ≥ q.min_obs then
      if q.scale = true then
        -- don't compute if the standard deviation is zero
        if LD.le (LD.sqrt m.sqrt (vars q i j k).sumsq_x) (LD.sqrt m.sqrt (LD.fin m.eps)) = true ∨
            LD.le (LD.sqrt m.sqrt (vars q i j k).sumsq_y) (LD.sqrt m.sqrt (LD.fin m.eps)) = true
        then
          Cell.NA
        else
          (s.sumsq_xy / (LD.sqrt m.sqrt (vars q i j k).sumsq_x *
            LD.sqrt m.sqrt (vars q i j k).sumsq_y)).toCell
      else
        (s.sumsq_xy / (s.sum_w - s.sumsq_w / s.sum_w)).toCell
    else Cell.NA
  else restoredXY q i j k

/-- The worker body `RollCovParallelXY::operator()`: the flat index `z` is decoded as
`i = z % n_rows_xy`, `j = z / (n_cols_y * n_rows_xy)`, `k = (z / n_rows_xy) % n_cols_y`. -/
def operator (m : Prim α) (q : ArgsXY α) (begin_index end_index : ℕ) (arma_cov : Cube α) :
    Cube α :=
  forLoop begin_index end_index (fun z d =>
    d.set (z / (q.n_cols_y * q.n_rows_xy)) ((z / q.n_rows_xy) % q.n_cols_y) (z % q.n_rows_xy)
      (cell m q (z % q.n_rows_xy) (z / (q.n_cols_y * q.n_rows_xy))
        ((z / q.n_rows_xy) % q.n_cols_y))) arma_cov

end RollCovParallelXY

/-- The one-matrix arguments that hold column `j` of `x` as column `0` and column `k` of `y`
as column `1`: on them the pair `(0, 1)` of a one-matrix worker reads what the pair `(j, k)`
of the two-matrix worker reads. -/
def ArgsXY.pair (q : ArgsXY α) (j k : ℕ) : Args α :=
  { x := fun r c => match c with
      | 0 => q.x r j
      | _ => q.y r k
    n := q.n, n_rows_x := q.n_rows_xy, n_cols_x := 2, width := q.width
    arma_weights := q.arma_weights
    center := q.center, scale := q.scale, intercept := false
    min_obs := q.min_obs
    arma_any_na := q.arma_any_na
    na_restore := q.na_restore }

/-- The rows of the window of row `i` that are valid for column `j` of `x` and column `k`
of `y`. -/
def validRowsXY (q : ArgsXY α) (i j k : ℕ) : Finset ℕ :=
  (Finset.Icc (i + 1 - q.width) i).filter (fun r => notNAxy q r j k)

/-! ## Rolling linear models -/

/-- The C comparison `a < 0`; false when the operand is not finite. -/
def LD.neg (a : LD α) : Bool :=
  match a with
  | LD.fin v => decide (v < 0)
  | LD.nonfin => false

/-- The routines the regression workers take from outside the repository:
`arma::solve(coef, A, b, arma::solve_opts::no_approx)` and `arma::inv(A_inv, A)` on a
`d × d` matrix, `none` standing for the status `false`, and the C conversion of a `double`
to `int`. -/
structure LinAlg (α : Type) where
  solve : ℕ → (ℕ → ℕ → α) → (ℕ → α) → Option (ℕ → α)
  inv : ℕ → (ℕ → ℕ → α) → Option (ℕ → ℕ → α)
  toInt : α → ℤ

/-- The source fields of the regression workers (`arma_cov`, `n`, `n_rows_xy`, `n_cols_x`,
`width`, `arma_n_obs`, `arma_sum_w`, `arma_mean`). -/
structure LmArgs (α : Type) where
  arma_cov : Cube α
  n : ℕ
  n_rows_xy : ℕ
  n_cols_x : ℕ
  width : ℕ
  arma_n_obs : Vec α
  arma_sum_w : Vec α
  arma_mean : Mat α

/-- The three destinations of the regression workers. -/
structure LmOut (α : Type) where
  arma_coef : Mat α
  arma_rsq : Vec α
  arma_se : Mat α

/-- The assignment `m.row(i) = no_solution` with `no_solution` holding `len` entries `NA`. -/
def Mat.fillRow {α : Type} (m : Mat α) (i len : ℕ) : Mat α :=
  fun a b => if a = i ∧ b < len then Cell.NA else m a b

/-- The assignment `m.submat(i, off, i, off + len - 1) = v` of a row vector. -/
def Mat.setRow {α : Type} (m : Mat α) (i off len : ℕ) (v : ℕ → Cell α) : Mat α :=
  fun a b => if a = i ∧ off ≤ b ∧ b < off + len then v (b - off) else m a b

/-- The test `sigma.has_nan()` on the slice `i` of `arma_cov`. -/
def sliceHasNan (q : LmArgs α) (i : ℕ) : Bool :=
  (List.range q.n_cols_x).any (fun a =>
    (List.range q.n_cols_x).any (fun b => (q.arma_cov a b i).isnan))

/-- The block `A = sigma.submat(0, 0, n_cols_x - 2, n_cols_x - 2)`. -/
def sliceA (q : LmArgs α) (i : ℕ) : ℕ → ℕ → α := fun a b => (q.arma_cov a b i).get

/-- The column `b = sigma.submat(0, n_cols_x - 1, n_cols_x - 2, n_cols_x - 1)`. -/
def sliceB (q : LmArgs α) (i : ℕ) : ℕ → α := fun a => (q.arma_cov a (q.n_cols_x - 1) i).get

/-- The product `as_scalar(u * v)` of a row and a column of length `d`. -/
def dotLD (d : ℕ) (u v : ℕ → LD α) : LD α :=
  (List.range d).foldl (fun s l => s + u l * v l) 0

/-- The product `as_scalar(trans_coef * A * coef)`. -/
def quadForm (d : ℕ) (A : ℕ → ℕ → α) (c : ℕ → α) : α :=
  ∑ a in Finset.range d, ∑ b in Finset.range d, c a * A a b * c b

/-- The comparison `arma_n_obs[i] >= df_fit` of a `double` with an `int`. -/
def nObsGe (c : Cell α) (df_fit : ℤ) : Bool :=
  match c with
  | Cell.val v => decide ((df_fit : α) ≤ v)
  | _ => false

/-- The assignment of `arma_rsq[i]`: `NA` if `sqrt(var_y) <= sqrt(eps)` or `var_y < 0`,
else `as_scalar(trans_coef * A * coef) / var_y`. -/
def rsqValue (m : Prim α) (d : ℕ) (A : ℕ → ℕ → α) (coef : ℕ → α) (var_y : LD α) : Cell α :=
  if LD.le (LD.sqrt m.sqrt var_y) (LD.sqrt m.sqrt (LD.fin m.eps)) = true ∨
      LD.neg var_y = true then Cell.NA
  else (LD.fin (quadForm d A coef) / var_y).toCell

namespace RollLmInterceptTRUE

/-- The three assignments of the branches that find no solution. -/
def noSolution (q : LmArgs α) (i : ℕ) (o : LmOut α) : LmOut α :=
  { arma_coef := o.arma_coef.fillRow i q.n_cols_x
    arma_rsq := o.arma_rsq.set i Cell.NA
    arma_se := o.arma_se.fillRow i q.n_cols_x }

/-- One pass of the slice loop of `RollLmInterceptTRUE`. -/
def slice (L : LinAlg α) (m : Prim α) (q : LmArgs α) (i : ℕ) (o : LmOut α) : LmOut α :=
  let d := q.n_cols_x - 1
  let A := sliceA q i
  -- don't compute if missing value
  if sliceHasNan q i = false then
    match L.solve d A (sliceB q i) with
    | some coef =>
      let df_fit : ℤ := q.n_cols_x
      if nObsGe (q.arma_n_obs i) df_fit = true then
        -- intercept
        let mean_x : ℕ → LD α := fun l => (q.arma_mean i l).toLD
        let arma_coef := o.arma_coef.set i 0
          ((q.arma_mean i (q.n_cols_x - 1)).toLD -
            dotLD d mean_x (fun l => LD.fin (coef l))).toCell
        -- coefficients
        let arma_coef := arma_coef.setRow i 1 d (fun l => Cell.val (coef l))
        -- r-squared
        let var_y : LD α := (q.arma_cov (q.n_cols_x - 1) (q.n_cols_x - 1) i).toLD
        let arma_rsq := o.arma_rsq.set i (rsqValue m d A coef var_y)
        -- check if matrix is singular
        let df_resid : ℤ := L.toInt ((q.arma_n_obs i).get - (q.n_cols_x : α))
        match L.inv d A with
        | some A_inv =>
          if df_resid > 0 then
            -- residual variance
            let var_resid : LD α :=
              (1 - (arma_rsq i).toLD) * var_y / LD.fin (df_resid : α)
            -- standard errors
            let arma_se := o.arma_se.set i 0
              (LD.sqrt m.sqrt (var_resid * (1 / (q.arma_sum_w i).toLD +
                dotLD d mean_x (fun a => dotLD d (fun b => LD.fin (A_inv a b)) mean_x)))).toCell
            let arma_se := arma_se.setRow i 1 d
              (fun l => (LD.sqrt m.sqrt (var_resid * LD.fin (A_inv l l))).toCell)
            { arma_coef := arma_coef, arma_rsq := arma_rsq, arma_se := arma_se }
          else
            { arma_coef := arma_coef, arma_rsq := arma_rsq
              arma_se := o.arma_se.fillRow i q.n_cols_x }
        | none =>
          { arma_coef := arma_coef, arma_rsq := arma_rsq
            arma_se := o.arma_se.fillRow i q.n_cols_x }
      else noSolution q i o
    | none => noSolution q i o
  else noSolution q i o

/-- The worker body `RollLmInterceptTRUE::operator()`. -/
def operator (L : LinAlg α) (m : Prim α) (q : LmArgs α) (begin_slice end_slice : ℕ)
    (o : LmOut α) : LmOut α :=
  forLoop begin_slice end_slice (fun i o => slice L m q i o) o

end RollLmInterceptTRUE

namespace RollLmInterceptFALSE

/-- The three assignments of the branches that find no solution. -/
def noSolution (q : LmArgs α) (i : ℕ) (o : LmOut α) : LmOut α :=
  { arma_coef := o.arma_coef.fillRow i (q.n_cols_x - 1)
    arma_rsq := o.arma_rsq.set i Cell.NA
    arma_se := o.arma_se.fillRow i (q.n_cols_x - 1) }

/-- One pass of the slice loop of `RollLmInterceptFALSE`. -/
def slice (L : LinAlg α) (m : Prim α) (q : LmArgs α) (i : ℕ) (o : LmOut α) : LmOut α :=
  let d := q.n_cols_x - 1
  let A := sliceA q i
  -- don't compute if missing value
  if sliceHasNan q i = false then
    match L.solve d A (sliceB q i) with
    | some coef =>
      let df_fit : ℤ := (q.n_cols_x : ℤ) - 1
      if nObsGe (q.arma_n_obs i) df_fit = true then
        -- coefficients
        let arma_coef := o.arma_coef.setRow i 0 d (fun l => Cell.val (coef l))
        -- r-squared
        let var_y : LD α := (q.arma_cov (q.n_cols_x - 1) (q.n_cols_x - 1) i).toLD
        let arma_rsq := o.arma_rsq.set i (rsqValue m d A coef var_y)
        -- check if matrix is singular
        let df_resid : ℤ := L.toInt ((q.arma_n_obs i).get - (q.n_cols_x : α) + 1)
        match L.inv d A with
        | some A_inv =>
          if df_resid > 0 then
            -- residual variance
            let var_resid : LD α :=
              (1 - (arma_rsq i).toLD) * var_y / LD.fin (df_resid : α)
            -- standard errors
            { arma_coef := arma_coef, arma_rsq := arma_rsq
              arma_se := o.arma_se.setRow i 0 d
                (fun l => (LD.sqrt m.sqrt (var_resid * LD.fin (A_inv l l))).toCell) }
          else
            { arma_coef := arma_coef, arma_rsq := arma_rsq
              arma_se := o.arma_se.fillRow i (q.n_cols_x - 1) }
        | none =>
          { arma_coef := arma_coef, arma_rsq := arma_rsq
            arma_se := o.arma_se.fillRow i (q.n_cols_x - 1) }
      else noSolution q i o
    | none => noSolution q i o
  else noSolution q i o

/-- The worker body `RollLmInterceptFALSE::operator()`. -/
def operator (L : LinAlg α) (m : Prim α) (q : LmArgs α) (begin_slice end_slice : ℕ)
    (o : LmOut α) : LmOut α :=
  forLoop begin_slice end_slice (fun i o => slice L m q i o) o

end RollLmInterceptFALSE

/-- The part of the regression destinations that belongs to the time index `t`: row `t` of
the coefficients, `arma_rsq[t]` and row `t` of the standard errors. -/
def LmOut.row (o : LmOut α) (t : ℕ) : (ℕ → Cell α) × Cell α × (ℕ → Cell α) :=
  (o.arma_coef t, o.arma_rsq t, o.arma_se t)

/-- A `d × d` matrix is singular: some vector that is not zero is sent to zero. -/
def singular (d : ℕ) (A : ℕ → ℕ → α) : Prop :=
  ∃ z : ℕ → α, (∃ l, l < d ∧ z l ≠ 0) ∧ ∀ a, a < d → ∑ l in Finset.range d, A a l * z l = 0

/-- The weighted mean of column `a` over all rows of the window of row `i`. -/
def lmMean (p : Args α) (i a : ℕ) : α :=
  (∑ r in window p i, lagWeight p (i - r) * (p.x r a).get) /
    (∑ r in window p i, lagWeight p (i - r))

/-- The weighted sum of the products of the deviations of the columns `a` and `b` from their
means, over all rows of the window of row `i`. -/
def lmCross (p : Args α) (i a b : ℕ) : α :=
  ∑ r in window p i, lagWeight p (i - r) *
    ((p.x r a).get - lmMean p i a) * ((p.x r b).get - lmMean p i b)

/-- The residual `e_r = y_r - a - sum_m beta_m * x(r, m)` of row `r` under the coefficients
`beta 0 = a` (intercept) and `beta (m + 1)` (predictor `m`), the response being the last
column. -/
def lmResidual (p : Args α) (beta : ℕ → α) (r : ℕ) : α :=
  (p.x r (p.n_cols_x - 1)).get - beta 0 -
    ∑ l in Finset.range (p.n_cols_x - 1), beta (l + 1) * (p.x r l).get

/-- Modelled from the spec: the data flow "covariance tensor builder → 3-D tensor →
regression solver".  The source fields of a regression worker are the destinations of the
same names that the covariance worker has filled, with the worker's own `n`, `n_rows_xy`,
`n_cols_x` and `width`. -/
def lmArgsOf (p : Args α) (d : LmDst α) : LmArgs α :=
  { arma_cov := d.arma_cov, n := p.n, n_rows_xy := p.n_rows_x, n_cols_x := p.n_cols_x
    width := p.width, arma_n_obs := d.arma_n_obs, arma_sum_w := d.arma_sum_w
    arma_mean := d.arma_mean }

/-- The number of valid rows of column `j` among the last `width` rows before row `t`, the
row `t - 1` itself left out.  With `t = i + 1` these are the valid rows of the window of row
`i` other than row `i`. -/
def othersCount (p : Args α) (j t : ℕ) : ℕ :=
  ((Finset.Ico (t - p.width) (t - 1)).filter (fun r => notNA p r j)).card

/-- The cell of a matrix that belongs to the flattened index `z` of a worker that iterates
by index: `(z / n_cols_x, z % n_cols_x)`. -/
@[reducible] def matIndexCell (n_cols z r c : ℕ) : Prop :=
  r = z / n_cols ∧ c = z % n_cols

/-- The cells of a matrix that belong to the column `j` of a worker that iterates by
column: the rows `r < n_rows_x` of column `j`. -/
@[reducible] def matColumnCell (n_rows j r c : ℕ) : Prop :=
  r < n_rows ∧ c = j

/-- The subscripts that a piece of code evaluates, as C `int` expressions: the row
subscripts of `arma_any_na[.]` and `x(., j)`, and the subscripts of `arma_weights[.]`. -/
structure Subscripts where
  rows : List ℤ
  weights : List ℤ

namespace RollSumParallel

/-- The subscripts evaluated by one pass of the window loop: `arma_any_na[i - count]` (and
`x(i - count, j)`), and `arma_weights[n - count - 1]` when the row is valid. -/
def subscriptBody (p : Args α) (i j count : ℕ) (s : Subscripts) : Subscripts :=
  { rows := s.rows ++ [(i : ℤ) - count]
    weights :=
      if notNA p (i - count) j then s.weights ++ [(p.n : ℤ) - count - 1] else s.weights }

/-- The subscripts evaluated for the index `z` with `i = z / n_cols_x`, `j = z % n_cols_x`:
`x(i, j)` in the test of `na_restore` or in the store of a restored cell, and those of the
window loop. -/
def subscripts (p : Args α) (i j : ℕ) : Subscripts :=
  if compute p i j then
    whileWindow p.width i (subscriptBody p i j)
      ⟨if p.na_restore = true then [(i : ℤ)] else [], []⟩
  else ⟨[(i : ℤ), (i : ℤ)], []⟩

/-- The number of passes of the window loop `while ((width > count) && (i >= count))`. -/
def passes (p : Args α) (i : ℕ) : ℕ :=
  whileWindow p.width i (fun _ c => c + 1) 0

end RollSumParallel

namespace RollSumOnline

/-- The subscripts of `arma_weights` evaluated for `lambda`: `n - 2` and `n - 1` if
`width > 1`, else `n - 1`. -/
def lambdaSubscripts (p : Args α) : List ℤ :=
  if p.width > 1 then [(p.n : ℤ) - 2, (p.n : ℤ) - 1] else [(p.n : ℤ) - 1]

/-- The subscripts evaluated by the pass `i` of the row loop: row `i`, the weight `n - 1`
when row `i` is valid, and in the rolling regime row `i - width` and the weight `0` when
that row is valid. -/
def subscripts (p : Args α) (j i : ℕ) : Subscripts :=
  { rows := if i < p.width then [(i : ℤ)] else [(i : ℤ), (i : ℤ) - p.width]
    weights :=
      (if notNA p i j then [(p.n : ℤ) - 1] else []) ++
        (if ¬ i < p.width ∧ notNA p (i - p.width) j then [(0 : ℤ)] else []) }

end RollSumOnline

/-! ## Rolling covariances of two matrices, online -/

/-- The test `(arma_any_na[i] != 0) || std::isnan(x(i, j)) || std::isnan(y(i, k))`. -/
@[reducible] def isNAxy (q : ArgsXY α) (i j k : ℕ) : Prop :=
  q.arma_any_na i ≠ 0 ∨ (q.x i j).isnan = true ∨ (q.y i k).isnan = true

/-- The decay factor of the two-matrix workers: `arma_weights[n - 2] / arma_weights[n - 1]`
if `width > 1`, else `arma_weights[n - 1]`. -/
def lambdaXY (q : ArgsXY α) : LD α :=
  if q.width > 1 then LD.fin (q.arma_weights (q.n - 2)) / LD.fin (q.arma_weights (q.n - 1))
  else LD.fin (q.arma_weights (q.n - 1))

namespace RollCovOnlineXY

/-- One pass of the row loop of `RollCovOnlineXY` for the pair `(j, k)`, before the store.
The accumulators are those of `RollCovOnlineXX`.  In the rolling window, the last branch of
the update of `sumsq_x` and `sumsq_y` tests `arma_any_na[i - width] == 0`. -/
def step (q : ArgsXY α) (j k i : ℕ) (s : RollCovOnlineXX.State α) :
    RollCovOnlineXX.State α :=
  let lambda := lambdaXY q
  let w_new : LD α := if isNAxy q i j k then 0 else LD.fin (q.arma_weights (q.n - 1))
  let x_new : LD α := if isNAxy q i j k then 0 else (q.x i j).toLD
  let y_new : LD α := if isNAxy q i j k then 0 else (q.y i k).toLD
  if i < q.width then
    -- expanding window
    let n_obs := if notNAxy q i j k then s.n_obs + 1 else s.n_obs
    let sum_w := lambda * s.sum_w + w_new
    let sum_x := lambda * s.sum_x + w_new * x_new
    let sum_y := lambda * s.sum_y + w_new * y_new
    let sumsq_w := LD.pow2 lambda * s.sumsq_w + LD.pow2 w_new
    -- compute the mean
    let mean_prev_x := if q.center = true ∧ n_obs > 0 then s.mean_x else s.mean_prev_x
    let mean_prev_y := if q.center = true ∧ n_obs > 0 then s.mean_y else s.mean_prev_y
    let mean_x := if q.center = true ∧ n_obs > 0 then sum_x / sum_w else s.mean_x
    let mean_y := if q.center = true ∧ n_obs > 0 then sum_y / sum_w else s.mean_y
    -- compute the sum of squares (only `if (scale)`)
    let sumsq_x :=
      if q.scale = true then
        if notNAxy q i j k ∧ n_obs > 1 then
          lambda * s.sumsq_x + w_new * (x_new - mean_x) * (x_new - mean_prev_x)
        else if isNAxy q i j k then
          lambda * s.sumsq_x
        else if notNAxy q i j k ∧ n_obs = 1 ∧ q.center = false then
          w_new * LD.pow2 x_new
        else s.sumsq_x
      else s.sumsq_x
    let sumsq_y :=
      if q.scale = true then
        if notNAxy q i j k ∧ n_obs > 1 then
          lambda * s.sumsq_y + w_new * (y_new - mean_y) * (y_new - mean_prev_y)
        else if isNAxy q i j k then
          lambda * s.sumsq_y
        else if notNAxy q i j k ∧ n_obs = 1 ∧ q.center = false then
          w_new * LD.pow2 y_new
        else s.sumsq_y
      else s.sumsq_y
    -- compute the sum of cross products
    let sumsq_xy :=
      if notNAxy q i j k ∧ n_obs > 1 then
        lambda * s.sumsq_xy + w_new * (x_new - mean_x) * (y_new - mean_prev_y)
      else if isNAxy q i j k then
        lambda * s.sumsq_xy
      else if notNAxy q i j k ∧ n_obs = 1 ∧ q.center = false then
        w_new * x_new * y_new
      else s.sumsq_xy
    { n_obs := n_obs, sum_w := sum_w, sum_x := sum_x, sum_y := sum_y, sumsq_w := sumsq_w
      sumsq_x := sumsq_x, sumsq_y := sumsq_y, sumsq_xy := sumsq_xy
      mean_prev_x := mean_prev_x, mean_prev_y := mean_prev_y
      mean_x := mean_x, mean_y := mean_y }
  else
    -- rolling window
    let n_obs :=
      if notNAxy q i j k ∧ isNAxy q (i - q.width) j k then s.n_obs + 1
      else if isNAxy q i j k ∧ notNAxy q (i - q.width) j k then s.n_obs - 1
      else s.n_obs
    let w_old : LD α := if isNAxy q (i - q.width) j k then 0 else LD.fin (q.arma_weights 0)
    let x_old : LD α :=
      if isNAxy q (i - q.width) j k then 0 else (q.x (i - q.width) j).toLD
    let y_old : LD α :=
      if isNAxy q (i - q.width) j k then 0 else (q.y (i - q.width) k).toLD
    let sum_w := lambda * s.sum_w + w_new - lambda * w_old
    let sum_x := lambda * s.sum_x + w_new * x_new - lambda * w_old * x_old
    let sum_y := lambda * s.sum_y + w_new * y_new - lambda * w_old * y_old
    let sumsq_w := LD.pow2 lambda * s.sumsq_w + LD.pow2 w_new - LD.pow2 (lambda * w_old)
    -- compute the mean
    let mean_prev_x := if q.center = true ∧ n_obs > 0 then s.mean_x else s.mean_prev_x
    let mean_prev_y := if q.center = true ∧ n_obs > 0 then s.mean_y else s.mean_prev_y
    let mean_x := if q.center = true ∧ n_obs > 0 then sum_x / sum_w else s.mean_x
    let mean_y := if q.center = true ∧ n_obs > 0 then sum_y / sum_w else s.mean_y
    -- compute the sum of squares (only `if (scale)`)
    let sumsq_x :=
      if q.scale = true then
        if notNAxy q i j k ∧ notNAxy q (i - q.width) j k then
          lambda * s.sumsq_x + w_new * (x_new - mean_x) * (x_new - mean_prev_x) -
            lambda * w_old * (x_old - mean_x) * (x_old - mean_prev_x)
        else if notNAxy q i j k ∧ isNAxy q (i - q.width) j k then
          lambda * s.sumsq_x + w_new * (x_new - mean_x) * (x_new - mean_prev_x)
        else if isNAxy q i j k ∧ notNAxy q (i - q.width) j k then
          lambda * s.sumsq_x - lambda * w_old * (x_old - mean_x) * (x_old - mean_prev_x)
        else if isNAxy q i j k ∨ (q.arma_any_na (i - q.width) = 0 ∨
            (q.x (i - q.width) j).isnan = true ∨ (q.y (i - q.width) k).isnan = true) then
          lambda * s.sumsq_x
        else s.sumsq_x
      else s.sumsq_x
    let sumsq_y :=
      if q.scale = true then
        if notNAxy q i j k ∧ notNAxy q (i - q.width) j k then
          lambda * s.sumsq_y + w_new * (y_new - mean_y) * (y_new - mean_prev_y) -
            lambda * w_old * (y_old - mean_y) * (y_old - mean_prev_y)
        else if notNAxy q i j k ∧ isNAxy q (i - q.width) j k then
          lambda * s.sumsq_y + w_new * (y_new - mean_y) * (y_new - mean_prev_y)
        else if isNAxy q i j k ∧ notNAxy q (i - q.width) j k then
          lambda * s.sumsq_y - lambda * w_old * (y_old - mean_y) * (y_old - mean_prev_y)
        else if isNAxy q i j k ∨ (q.arma_any_na (i - q.width) = 0 ∨
            (q.x (i - q.width) j).isnan = true ∨ (q.y (i - q.width) k).isnan = true) then
          lambda * s.sumsq_y
        else s.sumsq_y
      else s.sumsq_y
    -- compute the sum of cross products
    let sumsq_xy :=
      if notNAxy q i j k ∧ notNAxy q (i - q.width) j k then
        lambda * s.sumsq_xy + w_new * (x_new - mean_x) * (y_new - mean_prev_y) -
          lambda * w_old * (x_old - mean_x) * (y_old - mean_prev_y)
      else if notNAxy q i j k ∧ isNAxy q (i - q.width) j k then
        lambda * s.sumsq_xy + w_new * (x_new - mean_x) * (y_new - mean_prev_y)
      else if isNAxy q i j k ∧ notNAxy q (i - q.width) j k then
        lambda * s.sumsq_xy - lambda * w_old * (x_old - mean_x) * (y_old - mean_prev_y)
      else if isNAxy q i j k ∨ isNAxy q (i - q.width) j k then
        lambda * s.sumsq_xy
      else s.sumsq_xy
    { n_obs := n_obs, sum_w := sum_w, sum_x := sum_x, sum_y := sum_y, sumsq_w := sumsq_w
      sumsq_x := sumsq_x, sumsq_y := sumsq_y, sumsq_xy := sumsq_xy
      mean_prev_x := mean_prev_x, mean_prev_y := mean_prev_y
      mean_x := mean_x, mean_y := mean_y }

/-- The store into `arma_cov(j, k, i)` that ends a pass. -/
def emit (m : Prim α) (q : ArgsXY α) (j k i : ℕ) (s : RollCovOnlineXX.State α) :
    Cell α :=
  if computeXY q i j k then
    if s.n_obs > 1 ∧ s.n_obs ≥ q.min_obs then
      if q.scale = true then
        -- don't compute if the standard deviation is zero
        if LD.le (LD.sqrt m.sqrt s.sumsq_x) (LD.sqrt m.sqrt (LD.fin m.eps)) = true ∨
            LD.le (LD.sqrt m.sqrt s.sumsq_y) (LD.sqrt m.sqrt (LD.fin m.eps)) = true then
          Cell.NA
        else
          (s.sumsq_xy / (LD.sqrt m.sqrt s.sumsq_x * LD.sqrt m.sqrt s.sumsq_y)).toCell
      else
        (s.sumsq_xy / (s.sum_w - s.sumsq_w / s.sum_w)).toCell
    else Cell.NA
  else restoredXY q i j k

/-- The value `RollCovOnlineXY` stores into `arma_cov(j, k, i)` in the pass of the pair
`(j, k)`. -/
def cell (m : Prim α) (q : ArgsXY α) (j k i : ℕ) : Cell α :=
  emit m q j k i (onlineState (step q j k) RollCovOnlineXX.init (i + 1))

/-- The row loop of `RollCovOnlineXY` for the pair `(j, k)`: every pass updates the
accumulators and stores `arma_cov(j, k, i)`. -/
def rows (m : Prim α) (q : ArgsXY α) (j k : ℕ) (arma_cov : Cube α) : Cube α :=
  (forLoop 0 q.n_rows_xy (fun i (r : RollCovOnlineXX.State α × Cube α) =>
    let s := step q j k i r.1
    (s, r.2.set j k i (emit m q j k i s))) (RollCovOnlineXX.init, arma_cov)).2

/-- The worker body `RollCovOnlineXY::operator()`:
`for (j = begin_col; j < end_col; j++) for (k = 0; k <= n_cols_y - 1; k++)`. -/
def operator (m : Prim α) (q : ArgsXY α) (begin_col end_col : ℕ) (arma_cov : Cube α) :
    Cube α :=
  forLoop begin_col end_col (fun j d => forLoop 0 q.n_cols_y (fun k d => rows m q j k d) d)
    arma_cov

end RollCovOnlineXY

/-- The entries written by column `j` of a worker over two matrices that iterates by
column: the entries `(j, y, t)` with `y < n_cols_y` and `t < n_rows`. -/
@[reducible] def cubeRowCell (n_cols_y n_rows j x y t : ℕ) : Prop :=
  x = j ∧ y < n_cols_y ∧ t < n_rows

/-! ## Transformed inputs -/

/-- The arguments `p` with every weight `w` replaced by `c * w`. -/
def Args.rescale (p : Args α) (c : α) : Args α :=
  { p with arma_weights := fun k => c * p.arma_weights k }

/-- A cell with `c` added to its value; a missing cell stays as it is. -/
def Cell.shift (c : α) : Cell α → Cell α
  | Cell.val v => Cell.val (v + c)
  | Cell.NA => Cell.NA
  | Cell.NaN => Cell.NaN

/-- The arguments `p` with `c` added to every value of column `j` that is not missing. -/
def Args.shiftColumn (p : Args α) (j : ℕ) (c : α) : Args α :=
  { p with x := fun r k => if k = j then (p.x r k).shift c else p.x r k }

/-- The fields of the two-matrix covariance workers when the matrix `x` is passed on both
sides, `y = x`. -/
def Args.twice (p : Args α) : ArgsXY α :=
  { x := p.x, y := p.x
    n := p.n, n_rows_xy := p.n_rows_x, n_cols_x := p.n_cols_x, n_cols_y := p.n_cols_x
    width := p.width
    arma_weights := p.arma_weights
    center := p.center, scale := p.scale
    min_obs := p.min_obs
    arma_any_na := p.arma_any_na
    na_restore := p.na_restore }

end Engines

/-! ## Concrete inputs -/

/-- A one-column matrix, given by the list of its entries. -/
def column (l : List (Cell ℚ)) : ℕ → ℕ → Cell ℚ := fun i _ => l.getD i Cell.NA

/-- A vector, given by the list of its entries. -/
def vector {β : Type} [Zero β] (l : List β) : ℕ → β := fun k => l.getD k 0

/-- The column `[1, 2, 3, 4, 5]` with no mask, `width = 3`, `min_obs = 1`, weights
`[1, 1, 1]`, `na_restore = false`. -/
def exMean : Args ℚ :=
  { x := column [Cell.val 1, Cell.val 2, Cell.val 3, Cell.val 4, Cell.val 5]
    n := 3, n_rows_x := 5, n_cols_x := 1, width := 3
    arma_weights := vector [1, 1, 1]
    center := false, scale := false, intercept := false
    min_obs := 1
    arma_any_na := vector [0, 0, 0, 0, 0]
    na_restore := false }

/-- The column `[1, 2, NA, 4]` with mask `[0, 0, 1, 0]`, `width = 2`, `min_obs = 2`, unit
weights, `na_restore = false`. -/
def exSum : Args ℚ :=
  { x := column [Cell.val 1, Cell.val 2, Cell.NA, Cell.val 4]
    n := 2, n_rows_x := 4, n_cols_x := 1, width := 2
    arma_weights := vector [1, 1]
    center := false, scale := false, intercept := false
    min_obs := 2
    arma_any_na := vector [0, 0, 1, 0]
    na_restore := false }

/-- The input `exSum` with `na_restore = true`. -/
def exRestore : Args ℚ := { exSum with na_restore := true }

/-- The column `[1, 2, 3]` with no mask, `width = 2`, decaying weights `[1/4, 1/2, 1]` of
length `n = 3` (ratio `1/2`), `center = true`, `min_obs = 1`, `na_restore = false`. -/
def exVar : Args ℚ :=
  { x := column [Cell.val 1, Cell.val 2, Cell.val 3]
    n := 3, n_rows_x := 3, n_cols_x := 1, width := 2
    arma_weights := vector [1 / 4, 1 / 2, 1]
    center := true, scale := false, intercept := false
    min_obs := 1
    arma_any_na := vector [0, 0, 0]
    na_restore := false }

/-- The column `[1, 2, 3]` with no mask, `width = n_rows = n = 3`, uniform weights
`[2, 2, 2]`, `min_obs = 1`, `na_restore = false`. -/
def exUniform : Args ℚ :=
  { x := column [Cell.val 1, Cell.val 2, Cell.val 3]
    n := 3, n_rows_x := 3, n_cols_x := 1, width := 3
    arma_weights := vector [2, 2, 2]
    center := false, scale := false, intercept := false
    min_obs := 1
    arma_any_na := vector [0, 0, 0]
    na_restore := false }

/-- A square-root function on `ℚ` for the concrete inputs: exact on perfect squares of
natural numbers, `0` elsewhere. -/
def exPrim : Prim ℚ :=
  { sqrt := fun q => if q.den = 1 ∧ q.num.toNat.sqrt * q.num.toNat.sqrt = q.num.toNat then
      (q.num.toNat.sqrt : ℚ) else 0
    eps := 1 / 4503599627370496 }

/-- Two columns `[1, 2, 4]` and `[2, NA, 3]` with no mask, `width = n = 2`, unit weights,
`center = true`, `min_obs = 1`, `na_restore = false`. -/
def exCov : Args ℚ :=
  { x := fun i j => if j = 0 then column [Cell.val 1, Cell.val 2, Cell.val 4] i 0
      else column [Cell.val 2, Cell.NA, Cell.val 3] i 0
    n := 2, n_rows_x := 3, n_cols_x := 2, width := 2
    arma_weights := vector [1, 1]
    center := true, scale := false, intercept := true
    min_obs := 1
    arma_any_na := vector [0, 0, 0]
    na_restore := false }

/-- Two columns `[1, 2, 4, 7]` and `[2, NA, 3, 5]` with no mask, `width = n = 2`, weights
`[1, 2]` (decay factor `1/2`), `center = true`, `min_obs = 1`, `na_restore = false`. -/
def exCovDecay : Args ℚ :=
  { x := fun i j => if j = 0 then column [Cell.val 1, Cell.val 2, Cell.val 4, Cell.val 7] i 0
      else column [Cell.val 2, Cell.NA, Cell.val 3, Cell.val 5] i 0
    n := 2, n_rows_x := 4, n_cols_x := 2, width := 2
    arma_weights := vector [1, 2]
    center := true, scale := false, intercept := true
    min_obs := 1
    arma_any_na := vector [0, 0, 0, 0]
    na_restore := false }

/-- An output tensor before the run, filled with an asymmetric pattern. -/
def exCube : Cube ℚ := fun a b _ => Cell.val ((a : ℚ) - b)

/-- The regression destinations before the run. -/
def exLmDst : LmDst ℚ :=
  { arma_n_obs := fun _ => Cell.NA
    arma_sum_w := fun _ => Cell.NA
    arma_mean := fun _ _ => Cell.NA
    arma_cov := exCube }

/-- The column `[1, 2, 4]` with no mask, `width = 3`, all weights `1`, `center = true`,
`min_obs = 1`, `na_restore = false`. -/
def exUnit : Args ℚ :=
  { x := column [Cell.val 1, Cell.val 2, Cell.val 4]
    n := 3, n_rows_x := 3, n_cols_x := 1, width := 3
    arma_weights := fun _ => 1
    center := true, scale := false, intercept := false
    min_obs := 1
    arma_any_na := vector [0, 0, 0]
    na_restore := false }

/-- The column `[1, 2, NA]` with no mask, `width = 3`, all weights `1`, `center = true`,
`min_obs = 1`, `na_restore = true`. -/
def exUnitRestore : Args ℚ :=
  { x := column [Cell.val 1, Cell.val 2, Cell.NA]
    n := 3, n_rows_x := 3, n_cols_x := 1, width := 3
    arma_weights := fun _ => 1
    center := true, scale := false, intercept := false
    min_obs := 1
    arma_any_na := vector [0, 0, 0]
    na_restore := true }

/-- The column `[1, NA]` with no mask, `width = 2`, unit weights, `center = false`,
`scale = false`, `min_obs = 1`, `na_restore = false`. -/
def exScale : Args ℚ :=
  { x := column [Cell.val 1, Cell.NA]
    n := 2, n_rows_x := 2, n_cols_x := 1, width := 2
    arma_weights := vector [1, 1]
    center := false, scale := false, intercept := false
    min_obs := 1
    arma_any_na := vector [0, 0]
    na_restore := false }

/-- The column `[1, NA, 3]` with no mask, `width = 2`, unit weights, `center = false`,
`scale = false`, `min_obs = 1`, `na_restore = false`. -/
def exScaleValid : Args ℚ :=
  { x := column [Cell.val 1, Cell.NA, Cell.val 3]
    n := 2, n_rows_x := 3, n_cols_x := 1, width := 2
    arma_weights := vector [1, 1]
    center := false, scale := false, intercept := false
    min_obs := 1
    arma_any_na := vector [0, 0, 0]
    na_restore := false }

/-- The numeric primitives over `ℚ` with Mathlib's rational square root, which is exact on
the squares of rationals, and `eps = 2^(-52)`. -/
def exPrimQ : Prim ℚ :=
  { sqrt := Rat.sqrt
    eps := 1 / 4503599627370496 }

/-- Two columns `[-4, 4, 1, -4]` and `[-3, 1, 4, 0]` with no mask, `width = 2`, decaying
weights `[1/8, 1/4, 1/2, 1]` of length `n = n_rows = 4` (ratio `1/2`), `center = true`,
`scale = true`, `min_obs = 1`, `na_restore = false`. -/
def exCorr : Args ℚ :=
  { x := fun i j => if j = 0 then column [Cell.val (-4), Cell.val 4, Cell.val 1, Cell.val (-4)] i 0
      else column [Cell.val (-3), Cell.val 1, Cell.val 4, Cell.val 0] i 0
    n := 4, n_rows_x := 4, n_cols_x := 2, width := 2
    arma_weights := vector [1 / 8, 1 / 4, 1 / 2, 1]
    center := true, scale := true, intercept := true
    min_obs := 1
    arma_any_na := vector [0, 0, 0, 0]
    na_restore := false }

/-- Two columns `[2, -2, 2, -2, 0]` and `d * [1, -1, 1, -1, 0]` with `d = 2^(-26)`, no mask,
`width = n = 5`, all weights `1`, `center = true`, `scale = true`, `min_obs = 1`,
`na_restore = false`. -/
def exGuard : Args ℚ :=
  { x := fun i j =>
      if j = 0 then column [Cell.val 2, Cell.val (-2), Cell.val 2, Cell.val (-2), Cell.val 0] i 0
      else column [Cell.val (1 / 67108864), Cell.val (-1 / 67108864), Cell.val (1 / 67108864),
        Cell.val (-1 / 67108864), Cell.val 0] i 0
    n := 5, n_rows_x := 5, n_cols_x := 2, width := 5
    arma_weights := vector [1, 1, 1, 1, 1]
    center := true, scale := true, intercept := true
    min_obs := 1
    arma_any_na := vector [0, 0, 0, 0, 0]
    na_restore := false }

/-- The column `[1, 2, 4, 7]` of `x` and the column `[2, NA, 3, 5]` of `y` with no mask,
`width = n = 2`, weights `[1, 2]`, `center = true`, `scale = false`, `min_obs = 1`,
`na_restore = false`. -/
def exXY : ArgsXY ℚ :=
  { x := column [Cell.val 1, Cell.val 2, Cell.val 4, Cell.val 7]
    y := column [Cell.val 2, Cell.NA, Cell.val 3, Cell.val 5]
    n := 2, n_rows_xy := 4, n_cols_x := 1, n_cols_y := 1, width := 2
    arma_weights := vector [1, 2]
    center := true, scale := false
    min_obs := 1
    arma_any_na := vector [0, 0, 0, 0]
    na_restore := false }

/-- The input `exGuard` as two matrices: the column `d * [1, -1, 1, -1, 0]` of `x`,
`d = 2^(-26)`, and the column `[2, -2, 2, -2, 0]` of `y`. -/
def exGuardXY : ArgsXY ℚ :=
  { x := column [Cell.val (1 / 67108864), Cell.val (-1 / 67108864), Cell.val (1 / 67108864),
      Cell.val (-1 / 67108864), Cell.val 0]
    y := column [Cell.val 2, Cell.val (-2), Cell.val 2, Cell.val (-2), Cell.val 0]
    n := 5, n_rows_xy := 5, n_cols_x := 1, n_cols_y := 1, width := 5
    arma_weights := vector [1, 1, 1, 1, 1]
    center := true, scale := true
    min_obs := 1
    arma_any_na := vector [0, 0, 0, 0, 0]
    na_restore := false }

/-- Exact routines for systems of dimension one and two (Cramer's rule), which refuse a
singular matrix and every larger system; the conversion to `int` truncates toward zero. -/
def exLinAlg : LinAlg ℚ :=
  { solve := fun d A b =>
      if d = 1 then
        if A 0 0 = 0 then none else some (fun _ => b 0 / A 0 0)
      else if d = 2 then
        if A 0 0 * A 1 1 - A 0 1 * A 1 0 = 0 then none
        else some (fun l =>
          if l = 0 then (b 0 * A 1 1 - A 0 1 * b 1) / (A 0 0 * A 1 1 - A 0 1 * A 1 0)
          else (A 0 0 * b 1 - b 0 * A 1 0) / (A 0 0 * A 1 1 - A 0 1 * A 1 0))
      else none
    inv := fun d A =>
      if d = 1 then
        if A 0 0 = 0 then none else some (fun _ _ => 1 / A 0 0)
      else if d = 2 then
        if A 0 0 * A 1 1 - A 0 1 * A 1 0 = 0 then none
        else some (fun a b =>
          (if a = 0 ∧ b = 0 then A 1 1 else if a = 0 then -A 0 1 else if b = 0 then -A 1 0
            else A 0 0) / (A 0 0 * A 1 1 - A 0 1 * A 1 0))
      else none
    toInt := fun q => q.num.tdiv q.den }

/-- A covariance tensor with one predictor and the response: the slice `0` holds an `NA`,
the slices `1` and `2` hold `[[2, 1], [1, 3]]`; the counts are `2`, `1`, `2`. -/
def exLm : LmArgs ℚ :=
  { arma_cov := fun a b t =>
      if t = 0 then (if a = 0 ∧ b = 0 then Cell.NA else Cell.val 1)
      else if a = 0 ∧ b = 0 then Cell.val 2 else if a = 1 ∧ b = 1 then Cell.val 3
      else Cell.val 1
    n := 2, n_rows_xy := 3, n_cols_x := 2, width := 2
    arma_n_obs := fun t => if t = 1 then Cell.val 1 else Cell.val 2
    arma_sum_w := fun t => if t = 1 then Cell.val 1 else Cell.val 2
    arma_mean := fun _ _ => Cell.val 1 }

/-- A covariance tensor with two predictors and the response whose two predictor columns
are identical: every slice is `[[1, 1, 1], [1, 1, 1], [1, 1, 2]]`, the counts are `5`. -/
def exLmSingular : LmArgs ℚ :=
  { arma_cov := fun a b _ => if a = 2 ∧ b = 2 then Cell.val 2 else Cell.val 1
    n := 5, n_rows_xy := 1, n_cols_x := 3, width := 5
    arma_n_obs := fun _ => Cell.val 5
    arma_sum_w := fun _ => Cell.val 5
    arma_mean := fun _ _ => Cell.val 1 }

/-- Regression destinations before the run, filled with `7`. -/
def exLmOut : LmOut ℚ :=
  { arma_coef := fun _ _ => Cell.val 7
    arma_rsq := fun _ => Cell.val 7
    arma_se := fun _ _ => Cell.val 7 }

/-- A predictor `[0, 1, 2]` (column `0`) and a response `[0, 3, 3]` (column `1`) with no
mask, `width = n = 3`, unit weights, `intercept = true`, `min_obs = 1`,
`na_restore = false`. -/
def exLmData : Args ℚ :=
  { x := fun i j => if j = 0 then column [Cell.val 0, Cell.val 1, Cell.val 2] i 0
      else column [Cell.val 0, Cell.val 3, Cell.val 3] i 0
    n := 3, n_rows_x := 3, n_cols_x := 2, width := 3
    arma_weights := vector [1, 1, 1]
    center := false, scale := false, intercept := true
    min_obs := 1
    arma_any_na := vector [0, 0, 0]
    na_restore := false }

/-- The coefficients of the regression of `[0, 3, 3]` on `[0, 1, 2]`: intercept `1/2`,
slope `3/2`. -/
def exLmBeta : ℕ → ℚ := fun c => if c = 0 then 1 / 2 else 3 / 2

/-- An output matrix before the run. -/
def exMat : Mat ℚ := fun a b => Cell.val ((a : ℚ) + b)

/-- Two columns `[3, 4]` and `[4, 3]` with no mask, `width = n = 2`, unit weights,
`center = false`, `scale = true`, `min_obs = 1`, `na_restore = false`: the sums of squares
of both columns are `25`, the sum of the products is `24`. -/
def exCorrPlain : Args ℚ :=
  { x := fun i j => if j = 0 then column [Cell.val 3, Cell.val 4] i 0
      else column [Cell.val 4, Cell.val 3] i 0
    n := 2, n_rows_x := 2, n_cols_x := 2, width := 2
    arma_weights := vector [1, 1]
    center := false, scale := true, intercept := true
    min_obs := 1
    arma_any_na := vector [0, 0]
    na_restore := false }

/-- The input `exCorrPlain` as two matrices: the column `[3, 4]` of `x` and the column
`[4, 3]` of `y`. -/
def exCorrPlainXY : ArgsXY ℚ :=
  { x := column [Cell.val 3, Cell.val 4]
    y := column [Cell.val 4, Cell.val 3]
    n := 2, n_rows_xy := 2, n_cols_x := 1, n_cols_y := 1, width := 2
    arma_weights := vector [1, 1]
    center := false, scale := true
    min_obs := 1
    arma_any_na := vector [0, 0]
    na_restore := false }

/-- The column `[0, 2, 3]` with no mask, `width = n = 2`, unit weights, `min_obs = 1`,
`na_restore = false`. -/
def exProdZero : Args ℚ :=
  { x := column [Cell.val 0, Cell.val 2, Cell.val 3]
    n := 2, n_rows_x := 3, n_cols_x := 1, width := 2
    arma_weights := vector [1, 1]
    center := false, scale := false, intercept := false
    min_obs := 1
    arma_any_na := vector [0, 0, 0]
    na_restore := false }

/-- A covariance tensor with one predictor and the response: every slice is
`[[1, 1], [1, 4]]`, the counts are `3`. -/
def exLmFit : LmArgs ℚ :=
  { arma_cov := fun a b _ =>
      if a = 0 ∧ b = 0 then Cell.val 1 else if a = 1 ∧ b = 1 then Cell.val 4 else Cell.val 1
    n := 3, n_rows_xy := 1, n_cols_x := 2, width := 3
    arma_n_obs := fun _ => Cell.val 3
    arma_sum_w := fun _ => Cell.val 3
    arma_mean := fun _ _ => Cell.val 1 }

/-- Two columns `[-1, 2, NA, NA, 1, -1]` and `[0, 2, 0, 0, -1, 1]` with no mask, `width = 2`,
decaying weights `[1/32, 1/16, 1/8, 1/4, 1/2, 1]` of length `n = n_rows = 6` (ratio `1/2`),
`center = true`, `scale = false`, `min_obs = 1`, `na_restore = false`. -/
def exGap : Args ℚ :=
  { x := fun i j =>
      if j = 0 then
        column [Cell.val (-1), Cell.val 2, Cell.NA, Cell.NA, Cell.val 1, Cell.val (-1)] i 0
      else column [Cell.val 0, Cell.val 2, Cell.val 0, Cell.val 0, Cell.val (-1), Cell.val 1] i 0
    n := 6, n_rows_x := 6, n_cols_x := 2, width := 2
    arma_weights := vector [1 / 32, 1 / 16, 1 / 8, 1 / 4, 1 / 2, 1]
    center := true, scale := false, intercept := true
    min_obs := 1
    arma_any_na := vector [0, 0, 0, 0, 0, 0]
    na_restore := false }

/-! # Properties -/

set_option linter.unusedSectionVars false

section Properties

variable {α : Type} [LinearOrderedField α]

/-! ## Values and loops -/

namespace LD
@[simp] theorem fin_add_fin (a b : α) : (fin a + fin b : LD α) = fin (a + b) := rfl
@[simp] theorem fin_sub_fin (a b : α) : (fin a - fin b : LD α) = fin (a - b) := rfl
@[simp] theorem fin_mul_fin (a b : α) : (fin a * fin b : LD α) = fin (a * b) := rfl
theorem fin_div_fin (a b : α) :
    (fin a / fin b : LD α) = if b = 0 then nonfin else fin (a / b) := rfl
theorem fin_div_fin_of_ne (a : α) {b : α} (h : b ≠ 0) : (fin a / fin b : LD α) = fin (a / b) := by
  rw [fin_div_fin, if_neg h]
@[simp] theorem pow2_fin (a : α) : pow2 (fin a) = fin (a * a) := rfl
theorem zero_def : (0 : LD α) = fin 0 := rfl
theorem one_def : (1 : LD α) = fin 1 := rfl
@[simp] theorem toCell_fin (a : α) : (fin a).toCell = Cell.val a := rfl
theorem toCell_ne_NA (a : LD α) : a.toCell ≠ Cell.NA := by
  cases a <;> simp [toCell]
end LD

theorem notNA_iff_not_isNA (p : Args α) (i j : ℕ) : notNA p i j ↔ ¬ isNA p i j := by
  unfold notNA isNA; tauto

theorem notNA2_iff_not_isNA2 (p : Args α) (i j k : ℕ) : notNA2 p i j k ↔ ¬ isNA2 p i j k := by
  unfold notNA2 isNA2; tauto

/-! ### Loops -/

theorem whileWindow_go_eq {σ : Type} (width i : ℕ) (body : ℕ → σ → σ) :
    ∀ (fuel count : ℕ) (s : σ), width ≤ fuel + count →
      whileWindow.go width i body fuel count s =
        (List.range' count (min width (i + 1) - count)).foldl (fun s c => body c s) s := by
  intro fuel
  induction fuel with
  | zero =>
    intro count s h
    have : min width (i + 1) - count = 0 := by omega
    simp [whileWindow.go, this]
  | succ fuel ih =>
    intro count s h
    rw [whileWindow.go]
    by_cases hg : width > count ∧ i ≥ count
    · rw [if_pos hg, ih (count + 1) (body count s) (by omega)]
      have : min width (i + 1) - count = (min width (i + 1) - (count + 1)) + 1 := by omega
      rw [this, List.range'_succ, List.foldl_cons]
    · rw [if_neg hg]
      have : min width (i + 1) - count = 0 := by omega
      simp [this]

/-- More fuel than `width` changes nothing: the guard ends the loop. -/
theorem whileWindow_go_fuel {σ : Type} (width i : ℕ) (body : ℕ → σ → σ) (fuel : ℕ) (s : σ)
    (h : width ≤ fuel) :
    whileWindow.go width i body fuel 0 s = whileWindow width i body s := by
  rw [whileWindow, whileWindow_go_eq width i body fuel 0 s (by omega),
    whileWindow_go_eq width i body width 0 s (by omega)]

theorem whileWindow_eq_foldl {σ : Type} (width i : ℕ) (body : ℕ → σ → σ) (s : σ) :
    whileWindow width i body s =
      (List.range (min width (i + 1))).foldl (fun s c => body c s) s := by
  rw [whileWindow, whileWindow_go_eq width i body width 0 s (by omega), List.range_eq_range']
  simp

theorem foldl_range_succ {σ : Type} (body : ℕ → σ → σ) (s : σ) (m : ℕ) :
    (List.range (m + 1)).foldl (fun s c => body c s) s =
      body m ((List.range m).foldl (fun s c => body c s) s) := by
  rw [List.range_succ, List.foldl_append]; rfl

theorem forLoop_succ {σ : Type} (lo hi : ℕ) (h : lo ≤ hi) (body : ℕ → σ → σ) (s : σ) :
    forLoop lo (hi + 1) body s = body hi (forLoop lo hi body s) := by
  unfold forLoop
  have : hi + 1 - lo = (hi - lo) + 1 := by omega
  rw [this, List.range'_concat, List.foldl_append]
  simp
  congr 1; omega

theorem forLoop_empty {σ : Type} (lo hi : ℕ) (h : hi ≤ lo) (body : ℕ → σ → σ) (s : σ) :
    forLoop lo hi body s = s := by
  unfold forLoop
  have : hi - lo = 0 := by omega
  simp [this]


theorem toLD_of_not_isnan {c : Cell α} (h : ¬ c.isnan = true) : c.toLD = LD.fin c.get := by
  cases c <;> simp_all [Cell.isnan, Cell.toLD, Cell.get]

theorem validRows_eq (p : Args α) (i j : ℕ) :
    validRows p i j =
      (Finset.Ico (i + 1 - min p.width (i + 1)) (i + 1)).filter (fun r => notNA p r j) := by
  unfold validRows window
  rw [← Nat.Ico_succ_right]
  congr 2
  omega

theorem filter_Ico_step (P : ℕ → Prop) [DecidablePred P] (i m : ℕ) (hm : m ≤ i) :
    (Finset.Ico (i + 1 - (m + 1)) (i + 1)).filter P =
      if P (i - m) then insert (i - m) ((Finset.Ico (i + 1 - m) (i + 1)).filter P)
      else (Finset.Ico (i + 1 - m) (i + 1)).filter P := by
  have h1 : i + 1 - (m + 1) = i - m := by omega
  have h2 : i + 1 - m = (i - m).succ := by omega
  rw [h1, h2, ← Nat.Ico_insert_succ_left (by omega : i - m < i + 1), Finset.filter_insert]

theorem not_mem_filter_Ico (P : ℕ → Prop) [DecidablePred P] (i m : ℕ) (hm : m ≤ i) :
    i - m ∉ (Finset.Ico (i + 1 - m) (i + 1)).filter P := by
  simp only [Finset.mem_filter, Finset.mem_Ico]
  omega

theorem RollSumParallel_foldl (p : Args α) (i j : ℕ) :
    ∀ m, m ≤ i + 1 →
      (List.range m).foldl (fun s c => RollSumParallel.body p i j c s) ⟨0, 0⟩ =
        ⟨(((Finset.Ico (i + 1 - m) (i + 1)).filter (fun r => notNA p r j)).card : ℤ),
          LD.fin (∑ r in (Finset.Ico (i + 1 - m) (i + 1)).filter (fun r => notNA p r j),
            p.arma_weights (p.n - 1 - (i - r)) * (p.x r j).get)⟩ := by
  intro m
  induction m with
  | zero => intro _; simp [LD.zero_def]
  | succ m ih =>
    intro hm
    rw [foldl_range_succ, ih (by omega), filter_Ico_step _ i m (by omega)]
    unfold RollSumParallel.body
    by_cases hv : notNA p (i - m) j
    · rw [if_pos hv, if_pos hv, Finset.card_insert_of_not_mem (not_mem_filter_Ico _ i m (by omega)),
        Finset.sum_insert (not_mem_filter_Ico _ i m (by omega)), toLD_of_not_isnan hv.2]
      have h3 : p.n - m - 1 = p.n - 1 - (i - (i - m)) := by omega
      simp only [LD.fin_add_fin, LD.fin_mul_fin, h3]
      simp only [RollSumParallel.State.mk.injEq]
      exact ⟨by push_cast; ring, by rw [add_comm]⟩
    · rw [if_neg hv, if_neg hv]

/-! ## Worker loops -/

theorem Mat_set_apply (m : Mat α) (i j : ℕ) (v : Cell α) (a b : ℕ) :
    m.set i j v a b = if a = i ∧ b = j then v else m a b := rfl

theorem Cube_set_apply (c : Cube α) (j k i : ℕ) (v : Cell α) (a b t : ℕ) :
    c.set j k i v a b t = if a = j ∧ b = k ∧ t = i then v else c a b t := rfl

theorem onlineRows_loop {σ : Type} (step : ℕ → σ → σ) (emit : ℕ → σ → Cell α) (init : σ)
    (j : ℕ) (dst : Mat α) (n : ℕ) :
    forLoop 0 n (fun i (r : σ × Mat α) => (step i r.1, r.2.set i j (emit i (step i r.1))))
        (init, dst) =
      (onlineState step init n,
        fun a b => if a < n ∧ b = j then emit a (onlineState step init (a + 1)) else dst a b) := by
  induction n with
  | zero => simp [forLoop_empty, onlineState]
  | succ n ih =>
    rw [forLoop_succ 0 n (Nat.zero_le n), ih]
    simp only [onlineState, Prod.mk.injEq, true_and]
    funext a b
    rw [Mat_set_apply]
    by_cases h : a = n ∧ b = j
    · rw [if_pos h, if_pos ⟨by omega, h.2⟩, h.1]
    · rw [if_neg h]
      by_cases h2 : a < n ∧ b = j
      · rw [if_pos h2, if_pos ⟨by omega, h2.2⟩]
      · rw [if_neg h2, if_neg (by omega)]

theorem onlineRows_apply {σ : Type} (step : ℕ → σ → σ) (emit : ℕ → σ → Cell α) (init : σ)
    (n_rows j : ℕ) (dst : Mat α) (a b : ℕ) :
    onlineRows step emit init n_rows j dst a b =
      if a < n_rows ∧ b = j then emit a (onlineState step init (a + 1)) else dst a b := by
  unfold onlineRows
  rw [onlineRows_loop]

theorem onlineWorker_apply {σ : Type} (step : ℕ → ℕ → σ → σ) (emit : ℕ → ℕ → σ → Cell α)
    (init : σ) (n_rows begin_col end_col : ℕ) (h : begin_col ≤ end_col) (dst : Mat α)
    (a b : ℕ) :
    onlineWorker step emit init n_rows begin_col end_col dst a b =
      if a < n_rows ∧ begin_col ≤ b ∧ b < end_col then
        emit b a (onlineState (step b) init (a + 1))
      else dst a b := by
  unfold onlineWorker
  induction end_col, h using Nat.le_induction generalizing a b with
  | base => rw [forLoop_empty _ _ (le_refl _), if_neg (by omega)]
  | succ e he ih =>
    rw [forLoop_succ _ _ he, onlineRows_apply, ih]
    by_cases h1 : a < n_rows ∧ b = e
    · rw [if_pos h1, if_pos ⟨h1.1, by omega, by omega⟩, h1.2]
    · rw [if_neg h1]
      by_cases h2 : a < n_rows ∧ begin_col ≤ b ∧ b < e
      · rw [if_pos h2, if_pos ⟨h2.1, h2.2.1, by omega⟩]
      · rw [if_neg h2, if_neg (by omega)]

theorem parallelWorker_apply (cell : ℕ → ℕ → Cell α) (n_cols begin_index end_index : ℕ)
    (hn : 0 < n_cols) (h : begin_index ≤ end_index) (dst : Mat α) (a b : ℕ) :
    parallelWorker cell n_cols begin_index end_index dst a b =
      if b < n_cols ∧ begin_index ≤ a * n_cols + b ∧ a * n_cols + b < end_index then cell a b
      else dst a b := by
  unfold parallelWorker
  induction end_index, h using Nat.le_induction generalizing a b with
  | base => rw [forLoop_empty _ _ (le_refl _), if_neg (by omega)]
  | succ e he ih =>
    rw [forLoop_succ _ _ he, Mat_set_apply]
    have key : (a = e / n_cols ∧ b = e % n_cols) ↔ (b < n_cols ∧ a * n_cols + b = e) := by
      constructor
      · rintro ⟨h1, h2⟩
        refine ⟨h2 ▸ Nat.mod_lt _ hn, ?_⟩
        rw [h1, h2, mul_comm]; exact Nat.div_add_mod e n_cols
      · rintro ⟨h1, h2⟩
        subst h2
        constructor
        · rw [Nat.add_comm, Nat.add_mul_div_right _ _ hn, Nat.div_eq_of_lt h1, zero_add]
        · rw [Nat.add_comm, Nat.add_mul_mod_self_right, Nat.mod_eq_of_lt h1]
    by_cases h1 : a = e / n_cols ∧ b = e % n_cols
    · rw [if_pos h1]
      have h2 := key.1 h1
      rw [if_pos ⟨h2.1, by omega, by omega⟩, h1.1, h1.2]
    · rw [if_neg h1, ih]
      have h2 : ¬ (b < n_cols ∧ a * n_cols + b = e) := fun hh => h1 (key.2 hh)
      by_cases h3 : b < n_cols ∧ begin_index ≤ a * n_cols + b ∧ a * n_cols + b < e
      · rw [if_pos h3, if_pos ⟨h3.1, h3.2.1, by omega⟩]
      · rw [if_neg h3, if_neg (by omega)]

/-- A matrix worker that iterates by column, run over `[0, n_cols_x)`, leaves `cell`. -/
theorem onlineWorker_full {σ : Type} (step : ℕ → ℕ → σ → σ) (emit : ℕ → ℕ → σ → Cell α)
    (init : σ) (n_rows n_cols : ℕ) (dst : Mat α) (i j : ℕ) (hi : i < n_rows) (hj : j < n_cols) :
    onlineWorker step emit init n_rows 0 n_cols dst i j =
      emit j i (onlineState (step j) init (i + 1)) := by
  rw [onlineWorker_apply _ _ _ _ _ _ (Nat.zero_le _), if_pos ⟨hi, Nat.zero_le _, hj⟩]

theorem parallelWorker_full (cell : ℕ → ℕ → Cell α) (n_rows n_cols : ℕ) (dst : Mat α)
    (i j : ℕ) (hi : i < n_rows) (hj : j < n_cols) :
    parallelWorker cell n_cols 0 (n_rows * n_cols) dst i j = cell i j := by
  rw [parallelWorker_apply _ _ _ _ (by omega) (Nat.zero_le _), if_pos]
  refine ⟨hj, Nat.zero_le _, ?_⟩
  calc i * n_cols + j < i * n_cols + n_cols := by omega
    _ = (i + 1) * n_cols := by ring
    _ ≤ n_rows * n_cols := Nat.mul_le_mul_right _ hi


/-! ## The direct variance engine -/

theorem LD_div_nonfin (a : LD α) : a / LD.nonfin = LD.nonfin := by cases a <;> rfl
theorem LD_nonfin_div (a : LD α) : LD.nonfin / a = LD.nonfin := by cases a <;> rfl
theorem LD_sub_nonfin (a : LD α) : a - LD.nonfin = LD.nonfin := by cases a <;> rfl
theorem LD_fin_div_zero (a : α) : (LD.fin a / LD.fin 0 : LD α) = LD.nonfin := by
  rw [LD.fin_div_fin, if_pos rfl]

theorem RollVarParallel_mean_foldl (p : Args α) (i j : ℕ) :
    ∀ m, m ≤ i + 1 →
      (List.range m).foldl (fun s c => RollVarParallel.meanBody p i j c s) ⟨0, 0⟩ =
        ⟨LD.fin (∑ r in (Finset.Ico (i + 1 - m) (i + 1)).filter (fun r => notNA p r j),
            p.arma_weights (p.n - 1 - (i - r))),
          LD.fin (∑ r in (Finset.Ico (i + 1 - m) (i + 1)).filter (fun r => notNA p r j),
            p.arma_weights (p.n - 1 - (i - r)) * (p.x r j).get)⟩ := by
  intro m
  induction m with
  | zero => intro _; simp [LD.zero_def]
  | succ m ih =>
    intro hm
    rw [foldl_range_succ, ih (by omega), filter_Ico_step _ i m (by omega)]
    unfold RollVarParallel.meanBody
    by_cases hv : notNA p (i - m) j
    · rw [if_pos hv, if_pos hv, Finset.sum_insert (not_mem_filter_Ico _ i m (by omega)),
        Finset.sum_insert (not_mem_filter_Ico _ i m (by omega)), toLD_of_not_isnan hv.2]
      have h3 : p.n - m - 1 = p.n - 1 - (i - (i - m)) := by omega
      simp only [LD.fin_add_fin, LD.fin_mul_fin, h3, RollVarParallel.MeanState.mk.injEq]
      exact ⟨by rw [add_comm], by rw [add_comm]⟩
    · rw [if_neg hv, if_neg hv]

theorem RollVarParallel_mean_x_eq (p : Args α) (i j : ℕ) :
    RollVarParallel.mean_x p i j =
      if p.center = true then
        LD.fin (∑ r in validRows p i j, p.arma_weights (p.n - 1 - (i - r)) * (p.x r j).get) /
          LD.fin (∑ r in validRows p i j, p.arma_weights (p.n - 1 - (i - r)))
      else 0 := by
  unfold RollVarParallel.mean_x
  by_cases hc : p.center = true
  · simp only [if_pos hc]
    rw [whileWindow_eq_foldl, RollVarParallel_mean_foldl p i j _ (by omega), ← validRows_eq]
  · simp only [if_neg hc]

theorem RollVarParallel_foldl (p : Args α) (mx : LD α) (i j : ℕ) :
    ∀ m, m ≤ i + 1 →
      ∃ sx : LD α,
        (List.range m).foldl (fun s c => RollVarParallel.body p mx i j c s) ⟨0, 0, 0, 0⟩ =
          ⟨(((Finset.Ico (i + 1 - m) (i + 1)).filter (fun r => notNA p r j)).card : ℤ),
            LD.fin (∑ r in (Finset.Ico (i + 1 - m) (i + 1)).filter (fun r => notNA p r j),
              p.arma_weights (p.n - 1 - (i - r))),
            LD.fin (∑ r in (Finset.Ico (i + 1 - m) (i + 1)).filter (fun r => notNA p r j),
              p.arma_weights (p.n - 1 - (i - r)) ^ 2),
            sx⟩ ∧
        ∀ mu : α, (p.center = true → mx = LD.fin mu) → (p.center = false → mu = 0) →
          sx = LD.fin (∑ r in (Finset.Ico (i + 1 - m) (i + 1)).filter (fun r => notNA p r j),
              p.arma_weights (p.n - 1 - (i - r)) * ((p.x r j).get - mu) ^ 2) := by
  intro m
  induction m with
  | zero => intro _; exact ⟨0, by simp [LD.zero_def], by intro mu _ _; simp [LD.zero_def]⟩
  | succ m ih =>
    intro hm
    obtain ⟨sx, h1, h2⟩ := ih (by omega)
    rw [foldl_range_succ, h1, filter_Ico_step _ i m (by omega)]
    unfold RollVarParallel.body
    by_cases hv : notNA p (i - m) j
    · simp only [if_pos hv]
      rw [Finset.card_insert_of_not_mem (not_mem_filter_Ico _ i m (by omega)),
        Finset.sum_insert (not_mem_filter_Ico _ i m (by omega)),
        Finset.sum_insert (not_mem_filter_Ico _ i m (by omega)),
        toLD_of_not_isnan hv.2]
      have h3 : p.n - m - 1 = p.n - 1 - (i - (i - m)) := by omega
      refine ⟨if p.center = true then
          sx + LD.fin (p.arma_weights (p.n - m - 1)) * LD.pow2 (LD.fin (p.x (i - m) j).get - mx)
        else sx + LD.fin (p.arma_weights (p.n - m - 1)) * LD.pow2 (LD.fin (p.x (i - m) j).get),
        ?_, ?_⟩
      · simp only [LD.fin_add_fin, LD.fin_mul_fin, LD.pow2_fin, h3, RollVarParallel.State.mk.injEq]
        refine ⟨by push_cast; ring, by rw [add_comm], by rw [add_comm, sq], trivial⟩
      · intro mu hc hnc
        rw [Finset.sum_insert (not_mem_filter_Ico _ i m (by omega)), h2 mu hc hnc]
        by_cases hcen : p.center = true
        · rw [if_pos hcen, hc hcen]
          simp only [LD.fin_add_fin, LD.fin_mul_fin, LD.fin_sub_fin, LD.pow2_fin, h3]
          congr 1; ring
        · rw [if_neg hcen]
          have : mu = 0 := hnc (by simpa using hcen)
          subst this
          simp only [LD.fin_add_fin, LD.fin_mul_fin, LD.fin_sub_fin, LD.pow2_fin, h3]
          congr 1; ring
    · simp only [if_neg hv]
      exact ⟨sx, rfl, h2⟩


theorem LD_div_zero_den (a : LD α) (q : α) :
    a / (LD.fin (0 : α) - LD.fin q / LD.fin 0) = LD.nonfin := by
  rw [LD_fin_div_zero, LD_sub_nonfin, LD_div_nonfin]

/-! ## The mean engines under uniform weights -/

theorem RollMeanParallel_foldl (p : Args α) (i j : ℕ) :
    ∀ m, m ≤ i + 1 →
      (List.range m).foldl (fun s c => RollMeanParallel.body p i j c s) ⟨0, 0, 0⟩ =
        ⟨(((Finset.Ico (i + 1 - m) (i + 1)).filter (fun r => notNA p r j)).card : ℤ),
          LD.fin (∑ r in (Finset.Ico (i + 1 - m) (i + 1)).filter (fun r => notNA p r j),
            p.arma_weights (p.n - 1 - (i - r))),
          LD.fin (∑ r in (Finset.Ico (i + 1 - m) (i + 1)).filter (fun r => notNA p r j),
            p.arma_weights (p.n - 1 - (i - r)) * (p.x r j).get)⟩ := by
  intro m
  induction m with
  | zero => intro _; simp [LD.zero_def]
  | succ m ih =>
    intro hm
    rw [foldl_range_succ, ih (by omega), filter_Ico_step _ i m (by omega)]
    unfold RollMeanParallel.body
    by_cases hv : notNA p (i - m) j
    · rw [if_pos hv, if_pos hv, Finset.card_insert_of_not_mem (not_mem_filter_Ico _ i m (by omega)),
        Finset.sum_insert (not_mem_filter_Ico _ i m (by omega)),
        Finset.sum_insert (not_mem_filter_Ico _ i m (by omega)), toLD_of_not_isnan hv.2]
      have h3 : p.n - m - 1 = p.n - 1 - (i - (i - m)) := by omega
      simp only [LD.fin_add_fin, LD.fin_mul_fin, h3, RollMeanParallel.State.mk.injEq]
      exact ⟨by push_cast; ring, by rw [add_comm], by rw [add_comm]⟩
    · rw [if_neg hv, if_neg hv]

/-- The direct mean, in closed form. -/
theorem RollMeanParallel_cell_eq (p : Args α) (i j : ℕ) (hc : compute p i j) :
    RollMeanParallel.cell p i j =
      if ((validRows p i j).card : ℤ) ≥ p.min_obs then
        (LD.fin (∑ r in validRows p i j, p.arma_weights (p.n - 1 - (i - r)) * (p.x r j).get) /
          LD.fin (∑ r in validRows p i j, p.arma_weights (p.n - 1 - (i - r)))).toCell
      else Cell.NA := by
  unfold RollMeanParallel.cell
  rw [if_pos hc, whileWindow_eq_foldl, RollMeanParallel_foldl p i j _ (by omega), ← validRows_eq]

/-- With no missing value and a zero mask up to row `i`, every row of the window is valid. -/
theorem validRows_eq_window (p : Args α) (i j : ℕ) (h : ∀ r ≤ i, notNA p r j) :
    validRows p i j = window p i := by
  unfold validRows
  apply Finset.filter_true_of_mem
  intro r hr
  exact h r (by unfold window at hr; simp only [Finset.mem_Icc] at hr; exact hr.2)

theorem window_of_le (p : Args α) (i : ℕ) (h : i < p.width) : window p i = Finset.range (i + 1) := by
  unfold window
  have : i + 1 - p.width = 0 := by omega
  rw [this]
  ext r
  simp only [Finset.mem_Icc, Finset.mem_range]
  omega

/-- Online mean, uniform weights, expanding regime, no missing values: the accumulators. -/
theorem RollMeanOnline_uniform_state (p : Args α) (c : α) (hc : c ≠ 0)
    (hw : ∀ k < p.n, p.arma_weights k = c) (hwn : p.width ≤ p.n) (j : ℕ) :
    ∀ t, t ≤ p.width → (∀ r < t, notNA p r j) →
      onlineState (RollMeanOnline.step p j) RollMeanOnline.init t =
        ⟨(t : ℤ), LD.fin (c * t), LD.fin (c * ∑ r in Finset.range t, (p.x r j).get)⟩ := by
  intro t
  induction t with
  | zero => intro _ _; simp [onlineState, RollMeanOnline.init, LD.zero_def]
  | succ t ih =>
    intro ht hv
    rw [onlineState, ih (by omega) (fun r hr => hv r (by omega))]
    have hvt : notNA p t j := hv t (by omega)
    have hnt : ¬ isNA p t j := (notNA_iff_not_isNA p t j).1 hvt
    have hw1 : p.arma_weights (p.n - 1) = c := hw _ (by omega)
    have hl : lambda p = LD.fin 1 ∨ (t = 0 ∧ lambda p = LD.fin c) := by
      unfold lambda
      by_cases h1 : p.width > 1
      · left
        rw [if_pos h1, hw _ (by omega : p.n - 2 < p.n), hw1, LD.fin_div_fin_of_ne _ hc,
          div_self hc]
      · right
        rw [if_neg h1, hw1]
        exact ⟨by omega, rfl⟩
    unfold RollMeanOnline.step
    simp only [if_pos (by omega : t < p.width), if_pos hvt, if_neg hnt, hw1,
      toLD_of_not_isnan hvt.2, Finset.sum_range_succ]
    rcases hl with hl | ⟨h0, hl⟩
    · rw [hl]
      simp only [LD.fin_mul_fin, LD.fin_add_fin, RollMeanOnline.State.mk.injEq]
      refine ⟨by push_cast; ring, ?_, ?_⟩ <;> (congr 1; push_cast; ring)
    · rw [hl]
      subst h0
      simp only [LD.fin_mul_fin, LD.fin_add_fin, RollMeanOnline.State.mk.injEq]
      refine ⟨by simp, ?_, ?_⟩ <;> simp

/-- Online mean, uniform weights, expanding regime, no missing values: the stored cell. -/
theorem RollMeanOnline_uniform_cell (p : Args α) (c : α) (hc : c ≠ 0)
    (hw : ∀ k < p.n, p.arma_weights k = c) (hwn : p.width ≤ p.n) (i j : ℕ)
    (hi : i < p.width) (hv : ∀ r ≤ i, notNA p r j) :
    RollMeanOnline.cell p i j =
      if ((i : ℤ) + 1) ≥ p.min_obs then
        Cell.val ((∑ r in Finset.range (i + 1), (p.x r j).get) / ((i : α) + 1))
      else Cell.NA := by
  unfold RollMeanOnline.cell
  rw [RollMeanOnline_uniform_state p c hc hw hwn j (i + 1) (by omega)
    (fun r hr => hv r (by omega))]
  have hcomp : compute p i j := by
    unfold compute
    rcases Bool.eq_false_or_eq_true p.na_restore with h | h
    · exact Or.inr ⟨h, (hv i (le_refl i)).2⟩
    · exact Or.inl h
  have hne : c * ((i + 1 : ℕ) : α) ≠ 0 := mul_ne_zero hc (by positivity)
  unfold RollMeanOnline.emit
  simp only [if_pos hcomp, LD.fin_div_fin_of_ne _ hne, LD.toCell_fin]
  push_cast
  congr 2
  rw [mul_div_mul_left _ _ hc]

/-- Direct mean, uniform weights, expanding regime, no missing values: the stored cell. -/
theorem RollMeanParallel_uniform_cell (p : Args α) (c : α) (hc : c ≠ 0)
    (hw : ∀ k < p.n, p.arma_weights k = c) (hwn : p.width ≤ p.n) (i j : ℕ)
    (hi : i < p.width) (hv : ∀ r ≤ i, notNA p r j) :
    RollMeanParallel.cell p i j =
      if ((i : ℤ) + 1) ≥ p.min_obs then
        Cell.val ((∑ r in Finset.range (i + 1), (p.x r j).get) / ((i : α) + 1))
      else Cell.NA := by
  have hcomp : compute p i j := by
    unfold compute
    rcases Bool.eq_false_or_eq_true p.na_restore with h | h
    · exact Or.inr ⟨h, (hv i (le_refl i)).2⟩
    · exact Or.inl h
  rw [RollMeanParallel_cell_eq p i j hcomp, validRows_eq_window p i j hv, window_of_le p i hi]
  have hws : ∀ r ∈ Finset.range (i + 1), p.arma_weights (p.n - 1 - (i - r)) = c :=
    fun r _ => hw _ (by omega)
  have h1 : ∑ r in Finset.range (i + 1), p.arma_weights (p.n - 1 - (i - r)) * (p.x r j).get =
      c * ∑ r in Finset.range (i + 1), (p.x r j).get := by
    rw [Finset.mul_sum]
    exact Finset.sum_congr rfl (fun r hr => by rw [hws r hr])
  have h2 : ∑ r in Finset.range (i + 1), p.arma_weights (p.n - 1 - (i - r)) = c * ((i : α) + 1) := by
    rw [Finset.sum_congr rfl hws]
    simp [mul_comm]
  have hne : c * ((i : α) + 1) ≠ 0 := mul_ne_zero hc (by positivity)
  rw [h1, h2, LD.fin_div_fin_of_ne _ hne, Finset.card_range, mul_div_mul_left _ _ hc]
  push_cast
  rfl


/-! ## Concrete runs -/

/-! ### mean scenario -/
theorem exMean_state1 : onlineState (RollMeanOnline.step exMean 0) RollMeanOnline.init 1 =
    ⟨1, LD.fin 1, LD.fin 1⟩ := by
  simp [onlineState, RollMeanOnline.step, RollMeanOnline.init, exMean, column, vector, lambda,
    isNA, notNA, Cell.isnan, Cell.toLD, LD.zero_def, LD.fin_div_fin]

theorem exMean_state2 : onlineState (RollMeanOnline.step exMean 0) RollMeanOnline.init 2 =
    ⟨2, LD.fin 2, LD.fin 3⟩ := by
  rw [onlineState, exMean_state1]
  simp [RollMeanOnline.step, exMean, column, vector, lambda,
    isNA, notNA, Cell.isnan, Cell.toLD, LD.zero_def, LD.fin_div_fin]
  norm_num

theorem exMean_state3 : onlineState (RollMeanOnline.step exMean 0) RollMeanOnline.init 3 =
    ⟨3, LD.fin 3, LD.fin 6⟩ := by
  rw [onlineState, exMean_state2]
  simp [RollMeanOnline.step, exMean, column, vector, lambda,
    isNA, notNA, Cell.isnan, Cell.toLD, LD.zero_def, LD.fin_div_fin]
  norm_num

theorem exMean_state4 : onlineState (RollMeanOnline.step exMean 0) RollMeanOnline.init 4 =
    ⟨3, LD.fin 3, LD.fin 9⟩ := by
  rw [onlineState, exMean_state3]
  simp [RollMeanOnline.step, exMean, column, vector, lambda,
    isNA, notNA, Cell.isnan, Cell.toLD, LD.zero_def, LD.fin_div_fin]
  norm_num

theorem exMean_state5 : onlineState (RollMeanOnline.step exMean 0) RollMeanOnline.init 5 =
    ⟨3, LD.fin 3, LD.fin 12⟩ := by
  rw [onlineState, exMean_state4]
  simp [RollMeanOnline.step, exMean, column, vector, lambda,
    isNA, notNA, Cell.isnan, Cell.toLD, LD.zero_def, LD.fin_div_fin]
  norm_num

theorem exMean_online : (List.range 5).map (fun i => RollMeanOnline.cell exMean i 0) =
    [Cell.val 1, Cell.val (3 / 2), Cell.val 2, Cell.val 3, Cell.val 4] := by
  simp only [List.range_succ, List.range_zero, List.nil_append, List.cons_append, List.map,
    RollMeanOnline.cell, zero_add, Nat.reduceAdd, exMean_state1, exMean_state2, exMean_state3,
    exMean_state4, exMean_state5]
  simp [RollMeanOnline.emit, compute, exMean, LD.fin_div_fin]
  norm_num

theorem exMean_parallel : (List.range 5).map (fun i => RollMeanParallel.cell exMean i 0) =
    [Cell.val 1, Cell.val (3 / 2), Cell.val 2, Cell.val 3, Cell.val 4] := by
  simp [List.range_succ, RollMeanParallel.cell, RollMeanParallel.body, whileWindow, whileWindow.go,
    exMean, column, vector, compute, isNA, notNA, Cell.isnan, Cell.toLD, LD.zero_def,
    LD.fin_div_fin]
  norm_num


/-! ### sum scenario -/
theorem exSum_state1 : onlineState (RollSumOnline.step exSum 0) RollSumOnline.init 1 =
    ⟨1, LD.fin 1⟩ := by
  simp [onlineState, RollSumOnline.step, RollSumOnline.init, exSum, column, vector, lambda,
    isNA, notNA, Cell.isnan, Cell.toLD, LD.zero_def, LD.fin_div_fin]

theorem exSum_state2 : onlineState (RollSumOnline.step exSum 0) RollSumOnline.init 2 =
    ⟨2, LD.fin 3⟩ := by
  rw [onlineState, exSum_state1]
  simp [RollSumOnline.step, exSum, column, vector, lambda,
    isNA, notNA, Cell.isnan, Cell.toLD, LD.zero_def, LD.fin_div_fin]
  norm_num

theorem exSum_state3 : onlineState (RollSumOnline.step exSum 0) RollSumOnline.init 3 =
    ⟨1, LD.fin 2⟩ := by
  rw [onlineState, exSum_state2]
  simp [RollSumOnline.step, exSum, column, vector, lambda,
    isNA, notNA, Cell.isnan, Cell.toLD, LD.zero_def, LD.fin_div_fin]
  norm_num

theorem exSum_state4 : onlineState (RollSumOnline.step exSum 0) RollSumOnline.init 4 =
    ⟨1, LD.fin 4⟩ := by
  rw [onlineState, exSum_state3]
  simp [RollSumOnline.step, exSum, column, vector, lambda,
    isNA, notNA, Cell.isnan, Cell.toLD, LD.zero_def, LD.fin_div_fin]

theorem exSum_online : RollSumOnline.cell exSum 1 0 = Cell.val 3 ∧
    RollSumOnline.cell exSum 2 0 = Cell.NA ∧ RollSumOnline.cell exSum 3 0 = Cell.NA := by
  simp only [RollSumOnline.cell, zero_add, Nat.reduceAdd, exSum_state2, exSum_state3,
    exSum_state4]
  simp [RollSumOnline.emit, compute, exSum]

theorem exSum_parallel : RollSumParallel.cell exSum 1 0 = Cell.val 3 ∧
    RollSumParallel.cell exSum 2 0 = Cell.NA ∧ RollSumParallel.cell exSum 3 0 = Cell.NA := by
  simp [RollSumParallel.cell, RollSumParallel.body, whileWindow, whileWindow.go,
    exSum, column, vector, compute, isNA, notNA, Cell.isnan, Cell.toLD, LD.zero_def]
  norm_num

/-! ### variance with a weight vector longer than the window -/
theorem exVar_lambda : lambda exVar = LD.fin (1 / 2) := by
  simp [lambda, exVar, vector, LD.fin_div_fin]

theorem exVar_state1 : onlineState (RollVarOnline.step exVar 0) RollVarOnline.init 1 =
    ⟨1, LD.fin 1, LD.fin 1, LD.fin 1, LD.fin 0, LD.fin 0, LD.fin 1⟩ := by
  simp [onlineState, RollVarOnline.step, RollVarOnline.init, exVar_lambda]
  simp [exVar, column, vector, isNA, notNA, Cell.isnan, Cell.toLD, LD.zero_def, LD.fin_div_fin]

theorem exVar_state2 : onlineState (RollVarOnline.step exVar 0) RollVarOnline.init 2 =
    ⟨2, LD.fin (3 / 2), LD.fin (5 / 2), LD.fin (5 / 4), LD.fin (1 / 3), LD.fin 1,
      LD.fin (5 / 3)⟩ := by
  rw [onlineState, exVar_state1]
  simp [RollVarOnline.step, exVar_lambda]
  simp [exVar, column, vector, isNA, notNA, Cell.isnan, Cell.toLD, LD.zero_def, LD.fin_div_fin]
  norm_num

theorem exVar_state3 : onlineState (RollVarOnline.step exVar 0) RollVarOnline.init 3 =
    ⟨2, LD.fin (13 / 8), LD.fin (33 / 8), LD.fin (83 / 64), LD.fin (17 / 26), LD.fin (5 / 3),
      LD.fin (33 / 13)⟩ := by
  rw [onlineState, exVar_state2]
  simp [RollVarOnline.step, exVar_lambda]
  simp [exVar, column, vector, isNA, notNA, Cell.isnan, Cell.toLD, LD.zero_def, LD.fin_div_fin]
  norm_num

theorem exVar_online : RollVarOnline.cell exVar 2 0 = Cell.val (34 / 43) := by
  simp only [RollVarOnline.cell, zero_add, Nat.reduceAdd, exVar_state3]
  simp [RollVarOnline.emit, compute, exVar, LD.fin_div_fin]
  norm_num

theorem exVar_parallel : RollVarParallel.cell exVar 2 0 = Cell.val (1 / 2) := by
  have hm : RollVarParallel.mean_x exVar 2 0 = LD.fin (8 / 3) := by
    simp [RollVarParallel.mean_x, RollVarParallel.meanBody, whileWindow, whileWindow.go,
      exVar, column, vector, notNA, Cell.isnan, Cell.toLD, LD.zero_def, LD.fin_div_fin]
    norm_num
  rw [RollVarParallel.cell, hm]
  simp [RollVarParallel.body, whileWindow, whileWindow.go,
    exVar, column, vector, compute, notNA, Cell.isnan, Cell.toLD, LD.zero_def, LD.fin_div_fin]
  norm_num [LD.fin_div_fin, LD.toCell]

/-! ## The whole-range run of a matrix worker stores `cell` -/

theorem RollSumOnline_operator_full (p : Args α) (dst : Mat α) (i j : ℕ)
    (hi : i < p.n_rows_x) (hj : j < p.n_cols_x) :
    RollSumOnline.operator p 0 p.n_cols_x dst i j = RollSumOnline.cell p i j :=
  onlineWorker_full _ _ _ _ _ dst i j hi hj

theorem RollSumParallel_operator_full (p : Args α) (dst : Mat α) (i j : ℕ)
    (hi : i < p.n_rows_x) (hj : j < p.n_cols_x) :
    RollSumParallel.operator p 0 (p.n_rows_x * p.n_cols_x) dst i j = RollSumParallel.cell p i j :=
  parallelWorker_full _ _ _ dst i j hi hj

theorem RollProdOnline_operator_full (p : Args α) (dst : Mat α) (i j : ℕ)
    (hi : i < p.n_rows_x) (hj : j < p.n_cols_x) :
    RollProdOnline.operator p 0 p.n_cols_x dst i j = RollProdOnline.cell p i j :=
  onlineWorker_full _ _ _ _ _ dst i j hi hj

theorem RollProdParallel_operator_full (p : Args α) (dst : Mat α) (i j : ℕ)
    (hi : i < p.n_rows_x) (hj : j < p.n_cols_x) :
    RollProdParallel.operator p 0 (p.n_rows_x * p.n_cols_x) dst i j =
      RollProdParallel.cell p i j :=
  parallelWorker_full _ _ _ dst i j hi hj

theorem RollMeanOnline_operator_full (p : Args α) (dst : Mat α) (i j : ℕ)
    (hi : i < p.n_rows_x) (hj : j < p.n_cols_x) :
    RollMeanOnline.operator p 0 p.n_cols_x dst i j = RollMeanOnline.cell p i j :=
  onlineWorker_full _ _ _ _ _ dst i j hi hj

theorem RollMeanParallel_operator_full (p : Args α) (dst : Mat α) (i j : ℕ)
    (hi : i < p.n_rows_x) (hj : j < p.n_cols_x) :
    RollMeanParallel.operator p 0 (p.n_rows_x * p.n_cols_x) dst i j =
      RollMeanParallel.cell p i j :=
  parallelWorker_full _ _ _ dst i j hi hj

theorem RollVarOnline_operator_full (p : Args α) (dst : Mat α) (i j : ℕ)
    (hi : i < p.n_rows_x) (hj : j < p.n_cols_x) :
    RollVarOnline.operator p 0 p.n_cols_x dst i j = RollVarOnline.cell p i j :=
  onlineWorker_full _ _ _ _ _ dst i j hi hj

theorem RollVarParallel_operator_full (p : Args α) (dst : Mat α) (i j : ℕ)
    (hi : i < p.n_rows_x) (hj : j < p.n_cols_x) :
    RollVarParallel.operator p 0 (p.n_rows_x * p.n_cols_x) dst i j = RollVarParallel.cell p i j :=
  parallelWorker_full _ _ _ dst i j hi hj

theorem RollSdOnline_operator_full (m : Prim α) (p : Args α) (dst : Mat α) (i j : ℕ)
    (hi : i < p.n_rows_x) (hj : j < p.n_cols_x) :
    RollSdOnline.operator m p 0 p.n_cols_x dst i j = RollSdOnline.cell m p i j :=
  onlineWorker_full _ _ _ _ _ dst i j hi hj

theorem RollSdParallel_operator_full (m : Prim α) (p : Args α) (dst : Mat α) (i j : ℕ)
    (hi : i < p.n_rows_x) (hj : j < p.n_cols_x) :
    RollSdParallel.operator m p 0 (p.n_rows_x * p.n_cols_x) dst i j =
      RollSdParallel.cell m p i j :=
  parallelWorker_full _ _ _ dst i j hi hj

theorem RollScaleOnline_operator_full (m : Prim α) (p : Args α) (dst : Mat α) (i j : ℕ)
    (hi : i < p.n_rows_x) (hj : j < p.n_cols_x) :
    RollScaleOnline.operator m p 0 p.n_cols_x dst i j = RollScaleOnline.cell m p i j :=
  onlineWorker_full _ _ _ _ _ dst i j hi hj

theorem RollScaleParallel_operator_full (m : Prim α) (p : Args α) (dst : Mat α) (i j : ℕ)
    (hi : i < p.n_rows_x) (hj : j < p.n_cols_x) :
    RollScaleParallel.operator m p 0 (p.n_rows_x * p.n_cols_x) dst i j =
      RollScaleParallel.cell m p i j :=
  parallelWorker_full _ _ _ dst i j hi hj

/-- With `na_restore` set, a cell whose own input is missing is not computed. -/
theorem not_compute_of_restore (p : Args α) (i j : ℕ) (hr : p.na_restore = true)
    (hx : (p.x i j).isnan = true) : ¬ compute p i j := by
  unfold compute
  simp [hr, hx]

/-! ## The lower-triangle index -/

/-- The floor in `closedFormK` is the one of the exact square root. -/
theorem floor_sqrt_sub_one_half (d : ℕ) :
    ⌊(Real.sqrt (d : ℝ) - 1) / 2⌋ = ((Nat.sqrt d : ℤ) - 1) / 2 := by
  rw [Int.floor_eq_iff]
  have h1 : ((Nat.sqrt d : ℕ) : ℝ) ≤ Real.sqrt d := Real.nat_sqrt_le_real_sqrt
  have h2 : Real.sqrt (d : ℝ) < (Nat.sqrt d : ℝ) + 1 := Real.real_sqrt_lt_nat_sqrt_succ
  set s : ℤ := (Nat.sqrt d : ℤ) with hs
  have hsr : ((Nat.sqrt d : ℕ) : ℝ) = ((s : ℤ) : ℝ) := by rw [hs]; simp
  rw [hsr] at h1 h2
  have h3 : 2 * ((s - 1) / 2) ≤ s - 1 := by omega
  have h4 : s - 1 ≤ 2 * ((s - 1) / 2) + 1 := by omega
  have h3r : (2 : ℝ) * (((s - 1) / 2 : ℤ) : ℝ) ≤ (s : ℝ) - 1 := by exact_mod_cast h3
  have h4r : (s : ℝ) - 1 ≤ 2 * (((s - 1) / 2 : ℤ) : ℝ) + 1 := by exact_mod_cast h4
  constructor
  · linarith
  · linarith

/-- The column index decoded from the flattened index of the pair `k ≤ j < n_cols`. -/
theorem closedFormK_decode (n j k T U : ℕ) (hk : k ≤ j) (hj : j < n)
    (hT : n * (n + 1) = 2 * T) (hU : (n - k) * (n - k + 1) = 2 * U) :
    closedFormK n (T - U + (j - k)) = k := by
  have hTz : (n : ℤ) * ((n : ℤ) + 1) = 2 * T := by exact_mod_cast hT
  have hUz : ((n : ℤ) - k) * ((n : ℤ) - k + 1) = 2 * U := by
    have : ((n - k : ℕ) : ℤ) = (n : ℤ) - k := by omega
    rw [← this]; exact_mod_cast hU
  have hUT : (U : ℤ) ≤ T := by
    have : (n - k) * (n - k + 1) ≤ n * (n + 1) :=
      Nat.mul_le_mul (Nat.sub_le _ _) (by omega)
    omega
  have hz : ((T - U + (j - k) : ℕ) : ℤ) = (T : ℤ) - U + ((j : ℤ) - k) := by omega
  have hD : 4 * (n : ℤ) * ((n : ℤ) + 1) - (7 + 8 * ((T - U + (j - k) : ℕ) : ℤ)) =
      (2 * ((n : ℤ) - k) + 1) * (2 * ((n : ℤ) - k) + 1) - 8 * ((j : ℤ) - k + 1) := by
    rw [hz]; linear_combination 4 * hTz - 4 * hUz
  obtain ⟨m, hm⟩ : ∃ m : ℕ, (m : ℤ) = (n : ℤ) - k - 1 := ⟨n - k - 1, by omega⟩
  obtain ⟨r, hr⟩ : ∃ r : ℕ, (r : ℤ) = (j : ℤ) - k := ⟨j - k, by omega⟩
  have hrm : r ≤ m := by omega
  have h8 : 8 * (r + 1) ≤ (2 * m + 3) * (2 * m + 3) := by nlinarith
  have hDn : (4 * (n : ℤ) * ((n : ℤ) + 1) - (7 + 8 * ((T - U + (j - k) : ℕ) : ℤ))).toNat =
      (2 * m + 3) * (2 * m + 3) - 8 * (r + 1) := by
    rw [hD]
    have : (2 * ((n : ℤ) - k) + 1) * (2 * ((n : ℤ) - k) + 1) - 8 * ((j : ℤ) - k + 1) =
        (((2 * m + 3) * (2 * m + 3) - 8 * (r + 1) : ℕ) : ℤ) := by
      rw [Nat.cast_sub h8]; push_cast; rw [hm, hr]; ring
    rw [this, Int.toNat_natCast]
  have hs1 : 2 * m + 1 ≤ Nat.sqrt ((2 * m + 3) * (2 * m + 3) - 8 * (r + 1)) := by
    rw [Nat.le_sqrt]
    have : (2 * m + 1) * (2 * m + 1) + 8 * (r + 1) ≤ (2 * m + 3) * (2 * m + 3) := by nlinarith
    omega
  have hs2 : Nat.sqrt ((2 * m + 3) * (2 * m + 3) - 8 * (r + 1)) < 2 * m + 3 := by
    rw [Nat.sqrt_lt]
    have : 0 < (2 * m + 3) * (2 * m + 3) := by positivity
    omega
  unfold closedFormK
  rw [hDn]
  generalize Nat.sqrt ((2 * m + 3) * (2 * m + 3) - 8 * (r + 1)) = s at hs1 hs2
  omega

/-- Every pair `k ≤ j < n_cols` of the lower triangle is decoded from some `z_unique`. -/
theorem tri_decode (n j k : ℕ) (hk : k ≤ j) (hj : j < n) :
    ∃ z, z < n_unique n ∧ closedFormK n z = k ∧ closedFormJ n z = j := by
  obtain ⟨T, hT⟩ : ∃ T, n * (n + 1) = 2 * T := by
    obtain ⟨T, hT⟩ := Nat.even_mul_succ_self n
    exact ⟨T, by rw [hT]; ring⟩
  obtain ⟨U, hU⟩ : ∃ U, (n - k) * (n - k + 1) = 2 * U := by
    obtain ⟨U, hU⟩ := Nat.even_mul_succ_self (n - k)
    exact ⟨U, by rw [hU]; ring⟩
  obtain ⟨K, hK⟩ : ∃ K, k * (k + 1) = 2 * K := by
    obtain ⟨K, hK⟩ := Nat.even_mul_succ_self k
    exact ⟨K, by rw [hK]; ring⟩
  have hnu : n_unique n = T := by
    unfold n_unique; rw [hT]; omega
  have hTz : (n : ℤ) * ((n : ℤ) + 1) = 2 * T := by exact_mod_cast hT
  have hUz : ((n : ℤ) - k) * ((n : ℤ) - k + 1) = 2 * U := by
    have : ((n - k : ℕ) : ℤ) = (n : ℤ) - k := by omega
    rw [← this]; exact_mod_cast hU
  have hKz : (k : ℤ) * ((k : ℤ) + 1) = 2 * K := by exact_mod_cast hK
  have hUT : (U : ℤ) ≤ T := by
    have : (n - k) * (n - k + 1) ≤ n * (n + 1) :=
      Nat.mul_le_mul (Nat.sub_le _ _) (by omega)
    omega
  have hUm : (n : ℤ) - k ≤ U := by
    have h1 : 1 ≤ (n : ℤ) - k := by omega
    nlinarith
  have hz : ((T - U + (j - k) : ℕ) : ℤ) = (T : ℤ) - U + ((j : ℤ) - k) := by omega
  have hKk := closedFormK_decode n j k T U hk hj hT hU
  refine ⟨T - U + (j - k), by rw [hnu]; omega, hKk, ?_⟩
  unfold closedFormJ
  rw [hKk, hKz, Int.mul_ediv_cancel_left _ (by norm_num : (2 : ℤ) ≠ 0), hz]
  have h2 : 2 * ((T : ℤ) - U + K) = 2 * ((n : ℤ) * k + k) := by
    linear_combination hUz - hTz - hKz
  have h3 : (T : ℤ) - U + K = (n : ℤ) * k + k := by linarith
  linarith

/-! ## Covariance workers: what the loops leave in the tensor -/

/-- A store followed by the mirror store. -/
theorem Cube_mirror_apply (d : Cube α) (J K I : ℕ) (v : Cell α) (a b t : ℕ) :
    ((d.set J K I v).set K J I ((d.set J K I v) J K I)) a b t =
      if t = I ∧ ((a = J ∧ b = K) ∨ (a = K ∧ b = J)) then v else d a b t := by
  simp only [Cube_set_apply]
  by_cases h1 : t = I
  · subst h1
    by_cases h2 : a = K ∧ b = J
    · simp [h2]
    · by_cases h3 : a = J ∧ b = K
      · simp [h3]
      · have h4 : ¬ (a = K ∧ b = J ∧ t = t) := fun h => h2 ⟨h.1, h.2.1⟩
        have h5 : ¬ (a = J ∧ b = K ∧ t = t) := fun h => h3 ⟨h.1, h.2.1⟩
        rw [if_neg h4, if_neg h5, if_neg (by tauto)]
  · have h4 : ¬ (a = K ∧ b = J ∧ t = I) := fun h => h1 h.2.2
    have h5 : ¬ (a = J ∧ b = K ∧ t = I) := fun h => h1 h.2.2
    rw [if_neg h4, if_neg h5, if_neg (fun h => h1 h.1)]

theorem onlineSlices_loop {σ : Type} (step : ℕ → σ → σ) (emit : ℕ → σ → Cell α) (init : σ)
    (j k : ℕ) (dst : Cube α) (n : ℕ) :
    forLoop 0 n (fun i (r : σ × Cube α) =>
        (step i r.1, ((r.2.set j k i (emit i (step i r.1))).set k j i
          ((r.2.set j k i (emit i (step i r.1))) j k i)))) (init, dst) =
      (onlineState step init n,
        fun a b t => if t < n ∧ ((a = j ∧ b = k) ∨ (a = k ∧ b = j)) then
          emit t (onlineState step init (t + 1)) else dst a b t) := by
  induction n with
  | zero => simp [forLoop_empty, onlineState]
  | succ n ih =>
    rw [forLoop_succ 0 n (Nat.zero_le n), ih]
    simp only [onlineState, Prod.mk.injEq, true_and]
    funext a b t
    rw [Cube_mirror_apply]
    by_cases h1 : t = n ∧ ((a = j ∧ b = k) ∨ (a = k ∧ b = j))
    · rw [if_pos h1, if_pos ⟨by omega, h1.2⟩, h1.1]
    · rw [if_neg h1]
      by_cases h6 : t < n ∧ ((a = j ∧ b = k) ∨ (a = k ∧ b = j))
      · rw [if_pos h6, if_pos ⟨by omega, h6.2⟩]
      · rw [if_neg h6, if_neg]
        intro h
        have : t = n ∨ t < n := by omega
        tauto

theorem onlineSlices_apply {σ : Type} (step : ℕ → σ → σ) (emit : ℕ → σ → Cell α) (init : σ)
    (n_rows j k : ℕ) (dst : Cube α) (a b t : ℕ) :
    onlineSlices step emit init n_rows j k dst a b t =
      if t < n_rows ∧ ((a = j ∧ b = k) ∨ (a = k ∧ b = j)) then
        emit t (onlineState step init (t + 1)) else dst a b t := by
  unfold onlineSlices
  rw [onlineSlices_loop]

/-- The inner loop `for (k = 0; k <= j; k++)` of a covariance worker, stopped at `K`. -/
theorem onlineCube_inner {σ : Type} (step : ℕ → ℕ → ℕ → σ → σ)
    (emit : ℕ → ℕ → ℕ → σ → Cell α) (init : σ) (n_rows j : ℕ) (dst : Cube α) :
    ∀ K, K ≤ j + 1 → ∀ a b t,
      forLoop 0 K (fun k d => onlineSlices (step j k) (emit j k) init n_rows j k d) dst a b t =
        if t < n_rows ∧ max a b = j ∧ min a b < K then
          emit j (min a b) t (onlineState (step j (min a b)) init (t + 1))
        else dst a b t := by
  intro K
  induction K with
  | zero => intro _ a b t; rw [forLoop_empty _ _ (le_refl _), if_neg (by omega)]
  | succ K ih =>
    intro hK a b t
    rw [forLoop_succ _ _ (Nat.zero_le _), onlineSlices_apply, ih (by omega)]
    by_cases h1 : t < n_rows ∧ ((a = j ∧ b = K) ∨ (a = K ∧ b = j))
    · have hmax : max a b = j := by rcases h1.2 with h | h <;> omega
      have hmin : min a b = K := by rcases h1.2 with h | h <;> omega
      rw [if_pos h1, if_pos ⟨h1.1, hmax, by omega⟩, hmin]
    · rw [if_neg h1]
      by_cases h2 : t < n_rows ∧ max a b = j ∧ min a b < K
      · rw [if_pos h2, if_pos ⟨h2.1, h2.2.1, by omega⟩]
      · rw [if_neg h2, if_neg]
        intro h
        apply h1
        refine ⟨h.1, ?_⟩
        have : min a b = K := by omega
        omega

/-- What a covariance worker that iterates by column leaves in the tensor. -/
theorem onlineCubeWorker_apply {σ : Type} (step : ℕ → ℕ → ℕ → σ → σ)
    (emit : ℕ → ℕ → ℕ → σ → Cell α) (init : σ) (n_rows begin_col end_col : ℕ)
    (h : begin_col ≤ end_col) (dst : Cube α) (a b t : ℕ) :
    onlineCubeWorker step emit init n_rows begin_col end_col dst a b t =
      if t < n_rows ∧ begin_col ≤ max a b ∧ max a b < end_col then
        emit (max a b) (min a b) t (onlineState (step (max a b) (min a b)) init (t + 1))
      else dst a b t := by
  unfold onlineCubeWorker
  induction end_col, h using Nat.le_induction generalizing a b t with
  | base => rw [forLoop_empty _ _ (le_refl _), if_neg (by omega)]
  | succ e he ih =>
    rw [forLoop_succ _ _ he, onlineCube_inner step emit init n_rows e _ (e + 1) (le_refl _), ih]
    by_cases h1 : t < n_rows ∧ max a b = e ∧ min a b < e + 1
    · rw [if_pos h1, if_pos ⟨h1.1, by omega, by omega⟩, h1.2.1]
    · rw [if_neg h1]
      by_cases h2 : t < n_rows ∧ begin_col ≤ max a b ∧ max a b < e
      · rw [if_pos h2, if_pos ⟨h2.1, h2.2.1, by omega⟩]
      · rw [if_neg h2, if_neg]
        intro h
        have : min a b ≤ max a b := by omega
        omega

theorem RollCovParallelLm_store_cov (p : Args α) (i j k : ℕ) (d : LmDst α) :
    (RollCovParallelLm.store p i j k d).arma_cov =
      (d.arma_cov.set j k i (RollCovParallelLm.cell p i j k)).set k j i
        ((d.arma_cov.set j k i (RollCovParallelLm.cell p i j k)) j k i) := by
  unfold RollCovParallelLm.store
  dsimp only
  split_ifs <;> rfl

theorem lagSum_eq_ite (p : Args α) (j k : ℕ) (u f : ℕ → α) (t : ℕ) :
    lagSum p j k u f t =
      ∑ r in Finset.Ico (t - p.width) t, if notNA2 p r j k then u (t - 1 - r) * f r else 0 := by
  unfold lagSum
  rw [Finset.sum_filter]

/-- The window sums obey the recurrence of the online engines: every weight ages by the
factor `μ`, the new row enters with the weight of lag `0`, and in the rolling regime the
row `t - width` leaves with `μ` times the weight of lag `width - 1`. -/
theorem lagSum_succ (p : Args α) (j k : ℕ) (u f : ℕ → α) (μ : α) (hw : 1 ≤ p.width)
    (hu : ∀ c, c + 1 < p.width → u (c + 1) = μ * u c) (t : ℕ) :
    lagSum p j k u f (t + 1) =
      μ * lagSum p j k u f t + (if notNA2 p t j k then u 0 * f t else 0) -
        (if p.width ≤ t ∧ notNA2 p (t - p.width) j k then
          μ * u (p.width - 1) * f (t - p.width) else 0) := by
  rw [lagSum_eq_ite, lagSum_eq_ite, Finset.sum_Ico_succ_top (by omega)]
  have hnew : t + 1 - 1 - t = 0 := by omega
  rw [hnew]
  have hshift : ∀ r ∈ Finset.Ico (t + 1 - p.width) t,
      (if notNA2 p r j k then u (t + 1 - 1 - r) * f r else 0) =
        μ * (if notNA2 p r j k then u (t - 1 - r) * f r else 0) := by
    intro r hr
    rw [Finset.mem_Ico] at hr
    by_cases hv : notNA2 p r j k
    · rw [if_pos hv, if_pos hv]
      have h1 : t + 1 - 1 - r = (t - 1 - r) + 1 := by omega
      rw [h1, hu _ (by omega)]
      ring
    · rw [if_neg hv, if_neg hv, mul_zero]
  rw [Finset.sum_congr rfl hshift, ← Finset.mul_sum]
  by_cases ht : p.width ≤ t
  · have hbot : t - p.width < t := by omega
    rw [Finset.sum_eq_sum_Ico_succ_bot hbot]
    have h2 : t - p.width + 1 = t + 1 - p.width := by omega
    have h3 : t - 1 - (t - p.width) = p.width - 1 := by omega
    rw [h2, h3]
    by_cases hv : notNA2 p (t - p.width) j k
    · rw [if_pos hv, if_pos (show p.width ≤ t ∧ notNA2 p (t - p.width) j k from ⟨ht, hv⟩)]
      ring
    · rw [if_neg hv,
        if_neg (show ¬ (p.width ≤ t ∧ notNA2 p (t - p.width) j k) from fun h => hv h.2)]
      ring
  · have h2 : t + 1 - p.width = t - p.width := by omega
    rw [h2, if_neg (show ¬ (p.width ≤ t ∧ notNA2 p (t - p.width) j k) from fun h => ht h.1)]
    ring

theorem lagCount_eq_lagSum (p : Args α) (j k : ℕ) (t : ℕ) :
    (lagCount p j k t : α) = lagSum p j k (fun _ => 1) (fun _ => 1) t := by
  unfold lagCount lagSum
  simp

theorem lagCount_succ (p : Args α) (j k : ℕ) (hw : 1 ≤ p.width) (t : ℕ) :
    (lagCount p j k (t + 1) : ℤ) =
      lagCount p j k t + (if notNA2 p t j k then 1 else 0) -
        (if p.width ≤ t ∧ notNA2 p (t - p.width) j k then 1 else 0) := by
  have h := lagSum_succ p j k (fun _ => 1) (fun _ => 1) 1 hw (by intro c _; simp) t
  rw [← lagCount_eq_lagSum, ← lagCount_eq_lagSum] at h
  have h' : ((lagCount p j k (t + 1) : ℤ) : α) =
      (((lagCount p j k t : ℤ) + (if notNA2 p t j k then 1 else 0) -
        (if p.width ≤ t ∧ notNA2 p (t - p.width) j k then 1 else 0) : ℤ) : α) := by
    push_cast
    rw [h]
    simp
  exact_mod_cast h'

/-! ## The online covariance engine: the sums -/

theorem isNA2_of_not (p : Args α) (i j k : ℕ) (h : ¬ notNA2 p i j k) : isNA2 p i j k := by
  by_contra h2
  exact h ((notNA2_iff_not_isNA2 p i j k).2 h2)

theorem not_isNA2_of (p : Args α) (i j k : ℕ) (h : notNA2 p i j k) : ¬ isNA2 p i j k :=
  (notNA2_iff_not_isNA2 p i j k).1 h

theorem lambda_eq (p : Args α) (h : p.arma_weights (p.n - 1) ≠ 0) :
    lambda p = LD.fin (lambdaVal p) := by
  unfold lambda lambdaVal
  by_cases h1 : p.width > 1
  · rw [if_pos h1, if_pos h1, LD.fin_div_fin_of_ne _ h]
  · rw [if_neg h1, if_neg h1]

/-- Under positive weights of constant ratio, the weight of a lag is `lambda` times the
weight of the lag before. -/
theorem lagWeight_succ (p : Args α) (hn : p.n = p.width)
    (hpos : ∀ c, c < p.n → 0 < p.arma_weights c)
    (hratio : ∀ c, c + 1 < p.n →
      p.arma_weights c / p.arma_weights (c + 1) =
        p.arma_weights (p.n - 2) / p.arma_weights (p.n - 1))
    (c : ℕ) (hc : c + 1 < p.width) :
    lagWeight p (c + 1) = lambdaVal p * lagWeight p c := by
  unfold lagWeight lambdaVal
  rw [if_pos (by omega)]
  have h1 : p.n - 1 - c = (p.n - 1 - (c + 1)) + 1 := by omega
  have h2 := hratio (p.n - 1 - (c + 1)) (by omega)
  rw [← h1] at h2
  have h3 : p.arma_weights (p.n - 1 - c) ≠ 0 := (hpos _ (by omega)).ne'
  rw [← h2, div_mul_cancel₀ _ h3]

theorem lambdaVal_pos (p : Args α) (hn : p.n = p.width) (hw : 1 ≤ p.width)
    (hpos : ∀ c, c < p.n → 0 < p.arma_weights c) : 0 < lambdaVal p := by
  unfold lambdaVal
  by_cases h1 : p.width > 1
  · rw [if_pos h1]
    exact div_pos (hpos _ (by omega)) (hpos _ (by omega))
  · rw [if_neg h1]
    exact hpos _ (by omega)

/-- The accumulators of `RollCovOnlineXX` that do not depend on the means: after `t` rows
they hold the count and the weighted sums of the window. -/
theorem RollCovOnlineXX_sums (p : Args α) (j k : ℕ) (lam : α) (hn : p.n = p.width)
    (hw : 1 ≤ p.width) (hl : lambda p = LD.fin lam)
    (hu : ∀ c, c + 1 < p.width → lagWeight p (c + 1) = lam * lagWeight p c) (t : ℕ) :
    (onlineState (RollCovOnlineXX.step p j k) RollCovOnlineXX.init t).n_obs =
        lagCount p j k t ∧
    (onlineState (RollCovOnlineXX.step p j k) RollCovOnlineXX.init t).sum_w =
        LD.fin (lagSum p j k (lagWeight p) (fun _ => 1) t) ∧
    (onlineState (RollCovOnlineXX.step p j k) RollCovOnlineXX.init t).sum_x =
        LD.fin (lagSum p j k (lagWeight p) (fun r => (p.x r j).get) t) ∧
    (onlineState (RollCovOnlineXX.step p j k) RollCovOnlineXX.init t).sum_y =
        LD.fin (lagSum p j k (lagWeight p) (fun r => (p.x r k).get) t) ∧
    (onlineState (RollCovOnlineXX.step p j k) RollCovOnlineXX.init t).sumsq_w =
        LD.fin (lagSum p j k (fun c => lagWeight p c * lagWeight p c) (fun _ => 1) t) := by
  induction t with
  | zero =>
    simp [onlineState, RollCovOnlineXX.init, lagCount, lagSum, LD.zero_def]
  | succ t ih =>
    obtain ⟨ih1, ih2, ih3, ih4, ih5⟩ := ih
    have hu2 : ∀ c, c + 1 < p.width →
        lagWeight p (c + 1) * lagWeight p (c + 1) =
          (lam * lam) * (lagWeight p c * lagWeight p c) := by
      intro c hc; rw [hu c hc]; ring
    have r0 := lagCount_succ p j k hw t
    have r1 := lagSum_succ p j k (lagWeight p) (fun _ => 1) lam hw hu t
    have r2 := lagSum_succ p j k (lagWeight p) (fun r => (p.x r j).get) lam hw hu t
    have r3 := lagSum_succ p j k (lagWeight p) (fun r => (p.x r k).get) lam hw hu t
    have r4 := lagSum_succ p j k (fun c => lagWeight p c * lagWeight p c) (fun _ => 1)
      (lam * lam) hw hu2 t
    have hw0 : lagWeight p 0 = p.arma_weights (p.n - 1) := rfl
    have hwl : lagWeight p (p.width - 1) = p.arma_weights 0 := by
      unfold lagWeight; congr 1; omega
    rw [hw0] at r1 r2 r3 r4
    rw [hwl] at r1 r2 r3 r4
    rw [onlineState]
    generalize onlineState (RollCovOnlineXX.step p j k) RollCovOnlineXX.init t = s at *
    rw [r0, r1, r2, r3, r4]
    unfold RollCovOnlineXX.step
    by_cases hexp : t < p.width
    · have hnr : ¬ (p.width ≤ t ∧ notNA2 p (t - p.width) j k) := fun h => by omega
      simp only [if_pos hexp, if_neg hnr, ih1, ih2, ih3, ih4, ih5, hl]
      by_cases hv : notNA2 p t j k
      · have hna := not_isNA2_of p t j k hv
        simp only [if_pos hv, if_neg hna, toLD_of_not_isnan hv.2.1, toLD_of_not_isnan hv.2.2,
          LD.pow2_fin, LD.fin_mul_fin, LD.fin_add_fin]
        refine ⟨by simp, ?_, ?_, ?_, ?_⟩ <;> first | trivial | (refine congrArg LD.fin ?_; ring)
      · have hna := isNA2_of_not p t j k hv
        simp only [if_neg hv, if_pos hna, LD.zero_def, LD.pow2_fin, LD.fin_mul_fin,
          LD.fin_add_fin]
        refine ⟨by simp, ?_, ?_, ?_, ?_⟩ <;> first | trivial | (refine congrArg LD.fin ?_; ring)
    · have hge : p.width ≤ t := by omega
      simp only [if_neg hexp, ih1, ih2, ih3, ih4, ih5, hl]
      by_cases hv : notNA2 p t j k <;> by_cases hvo : notNA2 p (t - p.width) j k
      · have hna := not_isNA2_of p t j k hv
        have hnao := not_isNA2_of p (t - p.width) j k hvo
        have hc : p.width ≤ t ∧ notNA2 p (t - p.width) j k := ⟨hge, hvo⟩
        have e1 : ¬ (notNA2 p t j k ∧ isNA2 p (t - p.width) j k) := fun h => hnao h.2
        have e2 : ¬ (isNA2 p t j k ∧ notNA2 p (t - p.width) j k) := fun h => hna h.1
        simp only [if_pos hv, if_neg hna, if_neg hnao, if_pos hc, if_neg e1, if_neg e2,
          toLD_of_not_isnan hv.2.1, toLD_of_not_isnan hv.2.2,
          toLD_of_not_isnan hvo.2.1, toLD_of_not_isnan hvo.2.2,
          LD.pow2_fin, LD.fin_mul_fin, LD.fin_add_fin, LD.fin_sub_fin]
        refine ⟨by simp, ?_, ?_, ?_, ?_⟩ <;> first | trivial | (refine congrArg LD.fin ?_; ring)
      · have hna := not_isNA2_of p t j k hv
        have hnao := isNA2_of_not p (t - p.width) j k hvo
        have hc : ¬ (p.width ≤ t ∧ notNA2 p (t - p.width) j k) := fun h => hvo h.2
        have e1 : notNA2 p t j k ∧ isNA2 p (t - p.width) j k := ⟨hv, hnao⟩
        simp only [if_pos hv, if_neg hna, if_pos hnao, if_neg hc, if_pos e1,
          toLD_of_not_isnan hv.2.1, toLD_of_not_isnan hv.2.2, LD.zero_def,
          LD.pow2_fin, LD.fin_mul_fin, LD.fin_add_fin, LD.fin_sub_fin]
        refine ⟨by simp, ?_, ?_, ?_, ?_⟩ <;> first | trivial | (refine congrArg LD.fin ?_; ring)
      · have hna := isNA2_of_not p t j k hv
        have hnao := not_isNA2_of p (t - p.width) j k hvo
        have hc : p.width ≤ t ∧ notNA2 p (t - p.width) j k := ⟨hge, hvo⟩
        have e1 : ¬ (notNA2 p t j k ∧ isNA2 p (t - p.width) j k) := fun h => hv h.1
        have e2 : isNA2 p t j k ∧ notNA2 p (t - p.width) j k := ⟨hna, hvo⟩
        simp only [if_neg hv, if_pos hna, if_neg hnao, if_pos hc, if_neg e1, if_pos e2,
          toLD_of_not_isnan hvo.2.1, toLD_of_not_isnan hvo.2.2, LD.zero_def,
          LD.pow2_fin, LD.fin_mul_fin, LD.fin_add_fin, LD.fin_sub_fin]
        refine ⟨by simp, ?_, ?_, ?_, ?_⟩ <;> first | trivial | (refine congrArg LD.fin ?_; ring)
      · have hna := isNA2_of_not p t j k hv
        have hnao := isNA2_of_not p (t - p.width) j k hvo
        have hc : ¬ (p.width ≤ t ∧ notNA2 p (t - p.width) j k) := fun h => hvo h.2
        have e1 : ¬ (notNA2 p t j k ∧ isNA2 p (t - p.width) j k) := fun h => hv h.1
        have e2 : ¬ (isNA2 p t j k ∧ notNA2 p (t - p.width) j k) := fun h => hvo h.2
        simp only [if_neg hv, if_pos hna, if_pos hnao, if_neg hc, if_neg e1, if_neg e2,
          LD.zero_def, LD.pow2_fin, LD.fin_mul_fin, LD.fin_add_fin, LD.fin_sub_fin]
        refine ⟨by simp, ?_, ?_, ?_, ?_⟩ <;> first | trivial | (refine congrArg LD.fin ?_; ring)

/-! ## The online covariance engine: one step -/

theorem lagSum_eq_zero (p : Args α) (j k : ℕ) (u f : ℕ → α) (t : ℕ)
    (h : lagCount p j k t = 0) : lagSum p j k u f t = 0 := by
  unfold lagCount at h
  unfold lagSum
  rw [Finset.card_eq_zero.1 h, Finset.sum_empty]

theorem lagSum_weight_pos (p : Args α) (j k : ℕ) (t : ℕ) (hn : p.n = p.width)
    (hpos : ∀ c, c < p.n → 0 < p.arma_weights c) (h : 0 < lagCount p j k t) :
    0 < lagSum p j k (lagWeight p) (fun _ => 1) t := by
  unfold lagSum
  apply Finset.sum_pos
  · intro r hr
    rw [Finset.mem_filter, Finset.mem_Ico] at hr
    rw [mul_one]
    unfold lagWeight
    exact hpos _ (by omega)
  · exact Finset.card_pos.1 h

/-- The algebra of one step of the online covariance recurrence: the cross term uses the
new mean of one column and the previous mean of the other. -/
theorem cov_update (lam W X Y P a b xn yn xo yo W' X' Y' P' : α) (hW : W ≠ 0)
    (hW' : W' ≠ 0) (eW : W' = lam * W + a - b) (eX : X' = lam * X + a * xn - b * xo)
    (eY : Y' = lam * Y + a * yn - b * yo) (eP : P' = lam * P + a * (xn * yn) - b * (xo * yo)) :
    lam * (P - X * Y / W) + a * (xn - X' / W') * (yn - Y / W) -
        b * (xo - X' / W') * (yo - Y / W) = P' - X' * Y' / W' := by
  have hW2 : lam * W + a - b ≠ 0 := eW ▸ hW'
  subst eW eX eY eP
  field_simp
  ring

/-- The same step when the window was empty before: the cross term stays `0`. -/
theorem cov_update_first (w xn yn mpy : α) (hw : w ≠ 0) :
    w * (xn - w * xn / w) * (yn - mpy) = w * (xn * yn) - w * xn * (w * yn) / w := by
  field_simp
  ring

/-- The same step when the window becomes empty: the cross term returns to `0`. -/
theorem cov_update_last (lam w0 xo yo mpy : α) (hw : w0 ≠ 0) :
    lam * (w0 * (xo * yo) - w0 * xo * (w0 * yo) / w0) -
      lam * w0 * (xo - w0 * xo / w0) * (yo - mpy) = 0 := by
  field_simp
  ring

theorem RollCovOnlineXX_step_means (p : Args α) (j k i : ℕ) (s : RollCovOnlineXX.State α) :
    (RollCovOnlineXX.step p j k i s).mean_x =
      (if p.center = true ∧ (RollCovOnlineXX.step p j k i s).n_obs > 0 then
        (RollCovOnlineXX.step p j k i s).sum_x / (RollCovOnlineXX.step p j k i s).sum_w
      else s.mean_x) ∧
    (RollCovOnlineXX.step p j k i s).mean_y =
      (if p.center = true ∧ (RollCovOnlineXX.step p j k i s).n_obs > 0 then
        (RollCovOnlineXX.step p j k i s).sum_y / (RollCovOnlineXX.step p j k i s).sum_w
      else s.mean_y) ∧
    (RollCovOnlineXX.step p j k i s).mean_prev_y =
      (if p.center = true ∧ (RollCovOnlineXX.step p j k i s).n_obs > 0 then s.mean_y
      else s.mean_prev_y) := by
  by_cases h : i < p.width
  · simp only [RollCovOnlineXX.step, if_pos h, and_self]
  · simp only [RollCovOnlineXX.step, if_neg h, and_self]

theorem RollCovOnlineXX_step_sumsq_xy (p : Args α) (j k i : ℕ) (s : RollCovOnlineXX.State α) :
    (RollCovOnlineXX.step p j k i s).sumsq_xy =
      (if i < p.width then
        (if notNA2 p i j k ∧ (RollCovOnlineXX.step p j k i s).n_obs > 1 then
          lambda p * s.sumsq_xy +
            (if isNA2 p i j k then 0 else LD.fin (p.arma_weights (p.n - 1))) *
              ((if isNA2 p i j k then 0 else (p.x i j).toLD) -
                (RollCovOnlineXX.step p j k i s).mean_x) *
              ((if isNA2 p i j k then 0 else (p.x i k).toLD) -
                (RollCovOnlineXX.step p j k i s).mean_prev_y)
        else if isNA2 p i j k then lambda p * s.sumsq_xy
        else if notNA2 p i j k ∧ (RollCovOnlineXX.step p j k i s).n_obs = 1 ∧
            p.center = false then
          (if isNA2 p i j k then 0 else LD.fin (p.arma_weights (p.n - 1))) *
            (if isNA2 p i j k then 0 else (p.x i j).toLD) *
            (if isNA2 p i j k then 0 else (p.x i k).toLD)
        else s.sumsq_xy)
      else
        (if notNA2 p i j k ∧ notNA2 p (i - p.width) j k then
          lambda p * s.sumsq_xy +
            (if isNA2 p i j k then 0 else LD.fin (p.arma_weights (p.n - 1))) *
              ((if isNA2 p i j k then 0 else (p.x i j).toLD) -
                (RollCovOnlineXX.step p j k i s).mean_x) *
              ((if isNA2 p i j k then 0 else (p.x i k).toLD) -
                (RollCovOnlineXX.step p j k i s).mean_prev_y) -
            lambda p * (if isNA2 p (i - p.width) j k then 0 else LD.fin (p.arma_weights 0)) *
              ((if isNA2 p (i - p.width) j k then 0 else (p.x (i - p.width) j).toLD) -
                (RollCovOnlineXX.step p j k i s).mean_x) *
              ((if isNA2 p (i - p.width) j k then 0 else (p.x (i - p.width) k).toLD) -
                (RollCovOnlineXX.step p j k i s).mean_prev_y)
        else if notNA2 p i j k ∧ isNA2 p (i - p.width) j k then
          lambda p * s.sumsq_xy +
            (if isNA2 p i j k then 0 else LD.fin (p.arma_weights (p.n - 1))) *
              ((if isNA2 p i j k then 0 else (p.x i j).toLD) -
                (RollCovOnlineXX.step p j k i s).mean_x) *
              ((if isNA2 p i j k then 0 else (p.x i k).toLD) -
                (RollCovOnlineXX.step p j k i s).mean_prev_y)
        else if isNA2 p i j k ∧ notNA2 p (i - p.width) j k then
          lambda p * s.sumsq_xy -
            lambda p * (if isNA2 p (i - p.width) j k then 0 else LD.fin (p.arma_weights 0)) *
              ((if isNA2 p (i - p.width) j k then 0 else (p.x (i - p.width) j).toLD) -
                (RollCovOnlineXX.step p j k i s).mean_x) *
              ((if isNA2 p (i - p.width) j k then 0 else (p.x (i - p.width) k).toLD) -
                (RollCovOnlineXX.step p j k i s).mean_prev_y)
        else if isNA2 p i j k ∨ isNA2 p (i - p.width) j k then lambda p * s.sumsq_xy
        else s.sumsq_xy)) := by
  by_cases h : i < p.width
  · simp only [RollCovOnlineXX.step, if_pos h]
  · simp only [RollCovOnlineXX.step, if_neg h]

/-! ## The cross term of the online covariance recurrence -/

theorem lagCount_pos_of_new (p : Args α) (j k t : ℕ) (hw : 1 ≤ p.width)
    (h : notNA2 p t j k) : 0 < lagCount p j k (t + 1) := by
  unfold lagCount
  apply Finset.card_pos.2
  exact ⟨t, Finset.mem_filter.2 ⟨Finset.mem_Ico.2 ⟨by omega, by omega⟩, h⟩⟩

theorem lagCount_pos_of_old (p : Args α) (j k t : ℕ) (hw : 1 ≤ p.width) (ht : p.width ≤ t)
    (h : notNA2 p (t - p.width) j k) : 0 < lagCount p j k t := by
  unfold lagCount
  apply Finset.card_pos.2
  exact ⟨t - p.width, Finset.mem_filter.2 ⟨Finset.mem_Ico.2 ⟨le_refl _, by omega⟩, h⟩⟩

set_option maxHeartbeats 1600000 in
/-- The means and the cross term of `RollCovOnlineXX`: after `t` rows the cross term is the
centred cross product of the window, `P - X * Y / W` (or `P` when `center` is false). -/
theorem RollCovOnlineXX_cross (p : Args α) (j k : ℕ) (lam : α) (hn : p.n = p.width)
    (hw : 1 ≤ p.width) (hpos : ∀ c, c < p.n → 0 < p.arma_weights c)
    (hl : lambda p = LD.fin lam) (hlam : lam ≠ 0)
    (hu : ∀ c, c + 1 < p.width → lagWeight p (c + 1) = lam * lagWeight p c) (t : ℕ) :
    ∃ mx my mpy : α,
      (onlineState (RollCovOnlineXX.step p j k) RollCovOnlineXX.init t).mean_x = LD.fin mx ∧
      (onlineState (RollCovOnlineXX.step p j k) RollCovOnlineXX.init t).mean_y = LD.fin my ∧
      (onlineState (RollCovOnlineXX.step p j k) RollCovOnlineXX.init t).mean_prev_y =
        LD.fin mpy ∧
      (p.center = true → 0 < lagCount p j k t →
        mx = lagSum p j k (lagWeight p) (fun r => (p.x r j).get) t /
            lagSum p j k (lagWeight p) (fun _ => 1) t ∧
        my = lagSum p j k (lagWeight p) (fun r => (p.x r k).get) t /
            lagSum p j k (lagWeight p) (fun _ => 1) t) ∧
      (p.center = false → mx = 0 ∧ my = 0 ∧ mpy = 0) ∧
      (onlineState (RollCovOnlineXX.step p j k) RollCovOnlineXX.init t).sumsq_xy =
        LD.fin (if p.center = true then
          lagSum p j k (lagWeight p) (fun r => (p.x r j).get * (p.x r k).get) t -
            lagSum p j k (lagWeight p) (fun r => (p.x r j).get) t *
              lagSum p j k (lagWeight p) (fun r => (p.x r k).get) t /
              lagSum p j k (lagWeight p) (fun _ => 1) t
          else lagSum p j k (lagWeight p) (fun r => (p.x r j).get * (p.x r k).get) t) := by
  induction t with
  | zero =>
    refine ⟨0, 0, 0, rfl, rfl, rfl, ?_, ?_, ?_⟩
    · intro _ h; simp [lagCount] at h
    · intro _; exact ⟨rfl, rfl, rfl⟩
    · simp [onlineState, RollCovOnlineXX.init, lagSum, LD.zero_def]
  | succ t ih =>
    obtain ⟨mx, my, mpy, hmx, hmy, hmpy, hcen, hncen, hxy⟩ := ih
    obtain ⟨l1, l2, l3, l4, -⟩ := RollCovOnlineXX_sums p j k lam hn hw hl hu t
    obtain ⟨l1', l2', l3', l4', -⟩ := RollCovOnlineXX_sums p j k lam hn hw hl hu (t + 1)
    rw [onlineState] at l1' l2' l3' l4'
    rw [onlineState]
    generalize onlineState (RollCovOnlineXX.step p j k) RollCovOnlineXX.init t = s at *
    obtain ⟨e1, e2, e3⟩ := RollCovOnlineXX_step_means p j k t s
    have e4 := RollCovOnlineXX_step_sumsq_xy p j k t s
    rw [l1', l2', l3', hmx] at e1
    rw [l1', l2', l4', hmy] at e2
    rw [l1', hmy, hmpy] at e3
    rw [l1', hxy, hl] at e4
    -- the recurrences of the window sums
    have hw0 : lagWeight p 0 = p.arma_weights (p.n - 1) := rfl
    have hwl : lagWeight p (p.width - 1) = p.arma_weights 0 := by
      unfold lagWeight; congr 1; omega
    have r0 := lagCount_succ p j k hw t
    have r1 := lagSum_succ p j k (lagWeight p) (fun _ => 1) lam hw hu t
    have r2 := lagSum_succ p j k (lagWeight p) (fun r => (p.x r j).get) lam hw hu t
    have r3 := lagSum_succ p j k (lagWeight p) (fun r => (p.x r k).get) lam hw hu t
    have r4 := lagSum_succ p j k (lagWeight p) (fun r => (p.x r j).get * (p.x r k).get) lam
      hw hu t
    rw [hw0, hwl] at r1 r2 r3 r4
    have hwn : p.arma_weights (p.n - 1) ≠ 0 := (hpos _ (by omega)).ne'
    have hwo : p.arma_weights 0 ≠ 0 := (hpos _ (by omega)).ne'
    -- a zero count empties the sums, a positive count makes the weight mass positive
    have z : lagCount p j k t = 0 →
        lagSum p j k (lagWeight p) (fun _ => 1) t = 0 ∧
        lagSum p j k (lagWeight p) (fun r => (p.x r j).get) t = 0 ∧
        lagSum p j k (lagWeight p) (fun r => (p.x r k).get) t = 0 ∧
        lagSum p j k (lagWeight p) (fun r => (p.x r j).get * (p.x r k).get) t = 0 :=
      fun h => ⟨lagSum_eq_zero p j k _ _ t h, lagSum_eq_zero p j k _ _ t h,
        lagSum_eq_zero p j k _ _ t h, lagSum_eq_zero p j k _ _ t h⟩
    have z' : lagCount p j k (t + 1) = 0 →
        lagSum p j k (lagWeight p) (fun _ => 1) (t + 1) = 0 ∧
        lagSum p j k (lagWeight p) (fun r => (p.x r j).get) (t + 1) = 0 ∧
        lagSum p j k (lagWeight p) (fun r => (p.x r k).get) (t + 1) = 0 ∧
        lagSum p j k (lagWeight p) (fun r => (p.x r j).get * (p.x r k).get) (t + 1) = 0 :=
      fun h => ⟨lagSum_eq_zero p j k _ _ (t + 1) h, lagSum_eq_zero p j k _ _ (t + 1) h,
        lagSum_eq_zero p j k _ _ (t + 1) h, lagSum_eq_zero p j k _ _ (t + 1) h⟩
    have pW : 0 < lagCount p j k t → lagSum p j k (lagWeight p) (fun _ => 1) t ≠ 0 :=
      fun h => (lagSum_weight_pos p j k t hn hpos h).ne'
    have pW' : 0 < lagCount p j k (t + 1) →
        lagSum p j k (lagWeight p) (fun _ => 1) (t + 1) ≠ 0 :=
      fun h => (lagSum_weight_pos p j k (t + 1) hn hpos h).ne'
    have cN : notNA2 p t j k → 0 < lagCount p j k (t + 1) :=
      lagCount_pos_of_new p j k t hw
    have cO : p.width ≤ t → notNA2 p (t - p.width) j k → 0 < lagCount p j k t :=
      lagCount_pos_of_old p j k t hw
    generalize lagCount p j k (t + 1) = N' at *
    generalize lagCount p j k t = N at *
    generalize lagSum p j k (lagWeight p) (fun _ => 1) (t + 1) = W' at *
    generalize lagSum p j k (lagWeight p) (fun r => (p.x r j).get) (t + 1) = X' at *
    generalize lagSum p j k (lagWeight p) (fun r => (p.x r k).get) (t + 1) = Y' at *
    generalize lagSum p j k (lagWeight p) (fun r => (p.x r j).get * (p.x r k).get) (t + 1)
      = P' at *
    generalize lagSum p j k (lagWeight p) (fun _ => 1) t = W at *
    generalize lagSum p j k (lagWeight p) (fun r => (p.x r j).get) t = X at *
    generalize lagSum p j k (lagWeight p) (fun r => (p.x r k).get) t = Y at *
    generalize lagSum p j k (lagWeight p) (fun r => (p.x r j).get * (p.x r k).get) t = P at *
    clear l1 l2 l3 l4 l2' l3' l4' hmx hmy hmpy hxy hw0 hwl hu hl hpos
    by_cases hc : p.center = true
    · simp only [hc, if_true, true_and] at e1 e2 e3 e4 ⊢
      have hcen' := hcen hc
      clear hcen hncen
      by_cases hN' : 0 < N'
      · have hN'z : (N' : ℤ) > 0 := by exact_mod_cast hN'
        have hW' := pW' hN'
        rw [if_pos hN'z, LD.fin_div_fin_of_ne _ hW'] at e1 e2
        rw [if_pos hN'z] at e3
        rw [e1, e3] at e4
        refine ⟨X' / W', Y' / W', my, e1, e2, e3, fun _ _ => ⟨rfl, rfl⟩, fun h => by simp at h, ?_⟩
        rw [e4]
        by_cases hexp : t < p.width
        · have hnr : ¬ (p.width ≤ t ∧ notNA2 p (t - p.width) j k) := fun h => by omega
          rw [if_neg hnr] at r0 r1 r2 r3 r4
          rw [if_pos hexp]
          by_cases hv : notNA2 p t j k
          · have hna := not_isNA2_of p t j k hv
            rw [if_pos hv] at r0 r1 r2 r3 r4
            by_cases hN : 0 < N
            · have hN1 : (N' : ℤ) > 1 := by omega
              have hmy := (hcen' hN).2
              simp only [if_pos (show notNA2 p t j k ∧ (N' : ℤ) > 1 from ⟨hv, hN1⟩), if_neg hna,
                toLD_of_not_isnan hv.2.1, toLD_of_not_isnan hv.2.2,
                LD.fin_mul_fin, LD.fin_add_fin, LD.fin_sub_fin]
              refine congrArg LD.fin ?_
              rw [hmy]
              have := cov_update lam W X Y P (p.arma_weights (p.n - 1)) 0 (p.x t j).get
                (p.x t k).get 0 0 W' X' Y' P' (pW hN) hW' (by linear_combination r1) (by linear_combination r2)
                (by linear_combination r3) (by linear_combination r4)
              linear_combination this
            · have hN0 : N = 0 := by omega
              obtain ⟨zW, zX, zY, zP⟩ := z hN0
              have hN1 : ¬ ((N' : ℤ) > 1) := by omega
              simp only [if_neg (show ¬ (notNA2 p t j k ∧ (N' : ℤ) > 1) from fun h => hN1 h.2),
                if_neg hna,
                if_neg (show ¬ (notNA2 p t j k ∧ (N' : ℤ) = 1 ∧ true = false) from
                  fun h => absurd h.2.2 (by decide))]
              refine congrArg LD.fin ?_
              rw [r4, r2, r3, r1, zW, zX, zY, zP]
              field_simp
              ring
          · have hna := isNA2_of_not p t j k hv
            rw [if_neg hv] at r0 r1 r2 r3 r4
            have hN : 0 < N := by omega
            have hmy := (hcen' hN).2
            simp only [if_neg (show ¬ (notNA2 p t j k ∧ (N' : ℤ) > 1) from fun h => hv h.1),
              if_pos hna, LD.fin_mul_fin]
            refine congrArg LD.fin ?_
            have := cov_update lam W X Y P 0 0 0 0 0 0 W' X' Y' P' (pW hN) hW'
              (by linear_combination r1) (by linear_combination r2) (by linear_combination r3) (by linear_combination r4)
            linear_combination this
        · have hge : p.width ≤ t := by omega
          rw [if_neg hexp]
          by_cases hv : notNA2 p t j k <;> by_cases hvo : notNA2 p (t - p.width) j k
          · have hna := not_isNA2_of p t j k hv
            have hnao := not_isNA2_of p (t - p.width) j k hvo
            have hcd : p.width ≤ t ∧ notNA2 p (t - p.width) j k := ⟨hge, hvo⟩
            rw [if_pos hv, if_pos hcd] at r0 r1 r2 r3 r4
            have hN : 0 < N := cO hge hvo
            have hmy := (hcen' hN).2
            simp only [if_pos (show notNA2 p t j k ∧ notNA2 p (t - p.width) j k from ⟨hv, hvo⟩),
              if_neg hna, if_neg hnao,
              toLD_of_not_isnan hv.2.1, toLD_of_not_isnan hv.2.2,
              toLD_of_not_isnan hvo.2.1, toLD_of_not_isnan hvo.2.2,
              LD.fin_mul_fin, LD.fin_add_fin, LD.fin_sub_fin]
            refine congrArg LD.fin ?_
            rw [hmy]
            have := cov_update lam W X Y P (p.arma_weights (p.n - 1)) (lam * p.arma_weights 0)
              (p.x t j).get (p.x t k).get (p.x (t - p.width) j).get (p.x (t - p.width) k).get
              W' X' Y' P' (pW hN) hW' (by linear_combination r1) (by linear_combination r2)
              (by linear_combination r3) (by linear_combination r4)
            linear_combination this
          · have hna := not_isNA2_of p t j k hv
            have hnao := isNA2_of_not p (t - p.width) j k hvo
            have hcd : ¬ (p.width ≤ t ∧ notNA2 p (t - p.width) j k) := fun h => hvo h.2
            rw [if_pos hv, if_neg hcd] at r0 r1 r2 r3 r4
            simp only [if_neg (show ¬ (notNA2 p t j k ∧ notNA2 p (t - p.width) j k) from
                fun h => hvo h.2),
              if_pos (show notNA2 p t j k ∧ isNA2 p (t - p.width) j k from ⟨hv, hnao⟩),
              if_neg hna, toLD_of_not_isnan hv.2.1, toLD_of_not_isnan hv.2.2,
              LD.fin_mul_fin, LD.fin_add_fin, LD.fin_sub_fin]
            refine congrArg LD.fin ?_
            by_cases hN : 0 < N
            · have hmy := (hcen' hN).2
              rw [hmy]
              have := cov_update lam W X Y P (p.arma_weights (p.n - 1)) 0 (p.x t j).get
                (p.x t k).get 0 0 W' X' Y' P' (pW hN) hW' (by linear_combination r1) (by linear_combination r2)
                (by linear_combination r3) (by linear_combination r4)
              linear_combination this
            · have hN0 : N = 0 := by omega
              obtain ⟨zW, zX, zY, zP⟩ := z hN0
              rw [r4, r2, r3, r1, zW, zX, zY, zP]
              field_simp
              ring
          · have hna := isNA2_of_not p t j k hv
            have hnao := not_isNA2_of p (t - p.width) j k hvo
            have hcd : p.width ≤ t ∧ notNA2 p (t - p.width) j k := ⟨hge, hvo⟩
            rw [if_neg hv, if_pos hcd] at r0 r1 r2 r3 r4
            have hN : 0 < N := cO hge hvo
            have hmy := (hcen' hN).2
            simp only [if_neg (show ¬ (notNA2 p t j k ∧ notNA2 p (t - p.width) j k) from
                fun h => hv h.1),
              if_neg (show ¬ (notNA2 p t j k ∧ isNA2 p (t - p.width) j k) from fun h => hv h.1),
              if_pos (show isNA2 p t j k ∧ notNA2 p (t - p.width) j k from ⟨hna, hvo⟩),
              if_neg hnao, toLD_of_not_isnan hvo.2.1, toLD_of_not_isnan hvo.2.2,
              LD.fin_mul_fin, LD.fin_add_fin, LD.fin_sub_fin]
            refine congrArg LD.fin ?_
            rw [hmy]
            have := cov_update lam W X Y P 0 (lam * p.arma_weights 0)
              0 0 (p.x (t - p.width) j).get (p.x (t - p.width) k).get
              W' X' Y' P' (pW hN) hW' (by linear_combination r1) (by linear_combination r2)
              (by linear_combination r3) (by linear_combination r4)
            linear_combination this
          · have hna := isNA2_of_not p t j k hv
            have hnao := isNA2_of_not p (t - p.width) j k hvo
            have hcd : ¬ (p.width ≤ t ∧ notNA2 p (t - p.width) j k) := fun h => hvo h.2
            rw [if_neg hv, if_neg hcd] at r0 r1 r2 r3 r4
            have hN : 0 < N := by omega
            simp only [if_neg (show ¬ (notNA2 p t j k ∧ notNA2 p (t - p.width) j k) from
                fun h => hv h.1),
              if_neg (show ¬ (notNA2 p t j k ∧ isNA2 p (t - p.width) j k) from fun h => hv h.1),
              if_neg (show ¬ (isNA2 p t j k ∧ notNA2 p (t - p.width) j k) from fun h => hvo h.2),
              if_pos (show isNA2 p t j k ∨ isNA2 p (t - p.width) j k from Or.inl hna),
              LD.fin_mul_fin, LD.fin_add_fin, LD.fin_sub_fin]
            refine congrArg LD.fin ?_
            have := cov_update lam W X Y P 0 0 0 0 0 0 W' X' Y' P' (pW hN) hW'
              (by linear_combination r1) (by linear_combination r2) (by linear_combination r3) (by linear_combination r4)
            linear_combination this
      · have hN'0 : N' = 0 := by omega
        have hN'z : ¬ ((N' : ℤ) > 0) := by omega
        rw [if_neg hN'z] at e1 e2 e3
        rw [e1, e3] at e4
        refine ⟨mx, my, mpy, e1, e2, e3, fun _ h => absurd h hN', fun h => by simp at h, ?_⟩
        rw [e4]
        obtain ⟨zW', zX', zY', zP'⟩ := z' hN'0
        have hvn : ¬ notNA2 p t j k := fun h => hN' (cN h)
        have hna := isNA2_of_not p t j k hvn
        rw [if_neg hvn] at r0 r1 r2 r3 r4
        by_cases hexp : t < p.width
        · have hnr : ¬ (p.width ≤ t ∧ notNA2 p (t - p.width) j k) := fun h => by omega
          rw [if_neg hnr] at r0 r1 r2 r3 r4
          have hN0 : N = 0 := by omega
          obtain ⟨zW, zX, zY, zP⟩ := z hN0
          simp only [if_pos hexp,
            if_neg (show ¬ (notNA2 p t j k ∧ (N' : ℤ) > 1) from fun h => hvn h.1),
            if_pos hna, LD.fin_mul_fin]
          refine congrArg LD.fin ?_
          rw [zW, zX, zY, zP, zW', zX', zY', zP']
          simp
        · have hge : p.width ≤ t := by omega
          rw [if_neg hexp]
          by_cases hvo : notNA2 p (t - p.width) j k
          · have hnao := not_isNA2_of p (t - p.width) j k hvo
            have hcd : p.width ≤ t ∧ notNA2 p (t - p.width) j k := ⟨hge, hvo⟩
            rw [if_pos hcd] at r0 r1 r2 r3 r4
            have hN : 0 < N := cO hge hvo
            have hmx := (hcen' hN).1
            simp only [if_neg (show ¬ (notNA2 p t j k ∧ notNA2 p (t - p.width) j k) from
                fun h => hvn h.1),
              if_neg (show ¬ (notNA2 p t j k ∧ isNA2 p (t - p.width) j k) from fun h => hvn h.1),
              if_pos (show isNA2 p t j k ∧ notNA2 p (t - p.width) j k from ⟨hna, hvo⟩),
              if_neg hnao, toLD_of_not_isnan hvo.2.1, toLD_of_not_isnan hvo.2.2,
              LD.fin_mul_fin, LD.fin_add_fin, LD.fin_sub_fin]
            refine congrArg LD.fin ?_
            rw [zW'] at r1
            rw [zX'] at r2
            rw [zY'] at r3
            rw [zP'] at r4
            have hW : W = p.arma_weights 0 := by
              have : lam * (W - p.arma_weights 0) = 0 := by linear_combination -r1
              rcases mul_eq_zero.1 this with h | h
              · exact absurd h hlam
              · linear_combination h
            have hX : X = p.arma_weights 0 * (p.x (t - p.width) j).get := by
              have : lam * (X - p.arma_weights 0 * (p.x (t - p.width) j).get) = 0 := by
                linear_combination -r2
              rcases mul_eq_zero.1 this with h | h
              · exact absurd h hlam
              · linear_combination h
            have hY : Y = p.arma_weights 0 * (p.x (t - p.width) k).get := by
              have : lam * (Y - p.arma_weights 0 * (p.x (t - p.width) k).get) = 0 := by
                linear_combination -r3
              rcases mul_eq_zero.1 this with h | h
              · exact absurd h hlam
              · linear_combination h
            have hP : P = p.arma_weights 0 *
                ((p.x (t - p.width) j).get * (p.x (t - p.width) k).get) := by
              have : lam * (P - p.arma_weights 0 *
                  ((p.x (t - p.width) j).get * (p.x (t - p.width) k).get)) = 0 := by
                linear_combination -r4
              rcases mul_eq_zero.1 this with h | h
              · exact absurd h hlam
              · linear_combination h
            rw [hmx, hW, hX, hY, hP, zW', zX', zY', zP']
            have := cov_update_last lam (p.arma_weights 0) (p.x (t - p.width) j).get
              (p.x (t - p.width) k).get mpy hwo
            rw [this]
            simp
          · have hnao := isNA2_of_not p (t - p.width) j k hvo
            have hcd : ¬ (p.width ≤ t ∧ notNA2 p (t - p.width) j k) := fun h => hvo h.2
            rw [if_neg hcd] at r0 r1 r2 r3 r4
            have hN0 : N = 0 := by omega
            obtain ⟨zW, zX, zY, zP⟩ := z hN0
            simp only [if_neg (show ¬ (notNA2 p t j k ∧ notNA2 p (t - p.width) j k) from
                fun h => hvn h.1),
              if_neg (show ¬ (notNA2 p t j k ∧ isNA2 p (t - p.width) j k) from fun h => hvn h.1),
              if_neg (show ¬ (isNA2 p t j k ∧ notNA2 p (t - p.width) j k) from fun h => hvo h.2),
              if_pos (show isNA2 p t j k ∨ isNA2 p (t - p.width) j k from Or.inl hna),
              LD.fin_mul_fin, LD.fin_add_fin, LD.fin_sub_fin]
            refine congrArg LD.fin ?_
            rw [zW, zX, zY, zP, zW', zX', zY', zP']
            simp
    · have hc' : p.center = false := by simpa using hc
      obtain ⟨h1, h2, h3⟩ := hncen hc'
      subst h1 h2 h3
      simp only [hc', Bool.false_eq_true, false_and, if_false] at e1 e2 e3 e4 ⊢
      rw [e1, e3] at e4
      refine ⟨0, 0, 0, e1, e2, e3, fun h => by simp at h, fun _ => ⟨rfl, rfl, rfl⟩, ?_⟩
      rw [e4]
      by_cases hexp : t < p.width
      · have hnr : ¬ (p.width ≤ t ∧ notNA2 p (t - p.width) j k) := fun h => by omega
        rw [if_neg hnr] at r0 r1 r2 r3 r4
        rw [if_pos hexp]
        by_cases hv : notNA2 p t j k
        · have hna := not_isNA2_of p t j k hv
          rw [if_pos hv] at r0 r1 r2 r3 r4
          by_cases hN : 0 < N
          · have hN1 : (N' : ℤ) > 1 := by omega
            simp only [if_pos (show notNA2 p t j k ∧ (N' : ℤ) > 1 from ⟨hv, hN1⟩), if_neg hna,
              toLD_of_not_isnan hv.2.1, toLD_of_not_isnan hv.2.2,
              LD.fin_mul_fin, LD.fin_add_fin, LD.fin_sub_fin]
            refine congrArg LD.fin ?_
            linear_combination -r4
          · have hN0 : N = 0 := by omega
            obtain ⟨zW, zX, zY, zP⟩ := z hN0
            have hN1 : ¬ ((N' : ℤ) > 1) := by omega
            have hN1' : (N' : ℤ) = 1 := by omega
            simp only [if_neg (show ¬ (notNA2 p t j k ∧ (N' : ℤ) > 1) from fun h => hN1 h.2),
              if_neg hna,
              if_pos (show notNA2 p t j k ∧ (N' : ℤ) = 1 ∧ True from ⟨hv, hN1', trivial⟩),
              toLD_of_not_isnan hv.2.1, toLD_of_not_isnan hv.2.2,
              LD.fin_mul_fin, LD.fin_add_fin, LD.fin_sub_fin]
            refine congrArg LD.fin ?_
            rw [r4, zP]
            ring
        · have hna := isNA2_of_not p t j k hv
          rw [if_neg hv] at r0 r1 r2 r3 r4
          simp only [if_neg (show ¬ (notNA2 p t j k ∧ (N' : ℤ) > 1) from fun h => hv h.1),
            if_pos hna, LD.fin_mul_fin]
          refine congrArg LD.fin ?_
          linear_combination -r4
      · have hge : p.width ≤ t := by omega
        rw [if_neg hexp]
        by_cases hv : notNA2 p t j k <;> by_cases hvo : notNA2 p (t - p.width) j k
        · have hna := not_isNA2_of p t j k hv
          have hnao := not_isNA2_of p (t - p.width) j k hvo
          have hcd : p.width ≤ t ∧ notNA2 p (t - p.width) j k := ⟨hge, hvo⟩
          rw [if_pos hv, if_pos hcd] at r0 r1 r2 r3 r4
          simp only [if_pos (show notNA2 p t j k ∧ notNA2 p (t - p.width) j k from ⟨hv, hvo⟩),
            if_neg hna, if_neg hnao,
            toLD_of_not_isnan hv.2.1, toLD_of_not_isnan hv.2.2,
            toLD_of_not_isnan hvo.2.1, toLD_of_not_isnan hvo.2.2,
            LD.fin_mul_fin, LD.fin_add_fin, LD.fin_sub_fin]
          refine congrArg LD.fin ?_
          linear_combination -r4
        · have hna := not_isNA2_of p t j k hv
          have hnao := isNA2_of_not p (t - p.width) j k hvo
          have hcd : ¬ (p.width ≤ t ∧ notNA2 p (t - p.width) j k) := fun h => hvo h.2
          rw [if_pos hv, if_neg hcd] at r0 r1 r2 r3 r4
          simp only [if_neg (show ¬ (notNA2 p t j k ∧ notNA2 p (t - p.width) j k) from
              fun h => hvo h.2),
            if_pos (show notNA2 p t j k ∧ isNA2 p (t - p.width) j k from ⟨hv, hnao⟩),
            if_neg hna, toLD_of_not_isnan hv.2.1, toLD_of_not_isnan hv.2.2,
            LD.fin_mul_fin, LD.fin_add_fin, LD.fin_sub_fin]
          refine congrArg LD.fin ?_
          linear_combination -r4
        · have hna := isNA2_of_not p t j k hv
          have hnao := not_isNA2_of p (t - p.width) j k hvo
          have hcd : p.width ≤ t ∧ notNA2 p (t - p.width) j k := ⟨hge, hvo⟩
          rw [if_neg hv, if_pos hcd] at r0 r1 r2 r3 r4
          simp only [if_neg (show ¬ (notNA2 p t j k ∧ notNA2 p (t - p.width) j k) from
              fun h => hv h.1),
            if_neg (show ¬ (notNA2 p t j k ∧ isNA2 p (t - p.width) j k) from fun h => hv h.1),
            if_pos (show isNA2 p t j k ∧ notNA2 p (t - p.width) j k from ⟨hna, hvo⟩),
            if_neg hnao, toLD_of_not_isnan hvo.2.1, toLD_of_not_isnan hvo.2.2,
            LD.fin_mul_fin, LD.fin_add_fin, LD.fin_sub_fin]
          refine congrArg LD.fin ?_
          linear_combination -r4
        · have hna := isNA2_of_not p t j k hv
          have hnao := isNA2_of_not p (t - p.width) j k hvo
          have hcd : ¬ (p.width ≤ t ∧ notNA2 p (t - p.width) j k) := fun h => hvo h.2
          rw [if_neg hv, if_neg hcd] at r0 r1 r2 r3 r4
          simp only [if_neg (show ¬ (notNA2 p t j k ∧ notNA2 p (t - p.width) j k) from
              fun h => hv h.1),
            if_neg (show ¬ (notNA2 p t j k ∧ isNA2 p (t - p.width) j k) from fun h => hv h.1),
            if_neg (show ¬ (isNA2 p t j k ∧ notNA2 p (t - p.width) j k) from fun h => hvo h.2),
            if_pos (show isNA2 p t j k ∨ isNA2 p (t - p.width) j k from Or.inl hna),
            LD.fin_mul_fin, LD.fin_add_fin, LD.fin_sub_fin]
          refine congrArg LD.fin ?_
          linear_combination -r4

/-! ## The direct covariance engine -/

theorem RollCovParallelXX_means_foldl (p : Args α) (i j k : ℕ) :
    ∀ m, m ≤ i + 1 →
      (List.range m).foldl (fun s c => RollCovParallelXX.meanBody p i j k c s) ⟨0, 0, 0⟩ =
        ⟨LD.fin (∑ r in (Finset.Ico (i + 1 - m) (i + 1)).filter (fun r => notNA2 p r j k),
            p.arma_weights (p.n - 1 - (i - r))),
          LD.fin (∑ r in (Finset.Ico (i + 1 - m) (i + 1)).filter (fun r => notNA2 p r j k),
            p.arma_weights (p.n - 1 - (i - r)) * (p.x r j).get),
          LD.fin (∑ r in (Finset.Ico (i + 1 - m) (i + 1)).filter (fun r => notNA2 p r j k),
            p.arma_weights (p.n - 1 - (i - r)) * (p.x r k).get)⟩ := by
  intro m
  induction m with
  | zero => intro _; simp [LD.zero_def]
  | succ m ih =>
    intro hm
    rw [foldl_range_succ, ih (by omega), filter_Ico_step _ i m (by omega)]
    unfold RollCovParallelXX.meanBody
    by_cases hv : notNA2 p (i - m) j k
    · rw [if_pos hv, if_pos hv, Finset.sum_insert (not_mem_filter_Ico _ i m (by omega)),
        Finset.sum_insert (not_mem_filter_Ico _ i m (by omega)),
        Finset.sum_insert (not_mem_filter_Ico _ i m (by omega)),
        toLD_of_not_isnan hv.2.1, toLD_of_not_isnan hv.2.2]
      have h3 : p.n - m - 1 = p.n - 1 - (i - (i - m)) := by omega
      simp only [LD.fin_add_fin, LD.fin_mul_fin, h3, RollCovParallelXX.MeanState.mk.injEq]
      exact ⟨by rw [add_comm], by rw [add_comm], by rw [add_comm]⟩
    · rw [if_neg hv, if_neg hv]

theorem RollCovParallelXX_body_foldl (p : Args α) (mean_x mean_y : LD α) (i j k : ℕ) :
    ∀ m, m ≤ i + 1 →
      ∃ sxy : LD α,
        (List.range m).foldl (fun s c => RollCovParallelXX.body p mean_x mean_y i j k c s)
            ⟨0, 0, 0, 0⟩ =
          ⟨(((Finset.Ico (i + 1 - m) (i + 1)).filter (fun r => notNA2 p r j k)).card : ℤ),
            LD.fin (∑ r in (Finset.Ico (i + 1 - m) (i + 1)).filter (fun r => notNA2 p r j k),
              p.arma_weights (p.n - 1 - (i - r))),
            LD.fin (∑ r in (Finset.Ico (i + 1 - m) (i + 1)).filter (fun r => notNA2 p r j k),
              p.arma_weights (p.n - 1 - (i - r)) * p.arma_weights (p.n - 1 - (i - r))),
            sxy⟩ ∧
        ∀ mx my : α, (p.center = true → mean_x = LD.fin mx ∧ mean_y = LD.fin my) →
          (p.center = false → mx = 0 ∧ my = 0) →
          sxy = LD.fin
            (∑ r in (Finset.Ico (i + 1 - m) (i + 1)).filter (fun r => notNA2 p r j k),
              p.arma_weights (p.n - 1 - (i - r)) * ((p.x r j).get - mx) *
                ((p.x r k).get - my)) := by
  intro m
  induction m with
  | zero => intro _; exact ⟨0, by simp [LD.zero_def], by intro mx my _ _; simp [LD.zero_def]⟩
  | succ m ih =>
    intro hm
    obtain ⟨sxy, h1, h2⟩ := ih (by omega)
    rw [foldl_range_succ, h1, filter_Ico_step _ i m (by omega)]
    unfold RollCovParallelXX.body
    by_cases hv : notNA2 p (i - m) j k
    · simp only [if_pos hv]
      rw [Finset.card_insert_of_not_mem (not_mem_filter_Ico _ i m (by omega)),
        Finset.sum_insert (not_mem_filter_Ico _ i m (by omega)),
        Finset.sum_insert (not_mem_filter_Ico _ i m (by omega)),
        toLD_of_not_isnan hv.2.1, toLD_of_not_isnan hv.2.2]
      have h3 : p.n - m - 1 = p.n - 1 - (i - (i - m)) := by omega
      refine ⟨if p.center = true then
          sxy + LD.fin (p.arma_weights (p.n - m - 1)) *
            (LD.fin (p.x (i - m) j).get - mean_x) * (LD.fin (p.x (i - m) k).get - mean_y)
        else sxy + LD.fin (p.arma_weights (p.n - m - 1)) *
            LD.fin (p.x (i - m) j).get * LD.fin (p.x (i - m) k).get,
        ?_, ?_⟩
      · simp only [LD.fin_add_fin, LD.fin_mul_fin, LD.pow2_fin, h3,
          RollCovParallelXX.State.mk.injEq]
        refine ⟨by push_cast; ring, by rw [add_comm], by rw [add_comm], trivial⟩
      · intro mx my hc hnc
        rw [Finset.sum_insert (not_mem_filter_Ico _ i m (by omega)), h2 mx my hc hnc]
        by_cases hcen : p.center = true
        · rw [if_pos hcen, (hc hcen).1, (hc hcen).2]
          simp only [LD.fin_add_fin, LD.fin_mul_fin, LD.fin_sub_fin, h3]
          congr 1; ring
        · rw [if_neg hcen]
          obtain ⟨e1, e2⟩ := hnc (by simpa using hcen)
          subst e1 e2
          simp only [LD.fin_add_fin, LD.fin_mul_fin, LD.fin_sub_fin, h3]
          congr 1; ring
    · simp only [if_neg hv]
      exact ⟨sxy, rfl, h2⟩

/-- The partial sums of the direct engine at the full window are the lag sums at `i + 1`. -/
theorem lagSum_eq_window (p : Args α) (i j k : ℕ) (f : ℕ → α) :
    (∑ r in (Finset.Ico (i + 1 - min p.width (i + 1)) (i + 1)).filter
        (fun r => notNA2 p r j k), p.arma_weights (p.n - 1 - (i - r)) * f r) =
      lagSum p j k (lagWeight p) f (i + 1) := by
  unfold lagSum lagWeight
  have h : i + 1 - min p.width (i + 1) = i + 1 - p.width := by omega
  rw [h]
  rfl

theorem lagCount_eq_window (p : Args α) (i j k : ℕ) :
    ((Finset.Ico (i + 1 - min p.width (i + 1)) (i + 1)).filter
        (fun r => notNA2 p r j k)).card = lagCount p j k (i + 1) := by
  unfold lagCount
  have h : i + 1 - min p.width (i + 1) = i + 1 - p.width := by omega
  rw [h]

/-- The centred cross product of a window, expanded. -/
theorem centred_cross (s : Finset ℕ) (w x y : ℕ → α) (hW : (∑ r in s, w r) ≠ 0) :
    (∑ r in s, w r * (x r - (∑ r in s, w r * x r) / (∑ r in s, w r)) *
        (y r - (∑ r in s, w r * y r) / (∑ r in s, w r))) =
      (∑ r in s, w r * (x r * y r)) -
        (∑ r in s, w r * x r) * (∑ r in s, w r * y r) / (∑ r in s, w r) := by
  have e : ∀ a b : α, (∑ r in s, w r * (x r - a) * (y r - b)) =
      (∑ r in s, w r * (x r * y r)) - b * (∑ r in s, w r * x r) -
        a * (∑ r in s, w r * y r) + a * b * (∑ r in s, w r) := by
    intro a b
    rw [Finset.mul_sum, Finset.mul_sum, Finset.mul_sum, ← Finset.sum_sub_distrib,
      ← Finset.sum_sub_distrib, ← Finset.sum_add_distrib]
    apply Finset.sum_congr rfl
    intro r _
    ring
  rw [e]
  field_simp
  ring

/-! ## The two covariance engines on the same window -/

theorem lagSum_one_eq_window (p : Args α) (i j k : ℕ) :
    (∑ r in (Finset.Ico (i + 1 - min p.width (i + 1)) (i + 1)).filter
        (fun r => notNA2 p r j k), p.arma_weights (p.n - 1 - (i - r))) =
      lagSum p j k (lagWeight p) (fun _ => 1) (i + 1) := by
  rw [← lagSum_eq_window]
  simp

theorem lagSum_sq_eq_window (p : Args α) (i j k : ℕ) :
    (∑ r in (Finset.Ico (i + 1 - min p.width (i + 1)) (i + 1)).filter
        (fun r => notNA2 p r j k),
        p.arma_weights (p.n - 1 - (i - r)) * p.arma_weights (p.n - 1 - (i - r))) =
      lagSum p j k (fun c => lagWeight p c * lagWeight p c) (fun _ => 1) (i + 1) := by
  unfold lagSum lagWeight
  have h : i + 1 - min p.width (i + 1) = i + 1 - p.width := by omega
  rw [h]
  apply Finset.sum_congr rfl
  intro r _
  rw [mul_one]
  rfl

/-- The centred cross product of the window of row `i`, from the lag sums. -/
theorem lagSum_centred (p : Args α) (i j k : ℕ)
    (hW : lagSum p j k (lagWeight p) (fun _ => 1) (i + 1) ≠ 0) :
    (∑ r in (Finset.Ico (i + 1 - min p.width (i + 1)) (i + 1)).filter
        (fun r => notNA2 p r j k),
        p.arma_weights (p.n - 1 - (i - r)) *
          ((p.x r j).get - lagSum p j k (lagWeight p) (fun r => (p.x r j).get) (i + 1) /
            lagSum p j k (lagWeight p) (fun _ => 1) (i + 1)) *
          ((p.x r k).get - lagSum p j k (lagWeight p) (fun r => (p.x r k).get) (i + 1) /
            lagSum p j k (lagWeight p) (fun _ => 1) (i + 1))) =
      lagSum p j k (lagWeight p) (fun r => (p.x r j).get * (p.x r k).get) (i + 1) -
        lagSum p j k (lagWeight p) (fun r => (p.x r j).get) (i + 1) *
          lagSum p j k (lagWeight p) (fun r => (p.x r k).get) (i + 1) /
          lagSum p j k (lagWeight p) (fun _ => 1) (i + 1) := by
  rw [← lagSum_one_eq_window] at hW ⊢
  rw [← lagSum_eq_window p i j k (fun r => (p.x r j).get),
    ← lagSum_eq_window p i j k (fun r => (p.x r k).get),
    ← lagSum_eq_window p i j k (fun r => (p.x r j).get * (p.x r k).get)]
  exact centred_cross _ _ _ _ hW

theorem RollCovOnlineXX_cell_eq (m : Prim α) (p : Args α) (i j k : ℕ) (hn : p.n = p.width)
    (hw : 1 ≤ p.width) (hpos : ∀ c, c < p.n → 0 < p.arma_weights c)
    (hratio : ∀ c, c + 1 < p.n →
      p.arma_weights c / p.arma_weights (c + 1) =
        p.arma_weights (p.n - 2) / p.arma_weights (p.n - 1))
    (hs : p.scale = false) :
    RollCovOnlineXX.cell m p j k i = covValue p i j k := by
  have hl := lambda_eq p (hpos (p.n - 1) (by omega)).ne'
  have hu := lagWeight_succ p hn hpos hratio
  obtain ⟨l0, l1, -, -, l4⟩ := RollCovOnlineXX_sums p j k (lambdaVal p) hn hw hl hu (i + 1)
  obtain ⟨mx, my, mpy, -, -, -, -, -, hxy⟩ := RollCovOnlineXX_cross p j k (lambdaVal p) hn hw
    hpos hl (lambdaVal_pos p hn hw hpos).ne' hu (i + 1)
  unfold RollCovOnlineXX.cell RollCovOnlineXX.emit covValue covFrom
  rw [l0, l1, l4, hxy]
  simp only [hs, Bool.false_eq_true, if_false]

theorem RollCovParallelXX_cell_eq (m : Prim α) (p : Args α) (i j k : ℕ) (hn : p.n = p.width)
    (hpos : ∀ c, c < p.n → 0 < p.arma_weights c) (hs : p.scale = false) :
    RollCovParallelXX.cell m p i j k = covValue p i j k := by
  unfold RollCovParallelXX.cell covValue covFrom
  by_cases hc : compute2 p i j k
  · rw [if_pos hc, if_pos hc]
    dsimp only
    obtain ⟨sxy, h1, h2⟩ := RollCovParallelXX_body_foldl p (RollCovParallelXX.mean_x p i j k)
      (RollCovParallelXX.mean_y p i j k) i j k (min p.width (i + 1)) (by omega)
    rw [whileWindow_eq_foldl, h1]
    dsimp only
    rw [lagCount_eq_window, lagSum_one_eq_window, lagSum_sq_eq_window]
    by_cases hN : (lagCount p j k (i + 1) : ℤ) > 1 ∧ (lagCount p j k (i + 1) : ℤ) ≥ p.min_obs
    · rw [if_pos hN, if_pos hN]
      simp only [hs, Bool.false_eq_true, if_false]
      have hW : lagSum p j k (lagWeight p) (fun _ => 1) (i + 1) ≠ 0 :=
        (lagSum_weight_pos p j k (i + 1) hn hpos (by omega)).ne'
      by_cases hcen : p.center = true
      · have hmx : RollCovParallelXX.mean_x p i j k =
            LD.fin (lagSum p j k (lagWeight p) (fun r => (p.x r j).get) (i + 1) /
              lagSum p j k (lagWeight p) (fun _ => 1) (i + 1)) := by
          unfold RollCovParallelXX.mean_x RollCovParallelXX.means
          rw [if_pos hcen, whileWindow_eq_foldl,
            RollCovParallelXX_means_foldl p i j k _ (by omega)]
          dsimp only
          rw [lagSum_one_eq_window, lagSum_eq_window, LD.fin_div_fin_of_ne _ hW]
        have hmy : RollCovParallelXX.mean_y p i j k =
            LD.fin (lagSum p j k (lagWeight p) (fun r => (p.x r k).get) (i + 1) /
              lagSum p j k (lagWeight p) (fun _ => 1) (i + 1)) := by
          unfold RollCovParallelXX.mean_y RollCovParallelXX.means
          rw [if_pos hcen, whileWindow_eq_foldl,
            RollCovParallelXX_means_foldl p i j k _ (by omega)]
          dsimp only
          rw [lagSum_one_eq_window, lagSum_eq_window, LD.fin_div_fin_of_ne _ hW]
        rw [h2 _ _ (fun _ => ⟨hmx, hmy⟩) (fun h => by rw [hcen] at h; simp at h), if_pos hcen]
        congr 3
        exact lagSum_centred p i j k hW
      · have hcf : p.center = false := by simpa using hcen
        have hmx : RollCovParallelXX.mean_x p i j k = LD.fin 0 := by
          unfold RollCovParallelXX.mean_x
          rw [if_neg hcen]; rfl
        have hmy : RollCovParallelXX.mean_y p i j k = LD.fin 0 := by
          unfold RollCovParallelXX.mean_y
          rw [if_neg hcen]; rfl
        rw [h2 0 0 (fun h => absurd h hcen) (fun _ => ⟨rfl, rfl⟩), if_neg hcen]
        congr 3
        rw [← lagSum_eq_window]
        apply Finset.sum_congr rfl
        intro r _
        ring
    · rw [if_neg hN, if_neg hN]
  · rw [if_neg hc, if_neg hc]

theorem validRows2_eq (p : Args α) (i j k : ℕ) :
    validRows2 p i j k =
      (Finset.Ico (i + 1 - min p.width (i + 1)) (i + 1)).filter (fun r => notNA2 p r j k) := by
  unfold validRows2 window
  rw [← Nat.Ico_succ_right]
  congr 2
  omega

theorem validRows2_card (p : Args α) (i j k : ℕ) :
    (validRows2 p i j k).card = lagCount p j k (i + 1) := by
  rw [validRows2_eq, lagCount_eq_window]

/-- With more than one positive weight, the sum of the squared weights is less than the
square of their sum. -/
theorem sum_sq_lt_sq_sum (s : Finset ℕ) (w : ℕ → α) (hpos : ∀ r ∈ s, 0 < w r)
    (h : 1 < s.card) : (∑ r in s, w r * w r) < (∑ r in s, w r) * (∑ r in s, w r) := by
  rw [Finset.sum_mul]
  apply Finset.sum_lt_sum_of_nonempty (Finset.card_pos.1 (by omega))
  intro r hr
  apply mul_lt_mul_of_pos_left _ (hpos r hr)
  rw [← Finset.add_sum_erase s w hr]
  have hne : (s.erase r).Nonempty := by
    apply Finset.card_pos.1
    rw [Finset.card_erase_of_mem hr]
    omega
  have : 0 < ∑ x in s.erase r, w x :=
    Finset.sum_pos (fun x hx => hpos x (Finset.mem_of_mem_erase hx)) hne
  linarith

theorem RollCovParallelXX_cell_twoPass (m : Prim α) (p : Args α) (i j k : ℕ)
    (hn : p.n = p.width) (hpos : ∀ c, c < p.n → 0 < p.arma_weights c) (hs : p.scale = false)
    (hc : compute2 p i j k) (h1 : 1 < (validRows2 p i j k).card)
    (h2 : p.min_obs ≤ (validRows2 p i j k).card) :
    RollCovParallelXX.cell m p i j k = Cell.val (covTwoPass p i j k) := by
  rw [RollCovParallelXX_cell_eq m p i j k hn hpos hs]
  unfold covValue covFrom
  rw [validRows2_card] at h1 h2
  rw [if_pos hc, if_pos ⟨by exact_mod_cast h1, h2⟩]
  have hW0 : 0 < lagSum p j k (lagWeight p) (fun _ => 1) (i + 1) :=
    lagSum_weight_pos p j k (i + 1) hn hpos (by omega)
  have hW := hW0.ne'
  have hQ : lagSum p j k (fun c => lagWeight p c * lagWeight p c) (fun _ => 1) (i + 1) <
      lagSum p j k (lagWeight p) (fun _ => 1) (i + 1) *
        lagSum p j k (lagWeight p) (fun _ => 1) (i + 1) := by
    rw [← lagSum_sq_eq_window, ← lagSum_one_eq_window]
    apply sum_sq_lt_sq_sum
    · intro r hr
      rw [Finset.mem_filter, Finset.mem_Ico] at hr
      exact hpos _ (by omega)
    · rw [lagCount_eq_window]; exact h1
  have hD : lagSum p j k (lagWeight p) (fun _ => 1) (i + 1) -
      lagSum p j k (fun c => lagWeight p c * lagWeight p c) (fun _ => 1) (i + 1) /
        lagSum p j k (lagWeight p) (fun _ => 1) (i + 1) ≠ 0 := by
    have : lagSum p j k (fun c => lagWeight p c * lagWeight p c) (fun _ => 1) (i + 1) /
        lagSum p j k (lagWeight p) (fun _ => 1) (i + 1) <
        lagSum p j k (lagWeight p) (fun _ => 1) (i + 1) := by
      rw [div_lt_iff₀ hW0]; exact hQ
    linarith
  rw [LD.fin_div_fin_of_ne _ hW, LD.fin_sub_fin, LD.fin_div_fin_of_ne _ hD, LD.toCell_fin]
  congr 1
  unfold covTwoPass
  dsimp only
  rw [validRows2_eq, lagSum_one_eq_window, lagSum_sq_eq_window,
    lagSum_eq_window p i j k (fun r => (p.x r j).get),
    lagSum_eq_window p i j k (fun r => (p.x r k).get)]
  congr 1
  by_cases hcen : p.center = true
  · simp only [if_pos hcen]
    exact (lagSum_centred p i j k hW).symm
  · simp only [if_neg hcen]
    rw [← lagSum_eq_window]
    apply Finset.sum_congr rfl
    intro r _
    ring

/-! ## Weights with a zero -/

theorem lambda_eq_of_ne (p : Args α) (h : p.width > 1 → p.arma_weights (p.n - 1) ≠ 0) :
    lambda p = LD.fin (lambdaVal p) := by
  unfold lambda lambdaVal
  by_cases h1 : p.width > 1
  · rw [if_pos h1, if_pos h1, LD.fin_div_fin_of_ne _ (h h1)]
  · rw [if_neg h1, if_neg h1]

theorem lagWeight_succ_of_ne (p : Args α) (hn : p.n = p.width)
    (hratio : ∀ c, c + 1 < p.n → p.arma_weights (c + 1) ≠ 0 ∧
      p.arma_weights c / p.arma_weights (c + 1) =
        p.arma_weights (p.n - 2) / p.arma_weights (p.n - 1))
    (c : ℕ) (hc : c + 1 < p.width) :
    lagWeight p (c + 1) = lambdaVal p * lagWeight p c := by
  unfold lagWeight lambdaVal
  rw [if_pos (by omega)]
  have h1 : p.n - 1 - c = (p.n - 1 - (c + 1)) + 1 := by omega
  have h2 := hratio (p.n - 1 - (c + 1)) (by omega)
  rw [← h1] at h2
  rw [← h2.2, div_mul_cancel₀ _ h2.1]

/-- The store of `RollCovOnlineXX` from its cross term and the sums of the window. -/
theorem RollCovOnlineXX_cell_from (m : Prim α) (p : Args α) (i j k : ℕ) (lam : α)
    (hn : p.n = p.width) (hw : 1 ≤ p.width) (hl : lambda p = LD.fin lam)
    (hu : ∀ c, c + 1 < p.width → lagWeight p (c + 1) = lam * lagWeight p c)
    (hs : p.scale = false) :
    RollCovOnlineXX.cell m p j k i = covFrom p i j k
      (onlineState (RollCovOnlineXX.step p j k) RollCovOnlineXX.init (i + 1)).sumsq_xy := by
  obtain ⟨l0, l1, -, -, l4⟩ := RollCovOnlineXX_sums p j k lam hn hw hl hu (i + 1)
  unfold RollCovOnlineXX.cell RollCovOnlineXX.emit covFrom
  rw [l0, l1, l4]
  simp only [hs, Bool.false_eq_true, if_false]

/-- The store of `RollCovParallelXX` from its cross term and the sums of the window. -/
theorem RollCovParallelXX_cell_from (m : Prim α) (p : Args α) (i j k : ℕ)
    (hs : p.scale = false) :
    ∃ sxy : LD α, RollCovParallelXX.cell m p i j k = covFrom p i j k sxy := by
  obtain ⟨sxy, h1, -⟩ := RollCovParallelXX_body_foldl p (RollCovParallelXX.mean_x p i j k)
    (RollCovParallelXX.mean_y p i j k) i j k (min p.width (i + 1)) (by omega)
  refine ⟨sxy, ?_⟩
  unfold RollCovParallelXX.cell covFrom
  dsimp only
  rw [whileWindow_eq_foldl, h1]
  dsimp only
  rw [lagCount_eq_window, lagSum_one_eq_window, lagSum_sq_eq_window]
  simp only [hs, Bool.false_eq_true, if_false]

theorem LD_div_fin_zero (a : LD α) : a / LD.fin (0 : α) = LD.nonfin := by
  cases a with
  | fin v => exact LD_fin_div_zero v
  | nonfin => exact LD_nonfin_div _

/-- When the squared weight mass equals the sum of the squared weights, the denominator
`sum_w - sumsq_w / sum_w` is `0` or not finite, and so is every quotient by it. -/
theorem LD_div_degenerate (a : LD α) (W Q : α) (h : W * W = Q) :
    a / (LD.fin W - LD.fin Q / LD.fin W) = LD.nonfin := by
  by_cases hW : W = 0
  · subst hW
    rw [LD_fin_div_zero, LD_sub_nonfin, LD_div_nonfin]
  · rw [LD.fin_div_fin_of_ne _ hW, LD.fin_sub_fin]
    have : W - Q / W = 0 := by
      rw [← h]; field_simp
    rw [this, LD_div_fin_zero]

/-- With at most two weights of which the first is `0`, only the newest row of a window has
a weight that is not zero. -/
theorem lagSum_degenerate (p : Args α) (j k : ℕ) (hn : p.n = p.width) (h2 : p.n ≤ 2)
    (h0 : p.arma_weights 0 = 0) (i : ℕ) :
    lagSum p j k (lagWeight p) (fun _ => 1) (i + 1) *
        lagSum p j k (lagWeight p) (fun _ => 1) (i + 1) =
      lagSum p j k (fun c => lagWeight p c * lagWeight p c) (fun _ => 1) (i + 1) := by
  have hlw : ∀ r, r ∈ (Finset.Ico (i + 1 - p.width) (i + 1)).filter
      (fun r => notNA2 p r j k) →
      lagWeight p (i + 1 - 1 - r) = if r = i then p.arma_weights (p.n - 1) else 0 := by
    intro r hr
    rw [Finset.mem_filter, Finset.mem_Ico] at hr
    unfold lagWeight
    by_cases hri : r = i
    · rw [if_pos hri, hri]; congr 1; omega
    · rw [if_neg hri, ← h0]; congr 1; omega
  have e1 : lagSum p j k (lagWeight p) (fun _ => 1) (i + 1) =
      if i ∈ (Finset.Ico (i + 1 - p.width) (i + 1)).filter (fun r => notNA2 p r j k) then
        p.arma_weights (p.n - 1) else 0 := by
    unfold lagSum
    rw [← Finset.sum_ite_eq' _ i (fun _ => p.arma_weights (p.n - 1))]
    apply Finset.sum_congr rfl
    intro r hr
    rw [hlw r hr, mul_one]
  have e2 : lagSum p j k (fun c => lagWeight p c * lagWeight p c) (fun _ => 1) (i + 1) =
      if i ∈ (Finset.Ico (i + 1 - p.width) (i + 1)).filter (fun r => notNA2 p r j k) then
        p.arma_weights (p.n - 1) * p.arma_weights (p.n - 1) else 0 := by
    unfold lagSum
    rw [← Finset.sum_ite_eq' _ i
      (fun _ => p.arma_weights (p.n - 1) * p.arma_weights (p.n - 1))]
    apply Finset.sum_congr rfl
    intro r hr
    dsimp only
    rw [hlw r hr, mul_one]
    split_ifs <;> simp
  rw [e1, e2]
  split_ifs <;> simp

theorem covFrom_degenerate (p : Args α) (i j k : ℕ) (hn : p.n = p.width) (h2 : p.n ≤ 2)
    (h0 : p.arma_weights 0 = 0) (a b : LD α) : covFrom p i j k a = covFrom p i j k b := by
  unfold covFrom
  rw [LD_div_degenerate a _ _ (lagSum_degenerate p j k hn h2 h0 i),
    LD_div_degenerate b _ _ (lagSum_degenerate p j k hn h2 h0 i)]

/-- Non-negative weights of a defined constant ratio are all positive, unless there are at
most two of them and the first is `0`. -/
theorem weights_pos_or_degenerate (p : Args α)
    (hnn : ∀ c, c < p.n → 0 ≤ p.arma_weights c)
    (hratio : ∀ c, c + 1 < p.n → p.arma_weights (c + 1) ≠ 0 ∧
      p.arma_weights c / p.arma_weights (c + 1) =
        p.arma_weights (p.n - 2) / p.arma_weights (p.n - 1)) :
    (∀ c, c < p.n → 0 < p.arma_weights c) ∨ (p.n ≤ 2 ∧ p.arma_weights 0 = 0) := by
  have hpos1 : ∀ c, c + 1 < p.n → 0 < p.arma_weights (c + 1) := fun c hc =>
    lt_of_le_of_ne (hnn _ hc) (hratio c hc).1.symm
  by_cases h0 : p.arma_weights 0 = 0
  · by_cases h2 : p.n ≤ 2
    · exact Or.inr ⟨h2, h0⟩
    · exfalso
      have ha := (hratio 0 (by omega)).2
      have hb := (hratio 1 (by omega)).2
      rw [h0, zero_div] at ha
      rw [← ha] at hb
      have h1 := (hratio 0 (by omega)).1
      have h3 := (hratio 1 (by omega)).1
      rw [div_eq_zero_iff] at hb
      rcases hb with hb | hb
      · exact h1 hb
      · exact h3 hb
  · left
    intro c hc
    rcases Nat.eq_zero_or_pos c with h | h
    · rw [h]; exact lt_of_le_of_ne (hnn 0 (by omega)) (Ne.symm h0)
    · have := hpos1 (c - 1) (by omega)
      rwa [Nat.sub_add_cancel h] at this

/-! ## A run of the covariance engines under decaying weights -/

theorem exCovDecay_validRows : validRows2 exCovDecay 3 1 0 = {2, 3} := by
  decide

theorem exCovDecay_weights_pos : ∀ c, c < exCovDecay.n → 0 < exCovDecay.arma_weights c := by
  intro c hc
  have hc2 : c < 2 := hc
  interval_cases c <;> simp [exCovDecay, vector]

theorem exCovDecay_ratio : ∀ c, c + 1 < exCovDecay.n →
    exCovDecay.arma_weights (c + 1) ≠ 0 ∧
      exCovDecay.arma_weights c / exCovDecay.arma_weights (c + 1) =
        exCovDecay.arma_weights (exCovDecay.n - 2) /
          exCovDecay.arma_weights (exCovDecay.n - 1) := by
  intro c hc
  have hc2 : c + 1 < 2 := hc
  have h0 : c = 0 := by omega
  subst h0
  exact ⟨by simp [exCovDecay, vector], rfl⟩

theorem exCovDecay_twoPass : covTwoPass exCovDecay 3 1 0 = 3 := by
  unfold covTwoPass
  rw [exCovDecay_validRows]
  simp [exCovDecay, column, vector, Cell.get]
  norm_num

/-! ## The direct variance under unit weights -/

/-- The value `RollVarParallel` stores in a computed cell with at least two valid
observations, `center` set and a weight mass that is not zero. -/
theorem RollVarParallel_cell_centred (p : Args α) (i j : ℕ) (hc : compute p i j)
    (hcen : p.center = true) (h1 : (1 : ℤ) < (validRows p i j).card)
    (hmin : p.min_obs ≤ (validRows p i j).card)
    (hW : (∑ r in validRows p i j, p.arma_weights (p.n - 1 - (i - r))) ≠ 0) :
    RollVarParallel.cell p i j =
      (LD.fin (∑ r in validRows p i j, p.arma_weights (p.n - 1 - (i - r)) *
          ((p.x r j).get -
            (∑ r in validRows p i j, p.arma_weights (p.n - 1 - (i - r)) * (p.x r j).get) /
              (∑ r in validRows p i j, p.arma_weights (p.n - 1 - (i - r)))) ^ 2) /
        (LD.fin (∑ r in validRows p i j, p.arma_weights (p.n - 1 - (i - r))) -
          LD.fin (∑ r in validRows p i j, p.arma_weights (p.n - 1 - (i - r)) ^ 2) /
            LD.fin (∑ r in validRows p i j, p.arma_weights (p.n - 1 - (i - r))))).toCell := by
  obtain ⟨sx, e1, e2⟩ := RollVarParallel_foldl p (RollVarParallel.mean_x p i j) i j
    (min p.width (i + 1)) (by omega)
  have hsx := e2 _ (fun h => by
      rw [RollVarParallel_mean_x_eq, if_pos h, LD.fin_div_fin_of_ne _ hW])
    (fun h => by rw [hcen] at h; simp at h)
  unfold RollVarParallel.cell
  rw [if_pos hc, whileWindow_eq_foldl, e1, hsx, ← validRows_eq]
  dsimp only
  rw [if_pos ⟨h1, hmin⟩]

theorem sum_unit_weights (p : Args α) (i j : ℕ) (hw : ∀ c, p.arma_weights c = 1) :
    (∑ r in validRows p i j, p.arma_weights (p.n - 1 - (i - r))) =
      ((validRows p i j).card : α) ∧
    (∑ r in validRows p i j, p.arma_weights (p.n - 1 - (i - r)) ^ 2) =
      ((validRows p i j).card : α) := by
  simp [hw]

theorem exUnit_validRows : validRows exUnit 2 0 = {0, 1, 2} := by decide

theorem exUnitRestore_validRows : validRows exUnitRestore 2 0 = {0, 1} := by decide

theorem exUnit_sampleVariance : sampleVariance exUnit 2 0 = 7 / 3 := by
  unfold sampleVariance
  rw [exUnit_validRows]
  simp [exUnit, column, Cell.get]
  norm_num

/-! ## The scale engines -/

theorem notNA2_self (p : Args α) (r j : ℕ) : notNA2 p r j j ↔ notNA p r j :=
  ⟨fun h => ⟨h.1, h.2.1⟩, fun h => ⟨h.1, h.2, h.2⟩⟩

theorem validCount_eq_lagCount (p : Args α) (j t : ℕ) :
    validCount p j t = lagCount p j j t := by
  unfold validCount lagCount
  congr 1
  apply Finset.filter_congr
  intro r _
  exact (notNA2_self p r j).symm

theorem validCount_succ (p : Args α) (j : ℕ) (hw : 1 ≤ p.width) (t : ℕ) :
    (validCount p j (t + 1) : ℤ) =
      validCount p j t + (if notNA p t j then 1 else 0) -
        (if p.width ≤ t ∧ notNA p (t - p.width) j then 1 else 0) := by
  have e1 : (if notNA2 p t j j then (1 : ℤ) else 0) = if notNA p t j then 1 else 0 :=
    if_congr (notNA2_self p t j) rfl rfl
  have e2 : (if p.width ≤ t ∧ notNA2 p (t - p.width) j j then (1 : ℤ) else 0) =
      if p.width ≤ t ∧ notNA p (t - p.width) j then 1 else 0 :=
    if_congr (and_congr (Iff.refl (p.width ≤ t)) (notNA2_self p (t - p.width) j)) rfl rfl
  rw [validCount_eq_lagCount, validCount_eq_lagCount, lagCount_succ p j j hw t, e1, e2]

theorem validRows_card (p : Args α) (i j : ℕ) :
    (validRows p i j).card = validCount p j (i + 1) := by
  rw [validRows_eq]
  unfold validCount
  have h : i + 1 - min p.width (i + 1) = i + 1 - p.width := by omega
  rw [h]

theorem isNA_of_not (p : Args α) (i j : ℕ) (h : ¬ notNA p i j) : isNA p i j := by
  by_contra h2
  exact h ((notNA_iff_not_isNA p i j).2 h2)

theorem not_isNA_of (p : Args α) (i j : ℕ) (h : notNA p i j) : ¬ isNA p i j :=
  (notNA_iff_not_isNA p i j).1 h

/-- The counter `n_obs` of `RollScaleOnline` is the number of valid rows of the window. -/
theorem RollScaleOnline_n_obs (p : Args α) (j : ℕ) (hw : 1 ≤ p.width) (t : ℕ) :
    (onlineState (RollScaleOnline.step p j) RollScaleOnline.init t).n_obs =
      validCount p j t := by
  induction t with
  | zero => simp [onlineState, RollScaleOnline.init, validCount]
  | succ t ih =>
    rw [onlineState, validCount_succ p j hw t]
    generalize onlineState (RollScaleOnline.step p j) RollScaleOnline.init t = s at *
    unfold RollScaleOnline.step
    by_cases hexp : t < p.width
    · have hnr : ¬ (p.width ≤ t ∧ notNA p (t - p.width) j) := fun h => by omega
      simp only [if_pos hexp, if_neg hnr, ih]
      by_cases hv : notNA p t j
      · simp only [if_pos hv]; ring
      · simp only [if_neg hv]; ring
    · have hge : p.width ≤ t := by omega
      simp only [if_neg hexp, ih]
      by_cases hv : notNA p t j <;> by_cases hvo : notNA p (t - p.width) j
      · have hnao := not_isNA_of p _ j hvo
        have hna := not_isNA_of p _ j hv
        simp only [if_pos hv, if_pos (show p.width ≤ t ∧ notNA p (t - p.width) j from ⟨hge, hvo⟩),
          if_neg (show ¬ (notNA p t j ∧ isNA p (t - p.width) j) from fun h => hnao h.2),
          if_neg (show ¬ (isNA p t j ∧ notNA p (t - p.width) j) from fun h => hna h.1)]
        ring
      · have hnao := isNA_of_not p _ j hvo
        simp only [if_pos hv,
          if_neg (show ¬ (p.width ≤ t ∧ notNA p (t - p.width) j) from fun h => hvo h.2),
          if_pos (show notNA p t j ∧ isNA p (t - p.width) j from ⟨hv, hnao⟩)]
        ring
      · have hna := isNA_of_not p _ j hv
        simp only [if_neg hv, if_pos (show p.width ≤ t ∧ notNA p (t - p.width) j from ⟨hge, hvo⟩),
          if_neg (show ¬ (notNA p t j ∧ isNA p (t - p.width) j) from fun h => hv h.1),
          if_pos (show isNA p t j ∧ notNA p (t - p.width) j from ⟨hna, hvo⟩)]
        ring
      · simp only [if_neg hv,
          if_neg (show ¬ (p.width ≤ t ∧ notNA p (t - p.width) j) from fun h => hvo h.2),
          if_neg (show ¬ (notNA p t j ∧ isNA p (t - p.width) j) from fun h => hv h.1),
          if_neg (show ¬ (isNA p t j ∧ notNA p (t - p.width) j) from fun h => hvo h.2)]
        ring

/-- The value `x_ij` of `RollScaleOnline` after a valid row is that row's input. -/
theorem RollScaleOnline_x_ij (p : Args α) (j i : ℕ) (s : RollScaleOnline.State α)
    (hv : notNA p i j) : (RollScaleOnline.step p j i s).x_ij = (p.x i j).toLD := by
  have hna := not_isNA_of p i j hv
  unfold RollScaleOnline.step
  by_cases hexp : i < p.width
  · simp only [if_pos hexp, if_neg hna]
  · simp only [if_neg hexp, if_neg hna]

/-- The third window loop of `RollScaleParallel`: the count, and the newest row's input when
that row is valid. -/
theorem RollScaleParallel_foldl (p : Args α) (i j : ℕ) :
    ∀ m, m ≤ i + 1 →
      ((List.range m).foldl (fun s c => RollScaleParallel.body p i j c s)
          ⟨0, false, 0⟩).n_obs =
        (((Finset.Ico (i + 1 - m) (i + 1)).filter (fun r => notNA p r j)).card : ℤ) ∧
      (1 ≤ m → notNA p i j →
        ((List.range m).foldl (fun s c => RollScaleParallel.body p i j c s)
            ⟨0, false, 0⟩).any_na = true ∧
        ((List.range m).foldl (fun s c => RollScaleParallel.body p i j c s)
            ⟨0, false, 0⟩).x_ij = (p.x i j).toLD) := by
  intro m
  induction m with
  | zero => intro _; exact ⟨by simp, fun h => absurd h (by omega)⟩
  | succ m ih =>
    intro hm
    obtain ⟨h1, h2⟩ := ih (by omega)
    rw [foldl_range_succ, filter_Ico_step _ i m (by omega)]
    have hz : m = 0 → ((List.range m).foldl (fun s c => RollScaleParallel.body p i j c s)
        ⟨0, false, 0⟩).any_na = false := by
      intro h; subst h; rfl
    generalize (List.range m).foldl (fun s c => RollScaleParallel.body p i j c s)
      ⟨0, false, 0⟩ = s at *
    unfold RollScaleParallel.body
    by_cases hv : notNA p (i - m) j
    · simp only [if_pos hv]
      rw [Finset.card_insert_of_not_mem (not_mem_filter_Ico _ i m (by omega))]
      refine ⟨by rw [h1]; push_cast; ring, fun _ hi => ⟨trivial, ?_⟩⟩
      rcases Nat.eq_zero_or_pos m with h0 | hpos
      · have hs := hz h0
        subst h0
        simp [hs]
      · obtain ⟨ha, hx⟩ := h2 hpos hi
        simp [ha, hx]
    · simp only [if_neg hv]
      refine ⟨h1, fun _ hi => ?_⟩
      rcases Nat.eq_zero_or_pos m with h0 | hpos
      · subst h0
        exact absurd hi hv
      · exact h2 hpos hi

theorem toCell_toLD_of_not_isnan {c : Cell α} (h : ¬ c.isnan = true) : c.toLD.toCell = c := by
  cases c <;> simp_all [Cell.isnan, Cell.toLD, LD.toCell]

theorem mem_validRows (p : Args α) (i j : ℕ) (hi : i ∈ validRows p i j) :
    1 ≤ p.width ∧ notNA p i j := by
  unfold validRows window at hi
  rw [Finset.mem_filter, Finset.mem_Icc] at hi
  exact ⟨by omega, hi.2⟩

theorem scaleValue_plain (m : Prim α) (p : Args α) (n_obs : ℤ) (x_ij mean_x var_x : LD α)
    (hc : p.center = false) (hs : p.scale = false) :
    scaleValue m p n_obs x_ij mean_x var_x = x_ij.toCell := by
  unfold scaleValue
  simp [hc, hs]

theorem exScale_validRows : validRows exScale 1 0 = {0} := by decide

theorem exScaleValid_validRows : validRows exScaleValid 2 0 = {2} := by decide

theorem exScale_online : RollScaleOnline.cell exPrim exScale 1 0 = Cell.val 1 := by
  unfold RollScaleOnline.cell RollScaleOnline.emit
  rw [if_pos (show compute exScale 1 0 from Or.inl rfl),
    RollScaleOnline_n_obs exScale 0 (by decide), ← validRows_card,
    exScale_validRows, if_pos (by decide), scaleValue_plain _ _ _ _ _ _ rfl rfl]
  rfl

theorem exScale_parallel : RollScaleParallel.cell exPrim exScale 1 0 = Cell.val 1 := by
  unfold RollScaleParallel.cell
  rw [if_pos (show compute exScale 1 0 from Or.inl rfl)]
  dsimp only
  rw [if_pos (by decide), scaleValue_plain _ _ _ _ _ _ rfl rfl]
  rfl

/-! ## The direct covariance engine with `scale` -/

theorem RollCovParallelXX_sq_foldl (p : Args α) (mean_x mean_y : LD α) (mx my : α)
    (i j k : ℕ) (hc : p.center = true → mean_x = LD.fin mx ∧ mean_y = LD.fin my)
    (hnc : p.center = false → mx = 0 ∧ my = 0) :
    ∀ m, m ≤ i + 1 →
      (List.range m).foldl (fun s c => RollCovParallelXX.sqBody p mean_x mean_y i j k c s)
          ⟨0, 0⟩ =
        ⟨LD.fin (∑ r in (Finset.Ico (i + 1 - m) (i + 1)).filter (fun r => notNA2 p r j k),
            p.arma_weights (p.n - 1 - (i - r)) * ((p.x r j).get - mx) * ((p.x r j).get - mx)),
          LD.fin (∑ r in (Finset.Ico (i + 1 - m) (i + 1)).filter (fun r => notNA2 p r j k),
            p.arma_weights (p.n - 1 - (i - r)) * ((p.x r k).get - my) *
              ((p.x r k).get - my))⟩ := by
  intro m
  induction m with
  | zero => intro _; simp [LD.zero_def]
  | succ m ih =>
    intro hm
    rw [foldl_range_succ, ih (by omega), filter_Ico_step _ i m (by omega)]
    unfold RollCovParallelXX.sqBody
    by_cases hv : notNA2 p (i - m) j k
    · rw [if_pos hv, if_pos hv, Finset.sum_insert (not_mem_filter_Ico _ i m (by omega)),
        Finset.sum_insert (not_mem_filter_Ico _ i m (by omega)),
        toLD_of_not_isnan hv.2.1, toLD_of_not_isnan hv.2.2]
      have h3 : p.n - m - 1 = p.n - 1 - (i - (i - m)) := by omega
      by_cases hcen : p.center = true
      · rw [if_pos hcen, (hc hcen).1, (hc hcen).2]
        simp only [LD.fin_add_fin, LD.fin_mul_fin, LD.fin_sub_fin, LD.pow2_fin, h3,
          RollCovParallelXX.SqState.mk.injEq]
        exact ⟨congrArg LD.fin (by ring), congrArg LD.fin (by ring)⟩
      · rw [if_neg hcen]
        obtain ⟨e1, e2⟩ := hnc (by simpa using hcen)
        subst e1 e2
        simp only [LD.fin_add_fin, LD.fin_mul_fin, LD.fin_sub_fin, LD.pow2_fin, h3,
          RollCovParallelXX.SqState.mk.injEq]
        exact ⟨congrArg LD.fin (by ring), congrArg LD.fin (by ring)⟩
    · rw [if_neg hv, if_neg hv]

/-- The local means of `RollCovParallelXX` are the window means when the weight mass is not
zero. -/
theorem RollCovParallelXX_means_eq (p : Args α) (i j k : ℕ)
    (hW : p.center = true →
      (∑ r in validRows2 p i j k, p.arma_weights (p.n - 1 - (i - r))) ≠ 0) :
    RollCovParallelXX.mean_x p i j k = LD.fin (winMean p i j k j) ∧
    RollCovParallelXX.mean_y p i j k = LD.fin (winMean p i j k k) := by
  unfold RollCovParallelXX.mean_x RollCovParallelXX.mean_y RollCovParallelXX.means winMean
  by_cases hcen : p.center = true
  · rw [if_pos hcen, if_pos hcen, if_pos hcen, if_pos hcen, whileWindow_eq_foldl,
      RollCovParallelXX_means_foldl p i j k _ (by omega), ← validRows2_eq]
    dsimp only
    rw [LD.fin_div_fin_of_ne _ (hW hcen), LD.fin_div_fin_of_ne _ (hW hcen)]
    exact ⟨rfl, rfl⟩
  · rw [if_neg hcen, if_neg hcen, if_neg hcen, if_neg hcen]
    exact ⟨rfl, rfl⟩

/-- The store of `RollCovParallelXX` with `scale` set, from the sums of the window. -/
theorem RollCovParallelXX_cell_scale (m : Prim α) (p : Args α) (i j k : ℕ)
    (hs : p.scale = true)
    (hW : p.center = true →
      (∑ r in validRows2 p i j k, p.arma_weights (p.n - 1 - (i - r))) ≠ 0) :
    RollCovParallelXX.cell m p i j k =
      if compute2 p i j k then
        if ((validRows2 p i j k).card : ℤ) > 1 ∧ ((validRows2 p i j k).card : ℤ) ≥ p.min_obs
        then
          if LD.le (LD.sqrt m.sqrt (LD.fin (winCross p i j k j j)))
                (LD.sqrt m.sqrt (LD.fin m.eps)) = true ∨
              LD.le (LD.sqrt m.sqrt (LD.fin (winCross p i j k k k)))
                (LD.sqrt m.sqrt (LD.fin m.eps)) = true then Cell.NA
          else (LD.fin (winCross p i j k j k) /
            (LD.sqrt m.sqrt (LD.fin (winCross p i j k j j)) *
              LD.sqrt m.sqrt (LD.fin (winCross p i j k k k)))).toCell
        else Cell.NA
      else restored p i j k := by
  obtain ⟨hmx, hmy⟩ := RollCovParallelXX_means_eq p i j k hW
  have hnc : p.center = false → winMean p i j k j = 0 ∧ winMean p i j k k = 0 := by
    intro h; unfold winMean; simp [h]
  obtain ⟨sxy, h1, h2⟩ := RollCovParallelXX_body_foldl p (RollCovParallelXX.mean_x p i j k)
    (RollCovParallelXX.mean_y p i j k) i j k (min p.width (i + 1)) (by omega)
  have hxy := h2 _ _ (fun _ => ⟨hmx, hmy⟩) hnc
  have hsq := RollCovParallelXX_sq_foldl p (RollCovParallelXX.mean_x p i j k)
    (RollCovParallelXX.mean_y p i j k) _ _ i j k (fun _ => ⟨hmx, hmy⟩) hnc
    (min p.width (i + 1)) (by omega)
  rw [← validRows2_eq] at h1 hxy hsq
  unfold RollCovParallelXX.cell RollCovParallelXX.vars
  simp only [hs, if_true]
  rw [whileWindow_eq_foldl, whileWindow_eq_foldl, h1, hsq, hxy]
  rfl

/-! ## A run of the online covariance engine with `scale` and `n > width` -/

theorem exPrimQ_sqrt_sq (q : ℚ) (h : 0 ≤ q) : exPrimQ.sqrt (q * q) = q := by
  show Rat.sqrt (q * q) = q
  rw [Rat.sqrt_eq, abs_of_nonneg h]

theorem exPrimQ_sqrt_eps : exPrimQ.sqrt exPrimQ.eps = 1 / 67108864 := by
  have h : exPrimQ.eps = (1 / 67108864) * (1 / 67108864) := by
    show (1 / 4503599627370496 : ℚ) = _
    norm_num
  rw [h, exPrimQ_sqrt_sq _ (by norm_num)]

theorem exCorr_lambda : lambda exCorr = LD.fin (1 / 2) := by
  simp [lambda, exCorr, vector, LD.fin_div_fin]

theorem exCorr_state1 :
    onlineState (RollCovOnlineXX.step exCorr 1 0) RollCovOnlineXX.init 1 =
      ⟨1, LD.fin 1, LD.fin (-3), LD.fin (-4), LD.fin 1, LD.fin 0, LD.fin 0, LD.fin 0,
        LD.fin 0, LD.fin 0, LD.fin (-3), LD.fin (-4)⟩ := by
  simp [onlineState, RollCovOnlineXX.step, RollCovOnlineXX.init, exCorr_lambda]
  simp [exCorr, column, vector, isNA2, notNA2, Cell.isnan, Cell.toLD, LD.zero_def,
    LD.fin_div_fin]

theorem exCorr_state2 :
    onlineState (RollCovOnlineXX.step exCorr 1 0) RollCovOnlineXX.init 2 =
      ⟨2, LD.fin (3 / 2), LD.fin (-1 / 2), LD.fin 2, LD.fin (5 / 4), LD.fin (16 / 3),
        LD.fin (64 / 3), LD.fin (32 / 3), LD.fin (-3), LD.fin (-4), LD.fin (-1 / 3),
        LD.fin (4 / 3)⟩ := by
  rw [onlineState, exCorr_state1]
  simp [RollCovOnlineXX.step, exCorr_lambda]
  simp [exCorr, column, vector, isNA2, notNA2, Cell.isnan, Cell.toLD, LD.zero_def,
    LD.fin_div_fin]
  norm_num

theorem exCorr_state3 :
    onlineState (RollCovOnlineXX.step exCorr 1 0) RollCovOnlineXX.init 3 =
      ⟨2, LD.fin (27 / 16), LD.fin (63 / 16), LD.fin (9 / 4), LD.fin (335 / 256), LD.fin 9,
        LD.fin 9, LD.fin 3, LD.fin (-1 / 3), LD.fin (4 / 3), LD.fin (7 / 3),
        LD.fin (4 / 3)⟩ := by
  rw [onlineState, exCorr_state2]
  simp [RollCovOnlineXX.step, exCorr_lambda]
  simp [exCorr, column, vector, isNA2, notNA2, Cell.isnan, Cell.toLD, LD.zero_def,
    LD.fin_div_fin]
  norm_num

theorem LD_sqrt_fin (sq : α → α) (a : α) (h : 0 ≤ a) :
    LD.sqrt sq (LD.fin a) = LD.fin (sq a) := by
  show (if a < 0 then LD.nonfin else LD.fin (sq a)) = LD.fin (sq a)
  rw [if_neg (not_lt.2 h)]

theorem LD_le_fin (a b : α) : LD.le (LD.fin a) (LD.fin b) = decide (a ≤ b) := rfl

theorem exCorr_online : RollCovOnlineXX.cell exPrimQ exCorr 1 0 2 = Cell.val (1 / 3) := by
  have h9 : exPrimQ.sqrt 9 = 3 := by
    have := exPrimQ_sqrt_sq 3 (by norm_num)
    norm_num at this
    exact this
  simp only [RollCovOnlineXX.cell, zero_add, Nat.reduceAdd, exCorr_state3,
    RollCovOnlineXX.emit]
  rw [if_pos (show compute2 exCorr 2 1 0 from Or.inl rfl), if_pos (by decide),
    if_pos (show exCorr.scale = true from rfl), LD_sqrt_fin _ _ (by norm_num),
    LD_sqrt_fin _ _ (by norm_num [exPrimQ]), h9, exPrimQ_sqrt_eps]
  simp [LD_le_fin, LD.fin_div_fin]
  norm_num

theorem exCorr_validRows : validRows2 exCorr 2 1 0 = {1, 2} := by decide

theorem exCorr_means : winMean exCorr 2 1 0 1 = 3 ∧ winMean exCorr 2 1 0 0 = 2 := by
  unfold winMean
  rw [exCorr_validRows]
  constructor <;> simp [exCorr, column, vector, Cell.get] <;> norm_num

theorem exCorr_denom : winDenom exCorr 2 1 0 = 2 / 3 := by
  unfold winDenom
  rw [exCorr_validRows]
  simp [exCorr, vector]
  norm_num

theorem exCorr_cross : winCross exCorr 2 1 0 1 0 = -3 ∧ winCross exCorr 2 1 0 1 1 = 3 ∧
    winCross exCorr 2 1 0 0 0 = 3 := by
  unfold winCross
  rw [exCorr_means.1, exCorr_means.2, exCorr_validRows]
  refine ⟨?_, ?_, ?_⟩ <;> simp [exCorr, column, vector, Cell.get] <;> norm_num

theorem exCorr_cov : covWindow exCorr 2 1 0 1 0 = -(9 / 2) ∧
    covWindow exCorr 2 1 0 1 1 = 9 / 2 ∧ covWindow exCorr 2 1 0 0 0 = 9 / 2 := by
  unfold covWindow
  rw [exCorr_cross.1, exCorr_cross.2.1, exCorr_cross.2.2, exCorr_denom]
  norm_num

theorem restored_ne_val (p : Args α) (i j k : ℕ) (v : α) (h : ¬ compute2 p i j k) :
    restored p i j k ≠ Cell.val v := by
  unfold restored
  have h1 : ¬ (¬ (p.x i j).isnan = true ∧ ¬ (p.x i k).isnan = true) := by
    intro h2
    apply h
    rcases Bool.eq_false_or_eq_true p.na_restore with hr | hr
    · exact Or.inr ⟨hr, h2⟩
    · exact Or.inl hr
  by_cases hj : (p.x i j).isnan = true
  · rw [if_pos hj]
    intro h3
    rw [h3] at hj
    exact absurd hj (by simp [Cell.isnan])
  · rw [if_neg hj]
    have hk : (p.x i k).isnan = true := by
      by_contra hk
      exact h1 ⟨hj, hk⟩
    intro h3
    rw [h3] at hk
    exact absurd hk (by simp [Cell.isnan])

/-- When `RollCovParallelXX` with `scale` set stores a number, that number is the window's
covariance divided by the product of the two standard deviations, for a square root that is
exact on the four sums concerned and a positive denominator `sum_w - sumsq_w / sum_w`. -/
theorem RollCovParallelXX_correlation (m : Prim α) (p : Args α) (i j k : ℕ) (v : α)
    (hs : p.scale = true) (hD : 0 < winDenom p i j k)
    (hx : 0 ≤ m.sqrt (winCross p i j k j j) ∧
      m.sqrt (winCross p i j k j j) * m.sqrt (winCross p i j k j j) = winCross p i j k j j)
    (hy : 0 ≤ m.sqrt (winCross p i j k k k) ∧
      m.sqrt (winCross p i j k k k) * m.sqrt (winCross p i j k k k) = winCross p i j k k k)
    (hvx : 0 ≤ m.sqrt (covWindow p i j k j j) ∧
      m.sqrt (covWindow p i j k j j) * m.sqrt (covWindow p i j k j j) = covWindow p i j k j j)
    (hvy : 0 ≤ m.sqrt (covWindow p i j k k k) ∧
      m.sqrt (covWindow p i j k k k) * m.sqrt (covWindow p i j k k k) = covWindow p i j k k k)
    (hv : RollCovParallelXX.cell m p i j k = Cell.val v) :
    v = covWindow p i j k j k /
      (m.sqrt (covWindow p i j k j j) * m.sqrt (covWindow p i j k k k)) := by
  have hW : p.center = true →
      (∑ r in validRows2 p i j k, p.arma_weights (p.n - 1 - (i - r))) ≠ 0 := by
    intro _ h0
    unfold winDenom at hD
    rw [h0] at hD
    simp at hD
  rw [RollCovParallelXX_cell_scale m p i j k hs hW] at hv
  have hSx : 0 ≤ winCross p i j k j j := by rw [← hx.2]; exact mul_self_nonneg _
  have hSy : 0 ≤ winCross p i j k k k := by rw [← hy.2]; exact mul_self_nonneg _
  rw [LD_sqrt_fin _ _ hSx, LD_sqrt_fin _ _ hSy] at hv
  have hq : (LD.fin (winCross p i j k j k) /
      (LD.fin (m.sqrt (winCross p i j k j j)) * LD.fin (m.sqrt (winCross p i j k k k)))).toCell =
      Cell.val v := by
    by_cases hc : compute2 p i j k
    · rw [if_pos hc] at hv
      split_ifs at hv with h2 h3
      exact hv
    · rw [if_neg hc] at hv
      exact absurd hv (restored_ne_val p i j k v hc)
  clear hv
  rw [LD.fin_mul_fin, LD.fin_div_fin] at hq
  split_ifs at hq with h4
  · exact absurd hq (fun h => Cell.noConfusion h)
  · have hv' : winCross p i j k j k /
        (m.sqrt (winCross p i j k j j) * m.sqrt (winCross p i j k k k)) = v := by
      simpa [LD.toCell] using hq
    have hprod : m.sqrt (covWindow p i j k j j) * m.sqrt (covWindow p i j k k k) =
        m.sqrt (winCross p i j k j j) * m.sqrt (winCross p i j k k k) / winDenom p i j k := by
      apply (mul_self_inj (mul_nonneg hvx.1 hvy.1)
        (div_nonneg (mul_nonneg hx.1 hy.1) hD.le)).1
      have e1 := hvx.2
      have e2 := hvy.2
      unfold covWindow at e1 e2
      have hD0 := hD.ne'
      calc m.sqrt (covWindow p i j k j j) * m.sqrt (covWindow p i j k k k) *
            (m.sqrt (covWindow p i j k j j) * m.sqrt (covWindow p i j k k k))
          = (m.sqrt (covWindow p i j k j j) * m.sqrt (covWindow p i j k j j)) *
            (m.sqrt (covWindow p i j k k k) * m.sqrt (covWindow p i j k k k)) := by ring
        _ = (winCross p i j k j j / winDenom p i j k) *
            (winCross p i j k k k / winDenom p i j k) := by rw [hvx.2, hvy.2]; rfl
        _ = (m.sqrt (winCross p i j k j j) * m.sqrt (winCross p i j k j j)) *
            (m.sqrt (winCross p i j k k k) * m.sqrt (winCross p i j k k k)) /
              (winDenom p i j k * winDenom p i j k) := by rw [hx.2, hy.2]; field_simp
        _ = _ := by field_simp; ring
    rw [hprod, ← hv']
    unfold covWindow
    have hD0 := hD.ne'
    field_simp

/-! ## A run of the direct covariance engine at the zero-deviation guard -/

theorem exPrimQ_eps_nonneg : 0 ≤ exPrimQ.eps := by
  show (0 : ℚ) ≤ 1 / 4503599627370496
  norm_num

theorem exGuard_validRows : validRows2 exGuard 4 1 0 = {0, 1, 2, 3, 4} := by decide

theorem exGuard_means : winMean exGuard 4 1 0 1 = 0 ∧ winMean exGuard 4 1 0 0 = 0 := by
  unfold winMean
  rw [exGuard_validRows]
  constructor
  · simp [exGuard, column, vector, Cell.get]
    norm_num
  · simp [exGuard, column, vector, Cell.get]

theorem exGuard_denom : winDenom exGuard 4 1 0 = 4 := by
  unfold winDenom
  rw [exGuard_validRows]
  simp [exGuard, vector]
  norm_num

theorem exGuard_cross : winCross exGuard 4 1 0 1 0 = 8 / 67108864 ∧
    winCross exGuard 4 1 0 1 1 = (1 / 33554432) * (1 / 33554432) ∧
    winCross exGuard 4 1 0 0 0 = 4 * 4 := by
  unfold winCross
  rw [exGuard_means.1, exGuard_means.2, exGuard_validRows]
  refine ⟨?_, ?_, ?_⟩ <;> simp [exGuard, column, vector, Cell.get] <;> norm_num

theorem exGuard_parallel : RollCovParallelXX.cell exPrimQ exGuard 4 1 0 = Cell.val 1 := by
  rw [RollCovParallelXX_cell_scale exPrimQ exGuard 4 1 0 rfl (by
      intro _
      rw [exGuard_validRows]
      simp [exGuard, vector]
      norm_num),
    exGuard_cross.1, exGuard_cross.2.1, exGuard_cross.2.2,
    LD_sqrt_fin _ _ (by norm_num), LD_sqrt_fin _ _ exPrimQ_eps_nonneg,
    LD_sqrt_fin _ _ (by norm_num), exPrimQ_sqrt_sq _ (by norm_num),
    exPrimQ_sqrt_sq _ (by norm_num), exPrimQ_sqrt_eps, exGuard_validRows,
    if_pos (show compute2 exGuard 4 1 0 from Or.inl rfl), if_pos (by decide)]
  simp [LD_le_fin, LD.fin_div_fin]
  norm_num

theorem exGuard_lambda : lambda exGuard = LD.fin 1 := by
  simp [lambda, exGuard, vector, LD.fin_div_fin]

theorem exGuard_state1 :
    onlineState (RollCovOnlineXX.step exGuard 1 0) RollCovOnlineXX.init 1 =
      ⟨1, LD.fin 1, LD.fin (1 / 67108864), LD.fin 2, LD.fin 1, LD.fin 0, LD.fin 0, LD.fin 0,
        LD.fin 0, LD.fin 0, LD.fin (1 / 67108864), LD.fin 2⟩ := by
  simp [onlineState, RollCovOnlineXX.step, RollCovOnlineXX.init, exGuard_lambda]
  simp [exGuard, column, vector, isNA2, notNA2, Cell.isnan, Cell.toLD, LD.zero_def,
    LD.fin_div_fin]

theorem exGuard_state2 :
    onlineState (RollCovOnlineXX.step exGuard 1 0) RollCovOnlineXX.init 2 =
      ⟨2, LD.fin 2, LD.fin 0, LD.fin 0, LD.fin 2, LD.fin (1 / 2251799813685248), LD.fin 8,
        LD.fin (1 / 16777216), LD.fin (1 / 67108864), LD.fin 2, LD.fin 0, LD.fin 0⟩ := by
  rw [onlineState, exGuard_state1]
  simp [RollCovOnlineXX.step, exGuard_lambda]
  simp [exGuard, column, vector, isNA2, notNA2, Cell.isnan, Cell.toLD, LD.zero_def,
    LD.fin_div_fin]
  norm_num

theorem exGuard_state3 :
    onlineState (RollCovOnlineXX.step exGuard 1 0) RollCovOnlineXX.init 3 =
      ⟨3, LD.fin 3, LD.fin (1 / 67108864), LD.fin 2, LD.fin 3, LD.fin (1 / 1688849860263936),
        LD.fin (32 / 3), LD.fin (1 / 12582912), LD.fin 0, LD.fin 0, LD.fin (1 / 201326592),
        LD.fin (2 / 3)⟩ := by
  rw [onlineState, exGuard_state2]
  simp [RollCovOnlineXX.step, exGuard_lambda]
  simp [exGuard, column, vector, isNA2, notNA2, Cell.isnan, Cell.toLD, LD.zero_def,
    LD.fin_div_fin]
  norm_num

theorem exGuard_state4 :
    onlineState (RollCovOnlineXX.step exGuard 1 0) RollCovOnlineXX.init 4 =
      ⟨4, LD.fin 4, LD.fin 0, LD.fin 0, LD.fin 4, LD.fin (1 / 1125899906842624), LD.fin 16,
        LD.fin (1 / 8388608), LD.fin (1 / 201326592), LD.fin (2 / 3), LD.fin 0, LD.fin 0⟩ := by
  rw [onlineState, exGuard_state3]
  simp [RollCovOnlineXX.step, exGuard_lambda]
  simp [exGuard, column, vector, isNA2, notNA2, Cell.isnan, Cell.toLD, LD.zero_def,
    LD.fin_div_fin]
  norm_num

theorem exGuard_state5 :
    onlineState (RollCovOnlineXX.step exGuard 1 0) RollCovOnlineXX.init 5 =
      ⟨5, LD.fin 5, LD.fin 0, LD.fin 0, LD.fin 5, LD.fin (1 / 1125899906842624), LD.fin 16,
        LD.fin (1 / 8388608), LD.fin 0, LD.fin 0, LD.fin 0, LD.fin 0⟩ := by
  rw [onlineState, exGuard_state4]
  simp [RollCovOnlineXX.step, exGuard_lambda]
  simp [exGuard, column, vector, isNA2, notNA2, Cell.isnan, Cell.toLD, LD.zero_def,
    LD.fin_div_fin]
  norm_num

theorem exGuard_online : RollCovOnlineXX.cell exPrimQ exGuard 1 0 4 = Cell.val 1 := by
  have hx : exPrimQ.sqrt (1 / 1125899906842624) = 1 / 33554432 := by
    have := exPrimQ_sqrt_sq (1 / 33554432) (by norm_num)
    norm_num at this ⊢
    exact this
  have hy : exPrimQ.sqrt 16 = 4 := by
    have := exPrimQ_sqrt_sq 4 (by norm_num)
    norm_num at this
    exact this
  simp only [RollCovOnlineXX.cell, zero_add, Nat.reduceAdd, exGuard_state5,
    RollCovOnlineXX.emit]
  rw [if_pos (show compute2 exGuard 4 1 0 from Or.inl rfl), if_pos (by decide),
    if_pos (show exGuard.scale = true from rfl), LD_sqrt_fin _ _ (by norm_num),
    LD_sqrt_fin _ _ exPrimQ_eps_nonneg, LD_sqrt_fin _ _ (by norm_num), hx, hy,
    exPrimQ_sqrt_eps]
  simp [LD_le_fin, LD.fin_div_fin]
  norm_num

/-! ## The two-matrix direct covariance engine -/

theorem RollCovParallelXY_cell_pair (m : Prim α) (q : ArgsXY α) (i j k : ℕ) :
    RollCovParallelXY.cell m q i j k = RollCovParallelXX.cell m (q.pair j k) i 0 1 := rfl

theorem validRowsXY_pair (q : ArgsXY α) (i j k : ℕ) :
    validRowsXY q i j k = validRows2 (q.pair j k) i 0 1 := rfl

/-- The store of `RollCovParallelXX` with `scale` false in a computed cell, from the sums of
the window; a zero weight mass makes the code and the formula divide by zero alike. -/
theorem RollCovParallelXX_cell_plain (m : Prim α) (p : Args α) (i j k : ℕ)
    (hs : p.scale = false) (hc : compute2 p i j k) :
    RollCovParallelXX.cell m p i j k =
      if ((validRows2 p i j k).card : ℤ) > 1 ∧ ((validRows2 p i j k).card : ℤ) ≥ p.min_obs
      then
        (LD.fin (winCross p i j k j k) /
          (LD.fin (∑ r in validRows2 p i j k, p.arma_weights (p.n - 1 - (i - r))) -
            LD.fin (∑ r in validRows2 p i j k,
              p.arma_weights (p.n - 1 - (i - r)) * p.arma_weights (p.n - 1 - (i - r))) /
            LD.fin (∑ r in validRows2 p i j k, p.arma_weights (p.n - 1 - (i - r))))).toCell
      else Cell.NA := by
  obtain ⟨sxy, h1, h2⟩ := RollCovParallelXX_body_foldl p (RollCovParallelXX.mean_x p i j k)
    (RollCovParallelXX.mean_y p i j k) i j k (min p.width (i + 1)) (by omega)
  rw [← validRows2_eq] at h1 h2
  have hcell : RollCovParallelXX.cell m p i j k =
      if ((validRows2 p i j k).card : ℤ) > 1 ∧ ((validRows2 p i j k).card : ℤ) ≥ p.min_obs
      then
        (sxy /
          (LD.fin (∑ r in validRows2 p i j k, p.arma_weights (p.n - 1 - (i - r))) -
            LD.fin (∑ r in validRows2 p i j k,
              p.arma_weights (p.n - 1 - (i - r)) * p.arma_weights (p.n - 1 - (i - r))) /
            LD.fin (∑ r in validRows2 p i j k, p.arma_weights (p.n - 1 - (i - r))))).toCell
      else Cell.NA := by
    unfold RollCovParallelXX.cell
    rw [if_pos hc]
    dsimp only
    rw [whileWindow_eq_foldl, h1]
    simp only [hs, Bool.false_eq_true, if_false]
  rw [hcell]
  by_cases hW : (∑ r in validRows2 p i j k, p.arma_weights (p.n - 1 - (i - r))) = 0
  · rw [hW, LD_div_zero_den, LD_div_zero_den]
  · obtain ⟨hmx, hmy⟩ := RollCovParallelXX_means_eq p i j k (fun _ => hW)
    have hnc : p.center = false → winMean p i j k j = 0 ∧ winMean p i j k k = 0 := by
      intro h; unfold winMean; simp [h]
    rw [h2 _ _ (fun _ => ⟨hmx, hmy⟩) hnc]
    rfl

theorem exGuardXY_validRows : validRows2 (exGuardXY.pair 0 0) 4 0 1 = {0, 1, 2, 3, 4} := by
  decide

theorem exGuardXY_means : winMean (exGuardXY.pair 0 0) 4 0 1 0 = 0 ∧
    winMean (exGuardXY.pair 0 0) 4 0 1 1 = 0 := by
  unfold winMean
  rw [exGuardXY_validRows]
  constructor
  · simp [ArgsXY.pair, exGuardXY, column, vector, Cell.get]
    norm_num
  · simp [ArgsXY.pair, exGuardXY, column, vector, Cell.get]

theorem exGuardXY_cross : winCross (exGuardXY.pair 0 0) 4 0 1 0 1 = 8 / 67108864 ∧
    winCross (exGuardXY.pair 0 0) 4 0 1 0 0 = (1 / 33554432) * (1 / 33554432) ∧
    winCross (exGuardXY.pair 0 0) 4 0 1 1 1 = 4 * 4 := by
  unfold winCross
  rw [exGuardXY_means.1, exGuardXY_means.2, exGuardXY_validRows]
  refine ⟨?_, ?_, ?_⟩ <;> simp [ArgsXY.pair, exGuardXY, column, vector, Cell.get] <;> norm_num

theorem exGuardXY_parallel : RollCovParallelXY.cell exPrimQ exGuardXY 4 0 0 = Cell.val 1 := by
  rw [RollCovParallelXY_cell_pair,
    RollCovParallelXX_cell_scale exPrimQ (exGuardXY.pair 0 0) 4 0 1 rfl (by
      intro _
      rw [exGuardXY_validRows]
      simp [ArgsXY.pair, exGuardXY, vector]
      norm_num),
    exGuardXY_cross.1, exGuardXY_cross.2.1, exGuardXY_cross.2.2,
    LD_sqrt_fin _ _ (by norm_num), LD_sqrt_fin _ _ exPrimQ_eps_nonneg,
    LD_sqrt_fin _ _ (by norm_num), exPrimQ_sqrt_sq _ (by norm_num),
    exPrimQ_sqrt_sq _ (by norm_num), exPrimQ_sqrt_eps, exGuardXY_validRows,
    if_pos (show compute2 (exGuardXY.pair 0 0) 4 0 1 from Or.inl rfl), if_pos (by decide)]
  simp [LD_le_fin, LD.fin_div_fin]
  norm_num

theorem exGuard_variance : covWindow exGuard 4 1 0 1 1 = exPrimQ.eps := by
  unfold covWindow
  rw [exGuard_cross.2.1, exGuard_denom]
  show _ = (1 / 4503599627370496 : ℚ)
  norm_num

/-! ## The regression workers: one slice at a time -/

/-- A loop whose pass `i` changes only the part `i` of the state, and changes it to
something that depends on that part alone, leaves in part `t` what pass `t` alone leaves
there. -/
theorem forLoop_part {σ β : Type} (π : σ → ℕ → β) (step : ℕ → σ → σ)
    (h1 : ∀ i s t, t ≠ i → π (step i s) t = π s t)
    (h2 : ∀ i s s', π s i = π s' i → π (step i s) i = π (step i s') i)
    (lo hi : ℕ) (h : lo ≤ hi) (s : σ) (t : ℕ) :
    π (forLoop lo hi step s) t = if lo ≤ t ∧ t < hi then π (step t s) t else π s t := by
  induction hi, h using Nat.le_induction with
  | base => rw [forLoop_empty _ _ (le_refl _), if_neg (by omega)]
  | succ e he ih =>
    rw [forLoop_succ _ _ he]
    by_cases hte : t = e
    · subst hte
      rw [if_pos ⟨he, by omega⟩]
      apply h2
      rw [ih, if_neg (by omega)]
    · rw [h1 _ _ _ hte, ih]
      by_cases hr : lo ≤ t ∧ t < e
      · rw [if_pos hr, if_pos ⟨hr.1, by omega⟩]
      · rw [if_neg hr, if_neg (by omega)]

theorem Mat_set_row (m : Mat α) (i j : ℕ) (v : Cell α) (t : ℕ) (h : t ≠ i) :
    (m.set i j v) t = m t := by
  funext b; unfold Mat.set; rw [if_neg (fun hh => h hh.1)]

theorem Mat_setRow_row (m : Mat α) (i off len : ℕ) (v : ℕ → Cell α) (t : ℕ) (h : t ≠ i) :
    (m.setRow i off len v) t = m t := by
  funext b; unfold Mat.setRow; rw [if_neg (fun hh => h hh.1)]

theorem Mat_fillRow_row (m : Mat α) (i len : ℕ) (t : ℕ) (h : t ≠ i) :
    (m.fillRow i len) t = m t := by
  funext b; unfold Mat.fillRow; rw [if_neg (fun hh => h hh.1)]

theorem Vec_set_other (v : Vec α) (i : ℕ) (c : Cell α) (t : ℕ) (h : t ≠ i) :
    (v.set i c) t = v t := by
  unfold Vec.set; rw [if_neg h]

theorem Vec_set_self (v : Vec α) (i : ℕ) (c : Cell α) : (v.set i c) i = c := by
  unfold Vec.set; rw [if_pos rfl]

theorem Mat_set_congr (m m' : Mat α) (i j : ℕ) (v : Cell α) (h : m i = m' i) :
    (m.set i j v) i = (m'.set i j v) i := by
  funext b; unfold Mat.set; rw [congrFun h b]

theorem Mat_setRow_congr (m m' : Mat α) (i off len : ℕ) (v : ℕ → Cell α) (h : m i = m' i) :
    (m.setRow i off len v) i = (m'.setRow i off len v) i := by
  funext b; unfold Mat.setRow; rw [congrFun h b]

theorem Mat_fillRow_congr (m m' : Mat α) (i len : ℕ) (h : m i = m' i) :
    (m.fillRow i len) i = (m'.fillRow i len) i := by
  funext b; unfold Mat.fillRow; rw [congrFun h b]

theorem RollLmInterceptTRUE_slice_other (L : LinAlg α) (m : Prim α) (q : LmArgs α)
    (i : ℕ) (o : LmOut α) (t : ℕ) (h : t ≠ i) :
    (RollLmInterceptTRUE.slice L m q i o).row t = o.row t := by
  unfold RollLmInterceptTRUE.slice RollLmInterceptTRUE.noSolution LmOut.row
  dsimp only
  split_ifs <;> (try split) <;> (try split) <;>
    simp only [Mat_set_row _ _ _ _ _ h, Mat_setRow_row _ _ _ _ _ _ h, Mat_fillRow_row _ _ _ _ h,
      Vec_set_other _ _ _ _ h]

theorem RollLmInterceptTRUE_slice_congr (L : LinAlg α) (m : Prim α) (q : LmArgs α)
    (i : ℕ) (o o' : LmOut α) (h : o.row i = o'.row i) :
    (RollLmInterceptTRUE.slice L m q i o).row i =
      (RollLmInterceptTRUE.slice L m q i o').row i := by
  unfold LmOut.row at h
  simp only [Prod.mk.injEq] at h
  obtain ⟨hc, -, hs⟩ := h
  unfold RollLmInterceptTRUE.slice RollLmInterceptTRUE.noSolution LmOut.row
  dsimp only
  split_ifs <;> (try split) <;> (try split) <;>
    simp only [Vec_set_self, Prod.mk.injEq, true_and, and_true,
      Mat_setRow_congr _ _ _ _ _ _ (Mat_set_congr _ _ _ _ _ hc),
      Mat_setRow_congr _ _ _ _ _ _ (Mat_set_congr _ _ _ _ _ hs),
      Mat_fillRow_congr _ _ _ _ hc, Mat_fillRow_congr _ _ _ _ hs]

theorem RollLmInterceptFALSE_slice_other (L : LinAlg α) (m : Prim α) (q : LmArgs α)
    (i : ℕ) (o : LmOut α) (t : ℕ) (h : t ≠ i) :
    (RollLmInterceptFALSE.slice L m q i o).row t = o.row t := by
  unfold RollLmInterceptFALSE.slice RollLmInterceptFALSE.noSolution LmOut.row
  dsimp only
  split_ifs <;> (try split) <;> (try split) <;>
    simp only [Mat_set_row _ _ _ _ _ h, Mat_setRow_row _ _ _ _ _ _ h, Mat_fillRow_row _ _ _ _ h,
      Vec_set_other _ _ _ _ h]

theorem RollLmInterceptFALSE_slice_congr (L : LinAlg α) (m : Prim α) (q : LmArgs α)
    (i : ℕ) (o o' : LmOut α) (h : o.row i = o'.row i) :
    (RollLmInterceptFALSE.slice L m q i o).row i =
      (RollLmInterceptFALSE.slice L m q i o').row i := by
  unfold LmOut.row at h
  simp only [Prod.mk.injEq] at h
  obtain ⟨hc, -, hs⟩ := h
  unfold RollLmInterceptFALSE.slice RollLmInterceptFALSE.noSolution LmOut.row
  dsimp only
  split_ifs <;> (try split) <;> (try split) <;>
    simp only [Vec_set_self, Prod.mk.injEq, true_and, and_true,
      Mat_setRow_congr _ _ _ _ _ _ hc, Mat_setRow_congr _ _ _ _ _ _ hs,
      Mat_fillRow_congr _ _ _ _ hc, Mat_fillRow_congr _ _ _ _ hs]

/-- The part `t` of the destinations after a run of `RollLmInterceptTRUE` over
`[begin_slice, end_slice)` is what the pass of `t` alone leaves there. -/
theorem RollLmInterceptTRUE_operator_row (L : LinAlg α) (m : Prim α) (q : LmArgs α)
    (b e : ℕ) (hbe : b ≤ e) (o : LmOut α) (t : ℕ) :
    (RollLmInterceptTRUE.operator L m q b e o).row t =
      if b ≤ t ∧ t < e then (RollLmInterceptTRUE.slice L m q t o).row t else o.row t :=
  forLoop_part LmOut.row (fun i o => RollLmInterceptTRUE.slice L m q i o)
    (fun i s t h => RollLmInterceptTRUE_slice_other L m q i s t h)
    (fun i s s' h => RollLmInterceptTRUE_slice_congr L m q i s s' h) b e hbe o t

theorem RollLmInterceptFALSE_operator_row (L : LinAlg α) (m : Prim α) (q : LmArgs α)
    (b e : ℕ) (hbe : b ≤ e) (o : LmOut α) (t : ℕ) :
    (RollLmInterceptFALSE.operator L m q b e o).row t =
      if b ≤ t ∧ t < e then (RollLmInterceptFALSE.slice L m q t o).row t else o.row t :=
  forLoop_part LmOut.row (fun i o => RollLmInterceptFALSE.slice L m q i o)
    (fun i s t h => RollLmInterceptFALSE_slice_other L m q i s t h)
    (fun i s s' h => RollLmInterceptFALSE_slice_congr L m q i s s' h) b e hbe o t

/-! ## The regression workers: slices without a solution -/

theorem sliceHasNan_iff (q : LmArgs α) (i : ℕ) :
    sliceHasNan q i = true ↔
      ∃ a, a < q.n_cols_x ∧ ∃ b, b < q.n_cols_x ∧ (q.arma_cov a b i).isnan = true := by
  unfold sliceHasNan
  simp only [List.any_eq_true, List.mem_range]

theorem Mat_fillRow_self (m : Mat α) (i len c : ℕ) (h : c < len) :
    (m.fillRow i len) i c = Cell.NA := by
  unfold Mat.fillRow; rw [if_pos ⟨rfl, h⟩]

/-- The pass of a slice that holds a `NaN` leaves `NA` in its whole part. -/
theorem RollLmInterceptTRUE_slice_nan (L : LinAlg α) (m : Prim α) (q : LmArgs α)
    (i : ℕ) (o : LmOut α) (h : sliceHasNan q i = true) :
    RollLmInterceptTRUE.slice L m q i o = RollLmInterceptTRUE.noSolution q i o := by
  unfold RollLmInterceptTRUE.slice
  simp only [h, Bool.true_eq_false, if_false]

theorem RollLmInterceptFALSE_slice_nan (L : LinAlg α) (m : Prim α) (q : LmArgs α)
    (i : ℕ) (o : LmOut α) (h : sliceHasNan q i = true) :
    RollLmInterceptFALSE.slice L m q i o = RollLmInterceptFALSE.noSolution q i o := by
  unfold RollLmInterceptFALSE.slice
  simp only [h, Bool.true_eq_false, if_false]

/-- The pass of the time index `t` reads the tensor at the slice `t` only. -/
theorem RollLmInterceptTRUE_slice_reads (L : LinAlg α) (m : Prim α) (q : LmArgs α)
    (cov : Cube α) (t : ℕ) (o : LmOut α) (h : ∀ a b, cov a b t = q.arma_cov a b t) :
    RollLmInterceptTRUE.slice L m { q with arma_cov := cov } t o =
      RollLmInterceptTRUE.slice L m q t o := by
  have e1 : sliceHasNan { q with arma_cov := cov } t = sliceHasNan q t := by
    unfold sliceHasNan; simp only [h]
  have e2 : sliceA { q with arma_cov := cov } t = sliceA q t := by
    unfold sliceA; simp only [h]
  have e3 : sliceB { q with arma_cov := cov } t = sliceB q t := by
    unfold sliceB; simp only [h]
  unfold RollLmInterceptTRUE.slice RollLmInterceptTRUE.noSolution
  simp only [e1, e2, e3, h]

theorem RollLmInterceptFALSE_slice_reads (L : LinAlg α) (m : Prim α) (q : LmArgs α)
    (cov : Cube α) (t : ℕ) (o : LmOut α) (h : ∀ a b, cov a b t = q.arma_cov a b t) :
    RollLmInterceptFALSE.slice L m { q with arma_cov := cov } t o =
      RollLmInterceptFALSE.slice L m q t o := by
  have e1 : sliceHasNan { q with arma_cov := cov } t = sliceHasNan q t := by
    unfold sliceHasNan; simp only [h]
  have e2 : sliceA { q with arma_cov := cov } t = sliceA q t := by
    unfold sliceA; simp only [h]
  have e3 : sliceB { q with arma_cov := cov } t = sliceB q t := by
    unfold sliceB; simp only [h]
  unfold RollLmInterceptFALSE.slice RollLmInterceptFALSE.noSolution
  simp only [e1, e2, e3, h]

theorem RollLmInterceptTRUE_noSolution_row (q : LmArgs α) (i : ℕ) (o : LmOut α) :
    (∀ c, c < q.n_cols_x →
      (RollLmInterceptTRUE.noSolution q i o).arma_coef i c = Cell.NA ∧
      (RollLmInterceptTRUE.noSolution q i o).arma_se i c = Cell.NA) ∧
    (RollLmInterceptTRUE.noSolution q i o).arma_rsq i = Cell.NA := by
  unfold RollLmInterceptTRUE.noSolution
  exact ⟨fun c hc => ⟨Mat_fillRow_self _ _ _ _ hc, Mat_fillRow_self _ _ _ _ hc⟩,
    Vec_set_self _ _ _⟩

theorem RollLmInterceptFALSE_noSolution_row (q : LmArgs α) (i : ℕ) (o : LmOut α) :
    (∀ c, c < q.n_cols_x - 1 →
      (RollLmInterceptFALSE.noSolution q i o).arma_coef i c = Cell.NA ∧
      (RollLmInterceptFALSE.noSolution q i o).arma_se i c = Cell.NA) ∧
    (RollLmInterceptFALSE.noSolution q i o).arma_rsq i = Cell.NA := by
  unfold RollLmInterceptFALSE.noSolution
  exact ⟨fun c hc => ⟨Mat_fillRow_self _ _ _ _ hc, Mat_fillRow_self _ _ _ _ hc⟩,
    Vec_set_self _ _ _⟩

/-- Two destinations with the same part `t` hold the same entries there. -/
theorem LmOut_row_eq (o o' : LmOut α) (t : ℕ) (h : o.row t = o'.row t) :
    (∀ c, o.arma_coef t c = o'.arma_coef t c) ∧ o.arma_rsq t = o'.arma_rsq t ∧
    (∀ c, o.arma_se t c = o'.arma_se t c) := by
  unfold LmOut.row at h
  simp only [Prod.mk.injEq] at h
  exact ⟨fun c => congrFun h.1 c, h.2.1, fun c => congrFun h.2.2 c⟩

theorem RollLmInterceptTRUE_slice_few (L : LinAlg α) (m : Prim α) (q : LmArgs α)
    (i : ℕ) (o : LmOut α) (h : nObsGe (q.arma_n_obs i) (q.n_cols_x : ℤ) = false) :
    RollLmInterceptTRUE.slice L m q i o = RollLmInterceptTRUE.noSolution q i o := by
  unfold RollLmInterceptTRUE.slice
  dsimp only
  simp only [h, Bool.false_eq_true, if_false]
  split_ifs <;> (try split) <;> rfl

theorem RollLmInterceptFALSE_slice_few (L : LinAlg α) (m : Prim α) (q : LmArgs α)
    (i : ℕ) (o : LmOut α) (h : nObsGe (q.arma_n_obs i) ((q.n_cols_x : ℤ) - 1) = false) :
    RollLmInterceptFALSE.slice L m q i o = RollLmInterceptFALSE.noSolution q i o := by
  unfold RollLmInterceptFALSE.slice
  dsimp only
  simp only [h, Bool.false_eq_true, if_false]
  split_ifs <;> (try split) <;> rfl

/-! ## The regression workers: slices with a solution -/

theorem RollLmInterceptTRUE_slice_none (L : LinAlg α) (m : Prim α) (q : LmArgs α)
    (i : ℕ) (o : LmOut α)
    (h : L.solve (q.n_cols_x - 1) (sliceA q i) (sliceB q i) = none) :
    RollLmInterceptTRUE.slice L m q i o = RollLmInterceptTRUE.noSolution q i o := by
  unfold RollLmInterceptTRUE.slice
  dsimp only
  rw [h]
  split_ifs <;> rfl

theorem RollLmInterceptFALSE_slice_none (L : LinAlg α) (m : Prim α) (q : LmArgs α)
    (i : ℕ) (o : LmOut α)
    (h : L.solve (q.n_cols_x - 1) (sliceA q i) (sliceB q i) = none) :
    RollLmInterceptFALSE.slice L m q i o = RollLmInterceptFALSE.noSolution q i o := by
  unfold RollLmInterceptFALSE.slice
  dsimp only
  rw [h]
  split_ifs <;> rfl

/-- A matrix with two identical columns is singular. -/
theorem singular_of_identical_columns (d : ℕ) (A : ℕ → ℕ → α) (a a' : ℕ) (ha : a < d)
    (ha' : a' < d) (hne : a ≠ a') (hcol : ∀ r, r < d → A r a = A r a') : singular d A := by
  refine ⟨fun l => if l = a then 1 else if l = a' then -1 else 0,
    ⟨a, ha, by simp⟩, ?_⟩
  intro r hr
  have h1 : ∀ l ∈ Finset.range d, A r l * (if l = a then (1 : α) else if l = a' then -1 else 0) =
      (if l = a then A r a else 0) + (if l = a' then -A r a' else 0) := by
    intro l _
    by_cases h1 : l = a
    · subst h1
      rw [if_pos rfl, if_pos rfl, if_neg hne]; ring
    · by_cases h2 : l = a'
      · subst h2
        rw [if_neg h1, if_pos rfl, if_neg h1, if_pos rfl]; ring
      · rw [if_neg h1, if_neg h2, if_neg h1, if_neg h2]; ring
  rw [Finset.sum_congr rfl h1, Finset.sum_add_distrib]
  simp only [Finset.sum_ite_eq', Finset.mem_range, ha, ha', if_true]
  rw [hcol r hr]
  ring

/-- The exact routines `exLinAlg` refuse every singular matrix. -/
theorem exLinAlg_singular (d : ℕ) (A : ℕ → ℕ → ℚ) (b : ℕ → ℚ) (h : singular d A) :
    exLinAlg.solve d A b = none := by
  obtain ⟨z, ⟨l, hl, hz⟩, hA⟩ := h
  unfold exLinAlg
  dsimp only
  by_cases h1 : d = 1
  · subst h1
    have hl0 : l = 0 := by omega
    subst hl0
    have := hA 0 (by norm_num)
    simp only [Finset.sum_range_one] at this
    have hA0 : A 0 0 = 0 := by
      rcases mul_eq_zero.1 this with h | h
      · exact h
      · exact absurd h hz
    rw [if_pos rfl, if_pos hA0]
  · rw [if_neg h1]
    by_cases h2 : d = 2
    · subst h2
      have e0 := hA 0 (by norm_num)
      have e1 := hA 1 (by norm_num)
      simp only [Finset.sum_range_succ, Finset.sum_range_zero, zero_add] at e0 e1
      have hdet : A 0 0 * A 1 1 - A 0 1 * A 1 0 = 0 := by
        have d0 : (A 0 0 * A 1 1 - A 0 1 * A 1 0) * z 0 = 0 := by
          linear_combination A 1 1 * e0 - A 0 1 * e1
        have d1 : (A 0 0 * A 1 1 - A 0 1 * A 1 0) * z 1 = 0 := by
          linear_combination A 0 0 * e1 - A 1 0 * e0
        have hl2 : l = 0 ∨ l = 1 := by omega
        rcases hl2 with h | h
        · subst h
          rcases mul_eq_zero.1 d0 with h | h
          · exact h
          · exact absurd h hz
        · subst h
          rcases mul_eq_zero.1 d1 with h | h
          · exact h
          · exact absurd h hz
      rw [if_pos rfl, if_pos hdet]
    · rw [if_neg h2]

theorem RollLmInterceptTRUE_slice_no_resid (L : LinAlg α) (m : Prim α) (q : LmArgs α)
    (i : ℕ) (o : LmOut α) (coef : ℕ → α) (hnan : sliceHasNan q i = false)
    (hs : L.solve (q.n_cols_x - 1) (sliceA q i) (sliceB q i) = some coef)
    (hn : nObsGe (q.arma_n_obs i) (q.n_cols_x : ℤ) = true)
    (hdf : ¬ L.toInt ((q.arma_n_obs i).get - (q.n_cols_x : α)) > 0) :
    (RollLmInterceptTRUE.slice L m q i o).arma_se = o.arma_se.fillRow i q.n_cols_x ∧
    (RollLmInterceptTRUE.slice L m q i o).arma_coef =
      (o.arma_coef.set i 0 ((q.arma_mean i (q.n_cols_x - 1)).toLD -
        dotLD (q.n_cols_x - 1) (fun l => (q.arma_mean i l).toLD)
          (fun l => LD.fin (coef l))).toCell).setRow i 1 (q.n_cols_x - 1)
        (fun l => Cell.val (coef l)) := by
  unfold RollLmInterceptTRUE.slice
  dsimp only
  rw [if_pos hnan, hs]
  dsimp only
  rw [if_pos hn]
  split
  · rw [if_neg hdf]
    exact ⟨rfl, rfl⟩
  · exact ⟨rfl, rfl⟩

theorem RollLmInterceptFALSE_slice_no_resid (L : LinAlg α) (m : Prim α) (q : LmArgs α)
    (i : ℕ) (o : LmOut α) (coef : ℕ → α) (hnan : sliceHasNan q i = false)
    (hs : L.solve (q.n_cols_x - 1) (sliceA q i) (sliceB q i) = some coef)
    (hn : nObsGe (q.arma_n_obs i) ((q.n_cols_x : ℤ) - 1) = true)
    (hdf : ¬ L.toInt ((q.arma_n_obs i).get - (q.n_cols_x : α) + 1) > 0) :
    (RollLmInterceptFALSE.slice L m q i o).arma_se = o.arma_se.fillRow i (q.n_cols_x - 1) ∧
    (RollLmInterceptFALSE.slice L m q i o).arma_coef =
      o.arma_coef.setRow i 0 (q.n_cols_x - 1) (fun l => Cell.val (coef l)) := by
  unfold RollLmInterceptFALSE.slice
  dsimp only
  rw [if_pos hnan, hs]
  dsimp only
  rw [if_pos hn]
  split
  · rw [if_neg hdf]
    exact ⟨rfl, rfl⟩
  · exact ⟨rfl, rfl⟩

theorem Mat_setRow_self (m : Mat α) (i off len : ℕ) (v : ℕ → Cell α) (l : ℕ) (h : l < len) :
    (m.setRow i off len v) i (off + l) = v l := by
  unfold Mat.setRow
  rw [if_pos ⟨rfl, by omega, by omega⟩, Nat.add_sub_cancel_left]

theorem Mat_setRow_before (m : Mat α) (i off len : ℕ) (v : ℕ → Cell α) (c : ℕ) (h : c < off) :
    (m.setRow i off len v) i c = m i c := by
  unfold Mat.setRow
  rw [if_neg (by omega)]

theorem Mat_set_self (m : Mat α) (i j : ℕ) (v : Cell α) : (m.set i j v) i j = v := by
  unfold Mat.set
  rw [if_pos ⟨rfl, rfl⟩]

/-! ## The flattened index of the lower triangle, decoded -/

theorem n_unique_succ (m : ℕ) : n_unique (m + 1) = n_unique m + (m + 1) := by
  unfold n_unique
  have h : (m + 1) * (m + 1 + 1) = m * (m + 1) + (m + 1) * 2 := by ring
  rw [h, Nat.add_mul_div_right _ _ (by norm_num : 0 < 2)]

theorem two_mul_n_unique (m : ℕ) : m * (m + 1) = 2 * n_unique m := by
  unfold n_unique
  obtain ⟨T, hT⟩ := Nat.even_mul_succ_self m
  rw [hT]
  omega

theorem n_unique_mono (a b : ℕ) (h : a ≤ b) : n_unique a ≤ n_unique b := by
  induction b, h using Nat.le_induction with
  | base => exact le_refl _
  | succ b _ ih => rw [n_unique_succ]; omega

/-- The decoded pair at the flattened index of the pair `k ≤ j < n_cols`. -/
theorem tri_decode_at (n j k : ℕ) (hk : k ≤ j) (hj : j < n) :
    closedFormK n (n_unique n - n_unique (n - k) + (j - k)) = k ∧
    closedFormJ n (n_unique n - n_unique (n - k) + (j - k)) = j := by
  have hT := two_mul_n_unique n
  have hU := two_mul_n_unique (n - k)
  have hK := two_mul_n_unique k
  generalize n_unique n = T at hT
  generalize n_unique (n - k) = U at hU
  generalize n_unique k = K at hK
  have hTz : (n : ℤ) * ((n : ℤ) + 1) = 2 * T := by exact_mod_cast hT
  have hUz : ((n : ℤ) - k) * ((n : ℤ) - k + 1) = 2 * U := by
    have : ((n - k : ℕ) : ℤ) = (n : ℤ) - k := by omega
    rw [← this]; exact_mod_cast hU
  have hKz : (k : ℤ) * ((k : ℤ) + 1) = 2 * K := by exact_mod_cast hK
  have hUT : (U : ℤ) ≤ T := by
    have : (n - k) * (n - k + 1) ≤ n * (n + 1) :=
      Nat.mul_le_mul (Nat.sub_le _ _) (by omega)
    omega
  have hz : ((T - U + (j - k) : ℕ) : ℤ) = (T : ℤ) - U + ((j : ℤ) - k) := by omega
  have hKk := closedFormK_decode n j k T U hk hj hT hU
  refine ⟨hKk, ?_⟩
  unfold closedFormJ
  rw [hKk, hKz, Int.mul_ediv_cancel_left _ (by norm_num : (2 : ℤ) ≠ 0), hz]
  have h2 : 2 * ((T : ℤ) - U + K) = 2 * ((n : ℤ) * k + k) := by
    linear_combination hUz - hTz - hKz
  have h3 : (T : ℤ) - U + K = (n : ℤ) * k + k := by linarith
  linarith

/-- Every flattened index below `n_unique n_cols` is the index of a pair `k ≤ j < n_cols`. -/
theorem tri_cover (n z : ℕ) :
    ∀ k, k ≤ n → z < n_unique n - n_unique (n - k) →
      ∃ k' j, k' ≤ j ∧ j < n ∧ z = n_unique n - n_unique (n - k') + (j - k') := by
  intro k
  induction k with
  | zero => intro _ h; simp at h
  | succ k ih =>
    intro hk hz
    by_cases h : z < n_unique n - n_unique (n - k)
    · exact ih (by omega) h
    · have e : n - k = (n - (k + 1)) + 1 := by omega
      have e2 := n_unique_succ (n - (k + 1))
      rw [← e] at e2
      have hm := n_unique_mono (n - k) n (Nat.sub_le _ _)
      refine ⟨k, k + (z - (n_unique n - n_unique (n - k))), by omega, by omega, by omega⟩

/-- Every flattened index below `n_unique n_cols` decodes to a pair `k ≤ j < n_cols`. -/
theorem tri_range (n z : ℕ) (hz : z < n_unique n) :
    ∃ j k, k ≤ j ∧ j < n ∧ closedFormK n z = (k : ℤ) ∧ closedFormJ n z = (j : ℤ) := by
  have h0 : n_unique (n - n) = 0 := by rw [Nat.sub_self]; rfl
  obtain ⟨k, j, hkj, hj, e⟩ := tri_cover n z n (le_refl _) (by rw [h0]; omega)
  obtain ⟨h1, h2⟩ := tri_decode_at n j k hkj hj
  rw [← e] at h1 h2
  exact ⟨j, k, hkj, hj, h1, h2⟩

/-- A loop whose passes either leave a part of the state alone or write one fixed value
there, and one of whose passes does write it, leaves that value. -/
theorem forLoop_written {σ β : Type} (π : σ → β) (step : ℕ → σ → σ) (v : β) (lo hi : ℕ)
    (h : lo ≤ hi)
    (hstep : ∀ z s, lo ≤ z → z < hi → π (step z s) = π s ∨ π (step z s) = v)
    (hhit : ∃ z, lo ≤ z ∧ z < hi ∧ ∀ s, π (step z s) = v) (s : σ) :
    π (forLoop lo hi step s) = v := by
  obtain ⟨z0, hz1, hz2, hz3⟩ := hhit
  have key : ∀ e, lo ≤ e → e ≤ hi → z0 < e → π (forLoop lo e step s) = v := by
    intro e he
    induction e, he using Nat.le_induction with
    | base => intro _ h; omega
    | succ e he ih =>
      intro h1 h2
      rw [forLoop_succ _ _ he]
      by_cases h3 : z0 = e
      · subst h3; exact hz3 _
      · rcases hstep e (forLoop lo e step s) he (by omega) with h4 | h4
        · rw [h4]; exact ih (by omega) (by omega)
        · exact h4
  exact key hi h (le_refl _) hz2

/-! ## The destinations of `RollCovParallelLm` after a run over every index -/

theorem RollCovParallelLm_store_cov_apply (p : Args α) (i j k : ℕ) (d : LmDst α)
    (a b t : ℕ) :
    (RollCovParallelLm.store p i j k d).arma_cov a b t =
      if t = i ∧ ((a = j ∧ b = k) ∨ (a = k ∧ b = j)) then RollCovParallelLm.cell p i j k
      else d.arma_cov a b t := by
  rw [RollCovParallelLm_store_cov, Cube_mirror_apply]

theorem RollCovParallelLm_store_mean (p : Args α) (i j k : ℕ) (d : LmDst α) (t a : ℕ) :
    (RollCovParallelLm.store p i j k d).arma_mean t a =
      if compute2 p i j k ∧ j = k ∧ t = i ∧ a = j then
        (RollCovParallelLm.mean_x p i j k).toCell
      else d.arma_mean t a := by
  have e : (RollCovParallelLm.store p i j k d).arma_mean =
      if compute2 p i j k ∧ j = k then
        d.arma_mean.set i j (RollCovParallelLm.mean_x p i j k).toCell
      else d.arma_mean := by
    unfold RollCovParallelLm.store
    dsimp only
    split_ifs <;> first | rfl | (exfalso; tauto)
  rw [e]
  by_cases h : compute2 p i j k ∧ j = k
  · rw [if_pos h, Mat_set_apply]
    by_cases h2 : t = i ∧ a = j
    · rw [if_pos h2, if_pos ⟨h.1, h.2, h2⟩]
    · rw [if_neg h2, if_neg (fun hh => h2 hh.2.2)]
  · rw [if_neg h, if_neg (fun hh => h ⟨hh.1, hh.2.1⟩)]

theorem RollCovParallelLm_store_n_obs (p : Args α) (i j k : ℕ) (d : LmDst α) (t : ℕ) :
    (RollCovParallelLm.store p i j k d).arma_n_obs t =
      if compute2 p i j k ∧ ((j : ℤ) = (p.n_cols_x : ℤ) - 1 ∧ (k : ℤ) = (p.n_cols_x : ℤ) - 1) ∧
          t = i then
        Cell.val (((RollCovParallelLm.sums p i j k).n_obs : ℤ) : α)
      else d.arma_n_obs t := by
  have e : (RollCovParallelLm.store p i j k d).arma_n_obs =
      if compute2 p i j k ∧ ((j : ℤ) = (p.n_cols_x : ℤ) - 1 ∧ (k : ℤ) = (p.n_cols_x : ℤ) - 1) then
        d.arma_n_obs.set i (Cell.val (((RollCovParallelLm.sums p i j k).n_obs : ℤ) : α))
      else d.arma_n_obs := by
    unfold RollCovParallelLm.store
    dsimp only
    split_ifs <;> first | rfl | (exfalso; tauto)
  rw [e]
  by_cases h : compute2 p i j k ∧ ((j : ℤ) = (p.n_cols_x : ℤ) - 1 ∧ (k : ℤ) = (p.n_cols_x : ℤ) - 1)
  · rw [if_pos h]
    unfold Vec.set
    by_cases h2 : t = i
    · rw [if_pos h2, if_pos ⟨h.1, h.2, h2⟩]
    · rw [if_neg h2, if_neg (fun hh => h2 hh.2.2)]
  · rw [if_neg h, if_neg (fun hh => h ⟨hh.1, hh.2.1⟩)]

theorem n_unique_pos (n : ℕ) (h : 0 < n) : 0 < n_unique n := by
  have := n_unique_mono 1 n h
  have h1 : n_unique 1 = 1 := rfl
  omega

/-- The flattened index of the pair `k ≤ j < n_cols` at time `t`, within the whole range. -/
theorem tri_index (n_rows n j k t : ℕ) (hk : k ≤ j) (hj : j < n) (ht : t < n_rows) :
    ∃ z, z < n_rows * n_unique n ∧ z / n_unique n = t ∧
      (closedFormJ n (z % n_unique n)).toNat = j ∧ (closedFormK n (z % n_unique n)).toNat = k := by
  obtain ⟨zu, hzu, hK, hJ⟩ := tri_decode n j k hk hj
  have hpos : 0 < n_unique n := by omega
  refine ⟨t * n_unique n + zu, ?_, ?_, ?_, ?_⟩
  · calc t * n_unique n + zu < t * n_unique n + n_unique n := by omega
      _ = (t + 1) * n_unique n := by ring
      _ ≤ n_rows * n_unique n := Nat.mul_le_mul_right _ ht
  · rw [Nat.add_comm, Nat.add_mul_div_right _ _ hpos, Nat.div_eq_of_lt hzu, zero_add]
  · rw [Nat.add_comm, Nat.add_mul_mod_self_right, Nat.mod_eq_of_lt hzu, hJ, Int.toNat_natCast]
  · rw [Nat.add_comm, Nat.add_mul_mod_self_right, Nat.mod_eq_of_lt hzu, hK, Int.toNat_natCast]

/-- The pair decoded at any flattened index lies in the lower triangle. -/
theorem tri_toNat_range (n z : ℕ) (h : 0 < n) :
    (closedFormK n (z % n_unique n)).toNat ≤ (closedFormJ n (z % n_unique n)).toNat ∧
      (closedFormJ n (z % n_unique n)).toNat < n := by
  obtain ⟨j, k, hkj, hj, hK, hJ⟩ := tri_range n (z % n_unique n) (Nat.mod_lt _ (n_unique_pos n h))
  rw [hK, hJ, Int.toNat_natCast, Int.toNat_natCast]
  exact ⟨hkj, hj⟩

/-- After a run over every index, the entry `(a, b, t)` of the tensor of `RollCovParallelLm`
holds the value computed for the pair `(max a b, min a b)` at time `t`. -/
theorem RollCovParallelLm_full_cov (p : Args α) (d : LmDst α) (a b t : ℕ)
    (ha : a < p.n_cols_x) (hb : b < p.n_cols_x) (ht : t < p.n_rows_x) :
    (RollCovParallelLm.operator p 0 (p.n_rows_x * n_unique p.n_cols_x) d).arma_cov a b t =
      RollCovParallelLm.cell p t (max a b) (min a b) := by
  unfold RollCovParallelLm.operator
  apply forLoop_written (fun d : LmDst α => d.arma_cov a b t) _ _ _ _ (Nat.zero_le _)
  · intro z s _ _
    dsimp only
    rw [RollCovParallelLm_store_cov_apply]
    obtain ⟨h1, h2⟩ := tri_toNat_range p.n_cols_x z (by omega)
    by_cases hc : t = z / n_unique p.n_cols_x ∧
        ((a = (closedFormJ p.n_cols_x (z % n_unique p.n_cols_x)).toNat ∧
            b = (closedFormK p.n_cols_x (z % n_unique p.n_cols_x)).toNat) ∨
          (a = (closedFormK p.n_cols_x (z % n_unique p.n_cols_x)).toNat ∧
            b = (closedFormJ p.n_cols_x (z % n_unique p.n_cols_x)).toNat))
    · rw [if_pos hc]
      right
      have e1 : max a b = (closedFormJ p.n_cols_x (z % n_unique p.n_cols_x)).toNat := by
        rcases hc.2 with h | h <;> omega
      have e2 : min a b = (closedFormK p.n_cols_x (z % n_unique p.n_cols_x)).toNat := by
        rcases hc.2 with h | h <;> omega
      rw [e1, e2, hc.1]
    · rw [if_neg hc]
      left; rfl
  · obtain ⟨z, hz, e1, e2, e3⟩ :=
      tri_index p.n_rows_x p.n_cols_x (max a b) (min a b) t (by omega) (by omega) ht
    refine ⟨z, Nat.zero_le _, hz, fun s => ?_⟩
    dsimp only
    rw [RollCovParallelLm_store_cov_apply, e1, e2, e3, if_pos ⟨rfl, by omega⟩]

/-- After a run over every index, the entry `(t, a)` of the means of `RollCovParallelLm`
holds the mean computed for the pair `(a, a)` at time `t`, if that pair is computed. -/
theorem RollCovParallelLm_full_mean (p : Args α) (d : LmDst α) (a t : ℕ)
    (ha : a < p.n_cols_x) (ht : t < p.n_rows_x) (hc : compute2 p t a a) :
    (RollCovParallelLm.operator p 0 (p.n_rows_x * n_unique p.n_cols_x) d).arma_mean t a =
      (RollCovParallelLm.mean_x p t a a).toCell := by
  unfold RollCovParallelLm.operator
  apply forLoop_written (fun d : LmDst α => d.arma_mean t a) _ _ _ _ (Nat.zero_le _)
  · intro z s _ _
    dsimp only
    rw [RollCovParallelLm_store_mean]
    by_cases h : compute2 p (z / n_unique p.n_cols_x)
        (closedFormJ p.n_cols_x (z % n_unique p.n_cols_x)).toNat
        (closedFormK p.n_cols_x (z % n_unique p.n_cols_x)).toNat ∧
        (closedFormJ p.n_cols_x (z % n_unique p.n_cols_x)).toNat =
          (closedFormK p.n_cols_x (z % n_unique p.n_cols_x)).toNat ∧
        t = z / n_unique p.n_cols_x ∧ a = (closedFormJ p.n_cols_x (z % n_unique p.n_cols_x)).toNat
    · rw [if_pos h]
      right
      rw [← h.2.1, ← h.2.2.2, ← h.2.2.1]
    · rw [if_neg h]
      left; rfl
  · obtain ⟨z, hz, e1, e2, e3⟩ :=
      tri_index p.n_rows_x p.n_cols_x a a t (le_refl _) ha ht
    refine ⟨z, Nat.zero_le _, hz, fun s => ?_⟩
    dsimp only
    rw [RollCovParallelLm_store_mean, e1, e2, e3, if_pos ⟨hc, rfl, rfl, rfl⟩]

/-- After a run over every index, the entry `t` of the counts of `RollCovParallelLm` holds
the count of the response column at time `t`, if the response is computed there. -/
theorem RollCovParallelLm_full_n_obs (p : Args α) (d : LmDst α) (t : ℕ)
    (hn : 0 < p.n_cols_x) (ht : t < p.n_rows_x)
    (hc : compute2 p t (p.n_cols_x - 1) (p.n_cols_x - 1)) :
    (RollCovParallelLm.operator p 0 (p.n_rows_x * n_unique p.n_cols_x) d).arma_n_obs t =
      Cell.val (((RollCovParallelLm.sums p t (p.n_cols_x - 1) (p.n_cols_x - 1)).n_obs : ℤ) : α)
      := by
  unfold RollCovParallelLm.operator
  apply forLoop_written (fun d : LmDst α => d.arma_n_obs t) _ _ _ _ (Nat.zero_le _)
  · intro z s _ _
    dsimp only
    rw [RollCovParallelLm_store_n_obs]
    split_ifs with h
    · right
      have e1 : (closedFormJ p.n_cols_x (z % n_unique p.n_cols_x)).toNat = p.n_cols_x - 1 := by
        omega
      have e2 : (closedFormK p.n_cols_x (z % n_unique p.n_cols_x)).toNat = p.n_cols_x - 1 := by
        omega
      rw [e1, e2, ← h.2.2]
    · left; rfl
  · obtain ⟨z, hz, e1, e2, e3⟩ :=
      tri_index p.n_rows_x p.n_cols_x (p.n_cols_x - 1) (p.n_cols_x - 1) t (le_refl _)
        (by omega) ht
    refine ⟨z, Nat.zero_le _, hz, fun s => ?_⟩
    dsimp only
    rw [RollCovParallelLm_store_n_obs, e1, e2, e3, if_pos ⟨hc, ⟨by omega, by omega⟩, rfl⟩]

/-! ## The sums of `RollCovParallelLm` over a window without missing rows -/

theorem validRows2_eq_window (p : Args α) (i j k : ℕ)
    (hv : ∀ r, r ∈ window p i → notNA2 p r j k) : validRows2 p i j k = window p i := by
  unfold validRows2
  exact Finset.filter_true_of_mem hv

theorem RollCovParallelLm_window (p : Args α) (i j k : ℕ) (hint : p.intercept = true)
    (hv : ∀ r, r ∈ window p i → notNA2 p r j k)
    (hW : (∑ r in window p i, lagWeight p (i - r)) ≠ 0) :
    RollCovParallelLm.mean_x p i j k = LD.fin (lmMean p i j) ∧
    (RollCovParallelLm.sums p i j k).n_obs = ((window p i).card : ℤ) ∧
    (RollCovParallelLm.sums p i j k).sumsq_xy = LD.fin (lmCross p i j k) := by
  have hvr : validRows2 { p with center := p.intercept } i j k = window p i :=
    validRows2_eq_window p i j k hv
  have hW2 : (∑ r in validRows2 { p with center := p.intercept } i j k,
      p.arma_weights (p.n - 1 - (i - r))) ≠ 0 := by rw [hvr]; exact hW
  obtain ⟨hmx, hmy⟩ := RollCovParallelXX_means_eq { p with center := p.intercept } i j k
    (fun _ => hW2)
  have e1 : ∀ a, winMean { p with center := p.intercept } i j k a = lmMean p i a := by
    intro a
    unfold winMean lmMean
    rw [if_pos (show ({ p with center := p.intercept } : Args α).center = true from hint), hvr]
    rfl
  rw [e1] at hmx hmy
  obtain ⟨sxy, h1, h2⟩ := RollCovParallelXX_body_foldl { p with center := p.intercept }
    (RollCovParallelXX.mean_x { p with center := p.intercept } i j k)
    (RollCovParallelXX.mean_y { p with center := p.intercept } i j k) i j k
    (min p.width (i + 1)) (by omega)
  rw [← validRows2_eq { p with center := p.intercept } i j k, hvr] at h1 h2
  have hs : RollCovParallelLm.sums p i j k =
      (List.range (min p.width (i + 1))).foldl
        (fun s c => RollCovParallelXX.body { p with center := p.intercept }
          (RollCovParallelXX.mean_x { p with center := p.intercept } i j k)
          (RollCovParallelXX.mean_y { p with center := p.intercept } i j k) i j k c s)
        ⟨0, 0, 0, 0⟩ := by
    unfold RollCovParallelLm.sums
    rw [whileWindow_eq_foldl]
    rfl
  refine ⟨hmx, ?_, ?_⟩
  · rw [hs, h1]
  · rw [hs, h1]
    dsimp only
    rw [h2 (lmMean p i j) (lmMean p i k) (fun _ => ⟨hmx, hmy⟩)
      (fun h => absurd (show ({ p with center := p.intercept } : Args α).center = true from hint)
        (by rw [h]; simp))]
    rfl

/-! ## The regression workers: a slice that emits coefficients -/

theorem dotLD_fin (d : ℕ) (u v : ℕ → α) :
    dotLD d (fun l => LD.fin (u l)) (fun l => LD.fin (v l)) =
      LD.fin (∑ l in Finset.range d, u l * v l) := by
  unfold dotLD
  induction d with
  | zero => simp [LD.zero_def]
  | succ d ih =>
    rw [List.range_succ, List.foldl_append, ih, Finset.sum_range_succ]
    simp only [List.foldl_cons, List.foldl_nil, LD.fin_mul_fin, LD.fin_add_fin]

theorem RollLmInterceptTRUE_slice_coef (L : LinAlg α) (m : Prim α) (q : LmArgs α)
    (i : ℕ) (o : LmOut α) (coef : ℕ → α) (hnan : sliceHasNan q i = false)
    (hs : L.solve (q.n_cols_x - 1) (sliceA q i) (sliceB q i) = some coef)
    (hn : nObsGe (q.arma_n_obs i) (q.n_cols_x : ℤ) = true) :
    (RollLmInterceptTRUE.slice L m q i o).arma_coef =
      (o.arma_coef.set i 0 ((q.arma_mean i (q.n_cols_x - 1)).toLD -
        dotLD (q.n_cols_x - 1) (fun l => (q.arma_mean i l).toLD)
          (fun l => LD.fin (coef l))).toCell).setRow i 1 (q.n_cols_x - 1)
        (fun l => Cell.val (coef l)) := by
  unfold RollLmInterceptTRUE.slice
  dsimp only
  rw [if_pos hnan, hs]
  dsimp only
  rw [if_pos hn]
  split
  · split_ifs <;> rfl
  · rfl

/-- A pass of `RollLmInterceptTRUE` that leaves numbers in the whole coefficient row has
taken the branch of a solution: no `NaN` in the slice, a successful solve, enough
observations; the numbers are the intercept and the solution. -/
theorem RollLmInterceptTRUE_slice_emits (L : LinAlg α) (m : Prim α) (q : LmArgs α)
    (i : ℕ) (o : LmOut α) (beta : ℕ → α) (hn : 0 < q.n_cols_x)
    (h : ∀ c, c < q.n_cols_x →
      (RollLmInterceptTRUE.slice L m q i o).arma_coef i c = Cell.val (beta c)) :
    sliceHasNan q i = false ∧
    ∃ coef, L.solve (q.n_cols_x - 1) (sliceA q i) (sliceB q i) = some coef ∧
      ((q.arma_mean i (q.n_cols_x - 1)).toLD -
        dotLD (q.n_cols_x - 1) (fun l => (q.arma_mean i l).toLD)
          (fun l => LD.fin (coef l))).toCell = Cell.val (beta 0) ∧
      ∀ l, l < q.n_cols_x - 1 → coef l = beta (l + 1) := by
  have hNA : (RollLmInterceptTRUE.noSolution q i o).arma_coef i 0 ≠ Cell.val (beta 0) := by
    rw [(RollLmInterceptTRUE_noSolution_row q i o).1 0 hn |>.1]
    simp
  rcases Bool.eq_false_or_eq_true (sliceHasNan q i) with hnan | hnan
  · exfalso
    have := h 0 hn
    rw [RollLmInterceptTRUE_slice_nan L m q i o hnan] at this
    exact hNA this
  · refine ⟨hnan, ?_⟩
    cases hs : L.solve (q.n_cols_x - 1) (sliceA q i) (sliceB q i) with
    | none =>
      exfalso
      have := h 0 hn
      rw [RollLmInterceptTRUE_slice_none L m q i o hs] at this
      exact hNA this
    | some coef =>
      rcases Bool.eq_false_or_eq_true (nObsGe (q.arma_n_obs i) (q.n_cols_x : ℤ)) with hg | hg
      · have e := RollLmInterceptTRUE_slice_coef L m q i o coef hnan hs hg
        refine ⟨coef, rfl, ?_, fun l hl => ?_⟩
        · have := h 0 hn
          rw [e, Mat_setRow_before _ _ _ _ _ _ (by norm_num), Mat_set_self] at this
          exact this
        · have := h (l + 1) (by omega)
          have e2 := Mat_setRow_self (o.arma_coef.set i 0
            ((q.arma_mean i (q.n_cols_x - 1)).toLD -
              dotLD (q.n_cols_x - 1) (fun l => (q.arma_mean i l).toLD)
                (fun l => LD.fin (coef l))).toCell) i 1 (q.n_cols_x - 1)
            (fun l => Cell.val (coef l)) l hl
          rw [Nat.add_comm 1 l] at e2
          rw [e, e2] at this
          exact Cell.val.inj this
      · exfalso
        have := h 0 hn
        rw [RollLmInterceptTRUE_slice_few L m q i o hg] at this
        exact hNA this

/-! ## The normal equations -/

/-- The residuals of a solution of the centred system are orthogonal to the constant and to
every predictor. -/
theorem normal_equations_of_centred (s : Finset ℕ) (d : ℕ) (w : ℕ → α) (X : ℕ → ℕ → α)
    (y : ℕ → α) (c M : ℕ → α) (My : α)
    (hM : ∀ a, a < d → (∑ r in s, w r * (X r a - M a)) = 0)
    (hMy : (∑ r in s, w r * (y r - My)) = 0)
    (hsolve : ∀ a, a < d →
      (∑ l in Finset.range d, (∑ r in s, w r * (X r a - M a) * (X r l - M l)) * c l) =
        ∑ r in s, w r * (X r a - M a) * (y r - My)) :
    (∑ r in s, w r * (y r - (My - ∑ l in Finset.range d, M l * c l) -
        ∑ l in Finset.range d, c l * X r l)) = 0 ∧
    ∀ a, a < d →
      (∑ r in s, w r * (y r - (My - ∑ l in Finset.range d, M l * c l) -
        ∑ l in Finset.range d, c l * X r l) * X r a) = 0 := by
  have he : ∀ r, y r - (My - ∑ l in Finset.range d, M l * c l) -
      ∑ l in Finset.range d, c l * X r l =
      (y r - My) - ∑ l in Finset.range d, c l * (X r l - M l) := by
    intro r
    have : (∑ l in Finset.range d, c l * (X r l - M l)) =
        (∑ l in Finset.range d, c l * X r l) - ∑ l in Finset.range d, M l * c l := by
      rw [← Finset.sum_sub_distrib]
      apply Finset.sum_congr rfl
      intro l _
      ring
    rw [this]
    ring
  have h1 : (∑ r in s, w r * ((y r - My) - ∑ l in Finset.range d, c l * (X r l - M l))) = 0 := by
    have : ∀ r ∈ s, w r * ((y r - My) - ∑ l in Finset.range d, c l * (X r l - M l)) =
        w r * (y r - My) - ∑ l in Finset.range d, c l * (w r * (X r l - M l)) := by
      intro r _
      rw [mul_sub, Finset.mul_sum]
      congr 1
      apply Finset.sum_congr rfl
      intro l _
      ring
    rw [Finset.sum_congr rfl this, Finset.sum_sub_distrib, hMy, Finset.sum_comm]
    have : ∀ l ∈ Finset.range d, (∑ r in s, c l * (w r * (X r l - M l))) = 0 := by
      intro l hl
      rw [← Finset.mul_sum, hM l (Finset.mem_range.1 hl), mul_zero]
    rw [Finset.sum_congr rfl this]
    simp
  refine ⟨by rw [Finset.sum_congr rfl (fun r _ => by rw [he r])]; exact h1, fun a ha => ?_⟩
  have h2 : ∀ r ∈ s, w r * (y r - (My - ∑ l in Finset.range d, M l * c l) -
        ∑ l in Finset.range d, c l * X r l) * X r a =
      (w r * (X r a - M a) * (y r - My) -
        ∑ l in Finset.range d, (w r * (X r a - M a) * (X r l - M l)) * c l) +
      M a * (w r * ((y r - My) - ∑ l in Finset.range d, c l * (X r l - M l))) := by
    intro r _
    rw [he r]
    have : (∑ l in Finset.range d, (w r * (X r a - M a) * (X r l - M l)) * c l) =
        w r * (X r a - M a) * ∑ l in Finset.range d, c l * (X r l - M l) := by
      rw [Finset.mul_sum]
      apply Finset.sum_congr rfl
      intro l _
      ring
    rw [this]
    ring
  rw [Finset.sum_congr rfl h2, Finset.sum_add_distrib, ← Finset.mul_sum, h1, mul_zero, add_zero,
    Finset.sum_sub_distrib, Finset.sum_comm]
  have h3 : ∀ l ∈ Finset.range d, (∑ r in s, (w r * (X r a - M a) * (X r l - M l)) * c l) =
      (∑ r in s, w r * (X r a - M a) * (X r l - M l)) * c l := by
    intro l _
    rw [Finset.sum_mul]
  rw [Finset.sum_congr rfl h3, hsolve a ha, sub_self]

theorem dotLD_congr (d : ℕ) (u u' v v' : ℕ → LD α) (hu : ∀ l, l < d → u l = u' l)
    (hv : ∀ l, l < d → v l = v' l) : dotLD d u v = dotLD d u' v' := by
  unfold dotLD
  induction d with
  | zero => rfl
  | succ d ih =>
    rw [List.range_succ, List.foldl_append, List.foldl_append,
      ih (fun l hl => hu l (by omega)) (fun l hl => hv l (by omega))]
    simp only [List.foldl_cons, List.foldl_nil]
    rw [hu d (by omega), hv d (by omega)]

theorem lmCross_symm (p : Args α) (i a b : ℕ) : lmCross p i a b = lmCross p i b a := by
  unfold lmCross
  apply Finset.sum_congr rfl
  intro r _
  ring

theorem lmCross_max_min (p : Args α) (i a b : ℕ) :
    lmCross p i (max a b) (min a b) = lmCross p i a b := by
  rcases le_total a b with h | h
  · rw [max_eq_right h, min_eq_left h, lmCross_symm]
  · rw [max_eq_left h, min_eq_right h]

/-- The deviations from the weighted mean sum to zero. -/
theorem lmMean_centred (p : Args α) (i a : ℕ)
    (hW : (∑ r in window p i, lagWeight p (i - r)) ≠ 0) :
    (∑ r in window p i, lagWeight p (i - r) * ((p.x r a).get - lmMean p i a)) = 0 := by
  have : ∀ r ∈ window p i, lagWeight p (i - r) * ((p.x r a).get - lmMean p i a) =
      lagWeight p (i - r) * (p.x r a).get - lagWeight p (i - r) * lmMean p i a := by
    intro r _; ring
  rw [Finset.sum_congr rfl this, Finset.sum_sub_distrib, ← Finset.sum_mul]
  unfold lmMean
  field_simp

/-- The entries of slice `i` of the tensor that `RollCovParallelLm` leaves, and the means of
row `i`, when no row of the window of row `i` is missing and the slice holds no `NaN`. -/
theorem RollCovParallelLm_slice_values (p : Args α) (d0 : LmDst α) (i : ℕ)
    (hi : i < p.n_rows_x) (hint : p.intercept = true) (hmem : i ∈ window p i)
    (hvalid : ∀ r, r ∈ window p i → ∀ j, j < p.n_cols_x → notNA p r j)
    (hW : (∑ r in window p i, lagWeight p (i - r)) ≠ 0) :
    (∀ a, a < p.n_cols_x →
      (RollCovParallelLm.operator p 0 (p.n_rows_x * n_unique p.n_cols_x) d0).arma_mean i a =
        Cell.val (lmMean p i a)) ∧
    ∀ a b, a < p.n_cols_x → b < p.n_cols_x →
      ((RollCovParallelLm.operator p 0 (p.n_rows_x * n_unique p.n_cols_x) d0).arma_cov
          a b i).isnan = false →
      (RollCovParallelLm.operator p 0 (p.n_rows_x * n_unique p.n_cols_x) d0).arma_cov a b i =
        Cell.val (lmCross p i a b) := by
  have hv2 : ∀ j k, j < p.n_cols_x → k < p.n_cols_x → ∀ r, r ∈ window p i → notNA2 p r j k :=
    fun j k hj hk r hr => ⟨(hvalid r hr j hj).1, (hvalid r hr j hj).2, (hvalid r hr k hk).2⟩
  have hcomp : ∀ j k, j < p.n_cols_x → k < p.n_cols_x → compute2 p i j k := by
    intro j k hj hk
    rcases Bool.eq_false_or_eq_true p.na_restore with h | h
    · exact Or.inr ⟨h, (hv2 j k hj hk i hmem).2.1, (hv2 j k hj hk i hmem).2.2⟩
    · exact Or.inl h
  constructor
  · intro a ha
    rw [RollCovParallelLm_full_mean p d0 a i ha hi (hcomp a a ha ha),
      (RollCovParallelLm_window p i a a hint (hv2 a a ha ha) hW).1]
    rfl
  · intro a b ha hb hnn
    have hmax : max a b < p.n_cols_x := by omega
    have hmin : min a b < p.n_cols_x := by omega
    rw [RollCovParallelLm_full_cov p d0 a b i ha hb hi] at hnn ⊢
    obtain ⟨_, _, h3⟩ := RollCovParallelLm_window p i (max a b) (min a b) hint
      (hv2 _ _ hmax hmin) hW
    unfold RollCovParallelLm.cell at hnn ⊢
    rw [if_pos (hcomp _ _ hmax hmin)] at hnn ⊢
    by_cases hcnt : (RollCovParallelLm.sums p i (max a b) (min a b)).n_obs > 1 ∧
        (RollCovParallelLm.sums p i (max a b) (min a b)).n_obs ≥ p.min_obs
    · rw [if_pos hcnt, h3, lmCross_max_min]
      rfl
    · rw [if_neg hcnt] at hnn
      exact absurd hnn (by simp [Cell.isnan])

/-- The entries of slice `i` of the tensor that `RollCovParallelLm` leaves, and the count of
row `i`, when no row of the window of row `i` is missing and the window holds enough
rows. -/
theorem RollCovParallelLm_slice_forward (p : Args α) (d0 : LmDst α) (i : ℕ)
    (hi : i < p.n_rows_x) (hn : 0 < p.n_cols_x) (hint : p.intercept = true)
    (hmem : i ∈ window p i)
    (hvalid : ∀ r, r ∈ window p i → ∀ j, j < p.n_cols_x → notNA p r j)
    (hW : (∑ r in window p i, lagWeight p (i - r)) ≠ 0)
    (hcard : ((window p i).card : ℤ) > 1 ∧ ((window p i).card : ℤ) ≥ p.min_obs) :
    (∀ a b, a < p.n_cols_x → b < p.n_cols_x →
      (RollCovParallelLm.operator p 0 (p.n_rows_x * n_unique p.n_cols_x) d0).arma_cov a b i =
        Cell.val (lmCross p i a b)) ∧
    (RollCovParallelLm.operator p 0 (p.n_rows_x * n_unique p.n_cols_x) d0).arma_n_obs i =
      Cell.val ((((window p i).card : ℤ) : ℤ) : α) := by
  have hv2 : ∀ j k, j < p.n_cols_x → k < p.n_cols_x → ∀ r, r ∈ window p i → notNA2 p r j k :=
    fun j k hj hk r hr => ⟨(hvalid r hr j hj).1, (hvalid r hr j hj).2, (hvalid r hr k hk).2⟩
  have hcomp : ∀ j k, j < p.n_cols_x → k < p.n_cols_x → compute2 p i j k := by
    intro j k hj hk
    rcases Bool.eq_false_or_eq_true p.na_restore with h | h
    · exact Or.inr ⟨h, (hv2 j k hj hk i hmem).2.1, (hv2 j k hj hk i hmem).2.2⟩
    · exact Or.inl h
  constructor
  · intro a b ha hb
    have hmax : max a b < p.n_cols_x := by omega
    have hmin : min a b < p.n_cols_x := by omega
    obtain ⟨_, h2, h3⟩ := RollCovParallelLm_window p i (max a b) (min a b) hint
      (hv2 _ _ hmax hmin) hW
    rw [RollCovParallelLm_full_cov p d0 a b i ha hb hi]
    unfold RollCovParallelLm.cell
    rw [if_pos (hcomp _ _ hmax hmin), h2, if_pos hcard, h3, lmCross_max_min]
    rfl
  · obtain ⟨_, h2, _⟩ := RollCovParallelLm_window p i (p.n_cols_x - 1) (p.n_cols_x - 1) hint
      (hv2 _ _ (by omega) (by omega)) hW
    rw [RollCovParallelLm_full_n_obs p d0 i hn hi (hcomp _ _ (by omega) (by omega)), h2]

/-- The exact routines `exLinAlg` return a solution of the system. -/
theorem exLinAlg_exact (d : ℕ) (A : ℕ → ℕ → ℚ) (bv c : ℕ → ℚ)
    (h : exLinAlg.solve d A bv = some c) (a : ℕ) (ha : a < d) :
    (∑ l in Finset.range d, A a l * c l) = bv a := by
  unfold exLinAlg at h
  dsimp only at h
  by_cases h1 : d = 1
  · subst h1
    rw [if_pos rfl] at h
    by_cases h2 : A 0 0 = 0
    · rw [if_pos h2] at h
      exact absurd h (by simp)
    · rw [if_neg h2] at h
      have hc := Option.some.inj h
      have ha0 : a = 0 := by omega
      subst ha0
      rw [Finset.sum_range_one, ← hc]
      field_simp
  · rw [if_neg h1] at h
    by_cases h3 : d = 2
    · subst h3
      rw [if_pos rfl] at h
      by_cases h2 : A 0 0 * A 1 1 - A 0 1 * A 1 0 = 0
      · rw [if_pos h2] at h
        exact absurd h (by simp)
      · rw [if_neg h2] at h
        have hc := Option.some.inj h
        rw [Finset.sum_range_succ, Finset.sum_range_one, ← hc]
        have ha2 : a = 0 ∨ a = 1 := by omega
        rcases ha2 with h | h
        · subst h
          simp only [if_true, one_ne_zero, if_false]
          field_simp
          ring
        · subst h
          simp only [if_true, one_ne_zero, if_false]
          field_simp
          ring
    · rw [if_neg h3] at h
      exact absurd h (by simp)

/-! ## The regression of `exLmData` -/

theorem exLmData_window : window exLmData 2 = {0, 1, 2} := by decide

theorem exLmData_valid :
    ∀ r, r ∈ window exLmData 2 → ∀ j, j < exLmData.n_cols_x → notNA exLmData r j := by
  decide

theorem exLmData_weights : ∀ r, r ∈ window exLmData 2 → 0 < lagWeight exLmData (2 - r) := by
  intro r hr
  rw [exLmData_window] at hr
  simp only [Finset.mem_insert, Finset.mem_singleton] at hr
  rcases hr with h | h | h <;> subst h <;> norm_num [lagWeight, exLmData, vector]

theorem exLmData_mass : (∑ r in window exLmData 2, lagWeight exLmData (2 - r)) = 3 := by
  rw [exLmData_window]
  norm_num [lagWeight, exLmData, vector]

theorem exLmData_mean0 : lmMean exLmData 2 0 = 1 := by
  unfold lmMean
  rw [exLmData_window]
  norm_num [lagWeight, exLmData, vector, column, Cell.get]

theorem exLmData_mean1 : lmMean exLmData 2 1 = 2 := by
  unfold lmMean
  rw [exLmData_window]
  norm_num [lagWeight, exLmData, vector, column, Cell.get]

theorem exLmData_cross00 : lmCross exLmData 2 0 0 = 2 := by
  unfold lmCross
  rw [exLmData_mean0, exLmData_window]
  norm_num [lagWeight, exLmData, vector, column, Cell.get]

theorem exLmData_cross01 : lmCross exLmData 2 0 1 = 3 := by
  unfold lmCross
  rw [exLmData_mean0, exLmData_mean1, exLmData_window]
  norm_num [lagWeight, exLmData, vector, column, Cell.get]

theorem exLmData_emit (c : ℕ) (hc : c < exLmData.n_cols_x) :
    (RollLmInterceptTRUE.operator exLinAlg exPrim
      (lmArgsOf exLmData (RollCovParallelLm.operator exLmData 0
        (exLmData.n_rows_x * n_unique exLmData.n_cols_x) exLmDst))
      0 3 exLmOut).arma_coef 2 c = Cell.val (exLmBeta c) := by
  have hW : (∑ r in window exLmData 2, lagWeight exLmData (2 - r)) ≠ 0 := by
    rw [exLmData_mass]; norm_num
  obtain ⟨hcov, hnobs⟩ := RollCovParallelLm_slice_forward exLmData exLmDst 2 (by decide)
    (by decide) rfl (by decide) exLmData_valid hW (by decide)
  obtain ⟨hmean, _⟩ := RollCovParallelLm_slice_values exLmData exLmDst 2 (by decide) rfl
    (by decide) exLmData_valid hW
  generalize RollCovParallelLm.operator exLmData 0
    (exLmData.n_rows_x * n_unique exLmData.n_cols_x) exLmDst = D at hcov hnobs hmean ⊢
  have hnan : sliceHasNan (lmArgsOf exLmData D) 2 = false := by
    rcases Bool.eq_false_or_eq_true (sliceHasNan (lmArgsOf exLmData D) 2) with h | h
    · obtain ⟨a, ha, b, hb, hab⟩ := (sliceHasNan_iff _ _).1 h
      change (D.arma_cov a b 2).isnan = true at hab
      rw [hcov a b ha hb] at hab
      exact absurd hab (by simp [Cell.isnan])
    · exact h
  have hA : sliceA (lmArgsOf exLmData D) 2 0 0 = 2 := by
    change (D.arma_cov 0 0 2).get = 2
    rw [hcov 0 0 (by decide) (by decide), exLmData_cross00]
    rfl
  have hB : sliceB (lmArgsOf exLmData D) 2 0 = 3 := by
    change (D.arma_cov 0 1 2).get = 3
    rw [hcov 0 1 (by decide) (by decide), exLmData_cross01]
    rfl
  have hs : exLinAlg.solve ((lmArgsOf exLmData D).n_cols_x - 1)
      (sliceA (lmArgsOf exLmData D) 2) (sliceB (lmArgsOf exLmData D) 2) =
      some (fun _ => 3 / 2) := by
    change exLinAlg.solve 1 _ _ = _
    unfold exLinAlg
    dsimp only
    rw [if_pos rfl, hA, hB, if_neg (by norm_num)]
  have hn : nObsGe ((lmArgsOf exLmData D).arma_n_obs 2)
      ((lmArgsOf exLmData D).n_cols_x : ℤ) = true := by
    change nObsGe (D.arma_n_obs 2) ((2 : ℕ) : ℤ) = true
    rw [hnobs, exLmData_window]
    unfold nObsGe
    simp
    norm_num
  have e := RollLmInterceptTRUE_slice_coef exLinAlg exPrim (lmArgsOf exLmData D) 2 exLmOut
    (fun _ => 3 / 2) hnan hs hn
  have hrow := RollLmInterceptTRUE_operator_row exLinAlg exPrim (lmArgsOf exLmData D) 0 3
    (by decide) exLmOut 2
  rw [if_pos ⟨by decide, by decide⟩] at hrow
  obtain ⟨r1, _, _⟩ := LmOut_row_eq _ _ 2 hrow
  rw [r1 c, e]
  have hm0 : (lmArgsOf exLmData D).arma_mean 2 0 = Cell.val 1 := by
    change D.arma_mean 2 0 = _
    rw [hmean 0 (by decide), exLmData_mean0]
  have hm1 : (lmArgsOf exLmData D).arma_mean 2 1 = Cell.val 2 := by
    change D.arma_mean 2 1 = _
    rw [hmean 1 (by decide), exLmData_mean1]
  have hc2 : c = 0 ∨ c = 1 := by
    have : c < 2 := hc
    omega
  rcases hc2 with h | h
  · subst h
    rw [Mat_setRow_before _ _ _ _ _ _ (by norm_num), Mat_set_self]
    change (((lmArgsOf exLmData D).arma_mean 2 1).toLD -
      dotLD 1 (fun l => ((lmArgsOf exLmData D).arma_mean 2 l).toLD)
        (fun _ => LD.fin (3 / 2 : ℚ))).toCell = _
    rw [hm1]
    unfold dotLD
    simp only [List.range_succ, List.range_zero, List.nil_append, List.foldl_cons,
      List.foldl_nil, hm0, Cell.toLD, LD.zero_def, LD.fin_mul_fin, LD.fin_add_fin,
      LD.fin_sub_fin, LD.toCell_fin, exLmBeta]
    norm_num
  · subst h
    have e2 := Mat_setRow_self (exLmOut.arma_coef.set 2 0
      (((lmArgsOf exLmData D).arma_mean 2 ((lmArgsOf exLmData D).n_cols_x - 1)).toLD -
        dotLD ((lmArgsOf exLmData D).n_cols_x - 1)
          (fun l => ((lmArgsOf exLmData D).arma_mean 2 l).toLD)
          (fun _ => LD.fin (3 / 2 : ℚ))).toCell) 2 1 ((lmArgsOf exLmData D).n_cols_x - 1)
      (fun _ => Cell.val (3 / 2 : ℚ)) 0 (by show 0 < 1; exact Nat.one_pos)
    rw [e2]
    simp [exLmBeta]

/-! ## The online sum engine -/

/-- The recurrence of the window sums of one column. -/
theorem lagSum_succ_self (p : Args α) (j : ℕ) (u f : ℕ → α) (μ : α) (hw : 1 ≤ p.width)
    (hu : ∀ c, c + 1 < p.width → u (c + 1) = μ * u c) (t : ℕ) :
    lagSum p j j u f (t + 1) =
      μ * lagSum p j j u f t + (if notNA p t j then u 0 * f t else 0) -
        (if p.width ≤ t ∧ notNA p (t - p.width) j then
          μ * u (p.width - 1) * f (t - p.width) else 0) := by
  have e1 : (if notNA2 p t j j then u 0 * f t else 0) = if notNA p t j then u 0 * f t else 0 :=
    if_congr (notNA2_self p t j) rfl rfl
  have e2 : (if p.width ≤ t ∧ notNA2 p (t - p.width) j j then
      μ * u (p.width - 1) * f (t - p.width) else 0) =
      if p.width ≤ t ∧ notNA p (t - p.width) j then
        μ * u (p.width - 1) * f (t - p.width) else 0 :=
    if_congr (and_congr (Iff.refl (p.width ≤ t)) (notNA2_self p (t - p.width) j)) rfl rfl
  rw [lagSum_succ p j j u f μ hw hu t, e1, e2]

theorem validCount_zero_width (p : Args α) (j t : ℕ) (hw : p.width = 0) :
    validCount p j t = 0 := by
  unfold validCount
  rw [hw]
  simp

/-- The counter `n_obs` of `RollSumOnline` is the number of valid rows of the window. -/
theorem RollSumOnline_n_obs (p : Args α) (j : ℕ) (t : ℕ) :
    (onlineState (RollSumOnline.step p j) RollSumOnline.init t).n_obs =
      validCount p j t := by
  rcases Nat.eq_zero_or_pos p.width with hw0 | hw
  · rw [validCount_zero_width p j t hw0]
    induction t with
    | zero => rfl
    | succ t ih =>
      rw [onlineState]
      generalize onlineState (RollSumOnline.step p j) RollSumOnline.init t = s at *
      unfold RollSumOnline.step
      have h1 : ¬ t < p.width := by omega
      have h2 : t - p.width = t := by omega
      simp only [if_neg h1, h2]
      have e1 : ¬ (notNA p t j ∧ isNA p t j) := fun h => (not_isNA_of p t j h.1) h.2
      have e2 : ¬ (isNA p t j ∧ notNA p t j) := fun h => (not_isNA_of p t j h.2) h.1
      rw [if_neg e1, if_neg e2, ih]
  · induction t with
    | zero => simp [onlineState, RollSumOnline.init, validCount]
    | succ t ih =>
      rw [onlineState, validCount_succ p j hw t]
      generalize onlineState (RollSumOnline.step p j) RollSumOnline.init t = s at *
      unfold RollSumOnline.step
      by_cases hexp : t < p.width
      · have hnr : ¬ (p.width ≤ t ∧ notNA p (t - p.width) j) := fun h => by omega
        simp only [if_pos hexp, if_neg hnr, ih]
        by_cases hv : notNA p t j
        · simp only [if_pos hv]; ring
        · simp only [if_neg hv]; ring
      · have hge : p.width ≤ t := by omega
        simp only [if_neg hexp, ih]
        by_cases hv : notNA p t j <;> by_cases hvo : notNA p (t - p.width) j
        · have hnao := not_isNA_of p _ j hvo
          have hna := not_isNA_of p _ j hv
          simp only [if_pos hv,
            if_pos (show p.width ≤ t ∧ notNA p (t - p.width) j from ⟨hge, hvo⟩),
            if_neg (show ¬ (notNA p t j ∧ isNA p (t - p.width) j) from fun h => hnao h.2),
            if_neg (show ¬ (isNA p t j ∧ notNA p (t - p.width) j) from fun h => hna h.1)]
          ring
        · have hnao := isNA_of_not p _ j hvo
          simp only [if_pos hv,
            if_neg (show ¬ (p.width ≤ t ∧ notNA p (t - p.width) j) from fun h => hvo h.2),
            if_pos (show notNA p t j ∧ isNA p (t - p.width) j from ⟨hv, hnao⟩)]
          ring
        · have hna := isNA_of_not p _ j hv
          simp only [if_neg hv,
            if_pos (show p.width ≤ t ∧ notNA p (t - p.width) j from ⟨hge, hvo⟩),
            if_neg (show ¬ (notNA p t j ∧ isNA p (t - p.width) j) from fun h => hv h.1),
            if_pos (show isNA p t j ∧ notNA p (t - p.width) j from ⟨hna, hvo⟩)]
          ring
        · simp only [if_neg hv,
            if_neg (show ¬ (p.width ≤ t ∧ notNA p (t - p.width) j) from fun h => hvo h.2),
            if_neg (show ¬ (notNA p t j ∧ isNA p (t - p.width) j) from fun h => hv h.1),
            if_neg (show ¬ (isNA p t j ∧ notNA p (t - p.width) j) from fun h => hvo h.2)]
          ring

/-- The count that the window loop of `RollSumParallel` leaves. -/
theorem RollSumParallel_n_obs (p : Args α) (i j : ℕ) :
    (whileWindow p.width i (RollSumParallel.body p i j) ⟨0, 0⟩).n_obs =
      ((validRows p i j).card : ℤ) := by
  rw [whileWindow_eq_foldl, RollSumParallel_foldl p i j _ (by omega), ← validRows_eq]

theorem validRows_card_le (p : Args α) (i j : ℕ) :
    (validRows p i j).card ≤ min p.width (i + 1) := by
  unfold validRows
  refine le_trans (Finset.card_filter_le _ _) ?_
  unfold window
  rw [Nat.card_Icc]
  omega

/-- The accumulator `sum_x` of `RollSumOnline` after `t` rows is the weighted sum of the
window, under weights that age by the factor `lam`. -/
theorem RollSumOnline_sum_x (p : Args α) (j : ℕ) (lam : α) (hn : p.n = p.width)
    (hw : 1 ≤ p.width) (hl : lambda p = LD.fin lam)
    (hu : ∀ c, c + 1 < p.width → lagWeight p (c + 1) = lam * lagWeight p c) (t : ℕ) :
    (onlineState (RollSumOnline.step p j) RollSumOnline.init t).sum_x =
      LD.fin (lagSum p j j (lagWeight p) (fun r => (p.x r j).get) t) := by
  induction t with
  | zero => simp [onlineState, RollSumOnline.init, lagSum, LD.zero_def]
  | succ t ih =>
    have r1 := lagSum_succ_self p j (lagWeight p) (fun r => (p.x r j).get) lam hw hu t
    have hw0 : lagWeight p 0 = p.arma_weights (p.n - 1) := rfl
    have hwl : lagWeight p (p.width - 1) = p.arma_weights 0 := by
      unfold lagWeight; congr 1; omega
    rw [hw0, hwl] at r1
    rw [onlineState]
    generalize onlineState (RollSumOnline.step p j) RollSumOnline.init t = s at *
    rw [r1]
    unfold RollSumOnline.step
    by_cases hexp : t < p.width
    · have hnr : ¬ (p.width ≤ t ∧ notNA p (t - p.width) j) := fun h => by omega
      simp only [if_pos hexp, if_neg hnr, ih, hl]
      by_cases hv : notNA p t j
      · have hna := not_isNA_of p t j hv
        simp only [if_pos hv, if_neg hna, toLD_of_not_isnan hv.2, LD.fin_mul_fin,
          LD.fin_add_fin]
        refine congrArg LD.fin ?_; ring
      · have hna := isNA_of_not p t j hv
        simp only [if_neg hv, if_pos hna, LD.zero_def, LD.fin_mul_fin, LD.fin_add_fin]
        refine congrArg LD.fin ?_; ring
    · have hge : p.width ≤ t := by omega
      simp only [if_neg hexp, ih, hl]
      by_cases hv : notNA p t j <;> by_cases hvo : notNA p (t - p.width) j
      · have hna := not_isNA_of p t j hv
        have hnao := not_isNA_of p (t - p.width) j hvo
        have hc : p.width ≤ t ∧ notNA p (t - p.width) j := ⟨hge, hvo⟩
        simp only [if_pos hv, if_neg hna, if_neg hnao, if_pos hc,
          toLD_of_not_isnan hv.2, toLD_of_not_isnan hvo.2,
          LD.fin_mul_fin, LD.fin_add_fin, LD.fin_sub_fin]
      · have hna := not_isNA_of p t j hv
        have hnao := isNA_of_not p (t - p.width) j hvo
        have hc : ¬ (p.width ≤ t ∧ notNA p (t - p.width) j) := fun h => hvo h.2
        simp only [if_pos hv, if_neg hna, if_pos hnao, if_neg hc,
          toLD_of_not_isnan hv.2, LD.zero_def,
          LD.fin_mul_fin, LD.fin_add_fin, LD.fin_sub_fin]
        refine congrArg LD.fin ?_; ring
      · have hna := isNA_of_not p t j hv
        have hnao := not_isNA_of p (t - p.width) j hvo
        have hc : p.width ≤ t ∧ notNA p (t - p.width) j := ⟨hge, hvo⟩
        simp only [if_neg hv, if_pos hna, if_neg hnao, if_pos hc,
          toLD_of_not_isnan hvo.2, LD.zero_def,
          LD.fin_mul_fin, LD.fin_add_fin, LD.fin_sub_fin]
        refine congrArg LD.fin ?_; ring
      · have hna := isNA_of_not p t j hv
        have hnao := isNA_of_not p (t - p.width) j hvo
        have hc : ¬ (p.width ≤ t ∧ notNA p (t - p.width) j) := fun h => hvo h.2
        simp only [if_neg hv, if_pos hna, if_pos hnao, if_neg hc,
          LD.zero_def, LD.fin_mul_fin, LD.fin_add_fin, LD.fin_sub_fin]
        refine congrArg LD.fin ?_; ring

/-- The window sums of one column, over the valid rows of the window. -/
theorem lagSum_self_eq_validRows (p : Args α) (i j : ℕ) (f : ℕ → α) :
    lagSum p j j (lagWeight p) f (i + 1) =
      ∑ r in validRows p i j, p.arma_weights (p.n - 1 - (i - r)) * f r := by
  rw [← lagSum_eq_window p i j j f, validRows_eq]
  apply Finset.sum_congr
  · apply Finset.filter_congr
    intro r _
    exact notNA2_self p r j
  · intro r _; rfl

/-- The store of `RollSumParallel`, from the sums of the window. -/
theorem RollSumParallel_cell_eq (p : Args α) (i j : ℕ) :
    RollSumParallel.cell p i j =
      if compute p i j then
        if ((validRows p i j).card : ℤ) ≥ p.min_obs then
          Cell.val (∑ r in validRows p i j, p.arma_weights (p.n - 1 - (i - r)) * (p.x r j).get)
        else Cell.NA
      else p.x i j := by
  unfold RollSumParallel.cell
  dsimp only
  rw [whileWindow_eq_foldl, RollSumParallel_foldl p i j _ (by omega), ← validRows_eq]
  rfl

/-- The store of `RollSumOnline`, from the sums of the window. -/
theorem RollSumOnline_cell_eq (p : Args α) (i j : ℕ) (lam : α) (hn : p.n = p.width)
    (hw : 1 ≤ p.width) (hl : lambda p = LD.fin lam)
    (hu : ∀ c, c + 1 < p.width → lagWeight p (c + 1) = lam * lagWeight p c) :
    RollSumOnline.cell p i j =
      if compute p i j then
        if ((validRows p i j).card : ℤ) ≥ p.min_obs then
          Cell.val (∑ r in validRows p i j, p.arma_weights (p.n - 1 - (i - r)) * (p.x r j).get)
        else Cell.NA
      else p.x i j := by
  unfold RollSumOnline.cell RollSumOnline.emit
  rw [RollSumOnline_n_obs, RollSumOnline_sum_x p j lam hn hw hl hu, lagSum_self_eq_validRows,
    validRows_card]
  rfl

theorem exCovDecay_validRows1 : validRows exCovDecay 3 1 = {2, 3} := by decide

/-! ## The online product engine -/

/-- The valid rows of the window after row `t`: the rows that stay, and the new row. -/
theorem filter_Ico_enter (P : ℕ → Prop) [DecidablePred P] (w t : ℕ) (hw : 1 ≤ w) :
    (Finset.Ico (t + 1 - w) (t + 1)).filter P =
      if P t then insert t ((Finset.Ico (t + 1 - w) t).filter P)
      else (Finset.Ico (t + 1 - w) t).filter P := by
  rw [Nat.Ico_succ_right_eq_insert_Ico (by omega : t + 1 - w ≤ t), Finset.filter_insert]

/-- The valid rows of the window before row `t`: the rows that stay, and the row that
leaves. -/
theorem filter_Ico_leave (P : ℕ → Prop) [DecidablePred P] (w t : ℕ) (hw : 1 ≤ w) :
    (Finset.Ico (t - w) t).filter P =
      if w ≤ t ∧ P (t - w) then insert (t - w) ((Finset.Ico (t + 1 - w) t).filter P)
      else (Finset.Ico (t + 1 - w) t).filter P := by
  by_cases h : w ≤ t
  · have e : t + 1 - w = (t - w).succ := by omega
    rw [e, ← Nat.Ico_insert_succ_left (by omega : t - w < t), Finset.filter_insert]
    by_cases hP : P (t - w)
    · rw [if_pos hP, if_pos ⟨h, hP⟩]
    · rw [if_neg hP, if_neg (fun hh => hP hh.2)]
  · have e : t + 1 - w = t - w := by omega
    rw [if_neg (fun hh => h hh.1), e]

theorem not_mem_stay_enter (P : ℕ → Prop) [DecidablePred P] (w t : ℕ) :
    t ∉ (Finset.Ico (t + 1 - w) t).filter P := by
  simp only [Finset.mem_filter, Finset.mem_Ico]
  omega

theorem not_mem_stay_leave (P : ℕ → Prop) [DecidablePred P] (w t : ℕ) (hw : w ≤ t) :
    t - w ∉ (Finset.Ico (t + 1 - w) t).filter P := by
  simp only [Finset.mem_filter, Finset.mem_Ico]
  omega

theorem othersCount_succ (p : Args α) (j t : ℕ) :
    othersCount p j (t + 1) =
      ((Finset.Ico (t + 1 - p.width) t).filter (fun r => notNA p r j)).card := rfl

/-- The count of the window after row `t`, from the rows that stay. -/
theorem validCount_enter (p : Args α) (j t : ℕ) (hw : 1 ≤ p.width) :
    validCount p j (t + 1) = othersCount p j (t + 1) + (if notNA p t j then 1 else 0) := by
  unfold validCount
  rw [filter_Ico_enter _ _ _ hw, othersCount_succ]
  by_cases h : notNA p t j
  · rw [if_pos h, if_pos h, Finset.card_insert_of_not_mem (not_mem_stay_enter _ _ _)]
  · rw [if_neg h, if_neg h]; rfl

/-- The count of the window before row `t`, from the rows that stay. -/
theorem validCount_leave (p : Args α) (j t : ℕ) (hw : 1 ≤ p.width) :
    validCount p j t = othersCount p j (t + 1) +
      (if p.width ≤ t ∧ notNA p (t - p.width) j then 1 else 0) := by
  unfold validCount
  rw [filter_Ico_leave _ _ _ hw, othersCount_succ]
  by_cases h : p.width ≤ t ∧ notNA p (t - p.width) j
  · rw [if_pos h, if_pos h, Finset.card_insert_of_not_mem (not_mem_stay_leave _ _ _ h.1)]
  · rw [if_neg h, if_neg h]; rfl

/-- The rows that stay change by at most one row from one pass to the next. -/
theorem othersCount_step (p : Args α) (j t : ℕ) (hw : 1 ≤ p.width) :
    othersCount p j (t + 2) + (if p.width ≤ t + 1 ∧ notNA p (t + 1 - p.width) j then 1 else 0) =
      othersCount p j (t + 1) + (if notNA p t j then 1 else 0) := by
  rw [← validCount_enter p j t hw, ← validCount_leave p j (t + 1) hw]

theorem othersCount_zero (p : Args α) (j : ℕ) : othersCount p j 0 = 0 := by
  unfold othersCount
  simp

theorem othersCount_one (p : Args α) (j : ℕ) : othersCount p j 1 = 0 := by
  unfold othersCount
  simp

/-- The rows of the window of row `i` other than row `i` itself. -/
theorem othersCount_eq_erase (p : Args α) (i j : ℕ) :
    othersCount p j (i + 1) = ((validRows p i j).erase i).card := by
  rw [othersCount_succ]
  congr 1
  ext r
  unfold validRows window
  simp only [Finset.mem_filter, Finset.mem_Ico, Finset.mem_erase, Finset.mem_Icc]
  constructor
  · rintro ⟨⟨h1, h2⟩, h3⟩
    exact ⟨by omega, ⟨h1, by omega⟩, h3⟩
  · rintro ⟨h0, ⟨h1, h2⟩, h3⟩
    exact ⟨⟨h1, by omega⟩, h3⟩

/-- The counters of one pass of `RollProdOnline`: `n_new` from `n_obs`, and `n_exp` from
`n_new` and `n_old`. -/
theorem RollProdOnline_step_counters (p : Args α) (j t : ℕ) (s : RollProdOnline.State α) :
    (RollProdOnline.step p j t s).n_old =
        (if isNA p t j then (RollProdOnline.step p j t s).n_obs
          else (RollProdOnline.step p j t s).n_obs - 1) ∧
    (RollProdOnline.step p j t s).n_exp =
        RollProdOnline.next_exp (lambda p) (RollProdOnline.step p j t s).n_old s.n_old
          s.n_exp := by
  unfold RollProdOnline.step
  by_cases h : t < p.width
  · simp only [if_pos h]
    trivial
  · simp only [if_neg h]
    trivial

/-- The counter `n_obs` of `RollProdOnline` is the number of valid rows of the window. -/
theorem RollProdOnline_n_obs (p : Args α) (j : ℕ) (hw : 1 ≤ p.width) (t : ℕ) :
    (onlineState (RollProdOnline.step p j) RollProdOnline.init t).n_obs =
      validCount p j t := by
  induction t with
  | zero => simp [onlineState, RollProdOnline.init, validCount]
  | succ t ih =>
    rw [onlineState, validCount_succ p j hw t]
    generalize onlineState (RollProdOnline.step p j) RollProdOnline.init t = s at *
    unfold RollProdOnline.step
    by_cases hexp : t < p.width
    · have hnr : ¬ (p.width ≤ t ∧ notNA p (t - p.width) j) := fun h => by omega
      simp only [if_pos hexp, if_neg hnr, ih]
      by_cases hv : notNA p t j
      · simp only [if_pos hv]; ring
      · simp only [if_neg hv]; ring
    · have hge : p.width ≤ t := by omega
      simp only [if_neg hexp, ih]
      by_cases hv : notNA p t j <;> by_cases hvo : notNA p (t - p.width) j
      · have hnao := not_isNA_of p _ j hvo
        have hna := not_isNA_of p _ j hv
        simp only [if_pos hv,
          if_pos (show p.width ≤ t ∧ notNA p (t - p.width) j from ⟨hge, hvo⟩),
          if_neg (show ¬ (notNA p t j ∧ isNA p (t - p.width) j) from fun h => hnao h.2),
          if_neg (show ¬ (isNA p t j ∧ notNA p (t - p.width) j) from fun h => hna h.1)]
        ring
      · have hnao := isNA_of_not p _ j hvo
        simp only [if_pos hv,
          if_neg (show ¬ (p.width ≤ t ∧ notNA p (t - p.width) j) from fun h => hvo h.2),
          if_pos (show notNA p t j ∧ isNA p (t - p.width) j from ⟨hv, hnao⟩)]
        ring
      · have hna := isNA_of_not p _ j hv
        simp only [if_neg hv,
          if_pos (show p.width ≤ t ∧ notNA p (t - p.width) j from ⟨hge, hvo⟩),
          if_neg (show ¬ (notNA p t j ∧ isNA p (t - p.width) j) from fun h => hv h.1),
          if_pos (show isNA p t j ∧ notNA p (t - p.width) j from ⟨hna, hvo⟩)]
        ring
      · simp only [if_neg hv,
          if_neg (show ¬ (p.width ≤ t ∧ notNA p (t - p.width) j) from fun h => hvo h.2),
          if_neg (show ¬ (notNA p t j ∧ isNA p (t - p.width) j) from fun h => hv h.1),
          if_neg (show ¬ (isNA p t j ∧ notNA p (t - p.width) j) from fun h => hvo h.2)]
        ring

/-- The variable `n_old` of `RollProdOnline` after `t` rows is the number of valid rows of
the window other than the last row. -/
theorem RollProdOnline_n_old (p : Args α) (j : ℕ) (hw : 1 ≤ p.width) (t : ℕ) :
    (onlineState (RollProdOnline.step p j) RollProdOnline.init t).n_old =
      othersCount p j t := by
  cases t with
  | zero => simp [onlineState, RollProdOnline.init, othersCount_zero]
  | succ t =>
    have h1 := RollProdOnline_n_obs p j hw (t + 1)
    rw [onlineState] at h1 ⊢
    rw [(RollProdOnline_step_counters p j t _).1, h1, validCount_enter p j t hw]
    by_cases hv : notNA p t j
    · rw [if_neg (not_isNA_of p t j hv), if_pos hv]
      push_cast
      ring
    · rw [if_pos (isNA_of_not p t j hv), if_neg hv]
      simp

/-- The update of `n_exp` keeps it a power of `lambda` when the count moves by at most
one. -/
theorem next_exp_pow (lam : α) (hlam : lam ≠ 0) (a b : ℕ) (h1 : a ≤ b + 1) (h2 : b ≤ a + 1) :
    RollProdOnline.next_exp (LD.fin lam) (a : ℤ) (b : ℤ) (LD.fin (lam ^ b)) =
      LD.fin (lam ^ a) := by
  unfold RollProdOnline.next_exp
  by_cases h0 : (a : ℤ) = 0
  · rw [if_pos h0]
    have : a = 0 := by exact_mod_cast h0
    rw [this, pow_zero]
    rfl
  · rw [if_neg h0]
    by_cases hgt : (a : ℤ) > b
    · rw [if_pos hgt]
      have : a = b + 1 := by omega
      rw [this, LD.fin_mul_fin, pow_succ]
    · rw [if_neg hgt]
      by_cases hlt : (a : ℤ) < b
      · rw [if_pos hlt]
        have : b = a + 1 := by omega
        rw [this, LD.fin_div_fin_of_ne _ hlam, pow_succ, mul_div_assoc, div_self hlam, mul_one]
      · rw [if_neg hlt]
        have : a = b := by omega
        rw [this]

/-- The variable `n_exp` of `RollProdOnline` after at least one row is `lambda` to the
number of valid rows of the window other than the last row. -/
theorem RollProdOnline_n_exp (p : Args α) (j : ℕ) (lam : α) (hw : 1 ≤ p.width)
    (hl : lambda p = LD.fin lam) (hlam : lam ≠ 0) (t : ℕ) :
    (onlineState (RollProdOnline.step p j) RollProdOnline.init (t + 1)).n_exp =
      LD.fin (lam ^ othersCount p j (t + 1)) := by
  induction t with
  | zero =>
    have h1 := RollProdOnline_n_old p j hw 1
    rw [onlineState] at h1 ⊢
    rw [(RollProdOnline_step_counters p j 0 _).2, h1, othersCount_one]
    unfold RollProdOnline.next_exp
    rw [if_pos (by simp), pow_zero]
    rfl
  | succ t ih =>
    have h1 := RollProdOnline_n_old p j hw (t + 2)
    have h2 := RollProdOnline_n_old p j hw (t + 1)
    have h3 := othersCount_step p j t hw
    rw [onlineState] at h1 ⊢
    rw [(RollProdOnline_step_counters p j (t + 1) _).2, h1, h2, ih, hl]
    apply next_exp_pow lam hlam
    · split_ifs at h3 <;> omega
    · split_ifs at h3 <;> omega

theorem LD_div_one (a : LD α) : a / (1 : LD α) = a := by
  cases a with
  | fin v =>
    show LD.fin v / LD.fin 1 = LD.fin v
    rw [LD.fin_div_fin_of_ne _ one_ne_zero, div_one]
  | nonfin => rfl

/-- The products of one pass of `RollProdOnline`, in one formula for both regimes: the
leaving factor is `1` in the expanding regime and when the leaving row is missing. -/
theorem RollProdOnline_step_prods (p : Args α) (j t : ℕ) (s : RollProdOnline.State α) :
    (RollProdOnline.step p j t s).prod_w =
        s.prod_w * ((if notNA p t j then LD.fin (p.arma_weights (p.n - 1)) else 1) *
          (RollProdOnline.step p j t s).n_exp /
          (if p.width ≤ t ∧ notNA p (t - p.width) j then LD.fin (p.arma_weights 0) else 1)) ∧
    (RollProdOnline.step p j t s).prod_x =
        s.prod_x * ((if notNA p t j then (p.x t j).toLD else 1) /
          (if p.width ≤ t ∧ notNA p (t - p.width) j then (p.x (t - p.width) j).toLD else 1)) := by
  have hnew : ∀ (a b : LD α), (if isNA p t j then a else b) = if notNA p t j then b else a := by
    intro a b
    by_cases hv : notNA p t j
    · rw [if_neg (not_isNA_of p t j hv), if_pos hv]
    · rw [if_pos (isNA_of_not p t j hv), if_neg hv]
  unfold RollProdOnline.step
  by_cases h : t < p.width
  · have hnr : ¬ (p.width ≤ t ∧ notNA p (t - p.width) j) := fun hh => by omega
    simp only [if_pos h, if_neg hnr, hnew, LD_div_one]
    trivial
  · have hge : p.width ≤ t := by omega
    have hold : ∀ (a b : LD α), (if isNA p (t - p.width) j then a else b) =
        if p.width ≤ t ∧ notNA p (t - p.width) j then b else a := by
      intro a b
      by_cases hv : notNA p (t - p.width) j
      · rw [if_neg (not_isNA_of p _ j hv),
          if_pos (show p.width ≤ t ∧ notNA p (t - p.width) j from ⟨hge, hv⟩)]
      · rw [if_pos (isNA_of_not p _ j hv),
          if_neg (show ¬ (p.width ≤ t ∧ notNA p (t - p.width) j) from fun hh => hv hh.2)]
    simp only [if_neg h, hnew, hold]
    trivial

/-- A product over the window after row `t`, from the rows that stay. -/
theorem prod_enter (p : Args α) (j t : ℕ) (hw : 1 ≤ p.width) (g : ℕ → α) :
    (∏ r in (Finset.Ico (t + 1 - p.width) (t + 1)).filter (fun r => notNA p r j), g r) =
      (if notNA p t j then g t else 1) *
        ∏ r in (Finset.Ico (t + 1 - p.width) t).filter (fun r => notNA p r j), g r := by
  rw [filter_Ico_enter _ _ _ hw]
  by_cases h : notNA p t j
  · rw [if_pos h, if_pos h, Finset.prod_insert (not_mem_stay_enter _ _ _)]
  · rw [if_neg h, if_neg h, one_mul]

/-- A product over the window before row `t`, from the rows that stay. -/
theorem prod_leave (p : Args α) (j t : ℕ) (hw : 1 ≤ p.width) (g : ℕ → α) :
    (∏ r in (Finset.Ico (t - p.width) t).filter (fun r => notNA p r j), g r) =
      (if p.width ≤ t ∧ notNA p (t - p.width) j then g (t - p.width) else 1) *
        ∏ r in (Finset.Ico (t + 1 - p.width) t).filter (fun r => notNA p r j), g r := by
  rw [filter_Ico_leave _ _ _ hw]
  by_cases h : p.width ≤ t ∧ notNA p (t - p.width) j
  · rw [if_pos h, if_pos h, Finset.prod_insert (not_mem_stay_leave _ _ _ h.1)]
  · rw [if_neg h, if_neg h, one_mul]

/-- The products `prod_w` and `prod_x` of `RollProdOnline` after `t` rows are the products
of the weights and of the values of the valid rows of the window, when the weights age by a
factor `lam ≠ 0`, the first weight is not zero and no valid value is zero. -/
theorem RollProdOnline_prods (p : Args α) (j : ℕ) (lam : α) (hn : p.n = p.width)
    (hw : 1 ≤ p.width) (hl : lambda p = LD.fin lam) (hlam : lam ≠ 0)
    (hu : ∀ c, c + 1 < p.width → lagWeight p (c + 1) = lam * lagWeight p c)
    (h0 : p.arma_weights 0 ≠ 0) (hx : ∀ r, notNA p r j → (p.x r j).get ≠ 0) (t : ℕ) :
    (onlineState (RollProdOnline.step p j) RollProdOnline.init t).prod_w =
        LD.fin (∏ r in (Finset.Ico (t - p.width) t).filter (fun r => notNA p r j),
          lagWeight p (t - 1 - r)) ∧
    (onlineState (RollProdOnline.step p j) RollProdOnline.init t).prod_x =
        LD.fin (∏ r in (Finset.Ico (t - p.width) t).filter (fun r => notNA p r j),
          (p.x r j).get) := by
  induction t with
  | zero => simp [onlineState, RollProdOnline.init, LD.one_def]
  | succ t ih =>
    obtain ⟨ihw, ihx⟩ := ih
    have hexp := RollProdOnline_n_exp p j lam hw hl hlam t
    rw [onlineState] at hexp ⊢
    obtain ⟨sw, sx⟩ := RollProdOnline_step_prods p j t
      (onlineState (RollProdOnline.step p j) RollProdOnline.init t)
    rw [sw, sx, hexp, ihw, ihx, othersCount_succ]
    have hw0 : lagWeight p 0 = p.arma_weights (p.n - 1) := rfl
    have hwl : lagWeight p (p.width - 1) = p.arma_weights 0 := by
      unfold lagWeight; congr 1; omega
    have hage : (∏ r in (Finset.Ico (t + 1 - p.width) t).filter (fun r => notNA p r j),
        lagWeight p (t + 1 - 1 - r)) =
        lam ^ ((Finset.Ico (t + 1 - p.width) t).filter (fun r => notNA p r j)).card *
          ∏ r in (Finset.Ico (t + 1 - p.width) t).filter (fun r => notNA p r j),
            lagWeight p (t - 1 - r) := by
      rw [← Finset.prod_const, ← Finset.prod_mul_distrib]
      apply Finset.prod_congr rfl
      intro r hr
      rw [Finset.mem_filter, Finset.mem_Ico] at hr
      have e : t + 1 - 1 - r = (t - 1 - r) + 1 := by omega
      rw [e, hu _ (by omega)]
    constructor
    · rw [prod_enter p j t hw, prod_leave p j t hw, hage]
      have e1 : t + 1 - 1 - t = 0 := by omega
      have e2 : p.width ≤ t → t - 1 - (t - p.width) = p.width - 1 := by intro h; omega
      by_cases hv : notNA p t j <;> by_cases hvo : p.width ≤ t ∧ notNA p (t - p.width) j
      · rw [if_pos hv, if_pos hvo, if_pos hv, if_pos hvo, e1, e2 hvo.1, hw0, hwl,
          LD.fin_mul_fin, LD.fin_div_fin_of_ne _ h0, LD.fin_mul_fin]
        refine congrArg LD.fin ?_
        field_simp
        ring
      · rw [if_pos hv, if_neg hvo, if_pos hv, if_neg hvo, e1, hw0, LD.fin_mul_fin, LD_div_one,
          LD.fin_mul_fin]
        refine congrArg LD.fin ?_
        ring
      · rw [if_neg hv, if_pos hvo, if_neg hv, if_pos hvo, e2 hvo.1, hwl, LD.one_def,
          LD.fin_mul_fin, LD.fin_div_fin_of_ne _ h0, LD.fin_mul_fin]
        refine congrArg LD.fin ?_
        field_simp
        ring
      · rw [if_neg hv, if_neg hvo, if_neg hv, if_neg hvo, LD.one_def, LD.fin_mul_fin,
          ← LD.one_def, LD_div_one, LD.fin_mul_fin]
        refine congrArg LD.fin ?_
        ring
    · rw [prod_enter p j t hw, prod_leave p j t hw]
      by_cases hv : notNA p t j <;> by_cases hvo : p.width ≤ t ∧ notNA p (t - p.width) j
      · rw [if_pos hv, if_pos hvo, if_pos hv, if_pos hvo, toLD_of_not_isnan hv.2,
          toLD_of_not_isnan hvo.2.2, LD.fin_div_fin_of_ne _ (hx _ hvo.2), LD.fin_mul_fin]
        refine congrArg LD.fin ?_
        have := hx _ hvo.2
        field_simp
        ring
      · rw [if_pos hv, if_neg hvo, if_pos hv, if_neg hvo, toLD_of_not_isnan hv.2, LD_div_one,
          LD.fin_mul_fin]
        refine congrArg LD.fin ?_
        ring
      · rw [if_neg hv, if_pos hvo, if_neg hv, if_pos hvo,
          toLD_of_not_isnan hvo.2.2, LD.one_def, LD.fin_div_fin_of_ne _ (hx _ hvo.2),
          LD.fin_mul_fin]
        refine congrArg LD.fin ?_
        have := hx _ hvo.2
        field_simp
      · rw [if_neg hv, if_neg hvo, if_neg hv, if_neg hvo, LD_div_one, LD.one_def,
          LD.fin_mul_fin]
        refine congrArg LD.fin ?_
        ring

theorem RollProdParallel_foldl (p : Args α) (i j : ℕ) :
    ∀ m, m ≤ i + 1 →
      (List.range m).foldl (fun s c => RollProdParallel.body p i j c s) ⟨0, 1⟩ =
        ⟨(((Finset.Ico (i + 1 - m) (i + 1)).filter (fun r => notNA p r j)).card : ℤ),
          LD.fin (∏ r in (Finset.Ico (i + 1 - m) (i + 1)).filter (fun r => notNA p r j),
            p.arma_weights (p.n - 1 - (i - r)) * (p.x r j).get)⟩ := by
  intro m
  induction m with
  | zero => intro _; simp [LD.one_def]
  | succ m ih =>
    intro hm
    rw [foldl_range_succ, ih (by omega), filter_Ico_step _ i m (by omega)]
    unfold RollProdParallel.body
    by_cases hv : notNA p (i - m) j
    · rw [if_pos hv, if_pos hv,
        Finset.card_insert_of_not_mem (not_mem_filter_Ico _ i m (by omega)),
        Finset.prod_insert (not_mem_filter_Ico _ i m (by omega)), toLD_of_not_isnan hv.2]
      have h3 : p.n - m - 1 = p.n - 1 - (i - (i - m)) := by omega
      simp only [LD.fin_mul_fin, h3, RollProdParallel.State.mk.injEq]
      refine ⟨by push_cast; ring, congrArg LD.fin (by ring)⟩
    · rw [if_neg hv, if_neg hv]

/-- The store of `RollProdParallel`, from the product over the window. -/
theorem RollProdParallel_cell_eq (p : Args α) (i j : ℕ) :
    RollProdParallel.cell p i j =
      if compute p i j then
        if ((validRows p i j).card : ℤ) ≥ p.min_obs then
          Cell.val (∏ r in validRows p i j, p.arma_weights (p.n - 1 - (i - r)) * (p.x r j).get)
        else Cell.NA
      else p.x i j := by
  unfold RollProdParallel.cell
  dsimp only
  rw [whileWindow_eq_foldl, RollProdParallel_foldl p i j _ (by omega), ← validRows_eq]
  rfl

/-- The store of `RollProdOnline`, from the product over the window. -/
theorem RollProdOnline_cell_eq (p : Args α) (i j : ℕ) (lam : α) (hn : p.n = p.width)
    (hw : 1 ≤ p.width) (hl : lambda p = LD.fin lam) (hlam : lam ≠ 0)
    (hu : ∀ c, c + 1 < p.width → lagWeight p (c + 1) = lam * lagWeight p c)
    (h0 : p.arma_weights 0 ≠ 0) (hx : ∀ r, notNA p r j → (p.x r j).get ≠ 0) :
    RollProdOnline.cell p i j =
      if compute p i j then
        if ((validRows p i j).card : ℤ) ≥ p.min_obs then
          Cell.val (∏ r in validRows p i j, p.arma_weights (p.n - 1 - (i - r)) * (p.x r j).get)
        else Cell.NA
      else p.x i j := by
  obtain ⟨e1, e2⟩ := RollProdOnline_prods p j lam hn hw hl hlam hu h0 hx (i + 1)
  unfold RollProdOnline.cell RollProdOnline.emit
  rw [RollProdOnline_n_obs p j hw, e1, e2, validRows_card, LD.fin_mul_fin,
    ← Finset.prod_mul_distrib, validRows_eq]
  have h : i + 1 - min p.width (i + 1) = i + 1 - p.width := by omega
  rw [h]
  rfl

/-! ## The lower-triangle index is a bijection -/

/-- The decoded pair determines the flattened index. -/
theorem tri_injective (n z z' : ℕ) (hk : closedFormK n z = closedFormK n z') (hj : closedFormJ n z = closedFormJ n z') :
    z = z' := by
  unfold closedFormJ at hj
  rw [hk] at hj
  have : (z : ℤ) = z' := by linarith
  exact_mod_cast this

/-- After a run over every index, the entry `(a, b, t)` of the tensor of a covariance worker
that iterates by flattened index holds the value computed for the pair `(max a b, min a b)`
at time `t`. -/
theorem parallelCubeWorker_full (cell : ℕ → ℕ → ℕ → Cell α) (n_rows n_cols : ℕ)
    (dst : Cube α) (a b t : ℕ) (ha : a < n_cols) (hb : b < n_cols) (ht : t < n_rows) :
    parallelCubeWorker cell n_cols 0 (n_rows * n_unique n_cols) dst a b t =
      cell t (max a b) (min a b) := by
  unfold parallelCubeWorker
  apply forLoop_written (fun d : Cube α => d a b t) _ _ _ _ (Nat.zero_le _)
  · intro z s _ _
    dsimp only
    rw [Cube_mirror_apply]
    obtain ⟨h1, h2⟩ := tri_toNat_range n_cols z (by omega)
    by_cases hc : t = z / n_unique n_cols ∧
        ((a = (closedFormJ n_cols (z % n_unique n_cols)).toNat ∧
            b = (closedFormK n_cols (z % n_unique n_cols)).toNat) ∨
          (a = (closedFormK n_cols (z % n_unique n_cols)).toNat ∧
            b = (closedFormJ n_cols (z % n_unique n_cols)).toNat))
    · rw [if_pos hc]
      right
      have e1 : max a b = (closedFormJ n_cols (z % n_unique n_cols)).toNat := by
        rcases hc.2 with h | h <;> omega
      have e2 : min a b = (closedFormK n_cols (z % n_unique n_cols)).toNat := by
        rcases hc.2 with h | h <;> omega
      rw [e1, e2, hc.1]
    · rw [if_neg hc]
      left; rfl
  · obtain ⟨z, hz, e1, e2, e3⟩ :=
      tri_index n_rows n_cols (max a b) (min a b) t (by omega) (by omega) ht
    refine ⟨z, Nat.zero_le _, hz, fun s => ?_⟩
    rw [Cube_mirror_apply, e1, e2, e3, if_pos ⟨rfl, by omega⟩]

/-- For an index below `n_unique` the column index `closedFormK` is the source's expression with
the real square root and the floor. -/
theorem closedFormK_eq_floor (n z : ℕ) (hz : z < n_unique n) :
    closedFormK n z = (n : ℤ) -
      ⌊(Real.sqrt (((4 * (n : ℤ) * ((n : ℤ) + 1) - (7 + 8 * (z : ℤ)) : ℤ) : ℝ)) - 1) / 2⌋ - 1 := by
  have hT := two_mul_n_unique n
  have hpos : (1 : ℤ) ≤ 4 * (n : ℤ) * ((n : ℤ) + 1) - (7 + 8 * (z : ℤ)) := by
    have h1 : (n : ℤ) * ((n : ℤ) + 1) = 2 * (n_unique n : ℤ) := by exact_mod_cast hT
    have h2 : (z : ℤ) + 1 ≤ n_unique n := by exact_mod_cast hz
    linarith
  obtain ⟨d, hd⟩ := Int.eq_ofNat_of_zero_le (le_trans (by norm_num) hpos :
    (0 : ℤ) ≤ 4 * (n : ℤ) * ((n : ℤ) + 1) - (7 + 8 * (z : ℤ)))
  unfold closedFormK
  rw [hd, Int.toNat_natCast, Int.cast_natCast, floor_sqrt_sub_one_half]

/-! ## Workers write only the cells of their own indices -/

/-- A loop whose pass `z` writes a value that depends on the cell alone into the cells that
belong to `z` and leaves every other cell: what it leaves in a cell. -/
theorem forLoop_owned {σ κ β : Type} (π : σ → κ → β) (step : ℕ → σ → σ)
    (owns : ℕ → κ → Prop) (val : κ → β)
    (h1 : ∀ z s c, ¬ owns z c → π (step z s) c = π s c)
    (h2 : ∀ z s c, owns z c → π (step z s) c = val c)
    (lo hi : ℕ) (h : lo ≤ hi) (s : σ) (c : κ) :
    ((∃ z, lo ≤ z ∧ z < hi ∧ owns z c) → π (forLoop lo hi step s) c = val c) ∧
    ((∀ z, lo ≤ z → z < hi → ¬ owns z c) → π (forLoop lo hi step s) c = π s c) := by
  induction hi, h using Nat.le_induction with
  | base =>
    rw [forLoop_empty _ _ (le_refl _)]
    exact ⟨fun ⟨z, h1, h2, _⟩ => by omega, fun _ => rfl⟩
  | succ e he ih =>
    rw [forLoop_succ _ _ he]
    obtain ⟨ih1, ih2⟩ := ih
    constructor
    · rintro ⟨z, hz1, hz2, hz3⟩
      by_cases ho : owns e c
      · exact h2 _ _ _ ho
      · rw [h1 _ _ _ ho]
        apply ih1
        refine ⟨z, hz1, ?_, hz3⟩
        rcases Nat.lt_succ_iff_lt_or_eq.1 hz2 with h | h
        · exact h
        · subst h; exact absurd hz3 ho
    · intro hno
      rw [h1 _ _ _ (hno e he (by omega))]
      exact ih2 (fun z hz1 hz2 => hno z hz1 (by omega))

/-- A pass of a matrix worker that iterates by index writes the cell of its index. -/
theorem parallelWorker_pass (cell : ℕ → ℕ → Cell α) (n_cols z : ℕ) (d : Mat α) (r c : ℕ) :
    (¬ matIndexCell n_cols z r c →
      (d.set (z / n_cols) (z % n_cols) (cell (z / n_cols) (z % n_cols))) r c = d r c) ∧
    (matIndexCell n_cols z r c →
      (d.set (z / n_cols) (z % n_cols) (cell (z / n_cols) (z % n_cols))) r c = cell r c) := by
  rw [Mat_set_apply]
  constructor
  · intro h; rw [if_neg h]
  · intro h; rw [if_pos h, h.1, h.2]

/-- A pass of a matrix worker that iterates by column writes the cells of its column. -/
theorem onlineWorker_pass {σ : Type} (step : ℕ → ℕ → σ → σ) (emit : ℕ → ℕ → σ → Cell α)
    (init : σ) (n_rows j : ℕ) (d : Mat α) (r c : ℕ) :
    (¬ matColumnCell n_rows j r c →
      onlineRows (step j) (emit j) init n_rows j d r c = d r c) ∧
    (matColumnCell n_rows j r c →
      onlineRows (step j) (emit j) init n_rows j d r c =
        emit c r (onlineState (step c) init (r + 1))) := by
  rw [onlineRows_apply]
  constructor
  · intro h; rw [if_neg h]
  · intro h; rw [if_pos h, h.2]

/-- A property that every pass of a loop over `range m` keeps holds after the loop. -/
theorem foldl_range_invariant {σ : Type} (P : σ → Prop) (body : ℕ → σ → σ) (m : ℕ) (s : σ)
    (h0 : P s) (hstep : ∀ c, c < m → ∀ t, P t → P (body c t)) :
    P ((List.range m).foldl (fun s c => body c s) s) := by
  induction m with
  | zero => exact h0
  | succ m ih =>
    rw [foldl_range_succ]
    exact hstep m (by omega) _ (ih (fun c hc t ht => hstep c (by omega) t ht))

/-- The window loop makes `min(width, i + 1)` passes. -/
theorem RollSumParallel_passes (p : Args α) (i : ℕ) :
    RollSumParallel.passes p i = min p.width (i + 1) := by
  unfold RollSumParallel.passes
  rw [whileWindow_eq_foldl]
  generalize min p.width (i + 1) = m
  induction m with
  | zero => rfl
  | succ m ih => rw [foldl_range_succ, ih]

/-! ## The diagonal of the covariance tensor -/

/-- Two loops over the same range whose bodies keep a relation end in related states. -/
theorem foldl_range_rel {σ τ : Type} (R : σ → τ → Prop) (f : ℕ → σ → σ) (g : ℕ → τ → τ)
    (m : ℕ) (s : σ) (t : τ) (h0 : R s t)
    (hstep : ∀ c s t, R s t → R (f c s) (g c t)) :
    R ((List.range m).foldl (fun s c => f c s) s) ((List.range m).foldl (fun s c => g c s) t) := by
  induction m with
  | zero => exact h0
  | succ m ih =>
    rw [foldl_range_succ, foldl_range_succ]
    exact hstep m _ _ ih

/-- The product `w * d * d` of the covariance loop is the `w * pow(d, 2.0)` of the variance
loop. -/
theorem LD_mul_mul_self (w d : LD α) : w * d * d = w * LD.pow2 d := by
  cases w with
  | fin a =>
    cases d with
    | fin b =>
      show LD.fin (a * b * b) = LD.fin (a * (b * b))
      rw [mul_assoc]
    | nonfin => rfl
  | nonfin => cases d <;> rfl

theorem compute2_self (p : Args α) (i j : ℕ) : compute2 p i j j ↔ compute p i j := by
  unfold compute2 compute
  constructor
  · rintro (h | ⟨h1, h2, _⟩)
    · exact Or.inl h
    · exact Or.inr ⟨h1, h2⟩
  · rintro (h | ⟨h1, h2⟩)
    · exact Or.inl h
    · exact Or.inr ⟨h1, h2, h2⟩

theorem restored_self (p : Args α) (i j : ℕ) : restored p i j j = p.x i j := by
  unfold restored
  split_ifs <;> rfl

/-- On the diagonal the first loop of the covariance builder is the first loop of the
variance engine, twice. -/
theorem RollCovParallelXX_means_self (p : Args α) (i j : ℕ) :
    (RollCovParallelXX.means p i j j).sum_w =
        (whileWindow p.width i (RollVarParallel.meanBody p i j) ⟨0, 0⟩).sum_w ∧
      (RollCovParallelXX.means p i j j).sum_x =
        (whileWindow p.width i (RollVarParallel.meanBody p i j) ⟨0, 0⟩).sum_x ∧
      (RollCovParallelXX.means p i j j).sum_y =
        (whileWindow p.width i (RollVarParallel.meanBody p i j) ⟨0, 0⟩).sum_x := by
  unfold RollCovParallelXX.means
  rw [whileWindow_eq_foldl, whileWindow_eq_foldl]
  apply foldl_range_rel
    (fun (s : RollCovParallelXX.MeanState α) (t : RollVarParallel.MeanState α) =>
      s.sum_w = t.sum_w ∧ s.sum_x = t.sum_x ∧ s.sum_y = t.sum_x)
  · exact ⟨rfl, rfl, rfl⟩
  · intro c s t h
    unfold RollCovParallelXX.meanBody RollVarParallel.meanBody
    by_cases hv : notNA p (i - c) j
    · rw [if_pos ((notNA2_self p (i - c) j).2 hv), if_pos hv]
      exact ⟨by rw [h.1], by rw [h.2.1], by rw [h.2.2]⟩
    · rw [if_neg (fun h2 => hv ((notNA2_self p (i - c) j).1 h2)), if_neg hv]
      exact h

theorem RollCovParallelXX_mean_x_self (p : Args α) (i j : ℕ) :
    RollCovParallelXX.mean_x p i j j = RollVarParallel.mean_x p i j := by
  unfold RollCovParallelXX.mean_x RollVarParallel.mean_x
  obtain ⟨h1, h2, _⟩ := RollCovParallelXX_means_self p i j
  split_ifs
  · show _ = (whileWindow p.width i (RollVarParallel.meanBody p i j) ⟨0, 0⟩).sum_x /
      (whileWindow p.width i (RollVarParallel.meanBody p i j) ⟨0, 0⟩).sum_w
    rw [h1, h2]
  · rfl

theorem RollCovParallelXX_mean_y_self (p : Args α) (i j : ℕ) :
    RollCovParallelXX.mean_y p i j j = RollVarParallel.mean_x p i j := by
  unfold RollCovParallelXX.mean_y RollVarParallel.mean_x
  obtain ⟨h1, _, h3⟩ := RollCovParallelXX_means_self p i j
  split_ifs
  · show _ = (whileWindow p.width i (RollVarParallel.meanBody p i j) ⟨0, 0⟩).sum_x /
      (whileWindow p.width i (RollVarParallel.meanBody p i j) ⟨0, 0⟩).sum_w
    rw [h1, h3]
  · rfl

/-- On the diagonal the third loop of the covariance builder is the second loop of the
variance engine. -/
theorem RollCovParallelXX_body_self (p : Args α) (i j : ℕ) :
    let s := whileWindow p.width i (RollCovParallelXX.body p (RollCovParallelXX.mean_x p i j j)
      (RollCovParallelXX.mean_y p i j j) i j j) ⟨0, 0, 0, 0⟩
    let t := whileWindow p.width i (RollVarParallel.body p (RollVarParallel.mean_x p i j) i j)
      ⟨0, 0, 0, 0⟩
    s.n_obs = t.n_obs ∧ s.sum_w = t.sum_w ∧ s.sumsq_w = t.sumsq_w ∧ s.sumsq_xy = t.sumsq_x := by
  intro s t
  show s.n_obs = t.n_obs ∧ s.sum_w = t.sum_w ∧ s.sumsq_w = t.sumsq_w ∧ s.sumsq_xy = t.sumsq_x
  simp only [s, t]
  rw [RollCovParallelXX_mean_x_self, RollCovParallelXX_mean_y_self, whileWindow_eq_foldl,
    whileWindow_eq_foldl]
  apply foldl_range_rel
    (fun (s : RollCovParallelXX.State α) (t : RollVarParallel.State α) =>
      s.n_obs = t.n_obs ∧ s.sum_w = t.sum_w ∧ s.sumsq_w = t.sumsq_w ∧ s.sumsq_xy = t.sumsq_x)
  · exact ⟨rfl, rfl, rfl, rfl⟩
  · intro c s t h
    unfold RollCovParallelXX.body RollVarParallel.body
    by_cases hv : notNA p (i - c) j
    · rw [if_pos ((notNA2_self p (i - c) j).2 hv), if_pos hv]
      refine ⟨by rw [h.1], by rw [h.2.1], by rw [h.2.2.1], ?_⟩
      show (if p.center = true then _ else _) = (if p.center = true then _ else _)
      split_ifs
      · rw [h.2.2.2, LD_mul_mul_self]
      · rw [h.2.2.2, LD_mul_mul_self]
    · rw [if_neg (fun h2 => hv ((notNA2_self p (i - c) j).1 h2)), if_neg hv]
      exact h

/-- With `scale = false` the covariance builder stores on the diagonal what the variance
engine stores. -/
theorem RollCovParallelXX_cell_self (m : Prim α) (p : Args α) (i j : ℕ)
    (hs : p.scale = false) :
    RollCovParallelXX.cell m p i j j = RollVarParallel.cell p i j := by
  unfold RollCovParallelXX.cell RollVarParallel.cell
  by_cases hc : compute p i j
  · rw [if_pos ((compute2_self p i j).2 hc), if_pos hc]
    obtain ⟨h1, h2, h3, h4⟩ := RollCovParallelXX_body_self p i j
    dsimp only at h1 h2 h3 h4 ⊢
    rw [h1, h2, h3, h4]
    simp only [hs, Bool.false_eq_true, if_false]
  · rw [if_neg (fun h2 => hc ((compute2_self p i j).1 h2)), if_neg hc, restored_self]

/-! ## The denominator of the direct variance -/

/-- The restored value of a cell that is not computed is never a number. -/
theorem not_compute_not_val (p : Args α) (i j : ℕ) (v : α) (hc : ¬ compute p i j) :
    p.x i j ≠ Cell.val v := by
  intro h
  apply hc
  unfold compute
  cases hr : p.na_restore with
  | false => exact Or.inl rfl
  | true =>
    refine Or.inr ⟨rfl, ?_⟩
    rw [h]
    simp [Cell.isnan]

/-- With positive weights on at least two rows, the denominator `sum_w - sumsq_w / sum_w`
is positive. -/
theorem denominator_pos (s : Finset ℕ) (w : ℕ → α) (hpos : ∀ r ∈ s, 0 < w r)
    (h : 1 < s.card) :
    0 < (∑ r in s, w r) ∧ (∑ r in s, w r ^ 2) < (∑ r in s, w r) ^ 2 ∧
      0 < (∑ r in s, w r) - (∑ r in s, w r ^ 2) / (∑ r in s, w r) := by
  have hW : 0 < ∑ r in s, w r := Finset.sum_pos hpos (Finset.card_pos.1 (by omega))
  have hQ : (∑ r in s, w r ^ 2) < (∑ r in s, w r) ^ 2 := by
    have := sum_sq_lt_sq_sum s w hpos h
    simpa only [pow_two] using this
  refine ⟨hW, hQ, ?_⟩
  rw [sub_pos, div_lt_iff₀ hW, ← pow_two]
  exact hQ

theorem exCovDecay_validRows0 : validRows exCovDecay 3 0 = {2, 3} := by decide

theorem exCovDecay_var : RollVarParallel.cell exCovDecay 3 0 = Cell.val (9 / 2) := by
  rw [RollVarParallel_cell_centred exCovDecay 3 0 (Or.inl rfl) rfl
    (by rw [exCovDecay_validRows0]; decide) (by rw [exCovDecay_validRows0]; decide)
    (by rw [exCovDecay_validRows0]; norm_num [exCovDecay, vector, column, Cell.get])]
  rw [exCovDecay_validRows0]
  norm_num [exCovDecay, vector, column, Cell.get, LD.fin_div_fin]

/-! ## Correlations lie between `-1` and `1` -/

theorem LD_add_nonfin (a : LD α) : a + LD.nonfin = LD.nonfin := by cases a <;> rfl

theorem LD_mul_nonfin (a : LD α) : a * LD.nonfin = LD.nonfin := by cases a <;> rfl

theorem LD_nonfin_mul (a : LD α) : LD.nonfin * a = LD.nonfin := by cases a <;> rfl

/-- With `center` set and a weight mass of zero the local `mean_x` is not finite. -/
theorem RollCovParallelXX_mean_x_nonfin (p : Args α) (i j k : ℕ) (hcen : p.center = true)
    (hW : (∑ r in validRows2 p i j k, p.arma_weights (p.n - 1 - (i - r))) = 0) :
    RollCovParallelXX.mean_x p i j k = LD.nonfin := by
  unfold RollCovParallelXX.mean_x RollCovParallelXX.means
  rw [if_pos hcen, whileWindow_eq_foldl, RollCovParallelXX_means_foldl p i j k _ (by omega),
    ← validRows2_eq]
  dsimp only
  rw [hW, LD_fin_div_zero]

/-- With `center` set and a `mean_x` that is not finite, the cross term of the third loop is
not finite as soon as one row has been accumulated. -/
theorem RollCovParallelXX_body_nonfin (p : Args α) (my : LD α) (i j k : ℕ)
    (hcen : p.center = true) (m : ℕ) :
    0 ≤ ((List.range m).foldl
        (fun s c => RollCovParallelXX.body p LD.nonfin my i j k c s) ⟨0, 0, 0, 0⟩).n_obs ∧
      (0 < ((List.range m).foldl
          (fun s c => RollCovParallelXX.body p LD.nonfin my i j k c s) ⟨0, 0, 0, 0⟩).n_obs →
        ((List.range m).foldl
          (fun s c => RollCovParallelXX.body p LD.nonfin my i j k c s) ⟨0, 0, 0, 0⟩).sumsq_xy =
          LD.nonfin) := by
  apply foldl_range_invariant
    (fun s : RollCovParallelXX.State α => 0 ≤ s.n_obs ∧ (0 < s.n_obs → s.sumsq_xy = LD.nonfin))
  · exact ⟨le_refl _, fun h => absurd h (lt_irrefl _)⟩
  · intro c _ t ht
    unfold RollCovParallelXX.body
    by_cases hv : notNA2 p (i - c) j k
    · rw [if_pos hv]
      dsimp only
      refine ⟨by have := ht.1; omega, fun _ => ?_⟩
      rw [if_pos hcen, LD_sub_nonfin, LD_mul_nonfin, LD_nonfin_mul, LD_add_nonfin]
    · rw [if_neg hv]
      exact ht

/-- With `center` and `scale` set and a weight mass of zero, `RollCovParallelXX` stores no
number. -/
theorem RollCovParallelXX_zero_mass (m : Prim α) (p : Args α) (i j k : ℕ) (v : α)
    (hs : p.scale = true) (hcen : p.center = true)
    (hW : (∑ r in validRows2 p i j k, p.arma_weights (p.n - 1 - (i - r))) = 0) :
    RollCovParallelXX.cell m p i j k ≠ Cell.val v := by
  intro hv
  unfold RollCovParallelXX.cell at hv
  by_cases hc : compute2 p i j k
  swap
  · rw [if_neg hc] at hv
    exact restored_ne_val p i j k v hc hv
  rw [if_pos hc, RollCovParallelXX_mean_x_nonfin p i j k hcen hW, whileWindow_eq_foldl] at hv
  dsimp only at hv
  obtain ⟨_, h2⟩ := RollCovParallelXX_body_nonfin p (RollCovParallelXX.mean_y p i j k) i j k
    hcen (min p.width (i + 1))
  split_ifs at hv with hg h3
  rw [h2 (by have := hg.1; omega), LD_nonfin_div] at hv
  exact Cell.noConfusion hv

/-- The weighted Cauchy-Schwarz inequality for non-negative weights. -/
theorem weighted_cauchy_schwarz (s : Finset ℕ) (w a b : ℕ → α) (hw : ∀ r ∈ s, 0 ≤ w r) :
    (∑ r in s, w r * a r * b r) ^ 2 ≤
      (∑ r in s, w r * a r * a r) * (∑ r in s, w r * b r * b r) := by
  apply Finset.sum_sq_le_sum_mul_sum_of_sq_eq_mul
  · intro r hr
    rw [mul_assoc]
    exact mul_nonneg (hw r hr) (mul_self_nonneg _)
  · intro r hr
    rw [mul_assoc]
    exact mul_nonneg (hw r hr) (mul_self_nonneg _)
  · intro r _
    ring

/-- When `RollCovParallelXX` with `scale` set stores a number, it is the cross sum of the
window divided by the product of the two square roots, which is positive, for a square root
that is exact on the two sums of squares. -/
theorem RollCovParallelXX_scale_val (m : Prim α) (p : Args α) (i j k : ℕ) (v : α)
    (hs : p.scale = true)
    (hx : 0 ≤ m.sqrt (winCross p i j k j j) ∧
      m.sqrt (winCross p i j k j j) * m.sqrt (winCross p i j k j j) = winCross p i j k j j)
    (hy : 0 ≤ m.sqrt (winCross p i j k k k) ∧
      m.sqrt (winCross p i j k k k) * m.sqrt (winCross p i j k k k) = winCross p i j k k k)
    (hv : RollCovParallelXX.cell m p i j k = Cell.val v) :
    0 < m.sqrt (winCross p i j k j j) * m.sqrt (winCross p i j k k k) ∧
      v = winCross p i j k j k /
        (m.sqrt (winCross p i j k j j) * m.sqrt (winCross p i j k k k)) := by
  have hW : p.center = true →
      (∑ r in validRows2 p i j k, p.arma_weights (p.n - 1 - (i - r))) ≠ 0 :=
    fun hcen h0 => RollCovParallelXX_zero_mass m p i j k v hs hcen h0 hv
  rw [RollCovParallelXX_cell_scale m p i j k hs hW] at hv
  have hSx : 0 ≤ winCross p i j k j j := by rw [← hx.2]; exact mul_self_nonneg _
  have hSy : 0 ≤ winCross p i j k k k := by rw [← hy.2]; exact mul_self_nonneg _
  rw [LD_sqrt_fin _ _ hSx, LD_sqrt_fin _ _ hSy] at hv
  have hq : (LD.fin (winCross p i j k j k) /
      (LD.fin (m.sqrt (winCross p i j k j j)) * LD.fin (m.sqrt (winCross p i j k k k)))).toCell =
      Cell.val v := by
    by_cases hc : compute2 p i j k
    · rw [if_pos hc] at hv
      split_ifs at hv with h2 h3
      exact hv
    · rw [if_neg hc] at hv
      exact absurd hv (restored_ne_val p i j k v hc)
  clear hv
  rw [LD.fin_mul_fin, LD.fin_div_fin] at hq
  split_ifs at hq with h4
  · exact absurd hq (fun h => Cell.noConfusion h)
  · exact ⟨lt_of_le_of_ne (mul_nonneg hx.1 hy.1) (Ne.symm h4), (Cell.val.inj hq).symm⟩

/-- A number stored by `RollCovParallelXX` with `scale` set and non-negative weights lies in
`[-1, 1]`. -/
theorem RollCovParallelXX_scale_bounded (m : Prim α) (p : Args α) (i j k : ℕ) (v : α)
    (hs : p.scale = true)
    (hw : ∀ r ∈ validRows2 p i j k, 0 ≤ p.arma_weights (p.n - 1 - (i - r)))
    (hx : 0 ≤ m.sqrt (winCross p i j k j j) ∧
      m.sqrt (winCross p i j k j j) * m.sqrt (winCross p i j k j j) = winCross p i j k j j)
    (hy : 0 ≤ m.sqrt (winCross p i j k k k) ∧
      m.sqrt (winCross p i j k k k) * m.sqrt (winCross p i j k k k) = winCross p i j k k k)
    (hv : RollCovParallelXX.cell m p i j k = Cell.val v) :
    -1 ≤ v ∧ v ≤ 1 := by
  obtain ⟨hpos, e⟩ := RollCovParallelXX_scale_val m p i j k v hs hx hy hv
  have hcs : winCross p i j k j k ^ 2 ≤
      (m.sqrt (winCross p i j k j j) * m.sqrt (winCross p i j k k k)) ^ 2 := by
    have h := weighted_cauchy_schwarz (validRows2 p i j k)
      (fun r => p.arma_weights (p.n - 1 - (i - r)))
      (fun r => (p.x r j).get - winMean p i j k j) (fun r => (p.x r k).get - winMean p i j k k)
      hw
    calc winCross p i j k j k ^ 2 ≤ winCross p i j k j j * winCross p i j k k k := h
      _ = (m.sqrt (winCross p i j k j j) * m.sqrt (winCross p i j k k k)) ^ 2 := by
        nth_rewrite 1 [← hx.2]
        nth_rewrite 1 [← hy.2]
        ring
  have habs := abs_le_of_sq_le_sq' hcs hpos.le
  rw [e]
  exact ⟨by rw [le_div_iff₀ hpos]; linarith [habs.1], by rw [div_le_one hpos]; exact habs.2⟩

/-- A number stored by `RollCovParallelXX` with `scale` set on the diagonal is `1`. -/
theorem RollCovParallelXX_scale_diagonal (m : Prim α) (p : Args α) (i j : ℕ) (v : α)
    (hs : p.scale = true)
    (hx : 0 ≤ m.sqrt (winCross p i j j j j) ∧
      m.sqrt (winCross p i j j j j) * m.sqrt (winCross p i j j j j) = winCross p i j j j j)
    (hv : RollCovParallelXX.cell m p i j j = Cell.val v) : v = 1 := by
  obtain ⟨hpos, e⟩ := RollCovParallelXX_scale_val m p i j j v hs hx hx hv
  rw [e, hx.2] at *
  exact div_self hpos.ne'

theorem exCorrPlain_validRows : validRows2 exCorrPlain 1 0 1 = {0, 1} := by decide

theorem exCorrPlain_cross : winCross exCorrPlain 1 0 1 0 0 = 5 * 5 ∧
    winCross exCorrPlain 1 0 1 1 1 = 5 * 5 ∧ winCross exCorrPlain 1 0 1 0 1 = 24 := by
  unfold winCross winMean
  rw [exCorrPlain_validRows]
  refine ⟨?_, ?_, ?_⟩ <;> simp [exCorrPlain, column, vector, Cell.get] <;> norm_num

theorem exCorrPlain_cell :
    RollCovParallelXX.cell exPrimQ exCorrPlain 1 0 1 = Cell.val (24 / 25) := by
  rw [RollCovParallelXX_cell_scale exPrimQ exCorrPlain 1 0 1 rfl
    (fun h => absurd h (by decide)), exCorrPlain_validRows, exCorrPlain_cross.1,
    exCorrPlain_cross.2.1, exCorrPlain_cross.2.2,
    if_pos (show compute2 exCorrPlain 1 0 1 from Or.inl rfl), if_pos (by decide),
    LD_sqrt_fin _ _ (by norm_num), LD_sqrt_fin _ _ (by norm_num [exPrimQ]),
    exPrimQ_sqrt_sq 5 (by norm_num), exPrimQ_sqrt_eps]
  simp [LD_le_fin, LD.fin_div_fin]
  norm_num

theorem exCorrPlainXY_validRows : validRows2 (exCorrPlainXY.pair 0 0) 1 0 1 = {0, 1} := by
  decide

theorem exCorrPlainXY_cross : winCross (exCorrPlainXY.pair 0 0) 1 0 1 0 0 = 5 * 5 ∧
    winCross (exCorrPlainXY.pair 0 0) 1 0 1 1 1 = 5 * 5 ∧
    winCross (exCorrPlainXY.pair 0 0) 1 0 1 0 1 = 24 := by
  unfold winCross winMean
  rw [exCorrPlainXY_validRows]
  refine ⟨?_, ?_, ?_⟩ <;>
    simp [exCorrPlainXY, ArgsXY.pair, column, vector, Cell.get] <;> norm_num

theorem exCorrPlainXY_cell :
    RollCovParallelXY.cell exPrimQ exCorrPlainXY 1 0 0 = Cell.val (24 / 25) := by
  rw [RollCovParallelXY_cell_pair,
    RollCovParallelXX_cell_scale exPrimQ (exCorrPlainXY.pair 0 0) 1 0 1 rfl
    (fun h => absurd h (by decide)), exCorrPlainXY_validRows, exCorrPlainXY_cross.1,
    exCorrPlainXY_cross.2.1, exCorrPlainXY_cross.2.2,
    if_pos (show compute2 (exCorrPlainXY.pair 0 0) 1 0 1 from Or.inl rfl), if_pos (by decide),
    LD_sqrt_fin _ _ (by norm_num), LD_sqrt_fin _ _ (by norm_num [exPrimQ]),
    exPrimQ_sqrt_sq 5 (by norm_num), exPrimQ_sqrt_eps]
  simp [LD_le_fin, LD.fin_div_fin]
  norm_num

theorem exCorrPlain_weights (r : ℕ) : 0 ≤ exCorrPlain.arma_weights r := by
  show 0 ≤ ([1, 1] : List ℚ).getD r 0
  rcases r with _ | _ | r <;> simp

theorem exPrimQ_exact_25 : 0 ≤ exPrimQ.sqrt (5 * 5) ∧
    exPrimQ.sqrt (5 * 5) * exPrimQ.sqrt (5 * 5) = 5 * 5 := by
  rw [exPrimQ_sqrt_sq 5 (by norm_num)]
  norm_num

/-! ## Loops that write cells of their own -/

/-- What a loop that satisfies the conditions of `forLoop_owned` leaves in a cell, with the
cells of the range gathered in one condition. -/
theorem forLoop_owned_pass {σ κ β : Type} (π : σ → κ → β) (step : ℕ → σ → σ)
    (owns : ℕ → κ → Prop) (val : κ → β)
    (h1 : ∀ z s c, ¬ owns z c → π (step z s) c = π s c)
    (h2 : ∀ z s c, owns z c → π (step z s) c = val c)
    (lo hi : ℕ) (h : lo ≤ hi) (s : σ) (c : κ) :
    (¬ (∃ z, lo ≤ z ∧ z < hi ∧ owns z c) → π (forLoop lo hi step s) c = π s c) ∧
    ((∃ z, lo ≤ z ∧ z < hi ∧ owns z c) → π (forLoop lo hi step s) c = val c) := by
  obtain ⟨a1, a2⟩ := forLoop_owned π step owns val h1 h2 lo hi h s c
  exact ⟨fun hn => a2 (fun z z1 z2 z3 => hn ⟨z, z1, z2, z3⟩), a1⟩

/-- A row loop that threads the accumulators and writes into a destination: the accumulators
do not depend on the destination, so the destination evolves by the writes alone. -/
theorem rowLoop_eq {σ δ : Type} (step : ℕ → σ → σ) (wr : ℕ → σ → δ → δ) (init : σ) (dst : δ)
    (n : ℕ) :
    forLoop 0 n (fun i (r : σ × δ) => (step i r.1, wr i (step i r.1) r.2)) (init, dst) =
      (onlineState step init n,
        forLoop 0 n (fun i d => wr i (onlineState step init (i + 1)) d) dst) := by
  induction n with
  | zero => simp [forLoop_empty, onlineState]
  | succ n ih =>
    rw [forLoop_succ 0 n (Nat.zero_le n), forLoop_succ 0 n (Nat.zero_le n), ih]
    rfl

/-! ## The two-matrix covariance worker writes the entries of its own indices -/

theorem RollCovOnlineXY_rows_eq (m : Prim α) (q : ArgsXY α) (j k : ℕ) (d : Cube α) :
    RollCovOnlineXY.rows m q j k d =
      forLoop 0 q.n_rows_xy (fun i d => d.set j k i (RollCovOnlineXY.cell m q j k i)) d := by
  unfold RollCovOnlineXY.rows RollCovOnlineXY.cell
  exact congrArg Prod.snd (rowLoop_eq (RollCovOnlineXY.step q j k)
    (fun i s (d : Cube α) => d.set j k i (RollCovOnlineXY.emit m q j k i s))
    RollCovOnlineXX.init d q.n_rows_xy)

/-- The row loop of the pair `(j, k)` writes the entries `(j, k, t)` with `t < n_rows_xy`. -/
theorem RollCovOnlineXY_rows_pass (m : Prim α) (q : ArgsXY α) (j k : ℕ) (d : Cube α)
    (x y t : ℕ) :
    (¬ (x = j ∧ y = k ∧ t < q.n_rows_xy) → RollCovOnlineXY.rows m q j k d x y t = d x y t) ∧
    ((x = j ∧ y = k ∧ t < q.n_rows_xy) →
      RollCovOnlineXY.rows m q j k d x y t = RollCovOnlineXY.cell m q x y t) := by
  rw [RollCovOnlineXY_rows_eq]
  obtain ⟨a1, a2⟩ := forLoop_owned_pass (fun (d : Cube α) (c : ℕ × ℕ × ℕ) => d c.1 c.2.1 c.2.2)
    (fun i d => d.set j k i (RollCovOnlineXY.cell m q j k i))
    (fun i c => c.1 = j ∧ c.2.1 = k ∧ c.2.2 = i)
    (fun c => RollCovOnlineXY.cell m q c.1 c.2.1 c.2.2)
    (fun z s c h => by
      show (s.set j k z _) c.1 c.2.1 c.2.2 = _
      rw [Cube_set_apply, if_neg h])
    (fun z s c h => by
      show (s.set j k z _) c.1 c.2.1 c.2.2 = _
      rw [Cube_set_apply, if_pos h]
      obtain ⟨e1, e2, e3⟩ := h
      show RollCovOnlineXY.cell m q j k z = RollCovOnlineXY.cell m q c.1 c.2.1 c.2.2
      rw [e1, e2, e3])
    0 q.n_rows_xy (Nat.zero_le _) d (x, y, t)
  constructor
  · intro h
    exact a1 (fun ⟨z, _, z2, z3⟩ => h ⟨z3.1, z3.2.1, by have := z3.2.2; simp only at this; omega⟩)
  · intro h
    exact a2 ⟨t, Nat.zero_le _, h.2.2, h.1, h.2.1, rfl⟩

/-- The pass of column `j` writes the entries `(j, y, t)` with `y < n_cols_y` and
`t < n_rows_xy`. -/
theorem RollCovOnlineXY_pass (m : Prim α) (q : ArgsXY α) (j : ℕ) (d : Cube α) (x y t : ℕ) :
    (¬ cubeRowCell q.n_cols_y q.n_rows_xy j x y t →
      forLoop 0 q.n_cols_y (fun k d => RollCovOnlineXY.rows m q j k d) d x y t = d x y t) ∧
    (cubeRowCell q.n_cols_y q.n_rows_xy j x y t →
      forLoop 0 q.n_cols_y (fun k d => RollCovOnlineXY.rows m q j k d) d x y t =
        RollCovOnlineXY.cell m q x y t) := by
  obtain ⟨a1, a2⟩ := forLoop_owned_pass (fun (d : Cube α) (c : ℕ × ℕ × ℕ) => d c.1 c.2.1 c.2.2)
    (fun k d => RollCovOnlineXY.rows m q j k d)
    (fun k c => c.1 = j ∧ c.2.1 = k ∧ c.2.2 < q.n_rows_xy)
    (fun c => RollCovOnlineXY.cell m q c.1 c.2.1 c.2.2)
    (fun z s c h => (RollCovOnlineXY_rows_pass m q j z s c.1 c.2.1 c.2.2).1 h)
    (fun z s c h => (RollCovOnlineXY_rows_pass m q j z s c.1 c.2.1 c.2.2).2 h)
    0 q.n_cols_y (Nat.zero_le _) d (x, y, t)
  constructor
  · intro h
    exact a1 (fun ⟨z, _, z2, z3⟩ => h ⟨z3.1, by have := z3.2.1; simp only at this; omega, z3.2.2⟩)
  · intro h
    exact a2 ⟨y, Nat.zero_le _, h.2.1, h.1, rfl, h.2.2⟩

theorem exProdZero_state1 :
    onlineState (RollProdOnline.step exProdZero 0) RollProdOnline.init 1 =
      ⟨1, 0, LD.fin 1, LD.fin 1, LD.fin 0⟩ := by
  simp [onlineState, RollProdOnline.step, RollProdOnline.init, RollProdOnline.next_exp,
    lambda, exProdZero, column, vector, isNA, notNA, Cell.isnan, Cell.toLD,
    LD.zero_def, LD.one_def, LD.fin_div_fin]

theorem exProdZero_state2 :
    onlineState (RollProdOnline.step exProdZero 0) RollProdOnline.init 2 =
      ⟨2, 1, LD.fin 1, LD.fin 1, LD.fin 0⟩ := by
  rw [onlineState, exProdZero_state1]
  simp [RollProdOnline.step, RollProdOnline.next_exp, lambda, exProdZero, column,
    vector, isNA, notNA, Cell.isnan, Cell.toLD, LD.zero_def, LD.one_def, LD.fin_div_fin]

theorem exProdZero_state3 :
    onlineState (RollProdOnline.step exProdZero 0) RollProdOnline.init 3 =
      ⟨2, 1, LD.fin 1, LD.fin 1, LD.nonfin⟩ := by
  rw [onlineState, exProdZero_state2]
  simp [RollProdOnline.step, RollProdOnline.next_exp, lambda, exProdZero, column,
    vector, isNA, notNA, Cell.isnan, Cell.toLD, LD.zero_def, LD.one_def, LD.fin_div_fin]
  rfl

theorem exProdZero_online : RollProdOnline.cell exProdZero 2 0 = Cell.NaN := by
  simp only [RollProdOnline.cell, Nat.reduceAdd, exProdZero_state3]
  simp [RollProdOnline.emit, compute, exProdZero]
  rfl

theorem exProdZero_parallel : RollProdParallel.cell exProdZero 2 0 = Cell.val 6 := by
  simp [RollProdParallel.cell, RollProdParallel.body, whileWindow, whileWindow.go,
    exProdZero, column, vector, compute, isNA, notNA, Cell.isnan, Cell.toLD, LD.zero_def,
    LD.one_def]
  norm_num

/-! ## Rescaled weights and shifted data -/

theorem LD_scale_div (c a b : α) (hc : c ≠ 0) :
    (LD.fin (c * a) / LD.fin (c * b) : LD α) = LD.fin a / LD.fin b := by
  rw [LD.fin_div_fin, LD.fin_div_fin]
  by_cases hb : b = 0
  · rw [if_pos hb, if_pos (by rw [hb, mul_zero])]
  · rw [if_neg hb, if_neg (mul_ne_zero hc hb), mul_div_mul_left _ _ hc]

/-- The quotient `sumsq_x / (sum_w - sumsq_w / sum_w)` does not change when the weights are
multiplied by `c`. -/
theorem LD_var_scale (c N W Q : α) (hc : c ≠ 0) (hW : W ≠ 0) :
    (LD.fin (c * N) / (LD.fin (c * W) - LD.fin (c * (c * Q)) / LD.fin (c * W)) : LD α) =
      LD.fin N / (LD.fin W - LD.fin Q / LD.fin W) := by
  rw [LD_scale_div c (c * Q) W hc, LD.fin_div_fin_of_ne (c * Q) hW, LD.fin_div_fin_of_ne Q hW,
    LD.fin_sub_fin, LD.fin_sub_fin]
  have e : c * W - c * Q / W = c * (W - Q / W) := by ring
  rw [e, LD_scale_div _ _ _ hc]

/-- The store of `RollVarParallel` when the weights of the valid rows sum to zero: the
denominator is not finite. -/
theorem RollVarParallel_cell_zero_mass (p : Args α) (i j : ℕ)
    (hW : (∑ r in validRows p i j, p.arma_weights (p.n - 1 - (i - r))) = 0) :
    RollVarParallel.cell p i j =
      if compute p i j then
        if ((validRows p i j).card : ℤ) > 1 ∧ ((validRows p i j).card : ℤ) ≥ p.min_obs then
          Cell.NaN
        else Cell.NA
      else p.x i j := by
  obtain ⟨sx, e1, -⟩ := RollVarParallel_foldl p (RollVarParallel.mean_x p i j) i j
    (min p.width (i + 1)) (by omega)
  rw [← validRows_eq] at e1
  unfold RollVarParallel.cell
  rw [whileWindow_eq_foldl, e1]
  dsimp only
  rw [hW, LD_div_zero_den]
  rfl

/-- The store of `RollVarParallel` from the sums of the window, around a finite mean `mu`
(`0` when `center` is false). -/
theorem RollVarParallel_cell_mu (p : Args α) (i j : ℕ) (mu : α)
    (h1 : p.center = true → RollVarParallel.mean_x p i j = LD.fin mu)
    (h2 : p.center = false → mu = 0) :
    RollVarParallel.cell p i j =
      if compute p i j then
        if ((validRows p i j).card : ℤ) > 1 ∧ ((validRows p i j).card : ℤ) ≥ p.min_obs then
          (LD.fin (∑ r in validRows p i j,
              p.arma_weights (p.n - 1 - (i - r)) * ((p.x r j).get - mu) ^ 2) /
            (LD.fin (∑ r in validRows p i j, p.arma_weights (p.n - 1 - (i - r))) -
              LD.fin (∑ r in validRows p i j, p.arma_weights (p.n - 1 - (i - r)) ^ 2) /
                LD.fin (∑ r in validRows p i j, p.arma_weights (p.n - 1 - (i - r))))).toCell
        else Cell.NA
      else p.x i j := by
  obtain ⟨sx, e1, e2⟩ := RollVarParallel_foldl p (RollVarParallel.mean_x p i j) i j
    (min p.width (i + 1)) (by omega)
  rw [← validRows_eq] at e1 e2
  unfold RollVarParallel.cell
  rw [whileWindow_eq_foldl, e1, e2 mu h1 h2]

/-- The mean of `RollVarParallel` when `center` is set and the weights of the valid rows do
not sum to zero. -/
theorem RollVarParallel_mean_x_fin (p : Args α) (i j : ℕ) (hcen : p.center = true)
    (hW : (∑ r in validRows p i j, p.arma_weights (p.n - 1 - (i - r))) ≠ 0) :
    RollVarParallel.mean_x p i j =
      LD.fin ((∑ r in validRows p i j, p.arma_weights (p.n - 1 - (i - r)) * (p.x r j).get) /
        (∑ r in validRows p i j, p.arma_weights (p.n - 1 - (i - r)))) := by
  rw [RollVarParallel_mean_x_eq, if_pos hcen, LD.fin_div_fin_of_ne _ hW]

theorem rescale_validRows (p : Args α) (c : α) (i j : ℕ) :
    validRows (p.rescale c) i j = validRows p i j := rfl

theorem RollMeanParallel_cell_rescale (p : Args α) (c : α) (hc : c ≠ 0) (i j : ℕ) :
    RollMeanParallel.cell (p.rescale c) i j = RollMeanParallel.cell p i j := by
  by_cases hcomp : compute p i j
  · rw [RollMeanParallel_cell_eq p i j hcomp,
      RollMeanParallel_cell_eq (p.rescale c) i j hcomp, rescale_validRows]
    have e1 : (∑ r in validRows p i j,
          (p.rescale c).arma_weights ((p.rescale c).n - 1 - (i - r)) *
            ((p.rescale c).x r j).get) =
        c * ∑ r in validRows p i j, p.arma_weights (p.n - 1 - (i - r)) * (p.x r j).get := by
      rw [Finset.mul_sum]
      exact Finset.sum_congr rfl (fun r _ => mul_assoc _ _ _)
    have e2 : (∑ r in validRows p i j,
          (p.rescale c).arma_weights ((p.rescale c).n - 1 - (i - r))) =
        c * ∑ r in validRows p i j, p.arma_weights (p.n - 1 - (i - r)) := by
      rw [Finset.mul_sum]
      rfl
    rw [e1, e2, LD_scale_div _ _ _ hc]
    rfl
  · unfold RollMeanParallel.cell
    rw [if_neg hcomp, if_neg (show ¬ compute (p.rescale c) i j from hcomp)]
    rfl

theorem RollVarParallel_cell_rescale (p : Args α) (c : α) (hc : c ≠ 0) (i j : ℕ) :
    RollVarParallel.cell (p.rescale c) i j = RollVarParallel.cell p i j := by
  have eW : (∑ r in validRows p i j,
        (p.rescale c).arma_weights ((p.rescale c).n - 1 - (i - r))) =
      c * ∑ r in validRows p i j, p.arma_weights (p.n - 1 - (i - r)) := by
    rw [Finset.mul_sum]
    rfl
  have eX : (∑ r in validRows p i j,
        (p.rescale c).arma_weights ((p.rescale c).n - 1 - (i - r)) *
          ((p.rescale c).x r j).get) =
      c * ∑ r in validRows p i j, p.arma_weights (p.n - 1 - (i - r)) * (p.x r j).get := by
    rw [Finset.mul_sum]
    exact Finset.sum_congr rfl (fun r _ => mul_assoc _ _ _)
  have eQ : (∑ r in validRows p i j,
        (p.rescale c).arma_weights ((p.rescale c).n - 1 - (i - r)) ^ 2) =
      c * (c * ∑ r in validRows p i j, p.arma_weights (p.n - 1 - (i - r)) ^ 2) := by
    rw [Finset.mul_sum, Finset.mul_sum]
    exact Finset.sum_congr rfl (fun r _ => by
      show (c * p.arma_weights (p.n - 1 - (i - r))) ^ 2 = _
      ring)
  by_cases hW : (∑ r in validRows p i j, p.arma_weights (p.n - 1 - (i - r))) = 0
  · rw [RollVarParallel_cell_zero_mass p i j hW,
      RollVarParallel_cell_zero_mass (p.rescale c) i j (by
        rw [rescale_validRows, eW, hW, mul_zero])]
    rfl
  · have hW' : (∑ r in validRows (p.rescale c) i j,
          (p.rescale c).arma_weights ((p.rescale c).n - 1 - (i - r))) ≠ 0 := by
      rw [rescale_validRows, eW]
      exact mul_ne_zero hc hW
    obtain ⟨mu, hmu1, hmu2, hmu3⟩ : ∃ mu : α,
        (p.center = true → RollVarParallel.mean_x p i j = LD.fin mu) ∧
        (p.center = true → RollVarParallel.mean_x (p.rescale c) i j = LD.fin mu) ∧
        (p.center = false → mu = 0) := by
      by_cases hcen : p.center = true
      · refine ⟨_, fun _ => RollVarParallel_mean_x_fin p i j hcen hW, fun _ => ?_,
          fun h => ?_⟩
        · rw [RollVarParallel_mean_x_fin (p.rescale c) i j hcen hW', rescale_validRows, eW, eX,
            mul_div_mul_left _ _ hc]
        · rw [hcen] at h
          exact absurd h (by decide)
      · exact ⟨0, fun h => absurd h hcen, fun h => absurd h hcen, fun _ => rfl⟩
    rw [RollVarParallel_cell_mu p i j mu hmu1 hmu3,
      RollVarParallel_cell_mu (p.rescale c) i j mu hmu2 hmu3, rescale_validRows, eW, eQ]
    have eN : (∑ r in validRows p i j,
          (p.rescale c).arma_weights ((p.rescale c).n - 1 - (i - r)) *
            (((p.rescale c).x r j).get - mu) ^ 2) =
        c * ∑ r in validRows p i j,
          p.arma_weights (p.n - 1 - (i - r)) * ((p.x r j).get - mu) ^ 2 := by
      rw [Finset.mul_sum]
      exact Finset.sum_congr rfl (fun r _ => mul_assoc _ _ _)
    rw [eN, LD_var_scale _ _ _ _ hc hW]
    rfl

theorem Cell_shift_isnan (c : α) (v : Cell α) : (v.shift c).isnan = v.isnan := by
  cases v <;> rfl

theorem Cell_shift_zero (v : Cell α) : v.shift 0 = v := by
  cases v with
  | val a => show Cell.val (a + 0) = Cell.val a; rw [add_zero]
  | NA => rfl
  | NaN => rfl

theorem Cell_shift_get (c : α) (v : Cell α) (h : ¬ v.isnan = true) :
    (v.shift c).get = v.get + c := by
  cases v with
  | val a => rfl
  | NA => exact absurd rfl h
  | NaN => exact absurd rfl h

theorem Cell_shift_missing (c : α) (v : Cell α) (h : v.isnan = true) : v.shift c = v := by
  cases v with
  | val a => exact absurd h (by simp [Cell.isnan])
  | NA => rfl
  | NaN => rfl

/-- With `center` set, adding `s` to the values of column `j` that are not missing leaves the
cell `(i, j)` of `RollVarParallel` as it is. -/
theorem RollVarParallel_cell_shift (p : Args α) (x' : ℕ → ℕ → Cell α) (s : α) (i j : ℕ)
    (hcen : p.center = true) (hx : ∀ r, x' r j = (p.x r j).shift s) :
    RollVarParallel.cell { p with x := x' } i j = RollVarParallel.cell p i j := by
  have hna : ∀ r, notNA { p with x := x' } r j ↔ notNA p r j := by
    intro r
    show (p.arma_any_na r = 0 ∧ ¬ (x' r j).isnan = true) ↔ _
    rw [hx r, Cell_shift_isnan]
  have hV : validRows { p with x := x' } i j = validRows p i j := by
    unfold validRows
    exact Finset.filter_congr (fun r _ => hna r)
  have hcomp : compute { p with x := x' } i j ↔ compute p i j := by
    show (p.na_restore = false ∨ (p.na_restore = true ∧ ¬ (x' i j).isnan = true)) ↔ _
    rw [hx i, Cell_shift_isnan]
  have hrest : ¬ compute p i j → x' i j = p.x i j := by
    intro hc
    rw [hx i]
    apply Cell_shift_missing
    by_contra hn
    apply hc
    rcases Bool.eq_false_or_eq_true p.na_restore with hr | hr
    · exact Or.inr ⟨hr, hn⟩
    · exact Or.inl hr
  have hget : ∀ r ∈ validRows p i j, (x' r j).get = (p.x r j).get + s := by
    intro r hr
    rw [hx r]
    apply Cell_shift_get
    unfold validRows at hr
    exact (Finset.mem_filter.1 hr).2.2
  by_cases hW : (∑ r in validRows p i j, p.arma_weights (p.n - 1 - (i - r))) = 0
  · rw [RollVarParallel_cell_zero_mass p i j hW,
      RollVarParallel_cell_zero_mass { p with x := x' } i j (by rw [hV]; exact hW), hV]
    by_cases hc : compute p i j
    · rw [if_pos hc, if_pos (hcomp.2 hc)]
    · rw [if_neg hc, if_neg (fun h => hc (hcomp.1 h))]
      exact hrest hc
  · have hmu : RollVarParallel.mean_x { p with x := x' } i j =
        LD.fin ((∑ r in validRows p i j,
          p.arma_weights (p.n - 1 - (i - r)) * (p.x r j).get) /
            (∑ r in validRows p i j, p.arma_weights (p.n - 1 - (i - r))) + s) := by
      rw [RollVarParallel_mean_x_fin { p with x := x' } i j hcen (by rw [hV]; exact hW), hV]
      congr 1
      have e : (∑ r in validRows p i j, p.arma_weights (p.n - 1 - (i - r)) * (x' r j).get) =
          (∑ r in validRows p i j, p.arma_weights (p.n - 1 - (i - r)) * (p.x r j).get) +
            (∑ r in validRows p i j, p.arma_weights (p.n - 1 - (i - r))) * s := by
        rw [Finset.sum_mul, ← Finset.sum_add_distrib]
        exact Finset.sum_congr rfl (fun r hr => by rw [hget r hr]; ring)
      show (∑ r in validRows p i j, p.arma_weights (p.n - 1 - (i - r)) * (x' r j).get) /
        (∑ r in validRows p i j, p.arma_weights (p.n - 1 - (i - r))) = _
      rw [e, add_div, mul_div_cancel_left₀ _ hW]
    rw [RollVarParallel_cell_mu p i j _ (fun _ => RollVarParallel_mean_x_fin p i j hcen hW)
        (fun h => by rw [hcen] at h; exact absurd h (by decide)),
      RollVarParallel_cell_mu { p with x := x' } i j _ (fun _ => hmu)
        (fun h => by rw [hcen] at h; exact absurd h (by decide)), hV]
    have eN : (∑ r in validRows p i j, p.arma_weights (p.n - 1 - (i - r)) *
          ((x' r j).get - ((∑ r in validRows p i j,
            p.arma_weights (p.n - 1 - (i - r)) * (p.x r j).get) /
              (∑ r in validRows p i j, p.arma_weights (p.n - 1 - (i - r))) + s)) ^ 2) =
        ∑ r in validRows p i j, p.arma_weights (p.n - 1 - (i - r)) *
          ((p.x r j).get - (∑ r in validRows p i j,
            p.arma_weights (p.n - 1 - (i - r)) * (p.x r j).get) /
              (∑ r in validRows p i j, p.arma_weights (p.n - 1 - (i - r)))) ^ 2 :=
      Finset.sum_congr rfl (fun r hr => by rw [hget r hr]; ring)
    show (if compute { p with x := x' } i j then
        if ((validRows p i j).card : ℤ) > 1 ∧ ((validRows p i j).card : ℤ) ≥ p.min_obs then
          (LD.fin (∑ r in validRows p i j, p.arma_weights (p.n - 1 - (i - r)) *
            ((x' r j).get - ((∑ r in validRows p i j,
              p.arma_weights (p.n - 1 - (i - r)) * (p.x r j).get) /
                (∑ r in validRows p i j, p.arma_weights (p.n - 1 - (i - r))) + s)) ^ 2) /
            (LD.fin (∑ r in validRows p i j, p.arma_weights (p.n - 1 - (i - r))) -
              LD.fin (∑ r in validRows p i j, p.arma_weights (p.n - 1 - (i - r)) ^ 2) /
                LD.fin (∑ r in validRows p i j, p.arma_weights (p.n - 1 - (i - r))))).toCell
        else Cell.NA
      else x' i j) = _
    rw [eN]
    by_cases hc : compute p i j
    · rw [if_pos hc, if_pos (hcomp.2 hc)]
    · rw [if_neg hc, if_neg (fun h => hc (hcomp.1 h))]
      exact hrest hc

/-! ## The flag `na_restore` -/

/-- Two matrix workers that iterate by flattened index and would store the same value in a
cell leave the same value in it. -/
theorem parallelWorker_congr (cell cell' : ℕ → ℕ → Cell α) (n_cols a b : ℕ) (dst : Mat α)
    (r c : ℕ) (h : cell r c = cell' r c) :
    parallelWorker cell n_cols a b dst r c = parallelWorker cell' n_cols a b dst r c := by
  by_cases hab : a ≤ b
  · have e1 := forLoop_owned_pass (fun (d : Mat α) (c : ℕ × ℕ) => d c.1 c.2) _
      (fun z c => matIndexCell n_cols z c.1 c.2) (fun c => cell c.1 c.2)
      (fun z s c => (parallelWorker_pass cell n_cols z s c.1 c.2).1)
      (fun z s c => (parallelWorker_pass cell n_cols z s c.1 c.2).2) a b hab dst (r, c)
    have e2 := forLoop_owned_pass (fun (d : Mat α) (c : ℕ × ℕ) => d c.1 c.2) _
      (fun z c => matIndexCell n_cols z c.1 c.2) (fun c => cell' c.1 c.2)
      (fun z s c => (parallelWorker_pass cell' n_cols z s c.1 c.2).1)
      (fun z s c => (parallelWorker_pass cell' n_cols z s c.1 c.2).2) a b hab dst (r, c)
    unfold parallelWorker
    by_cases hz : ∃ z, a ≤ z ∧ z < b ∧ matIndexCell n_cols z r c
    · exact (e1.2 hz).trans (h.trans (e2.2 hz).symm)
    · exact (e1.1 hz).trans (e2.1 hz).symm
  · unfold parallelWorker
    rw [forLoop_empty _ _ (by omega), forLoop_empty _ _ (by omega)]

/-- Two matrix workers that iterate by column and would store the same value in a cell
leave the same value in it. -/
theorem onlineWorker_congr {σ τ : Type} (step : ℕ → ℕ → σ → σ) (emit : ℕ → ℕ → σ → Cell α)
    (init : σ) (step' : ℕ → ℕ → τ → τ) (emit' : ℕ → ℕ → τ → Cell α) (init' : τ)
    (n_rows a b : ℕ) (dst : Mat α) (r c : ℕ)
    (h : emit c r (onlineState (step c) init (r + 1)) =
      emit' c r (onlineState (step' c) init' (r + 1))) :
    onlineWorker step emit init n_rows a b dst r c =
      onlineWorker step' emit' init' n_rows a b dst r c := by
  by_cases hab : a ≤ b
  · have e1 := forLoop_owned_pass (fun (d : Mat α) (c : ℕ × ℕ) => d c.1 c.2) _
      (fun j c => matColumnCell n_rows j c.1 c.2)
      (fun c => emit c.2 c.1 (onlineState (step c.2) init (c.1 + 1)))
      (fun j s c => (onlineWorker_pass step emit init n_rows j s c.1 c.2).1)
      (fun j s c => (onlineWorker_pass step emit init n_rows j s c.1 c.2).2)
      a b hab dst (r, c)
    have e2 := forLoop_owned_pass (fun (d : Mat α) (c : ℕ × ℕ) => d c.1 c.2) _
      (fun j c => matColumnCell n_rows j c.1 c.2)
      (fun c => emit' c.2 c.1 (onlineState (step' c.2) init' (c.1 + 1)))
      (fun j s c => (onlineWorker_pass step' emit' init' n_rows j s c.1 c.2).1)
      (fun j s c => (onlineWorker_pass step' emit' init' n_rows j s c.1 c.2).2)
      a b hab dst (r, c)
    unfold onlineWorker
    by_cases hz : ∃ z, a ≤ z ∧ z < b ∧ matColumnCell n_rows z r c
    · exact (e1.2 hz).trans (h.trans (e2.2 hz).symm)
    · exact (e1.1 hz).trans (e2.1 hz).symm
  · unfold onlineWorker
    rw [forLoop_empty _ _ (by omega), forLoop_empty _ _ (by omega)]

theorem compute_restore (p : Args α) (b : Bool) (i j : ℕ) (hx : ¬ (p.x i j).isnan = true) :
    compute { p with na_restore := b } i j := by
  cases b
  · exact Or.inl rfl
  · exact Or.inr ⟨rfl, hx⟩

theorem RollSumOnline_step_restore (p : Args α) (b : Bool) :
    RollSumOnline.step { p with na_restore := b } = RollSumOnline.step p := rfl

theorem RollProdOnline_step_restore (p : Args α) (b : Bool) :
    RollProdOnline.step { p with na_restore := b } = RollProdOnline.step p := rfl

theorem RollMeanOnline_step_restore (p : Args α) (b : Bool) :
    RollMeanOnline.step { p with na_restore := b } = RollMeanOnline.step p := rfl

theorem RollVarOnline_step_restore (p : Args α) (b : Bool) :
    RollVarOnline.step { p with na_restore := b } = RollVarOnline.step p := rfl

theorem RollScaleOnline_step_restore (p : Args α) (b : Bool) :
    RollScaleOnline.step { p with na_restore := b } = RollScaleOnline.step p := rfl

theorem RollSumOnline_cell_restore (p : Args α) (b : Bool) (i j : ℕ)
    (hx : ¬ (p.x i j).isnan = true) :
    RollSumOnline.cell { p with na_restore := b } i j = RollSumOnline.cell p i j := by
  have h1 := compute_restore p b i j hx
  have h2 : compute p i j := by
    have := compute_restore p p.na_restore i j hx
    exact this
  unfold RollSumOnline.cell RollSumOnline.emit
  rw [if_pos h1, if_pos h2]
  rfl

theorem RollSumParallel_cell_restore (p : Args α) (b : Bool) (i j : ℕ)
    (hx : ¬ (p.x i j).isnan = true) :
    RollSumParallel.cell { p with na_restore := b } i j = RollSumParallel.cell p i j := by
  have h1 := compute_restore p b i j hx
  have h2 : compute p i j := by
    have := compute_restore p p.na_restore i j hx
    exact this
  unfold RollSumParallel.cell
  rw [if_pos h1, if_pos h2]
  rfl

theorem RollProdOnline_cell_restore (p : Args α) (b : Bool) (i j : ℕ)
    (hx : ¬ (p.x i j).isnan = true) :
    RollProdOnline.cell { p with na_restore := b } i j = RollProdOnline.cell p i j := by
  have h1 := compute_restore p b i j hx
  have h2 : compute p i j := by
    have := compute_restore p p.na_restore i j hx
    exact this
  unfold RollProdOnline.cell RollProdOnline.emit
  rw [if_pos h1, if_pos h2]
  rfl

theorem RollProdParallel_cell_restore (p : Args α) (b : Bool) (i j : ℕ)
    (hx : ¬ (p.x i j).isnan = true) :
    RollProdParallel.cell { p with na_restore := b } i j = RollProdParallel.cell p i j := by
  have h1 := compute_restore p b i j hx
  have h2 : compute p i j := by
    have := compute_restore p p.na_restore i j hx
    exact this
  unfold RollProdParallel.cell
  rw [if_pos h1, if_pos h2]
  rfl

theorem RollMeanOnline_cell_restore (p : Args α) (b : Bool) (i j : ℕ)
    (hx : ¬ (p.x i j).isnan = true) :
    RollMeanOnline.cell { p with na_restore := b } i j = RollMeanOnline.cell p i j := by
  have h1 := compute_restore p b i j hx
  have h2 : compute p i j := by
    have := compute_restore p p.na_restore i j hx
    exact this
  unfold RollMeanOnline.cell RollMeanOnline.emit
  rw [if_pos h1, if_pos h2]
  rfl

theorem RollMeanParallel_cell_restore (p : Args α) (b : Bool) (i j : ℕ)
    (hx : ¬ (p.x i j).isnan = true) :
    RollMeanParallel.cell { p with na_restore := b } i j = RollMeanParallel.cell p i j := by
  have h1 := compute_restore p b i j hx
  have h2 : compute p i j := by
    have := compute_restore p p.na_restore i j hx
    exact this
  unfold RollMeanParallel.cell
  rw [if_pos h1, if_pos h2]
  rfl

theorem RollVarOnline_cell_restore (p : Args α) (b : Bool) (i j : ℕ)
    (hx : ¬ (p.x i j).isnan = true) :
    RollVarOnline.cell { p with na_restore := b } i j = RollVarOnline.cell p i j := by
  have h1 := compute_restore p b i j hx
  have h2 : compute p i j := by
    have := compute_restore p p.na_restore i j hx
    exact this
  unfold RollVarOnline.cell RollVarOnline.emit
  rw [if_pos h1, if_pos h2]
  rfl

theorem RollVarParallel_cell_restore (p : Args α) (b : Bool) (i j : ℕ)
    (hx : ¬ (p.x i j).isnan = true) :
    RollVarParallel.cell { p with na_restore := b } i j = RollVarParallel.cell p i j := by
  have h1 := compute_restore p b i j hx
  have h2 : compute p i j := by
    have := compute_restore p p.na_restore i j hx
    exact this
  unfold RollVarParallel.cell
  rw [if_pos h1, if_pos h2]
  rfl

theorem RollSdOnline_cell_restore (m : Prim α) (p : Args α) (b : Bool) (i j : ℕ)
    (hx : ¬ (p.x i j).isnan = true) :
    RollSdOnline.cell m { p with na_restore := b } i j = RollSdOnline.cell m p i j := by
  have h1 := compute_restore p b i j hx
  have h2 : compute p i j := by
    have := compute_restore p p.na_restore i j hx
    exact this
  unfold RollSdOnline.cell RollSdOnline.emit
  rw [if_pos h1, if_pos h2]
  rfl

theorem RollSdParallel_cell_restore (m : Prim α) (p : Args α) (b : Bool) (i j : ℕ)
    (hx : ¬ (p.x i j).isnan = true) :
    RollSdParallel.cell m { p with na_restore := b } i j = RollSdParallel.cell m p i j := by
  have h1 := compute_restore p b i j hx
  have h2 : compute p i j := by
    have := compute_restore p p.na_restore i j hx
    exact this
  unfold RollSdParallel.cell
  rw [if_pos h1, if_pos h2]
  rfl

theorem RollScaleOnline_cell_restore (m : Prim α) (p : Args α) (b : Bool) (i j : ℕ)
    (hx : ¬ (p.x i j).isnan = true) :
    RollScaleOnline.cell m { p with na_restore := b } i j = RollScaleOnline.cell m p i j := by
  have h1 := compute_restore p b i j hx
  have h2 : compute p i j := by
    have := compute_restore p p.na_restore i j hx
    exact this
  unfold RollScaleOnline.cell RollScaleOnline.emit
  rw [if_pos h1, if_pos h2]
  rfl

theorem RollScaleParallel_cell_restore (m : Prim α) (p : Args α) (b : Bool) (i j : ℕ)
    (hx : ¬ (p.x i j).isnan = true) :
    RollScaleParallel.cell m { p with na_restore := b } i j = RollScaleParallel.cell m p i j := by
  have h1 := compute_restore p b i j hx
  have h2 : compute p i j := by
    have := compute_restore p p.na_restore i j hx
    exact this
  unfold RollScaleParallel.cell
  rw [if_pos h1, if_pos h2]
  rfl

theorem RollSumOnline_operator_restore (p : Args α) (b : Bool) (lo hi : ℕ) (dst : Mat α)
    (i j : ℕ) (hx : ¬ (p.x i j).isnan = true) :
    RollSumOnline.operator { p with na_restore := b } lo hi dst i j =
      RollSumOnline.operator p lo hi dst i j := by
  exact onlineWorker_congr _ _ _ _ _ _ _ lo hi dst i j (RollSumOnline_cell_restore p b i j hx)

theorem RollSumParallel_operator_restore (p : Args α) (b : Bool) (lo hi : ℕ) (dst : Mat α)
    (i j : ℕ) (hx : ¬ (p.x i j).isnan = true) :
    RollSumParallel.operator { p with na_restore := b } lo hi dst i j =
      RollSumParallel.operator p lo hi dst i j := by
  exact parallelWorker_congr _ _ _ lo hi dst i j (RollSumParallel_cell_restore p b i j hx)

theorem RollProdOnline_operator_restore (p : Args α) (b : Bool) (lo hi : ℕ) (dst : Mat α)
    (i j : ℕ) (hx : ¬ (p.x i j).isnan = true) :
    RollProdOnline.operator { p with na_restore := b } lo hi dst i j =
      RollProdOnline.operator p lo hi dst i j := by
  exact onlineWorker_congr _ _ _ _ _ _ _ lo hi dst i j (RollProdOnline_cell_restore p b i j hx)

theorem RollProdParallel_operator_restore (p : Args α) (b : Bool) (lo hi : ℕ) (dst : Mat α)
    (i j : ℕ) (hx : ¬ (p.x i j).isnan = true) :
    RollProdParallel.operator { p with na_restore := b } lo hi dst i j =
      RollProdParallel.operator p lo hi dst i j := by
  exact parallelWorker_congr _ _ _ lo hi dst i j (RollProdParallel_cell_restore p b i j hx)

theorem RollMeanOnline_operator_restore (p : Args α) (b : Bool) (lo hi : ℕ) (dst : Mat α)
    (i j : ℕ) (hx : ¬ (p.x i j).isnan = true) :
    RollMeanOnline.operator { p with na_restore := b } lo hi dst i j =
      RollMeanOnline.operator p lo hi dst i j := by
  exact onlineWorker_congr _ _ _ _ _ _ _ lo hi dst i j (RollMeanOnline_cell_restore p b i j hx)

theorem RollMeanParallel_operator_restore (p : Args α) (b : Bool) (lo hi : ℕ) (dst : Mat α)
    (i j : ℕ) (hx : ¬ (p.x i j).isnan = true) :
    RollMeanParallel.operator { p with na_restore := b } lo hi dst i j =
      RollMeanParallel.operator p lo hi dst i j := by
  exact parallelWorker_congr _ _ _ lo hi dst i j (RollMeanParallel_cell_restore p b i j hx)

theorem RollVarOnline_operator_restore (p : Args α) (b : Bool) (lo hi : ℕ) (dst : Mat α)
    (i j : ℕ) (hx : ¬ (p.x i j).isnan = true) :
    RollVarOnline.operator { p with na_restore := b } lo hi dst i j =
      RollVarOnline.operator p lo hi dst i j := by
  exact onlineWorker_congr _ _ _ _ _ _ _ lo hi dst i j (RollVarOnline_cell_restore p b i j hx)

theorem RollVarParallel_operator_restore (p : Args α) (b : Bool) (lo hi : ℕ) (dst : Mat α)
    (i j : ℕ) (hx : ¬ (p.x i j).isnan = true) :
    RollVarParallel.operator { p with na_restore := b } lo hi dst i j =
      RollVarParallel.operator p lo hi dst i j := by
  exact parallelWorker_congr _ _ _ lo hi dst i j (RollVarParallel_cell_restore p b i j hx)

theorem RollSdOnline_operator_restore (m : Prim α) (p : Args α) (b : Bool) (lo hi : ℕ) (dst : Mat α)
    (i j : ℕ) (hx : ¬ (p.x i j).isnan = true) :
    RollSdOnline.operator m { p with na_restore := b } lo hi dst i j =
      RollSdOnline.operator m p lo hi dst i j := by
  exact onlineWorker_congr _ _ _ _ _ _ _ lo hi dst i j (RollSdOnline_cell_restore m p b i j hx)

theorem RollSdParallel_operator_restore (m : Prim α) (p : Args α) (b : Bool) (lo hi : ℕ) (dst : Mat α)
    (i j : ℕ) (hx : ¬ (p.x i j).isnan = true) :
    RollSdParallel.operator m { p with na_restore := b } lo hi dst i j =
      RollSdParallel.operator m p lo hi dst i j := by
  exact parallelWorker_congr _ _ _ lo hi dst i j (RollSdParallel_cell_restore m p b i j hx)

theorem RollScaleOnline_operator_restore (m : Prim α) (p : Args α) (b : Bool) (lo hi : ℕ) (dst : Mat α)
    (i j : ℕ) (hx : ¬ (p.x i j).isnan = true) :
    RollScaleOnline.operator m { p with na_restore := b } lo hi dst i j =
      RollScaleOnline.operator m p lo hi dst i j := by
  exact onlineWorker_congr _ _ _ _ _ _ _ lo hi dst i j (RollScaleOnline_cell_restore m p b i j hx)

theorem RollScaleParallel_operator_restore (m : Prim α) (p : Args α) (b : Bool) (lo hi : ℕ) (dst : Mat α)
    (i j : ℕ) (hx : ¬ (p.x i j).isnan = true) :
    RollScaleParallel.operator m { p with na_restore := b } lo hi dst i j =
      RollScaleParallel.operator m p lo hi dst i j := by
  exact parallelWorker_congr _ _ _ lo hi dst i j (RollScaleParallel_cell_restore m p b i j hx)

/-! ## The observation that the scale engines centre and scale -/

/-- The value `x_ij` that `RollScaleOnline` carries after `t` rows is the input of the newest
valid row among the rows `0, …, t - 1`. -/
theorem RollScaleOnline_x_ij_newest (p : Args α) (j : ℕ) (t : ℕ) :
    ∀ r, r < t → notNA p r j → (∀ r', r' < t → notNA p r' j → r' ≤ r) →
      (onlineState (RollScaleOnline.step p j) RollScaleOnline.init t).x_ij =
        (p.x r j).toLD := by
  induction t with
  | zero => intro r hr; omega
  | succ t ih =>
    intro r hr hv hmax
    rw [onlineState]
    by_cases hvt : notNA p t j
    · have e : r = t := by
        have := hmax t (by omega) hvt
        omega
      subst e
      exact RollScaleOnline_x_ij p j r _ hv
    · have hrt : r < t := by
        rcases Nat.lt_or_ge r t with h | h
        · exact h
        · have e : r = t := by omega
          subst e
          exact absurd hv hvt
      have hna := isNA_of_not p t j hvt
      have e := ih r hrt hv (fun r' h1 h2 => hmax r' (by omega) h2)
      rw [← e]
      generalize onlineState (RollScaleOnline.step p j) RollScaleOnline.init t = s
      unfold RollScaleOnline.step
      by_cases hexp : t < p.width
      · simp only [if_pos hexp, if_pos hna]
      · simp only [if_neg hexp, if_pos hna]

/-- The third window loop of `RollScaleParallel` after `m` passes: the flag `any_na` tells
whether a valid row was met, and `x_ij` is the input of the newest valid row met. -/
theorem RollScaleParallel_x_ij_newest (p : Args α) (i j : ℕ) :
    ∀ m, m ≤ i + 1 →
      (((List.range m).foldl (fun s c => RollScaleParallel.body p i j c s)
          ⟨0, false, 0⟩).any_na = true ↔ ∃ r, i + 1 - m ≤ r ∧ r ≤ i ∧ notNA p r j) ∧
      (∀ r, i + 1 - m ≤ r → r ≤ i → notNA p r j →
        (∀ r', i + 1 - m ≤ r' → r' ≤ i → notNA p r' j → r' ≤ r) →
        ((List.range m).foldl (fun s c => RollScaleParallel.body p i j c s)
          ⟨0, false, 0⟩).x_ij = (p.x r j).toLD) := by
  intro m
  induction m with
  | zero =>
    intro _
    refine ⟨⟨fun h => ?_, fun ⟨r, h1, h2, _⟩ => by omega⟩, fun r h1 h2 => by omega⟩
    simp at h
  | succ m ih =>
    intro hm
    obtain ⟨h1, h2⟩ := ih (by omega)
    rw [foldl_range_succ]
    generalize (List.range m).foldl (fun s c => RollScaleParallel.body p i j c s)
      ⟨0, false, 0⟩ = s at *
    unfold RollScaleParallel.body
    by_cases hv : notNA p (i - m) j
    · simp only [if_pos hv]
      refine ⟨⟨fun _ => ⟨i - m, by omega, by omega, hv⟩, fun _ => trivial⟩, ?_⟩
      intro r hr1 hr2 hvr hmax
      by_cases ha : s.any_na = true
      · obtain ⟨r0, a1, a2, a3⟩ := h1.1 ha
        have hr0 := hmax r0 (by omega) a2 a3
        have e := h2 r (by omega) hr2 hvr (fun r' b1 b2 b3 => hmax r' (by omega) b2 b3)
        simp [ha, e]
      · have hf : s.any_na = false := by
          cases hh : s.any_na
          · rfl
          · exact absurd hh ha
        have e : r = i - m := by
          by_contra hne
          exact ha (h1.2 ⟨r, by omega, hr2, hvr⟩)
        subst e
        simp [hf]
    · simp only [if_neg hv]
      have key : ∀ r, i + 1 - (m + 1) ≤ r → r ≤ i → notNA p r j → i + 1 - m ≤ r := by
        intro r a1 a2 a3
        by_contra hlt
        have e : r = i - m := by omega
        subst e
        exact hv a3
      refine ⟨⟨fun h => ?_, fun ⟨r, a1, a2, a3⟩ => h1.2 ⟨r, key r a1 a2 a3, a2, a3⟩⟩, ?_⟩
      · obtain ⟨r, a1, a2, a3⟩ := h1.1 h
        exact ⟨r, by omega, a2, a3⟩
      · intro r hr1 hr2 hvr hmax
        exact h2 r (key r hr1 hr2 hvr) hr2 hvr (fun r' b1 b2 b3 => hmax r' (by omega) b2 b3)

theorem RollScaleParallel_n_obs (p : Args α) (i j : ℕ) :
    (whileWindow p.width i (RollScaleParallel.body p i j) ⟨0, false, 0⟩).n_obs =
      ((validRows p i j).card : ℤ) := by
  rw [whileWindow_eq_foldl, validRows_eq]
  exact (RollScaleParallel_foldl p i j _ (by omega)).1

theorem mem_validRows_iff (p : Args α) (i j r : ℕ) :
    r ∈ validRows p i j ↔ i + 1 - p.width ≤ r ∧ r ≤ i ∧ notNA p r j := by
  unfold validRows window
  rw [Finset.mem_filter, Finset.mem_Icc]
  tauto

/-! ## The coefficient of determination -/

/-- With `A * c = b` the quadratic form `cᵀ * A * c` is the product `cᵀ * b`. -/
theorem quadForm_eq_dot (d : ℕ) (S : ℕ → ℕ → α) (c : ℕ → α)
    (hex : ∀ a, a < d → ∑ l in Finset.range d, S a l * c l = S a d) :
    quadForm d S c = ∑ a in Finset.range d, c a * S a d := by
  unfold quadForm
  apply Finset.sum_congr rfl
  intro a ha
  rw [← hex a (Finset.mem_range.1 ha), Finset.mul_sum]
  apply Finset.sum_congr rfl
  intro b _
  ring

/-- For a symmetric positive semidefinite matrix of order `d + 1` whose leading block `A` and
last column `b` satisfy `A * c = b`, the quadratic form `cᵀ * A * c` lies between `0` and the
last diagonal entry. -/
theorem quadForm_bounds (d : ℕ) (S : ℕ → ℕ → α) (c : ℕ → α)
    (hsym : ∀ a, a < d → S d a = S a d)
    (hpsd : ∀ z : ℕ → α,
      0 ≤ ∑ a in Finset.range (d + 1), ∑ b in Finset.range (d + 1), z a * S a b * z b)
    (hex : ∀ a, a < d → ∑ l in Finset.range d, S a l * c l = S a d) :
    0 ≤ quadForm d S c ∧ quadForm d S c ≤ S d d := by
  have hQ := quadForm_eq_dot d S c hex
  have expand : ∀ (z : ℕ → α) (t : α), (∀ l, l < d → z l = c l) → z d = t →
      ∑ a in Finset.range (d + 1), ∑ b in Finset.range (d + 1), z a * S a b * z b =
        quadForm d S c + 2 * t * quadForm d S c + t * S d d * t := by
    intro z t hz ht
    rw [Finset.sum_range_succ]
    have e1 : ∑ a in Finset.range d, ∑ b in Finset.range (d + 1), z a * S a b * z b =
        quadForm d S c + t * quadForm d S c := by
      rw [hQ]
      nth_rewrite 1 [← hQ]
      unfold quadForm
      rw [Finset.mul_sum, ← Finset.sum_add_distrib]
      apply Finset.sum_congr rfl
      intro a ha
      rw [Finset.sum_range_succ, ht, hz a (Finset.mem_range.1 ha)]
      have : ∑ b in Finset.range d, c a * S a b * z b =
          ∑ b in Finset.range d, c a * S a b * c b :=
        Finset.sum_congr rfl (fun b hb => by rw [hz b (Finset.mem_range.1 hb)])
      rw [this]
      ring
    have e2 : ∑ b in Finset.range (d + 1), z d * S d b * z b =
        t * quadForm d S c + t * S d d * t := by
      rw [Finset.sum_range_succ, ht, hQ, Finset.mul_sum]
      congr 1
      apply Finset.sum_congr rfl
      intro b hb
      rw [hz b (Finset.mem_range.1 hb), hsym b (Finset.mem_range.1 hb)]
      ring
    rw [e1, e2]
    ring
  constructor
  · have h := hpsd (fun l => if l < d then c l else 0)
    rw [expand _ 0 (fun l hl => if_pos hl) (if_neg (lt_irrefl d))] at h
    linarith
  · have h := hpsd (fun l => if l < d then c l else -1)
    rw [expand _ (-1) (fun l hl => if_pos hl) (if_neg (lt_irrefl d))] at h
    linarith

theorem cell_of_slice (q : LmArgs α) (i a c : ℕ) (hnan : sliceHasNan q i = false)
    (ha : a < q.n_cols_x) (hc : c < q.n_cols_x) :
    q.arma_cov a c i = Cell.val (q.arma_cov a c i).get := by
  have h : ¬ (q.arma_cov a c i).isnan = true := by
    intro hh
    have := (sliceHasNan_iff q i).2 ⟨a, ha, c, hc, hh⟩
    rw [hnan] at this
    exact Bool.false_ne_true this
  cases hv : q.arma_cov a c i with
  | val v => rfl
  | NA => rw [hv] at h; exact absurd rfl h
  | NaN => rw [hv] at h; exact absurd rfl h

/-- The value stored in `arma_rsq[i]` when the response variance passes the test. -/
theorem rsqValue_val (m : Prim α) (d : ℕ) (A : ℕ → ℕ → α) (coef : ℕ → α) (vy : α)
    (heps : 0 ≤ m.eps) (hvar : m.eps < vy) (hsq : m.sqrt m.eps < m.sqrt vy) :
    rsqValue m d A coef (LD.fin vy) = Cell.val (quadForm d A coef / vy) := by
  have hpos : 0 < vy := lt_of_le_of_lt heps hvar
  unfold rsqValue
  have h1 : ¬ (LD.le (LD.sqrt m.sqrt (LD.fin vy)) (LD.sqrt m.sqrt (LD.fin m.eps)) = true ∨
      LD.neg (LD.fin vy) = true) := by
    have e1 : LD.sqrt m.sqrt (LD.fin vy) = LD.fin (m.sqrt vy) := by
      show (if vy < 0 then LD.nonfin else LD.fin (m.sqrt vy)) = _
      rw [if_neg (not_lt.2 hpos.le)]
    have e2 : LD.sqrt m.sqrt (LD.fin m.eps) = LD.fin (m.sqrt m.eps) := by
      show (if m.eps < 0 then LD.nonfin else LD.fin (m.sqrt m.eps)) = _
      rw [if_neg (not_lt.2 heps)]
    rw [e1, e2]
    show ¬ (decide (m.sqrt vy ≤ m.sqrt m.eps) = true ∨ decide (vy < 0) = true)
    simp only [decide_eq_true_eq, not_or, not_le, not_lt]
    exact ⟨hsq, hpos.le⟩
  rw [if_neg h1, LD.fin_div_fin, if_neg (ne_of_gt hpos)]
  rfl

theorem RollLmInterceptTRUE_slice_rsq (L : LinAlg α) (m : Prim α) (q : LmArgs α)
    (i : ℕ) (o : LmOut α) (coef : ℕ → α) (hnan : sliceHasNan q i = false)
    (hs : L.solve (q.n_cols_x - 1) (sliceA q i) (sliceB q i) = some coef)
    (hn : nObsGe (q.arma_n_obs i) (q.n_cols_x : ℤ) = true) :
    (RollLmInterceptTRUE.slice L m q i o).arma_rsq i =
      rsqValue m (q.n_cols_x - 1) (sliceA q i) coef
        (q.arma_cov (q.n_cols_x - 1) (q.n_cols_x - 1) i).toLD := by
  unfold RollLmInterceptTRUE.slice
  dsimp only
  rw [if_pos hnan, hs]
  dsimp only
  rw [if_pos hn]
  split
  · split_ifs <;> exact Vec_set_self _ _ _
  · exact Vec_set_self _ _ _

theorem RollLmInterceptFALSE_slice_rsq (L : LinAlg α) (m : Prim α) (q : LmArgs α)
    (i : ℕ) (o : LmOut α) (coef : ℕ → α) (hnan : sliceHasNan q i = false)
    (hs : L.solve (q.n_cols_x - 1) (sliceA q i) (sliceB q i) = some coef)
    (hn : nObsGe (q.arma_n_obs i) ((q.n_cols_x : ℤ) - 1) = true) :
    (RollLmInterceptFALSE.slice L m q i o).arma_rsq i =
      rsqValue m (q.n_cols_x - 1) (sliceA q i) coef
        (q.arma_cov (q.n_cols_x - 1) (q.n_cols_x - 1) i).toLD := by
  unfold RollLmInterceptFALSE.slice
  dsimp only
  rw [if_pos hnan, hs]
  dsimp only
  rw [if_pos hn]
  split
  · split_ifs <;> exact Vec_set_self _ _ _
  · exact Vec_set_self _ _ _

/-! ## The two-matrix online builder on one matrix -/

/-- Two chains of four tests that differ in the last test only, which is decided the same way
whenever it is reached. -/
theorem ite_chain_congr {β : Type} (A B C D E : Prop) [Decidable A] [Decidable B]
    [Decidable C] [Decidable D] [Decidable E] (a b c d e : β)
    (h : ¬ A → ¬ B → ¬ C → (D ↔ E)) :
    (if A then a else if B then b else if C then c else if D then d else e) =
      (if A then a else if B then b else if C then c else if E then d else e) := by
  by_cases hA : A
  · rw [if_pos hA, if_pos hA]
  · rw [if_neg hA, if_neg hA]
    by_cases hB : B
    · rw [if_pos hB, if_pos hB]
    · rw [if_neg hB, if_neg hB]
      by_cases hC : C
      · rw [if_pos hC, if_pos hC]
      · rw [if_neg hC, if_neg hC]
        exact if_congr (h hA hB hC) rfl rfl

/-- The last test of the rolling update of `sumsq_x` and `sumsq_y`: where it is reached, the
row `i` is missing, so the test of `RollCovOnlineXY` (`arma_any_na[i - width] == 0`) and the
test of `RollCovOnlineXX` (`arma_any_na[i - width] != 0`) both hold. -/
theorem last_branch_iff (p : Args α) (j k i : ℕ)
    (h1 : ¬ (notNA2 p i j k ∧ notNA2 p (i - p.width) j k))
    (h2 : ¬ (notNA2 p i j k ∧ isNA2 p (i - p.width) j k)) :
    (isNA2 p i j k ∨ (p.arma_any_na (i - p.width) = 0 ∨
        (p.x (i - p.width) j).isnan = true ∨ (p.x (i - p.width) k).isnan = true)) ↔
      (isNA2 p i j k ∨ isNA2 p (i - p.width) j k) := by
  have hi : isNA2 p i j k := by
    by_contra hn
    have hv := (notNA2_iff_not_isNA2 p i j k).2 hn
    by_cases ho : isNA2 p (i - p.width) j k
    · exact h2 ⟨hv, ho⟩
    · exact h1 ⟨hv, (notNA2_iff_not_isNA2 p _ j k).2 ho⟩
  exact ⟨fun _ => Or.inl hi, fun _ => Or.inl hi⟩

theorem RollCovOnlineXY_step_twice (p : Args α) (j k i : ℕ) (s : RollCovOnlineXX.State α) :
    RollCovOnlineXY.step p.twice j k i s = RollCovOnlineXX.step p j k i s := by
  unfold RollCovOnlineXY.step RollCovOnlineXX.step
  by_cases hexp : i < p.width
  · rw [if_pos hexp]
    exact if_pos hexp
  · rw [if_neg hexp]
    refine (if_neg hexp).trans ?_
    have e := fun (a b c d e : LD α) => ite_chain_congr
      (notNA2 p i j k ∧ notNA2 p (i - p.width) j k)
      (notNA2 p i j k ∧ isNA2 p (i - p.width) j k)
      (isNA2 p i j k ∧ notNA2 p (i - p.width) j k)
      (isNA2 p i j k ∨ (p.arma_any_na (i - p.width) = 0 ∨
        (p.x (i - p.width) j).isnan = true ∨ (p.x (i - p.width) k).isnan = true))
      (isNA2 p i j k ∨ isNA2 p (i - p.width) j k) a b c d e
      (fun h1 h2 _ => last_branch_iff p j k i h1 h2)
    have hl : lambdaXY p.twice = lambda p := rfl
    rw [hl]
    dsimp only [Args.twice, isNAxy, notNAxy]
    simp only [e]

theorem RollCovOnlineXY_cell_twice (m : Prim α) (p : Args α) (j k i : ℕ) :
    RollCovOnlineXY.cell m p.twice j k i = RollCovOnlineXX.cell m p j k i := by
  have hs : RollCovOnlineXY.step p.twice j k = RollCovOnlineXX.step p j k := by
    funext i s
    exact RollCovOnlineXY_step_twice p j k i s
  unfold RollCovOnlineXY.cell RollCovOnlineXX.cell
  rw [hs]
  rfl

/-- After a run over all columns, `RollCovOnlineXY` holds at `(x, y, t)` the value of the pass
of the pair `(x, y)`. -/
theorem RollCovOnlineXY_operator_full (m : Prim α) (q : ArgsXY α) (dst : Cube α) (x y t : ℕ)
    (hx : x < q.n_cols_x) (hy : y < q.n_cols_y) (ht : t < q.n_rows_xy) :
    RollCovOnlineXY.operator m q 0 q.n_cols_x dst x y t = RollCovOnlineXY.cell m q x y t := by
  unfold RollCovOnlineXY.operator
  exact (forLoop_owned (fun (d : Cube α) (c : ℕ × ℕ × ℕ) => d c.1 c.2.1 c.2.2) _
    (fun j c => cubeRowCell q.n_cols_y q.n_rows_xy j c.1 c.2.1 c.2.2)
    (fun c => RollCovOnlineXY.cell m q c.1 c.2.1 c.2.2)
    (fun z s c => (RollCovOnlineXY_pass m q z s c.1 c.2.1 c.2.2).1)
    (fun z s c => (RollCovOnlineXY_pass m q z s c.1 c.2.1 c.2.2).2)
    0 q.n_cols_x (Nat.zero_le _) dst (x, y, t)).1 ⟨x, Nat.zero_le _, hx, rfl, hy, ht⟩

/-- After a run over all columns, `RollCovOnlineXX` holds at `(x, y, t)` the value of the pass
of the pair `(max x y, min x y)`: above the diagonal, the mirror of the entry below. -/
theorem RollCovOnlineXX_operator_full (m : Prim α) (p : Args α) (dst : Cube α) (x y t : ℕ)
    (hx : x < p.n_cols_x) (hy : y < p.n_cols_x) (ht : t < p.n_rows_x) :
    RollCovOnlineXX.operator m p 0 p.n_cols_x dst x y t =
      RollCovOnlineXX.cell m p (max x y) (min x y) t := by
  unfold RollCovOnlineXX.operator
  rw [onlineCubeWorker_apply _ _ _ _ _ _ (Nat.zero_le _),
    if_pos ⟨ht, Nat.zero_le _, max_lt hx hy⟩]
  rfl

/-! ## A window that empties while the weight vector is longer than the window -/

theorem exGap_lambda : lambda exGap = LD.fin (1 / 2) := by
  simp [lambda, exGap, vector, LD.fin_div_fin]

theorem exGap_a1 :
    onlineState (RollCovOnlineXX.step exGap 1 0) RollCovOnlineXX.init 1 =
      ⟨1, LD.fin 1, LD.fin 0, LD.fin (-1), LD.fin 1, LD.fin 0, LD.fin 0, LD.fin 0, LD.fin 0,
        LD.fin 0, LD.fin 0, LD.fin (-1)⟩ := by
  simp [onlineState, RollCovOnlineXX.step, RollCovOnlineXX.init, exGap_lambda]
  simp [exGap, column, vector, isNA2, notNA2, Cell.isnan, Cell.toLD, LD.zero_def,
    LD.fin_div_fin]

theorem exGap_a2 :
    onlineState (RollCovOnlineXX.step exGap 1 0) RollCovOnlineXX.init 2 =
      ⟨2, LD.fin (3 / 2), LD.fin 2, LD.fin (3 / 2), LD.fin (5 / 4), LD.fin 0, LD.fin 0,
        LD.fin 2, LD.fin 0, LD.fin (-1), LD.fin (4 / 3), LD.fin 1⟩ := by
  rw [onlineState, exGap_a1]
  simp [RollCovOnlineXX.step, exGap_lambda]
  simp [exGap, column, vector, isNA2, notNA2, Cell.isnan, Cell.toLD, LD.zero_def,
    LD.fin_div_fin]
  norm_num

theorem exGap_a3 :
    onlineState (RollCovOnlineXX.step exGap 1 0) RollCovOnlineXX.init 3 =
      ⟨1, LD.fin (47 / 64), LD.fin 1, LD.fin (49 / 64), LD.fin (1279 / 4096), LD.fin 0,
        LD.fin 0, LD.fin (45 / 47), LD.fin (4 / 3), LD.fin 1, LD.fin (64 / 47),
        LD.fin (49 / 47)⟩ := by
  rw [onlineState, exGap_a2]
  simp [RollCovOnlineXX.step, exGap_lambda]
  simp [exGap, column, vector, isNA2, notNA2, Cell.isnan, Cell.toLD, LD.zero_def,
    LD.fin_div_fin]
  norm_num

theorem exGap_a4 :
    onlineState (RollCovOnlineXX.step exGap 1 0) RollCovOnlineXX.init 4 =
      ⟨0, LD.fin (45 / 128), LD.fin (15 / 32), LD.fin (45 / 128), LD.fin (1275 / 16384),
        LD.fin 0, LD.fin 0, LD.fin (15 / 32), LD.fin (4 / 3), LD.fin 1, LD.fin (64 / 47),
        LD.fin (49 / 47)⟩ := by
  rw [onlineState, exGap_a3]
  simp [RollCovOnlineXX.step, exGap_lambda]
  simp [exGap, column, vector, isNA2, notNA2, Cell.isnan, Cell.toLD, LD.zero_def,
    LD.fin_div_fin]
  norm_num

theorem exGap_a5 :
    onlineState (RollCovOnlineXX.step exGap 1 0) RollCovOnlineXX.init 5 =
      ⟨1, LD.fin (301 / 256), LD.fin (-49 / 64), LD.fin (301 / 256), LD.fin (66811 / 65536),
        LD.fin 0, LD.fin 0, LD.fin (32235 / 129344), LD.fin (64 / 47), LD.fin (49 / 47),
        LD.fin (-28 / 43), LD.fin 1⟩ := by
  rw [onlineState, exGap_a4]
  simp [RollCovOnlineXX.step, exGap_lambda]
  simp [exGap, column, vector, isNA2, notNA2, Cell.isnan, Cell.toLD, LD.zero_def,
    LD.fin_div_fin]
  norm_num

theorem exGap_a6 :
    onlineState (RollCovOnlineXX.step exGap 1 0) RollCovOnlineXX.init 6 =
      ⟨2, LD.fin (813 / 512), LD.fin (79 / 128), LD.fin (-211 / 512), LD.fin (328955 / 262144),
        LD.fin 0, LD.fin 0, LD.fin (-230928817 / 210313344), LD.fin (-28 / 43), LD.fin 1,
        LD.fin (316 / 813), LD.fin (-211 / 813)⟩ := by
  rw [onlineState, exGap_a5]
  simp [RollCovOnlineXX.step, exGap_lambda]
  simp [exGap, column, vector, isNA2, notNA2, Cell.isnan, Cell.toLD, LD.zero_def,
    LD.fin_div_fin]
  norm_num

theorem exGap_b1 :
    onlineState (RollCovOnlineXX.step exGap 0 1) RollCovOnlineXX.init 1 =
      ⟨1, LD.fin 1, LD.fin (-1), LD.fin 0, LD.fin 1, LD.fin 0, LD.fin 0, LD.fin 0, LD.fin 0,
        LD.fin 0, LD.fin (-1), LD.fin 0⟩ := by
  simp [onlineState, RollCovOnlineXX.step, RollCovOnlineXX.init, exGap_lambda]
  simp [exGap, column, vector, isNA2, notNA2, Cell.isnan, Cell.toLD, LD.zero_def,
    LD.fin_div_fin]

theorem exGap_b2 :
    onlineState (RollCovOnlineXX.step exGap 0 1) RollCovOnlineXX.init 2 =
      ⟨2, LD.fin (3 / 2), LD.fin (3 / 2), LD.fin 2, LD.fin (5 / 4), LD.fin 0, LD.fin 0,
        LD.fin 2, LD.fin (-1), LD.fin 0, LD.fin 1, LD.fin (4 / 3)⟩ := by
  rw [onlineState, exGap_b1]
  simp [RollCovOnlineXX.step, exGap_lambda]
  simp [exGap, column, vector, isNA2, notNA2, Cell.isnan, Cell.toLD, LD.zero_def,
    LD.fin_div_fin]
  norm_num

theorem exGap_b3 :
    onlineState (RollCovOnlineXX.step exGap 0 1) RollCovOnlineXX.init 3 =
      ⟨1, LD.fin (47 / 64), LD.fin (49 / 64), LD.fin 1, LD.fin (1279 / 4096), LD.fin 0,
        LD.fin 0, LD.fin (45 / 47), LD.fin 1, LD.fin (4 / 3), LD.fin (49 / 47),
        LD.fin (64 / 47)⟩ := by
  rw [onlineState, exGap_b2]
  simp [RollCovOnlineXX.step, exGap_lambda]
  simp [exGap, column, vector, isNA2, notNA2, Cell.isnan, Cell.toLD, LD.zero_def,
    LD.fin_div_fin]
  norm_num

theorem exGap_b4 :
    onlineState (RollCovOnlineXX.step exGap 0 1) RollCovOnlineXX.init 4 =
      ⟨0, LD.fin (45 / 128), LD.fin (45 / 128), LD.fin (15 / 32), LD.fin (1275 / 16384),
        LD.fin 0, LD.fin 0, LD.fin (15 / 32), LD.fin 1, LD.fin (4 / 3), LD.fin (49 / 47),
        LD.fin (64 / 47)⟩ := by
  rw [onlineState, exGap_b3]
  simp [RollCovOnlineXX.step, exGap_lambda]
  simp [exGap, column, vector, isNA2, notNA2, Cell.isnan, Cell.toLD, LD.zero_def,
    LD.fin_div_fin]
  norm_num

theorem exGap_b5 :
    onlineState (RollCovOnlineXX.step exGap 0 1) RollCovOnlineXX.init 5 =
      ⟨1, LD.fin (301 / 256), LD.fin (301 / 256), LD.fin (-49 / 64), LD.fin (66811 / 65536),
        LD.fin 0, LD.fin 0, LD.fin (15 / 64), LD.fin (49 / 47), LD.fin (64 / 47), LD.fin 1,
        LD.fin (-28 / 43)⟩ := by
  rw [onlineState, exGap_b4]
  simp [RollCovOnlineXX.step, exGap_lambda]
  simp [exGap, column, vector, isNA2, notNA2, Cell.isnan, Cell.toLD, LD.zero_def,
    LD.fin_div_fin]
  norm_num

theorem exGap_b6 :
    onlineState (RollCovOnlineXX.step exGap 0 1) RollCovOnlineXX.init 6 =
      ⟨2, LD.fin (813 / 512), LD.fin (-211 / 512), LD.fin (79 / 128), LD.fin (328955 / 262144),
        LD.fin 0, LD.fin 0, LD.fin (-115037 / 104064), LD.fin 1, LD.fin (-28 / 43),
        LD.fin (-211 / 813), LD.fin (316 / 813)⟩ := by
  rw [onlineState, exGap_b5]
  simp [RollCovOnlineXX.step, exGap_lambda]
  simp [exGap, column, vector, isNA2, notNA2, Cell.isnan, Cell.toLD, LD.zero_def,
    LD.fin_div_fin]
  norm_num

theorem exGap_online_a :
    RollCovOnlineXX.cell exPrim exGap 1 0 5 = Cell.val (-4237226 / 3077983) := by
  simp only [RollCovOnlineXX.cell, Nat.reduceAdd, exGap_a6, RollCovOnlineXX.emit]
  rw [if_pos (show compute2 exGap 5 1 0 from Or.inl rfl), if_pos (by decide),
    if_neg (by decide)]
  simp [LD.fin_div_fin]
  norm_num

theorem exGap_online_b :
    RollCovOnlineXX.cell exPrim exGap 0 1 5 = Cell.val (-230074 / 166007) := by
  simp only [RollCovOnlineXX.cell, Nat.reduceAdd, exGap_b6, RollCovOnlineXX.emit]
  rw [if_pos (show compute2 exGap 5 0 1 from Or.inl rfl), if_pos (by decide),
    if_neg (by decide)]
  simp [LD.fin_div_fin]
  norm_num

theorem exGap_validRows : validRows2 exGap 5 1 0 = {4, 5} ∧ validRows2 exGap 5 0 1 = {4, 5} := by
  constructor <;> decide

theorem exGap_cross : winCross exGap 5 1 0 1 0 = -4 / 3 ∧ winCross exGap 5 0 1 0 1 = -4 / 3 := by
  unfold winCross winMean
  rw [exGap_validRows.1, exGap_validRows.2]
  refine ⟨?_, ?_⟩ <;> simp [exGap, column, vector, Cell.get] <;> norm_num

theorem exGap_parallel : RollCovParallelXX.cell exPrim exGap 5 1 0 = Cell.val (-2) ∧
    RollCovParallelXX.cell exPrim exGap 5 0 1 = Cell.val (-2) := by
  constructor
  · rw [RollCovParallelXX_cell_plain exPrim exGap 5 1 0 rfl (Or.inl rfl), exGap_validRows.1,
      exGap_cross.1, if_pos (by decide)]
    simp [exGap, vector, LD.fin_div_fin]
    norm_num
    rw [LD.fin_div_fin_of_ne _ (by norm_num)]
    norm_num
  · rw [RollCovParallelXX_cell_plain exPrim exGap 5 0 1 rfl (Or.inl rfl), exGap_validRows.2,
      exGap_cross.2, if_pos (by decide)]
    simp [exGap, vector, LD.fin_div_fin]
    norm_num
    rw [LD.fin_div_fin_of_ne _ (by norm_num)]
    norm_num

/-! ## The lower-triangle index in `int` arithmetic -/

theorem int32_of_range (v : ℤ) (h1 : -2147483648 ≤ v) (h2 : v ≤ 2147483647) : int32 v = v := by
  unfold int32
  omega

/-- While `4 * n_cols_x * (n_cols_x + 1)` fits an `int`, that is for `n_cols_x ≤ 23169`, the
radicand of the source is the exact one, and the source's `k` is the closed form. -/
theorem triK_eq_closedForm (n z : ℕ) (hn : n ≤ 23169) (hz : z < n_unique n) :
    triK n z = closedFormK n z := by
  have hT := two_mul_n_unique n
  have h1 : (n : ℤ) * ((n : ℤ) + 1) = 2 * (n_unique n : ℤ) := by exact_mod_cast hT
  have h2 : (z : ℤ) + 1 ≤ n_unique n := by exact_mod_cast hz
  have hn' : (n : ℤ) ≤ 23169 := by exact_mod_cast hn
  have hn0 : (0 : ℤ) ≤ n := Int.natCast_nonneg n
  have hz0 : (0 : ℤ) ≤ z := Int.natCast_nonneg z
  have hsq : (n : ℤ) * ((n : ℤ) + 1) ≤ 23169 * 23170 := by nlinarith
  have e1 : int32 (4 * (n : ℤ)) = 4 * (n : ℤ) := int32_of_range _ (by omega) (by omega)
  have e2 : int32 ((n : ℤ) + 1) = (n : ℤ) + 1 := int32_of_range _ (by omega) (by omega)
  have e3 : int32 (4 * (n : ℤ) * ((n : ℤ) + 1)) = 4 * (n : ℤ) * ((n : ℤ) + 1) :=
    int32_of_range _ (by nlinarith) (by nlinarith)
  have e4 : int32 (8 * (z : ℤ)) = 8 * (z : ℤ) := int32_of_range _ (by omega) (by nlinarith)
  have e5 : int32 (7 + 8 * (z : ℤ)) = 7 + 8 * (z : ℤ) :=
    int32_of_range _ (by omega) (by nlinarith)
  have e6 : int32 (4 * (n : ℤ) * ((n : ℤ) + 1) - (7 + 8 * (z : ℤ))) =
      4 * (n : ℤ) * ((n : ℤ) + 1) - (7 + 8 * (z : ℤ)) :=
    int32_of_range _ (by nlinarith) (by nlinarith)
  have hpos : ¬ (4 * (n : ℤ) * ((n : ℤ) + 1) - (7 + 8 * (z : ℤ)) < 0) := by
    have : (1 : ℤ) ≤ 4 * (n : ℤ) * ((n : ℤ) + 1) - (7 + 8 * (z : ℤ)) := by linarith
    omega
  unfold triK closedFormK
  rw [e1, e2, e3, e4, e5, e6]
  exact if_neg hpos

/-- For `n_cols_x ≤ 23169` the source's `j` is the closed form: no operation overflows. -/
theorem triJ_eq_closedForm (n z : ℕ) (hn : n ≤ 23169) (hz : z < n_unique n) :
    triJ n z = closedFormJ n z := by
  obtain ⟨j, k, hkj, hj, hK, hJ⟩ := tri_range n z hz
  have hT := two_mul_n_unique n
  have h1 : (n : ℤ) * ((n : ℤ) + 1) = 2 * (n_unique n : ℤ) := by exact_mod_cast hT
  have h2 : (z : ℤ) + 1 ≤ n_unique n := by exact_mod_cast hz
  have hn' : (n : ℤ) ≤ 23169 := by exact_mod_cast hn
  have hn0 : (0 : ℤ) ≤ n := Int.natCast_nonneg n
  have hz0 : (0 : ℤ) ≤ z := Int.natCast_nonneg z
  have hk0 : (0 : ℤ) ≤ k := Int.natCast_nonneg k
  have hj0 : (0 : ℤ) ≤ j := Int.natCast_nonneg j
  have hkj' : (k : ℤ) ≤ j := by exact_mod_cast hkj
  have hj' : (j : ℤ) < n := by exact_mod_cast hj
  have hJ' := hJ
  unfold closedFormJ at hJ'
  rw [hK] at hJ'
  have hnk : (n : ℤ) * k ≤ 23169 * 23169 := by nlinarith
  have hnk0 : (0 : ℤ) ≤ (n : ℤ) * k := mul_nonneg hn0 hk0
  have hkk : (k : ℤ) * ((k : ℤ) + 1) ≤ 23169 * 23170 := by nlinarith
  have hkk0 : (0 : ℤ) ≤ (k : ℤ) * ((k : ℤ) + 1) := mul_nonneg hk0 (by linarith)
  have hz' : (z : ℤ) ≤ 23169 * 23170 := by nlinarith
  have e1 : int32 ((n : ℤ) * k) = (n : ℤ) * k :=
    int32_of_range _ (by linarith) (by linarith)
  have e2 : int32 ((z : ℤ) - (n : ℤ) * k) = (z : ℤ) - (n : ℤ) * k :=
    int32_of_range _ (by linarith) (by linarith)
  have e3 : int32 ((k : ℤ) + 1) = (k : ℤ) + 1 := int32_of_range _ (by linarith) (by linarith)
  have e4 : int32 ((k : ℤ) * ((k : ℤ) + 1)) = (k : ℤ) * ((k : ℤ) + 1) :=
    int32_of_range _ (by linarith) (by linarith)
  have e5 : ((k : ℤ) * ((k : ℤ) + 1)).tdiv 2 = (k : ℤ) * ((k : ℤ) + 1) / 2 :=
    Int.tdiv_eq_ediv hkk0 (by norm_num)
  unfold triJ closedFormJ
  rw [triK_eq_closedForm n z hn hz, hK, e1, e2, e3, e4, e5]
  exact int32_of_range _ (by rw [hJ']; linarith) (by rw [hJ']; linarith)

/-- At `n_cols_x = 23170` the product `4 * n_cols_x * (n_cols_x + 1) = 2147488280` exceeds
`INT_MAX` and wraps to a negative `int`; at `z_unique = 0` the radicand is negative, `k` is
the converted NaN and `j` is negative. -/
theorem triK_overflow :
    int32 (int32 (4 * 23170) * int32 (23170 + 1)) = -2147479016 ∧
    triK 23170 0 = -2147483648 ∧ triJ 23170 0 = -1073741824 := by
  refine ⟨?_, ?_, ?_⟩ <;> decide

theorem closedForm_zero (n : ℕ) (h : 0 < n) : closedFormK n 0 = 0 ∧ closedFormJ n 0 = 0 := by
  have e := tri_decode_at n 0 0 (le_refl 0) h
  rw [Nat.sub_zero, Nat.sub_self, Nat.zero_add] at e
  exact_mod_cast e

/-! ## The claims -/

/-- Claim C1, evaluated on the code at a failing input.  For the column `[1, 2, 3]`,
`width = 2` and the decaying weights `[1/4, 1/2, 1]` (length `n = 3 ≥ max(width, 2)`,
constant ratio `1/2`), `RollVarParallel` stores the weighted variance `1/2` of the window
`{2, 3}` at row 2, while `RollVarOnline` stores `34/43`: in the rolling regime it removes the
leaving observation with `arma_weights[0]`, the weight of lag `n - 1`, where the window's
oldest lag is `width - 1`. -/
theorem rollVar_online_differs_from_direct :
    exVar.n ≥ max exVar.width 2 ∧
    exVar.arma_weights 0 / exVar.arma_weights 1 = exVar.arma_weights 1 / exVar.arma_weights 2 ∧
    (∀ dst : Mat ℚ, RollVarOnline.operator exVar 0 exVar.n_cols_x dst 2 0 = Cell.val (34 / 43)) ∧
    (∀ dst : Mat ℚ,
      RollVarParallel.operator exVar 0 (exVar.n_rows_x * exVar.n_cols_x) dst 2 0 =
        Cell.val (1 / 2)) ∧
    RollVarOnline.cell exVar 2 0 ≠ RollVarParallel.cell exVar 2 0 := by
  refine ⟨by decide, by norm_num [exVar, vector], ?_, ?_, ?_⟩
  · intro dst
    rw [RollVarOnline_operator_full exVar dst 2 0 (by decide) (by decide), exVar_online]
  · intro dst
    rw [RollVarParallel_operator_full exVar dst 2 0 (by decide) (by decide), exVar_parallel]
  · rw [exVar_online, exVar_parallel]
    intro h
    have h2 := Cell.val.inj h
    norm_num at h2

/-- Claim C3.  For a column with no missing value and an all-zero mask, uniform non-zero
weights, `width = n_rows = n` and `min_obs ≤ n_rows`, the value `RollMeanOnline` stores in
the last row is the arithmetic mean of the whole column (for `na_restore = false`, and for
`na_restore = true` as well, no own input being missing). -/
theorem rollMeanOnline_last_row_mean (p : Args α) (c : α) (hc : c ≠ 0)
    (hw : ∀ k < p.n, p.arma_weights k = c) (hwidth : p.width = p.n_rows_x)
    (hn : p.n = p.n_rows_x) (hpos : 0 < p.n_rows_x) (j : ℕ)
    (hv : ∀ r < p.n_rows_x, p.arma_any_na r = 0 ∧ ¬ (p.x r j).isnan = true)
    (hmin : p.min_obs ≤ p.n_rows_x) :
    RollMeanOnline.cell p (p.n_rows_x - 1) j =
      Cell.val ((∑ r in Finset.range p.n_rows_x, (p.x r j).get) / (p.n_rows_x : α)) := by
  have h := RollMeanOnline_uniform_cell p c hc hw (by omega) (p.n_rows_x - 1) j (by omega)
    (fun r hr => hv r (by omega))
  have h1 : p.n_rows_x - 1 + 1 = p.n_rows_x := by omega
  have h2 : ((p.n_rows_x - 1 : ℕ) : ℤ) + 1 = p.n_rows_x := by omega
  have h3 : ((p.n_rows_x - 1 : ℕ) : α) + 1 = p.n_rows_x := by
    rw [← Nat.cast_add_one, h1]
  rw [h, h1, h2, h3, if_pos hmin]

/-- A witness of `rollMeanOnline_last_row_mean`: the column `[1, 2, 3]` with weights
`[2, 2, 2]`. -/
theorem rollMeanOnline_last_row_mean_witness :
    RollMeanOnline.cell exUniform (exUniform.n_rows_x - 1) 0 =
      Cell.val ((∑ r in Finset.range exUniform.n_rows_x, (exUniform.x r 0).get) /
        (exUniform.n_rows_x : ℚ)) :=
  rollMeanOnline_last_row_mean exUniform 2 (by norm_num)
    (by intro k hk; have : k < 3 := hk; interval_cases k <;> rfl) rfl rfl (by decide) 0
    (by intro r hr; have : r < 3 := hr; interval_cases r <;> exact ⟨rfl, by decide⟩)
    (by decide)

/-- Claim C4.  For a column with no missing value and an all-zero mask, uniform non-zero
weights (of length `n ≥ width`), `width = n_rows` and any `min_obs`, `RollMeanOnline` and
`RollMeanParallel` store the same value at every row `i`: the mean of `x_0, …, x_i` when
`i + 1 ≥ min_obs`, and `NA` otherwise. -/
theorem rollMean_online_eq_direct_uniform (p : Args α) (c : α) (hc : c ≠ 0)
    (hw : ∀ k < p.n, p.arma_weights k = c) (hwn : p.width ≤ p.n)
    (hwidth : p.width = p.n_rows_x) (j : ℕ)
    (hv : ∀ r < p.n_rows_x, p.arma_any_na r = 0 ∧ ¬ (p.x r j).isnan = true)
    (i : ℕ) (hi : i < p.n_rows_x) :
    RollMeanOnline.cell p i j = RollMeanParallel.cell p i j ∧
    RollMeanOnline.cell p i j =
      if ((i : ℤ) + 1) ≥ p.min_obs then
        Cell.val ((∑ r in Finset.range (i + 1), (p.x r j).get) / ((i : α) + 1))
      else Cell.NA := by
  have h1 := RollMeanOnline_uniform_cell p c hc hw hwn i j (by omega)
    (fun r hr => hv r (by omega))
  have h2 := RollMeanParallel_uniform_cell p c hc hw hwn i j (by omega)
    (fun r hr => hv r (by omega))
  exact ⟨h1.trans h2.symm, h1⟩

/-- A witness of `rollMean_online_eq_direct_uniform`: row 1 of the column `[1, 2, 3]` with
weights `[2, 2, 2]`. -/
theorem rollMean_online_eq_direct_uniform_witness :
    RollMeanOnline.cell exUniform 1 0 = RollMeanParallel.cell exUniform 1 0 ∧
    RollMeanOnline.cell exUniform 1 0 =
      if ((1 : ℕ) : ℤ) + 1 ≥ exUniform.min_obs then
        Cell.val ((∑ r in Finset.range (1 + 1), (exUniform.x r 0).get) / (((1 : ℕ) : ℚ) + 1))
      else Cell.NA :=
  rollMean_online_eq_direct_uniform exUniform 2 (by norm_num)
    (by intro k hk; have : k < 3 := hk; interval_cases k <;> rfl) (by decide) rfl 0
    (by intro r hr; have : r < 3 := hr; interval_cases r <;> exact ⟨rfl, by decide⟩)
    1 (by decide)

/-- Claim C5.  With `na_restore = false`, `RollSumParallel` stores `NA` at `(i, j)` when the
number of valid rows (mask flag `0`, value not `NaN`) among the rows
`max(0, i - width + 1), …, i` is less than `min_obs`, and otherwise the sum over exactly
those valid rows `r` of `weights[n - 1 - (i - r)] * x(r, j)`; no other row contributes. -/
theorem rollSumParallel_window_sum (p : Args α) (i j : ℕ) (hr : p.na_restore = false) :
    RollSumParallel.cell p i j =
      if ((validRows p i j).card : ℤ) < p.min_obs then Cell.NA
      else Cell.val
        (∑ r in validRows p i j, p.arma_weights (p.n - 1 - (i - r)) * (p.x r j).get) := by
  have hc : compute p i j := Or.inl hr
  unfold RollSumParallel.cell
  rw [if_pos hc, whileWindow_eq_foldl, RollSumParallel_foldl p i j _ (by omega), ← validRows_eq]
  simp only [ge_iff_le]
  by_cases h : p.min_obs ≤ ((validRows p i j).card : ℤ)
  · rw [if_pos h, if_neg (by omega)]; rfl
  · rw [if_neg h, if_pos (by omega)]

/-- A witness of `rollSumParallel_window_sum`: row 1 of the column `[1, 2, NA, 4]`. -/
theorem rollSumParallel_window_sum_witness :
    RollSumParallel.cell exSum 1 0 =
      if ((validRows exSum 1 0).card : ℤ) < exSum.min_obs then Cell.NA
      else Cell.val
        (∑ r in validRows exSum 1 0, exSum.arma_weights (exSum.n - 1 - (1 - r)) *
          (exSum.x r 0).get) :=
  rollSumParallel_window_sum exSum 1 0 rfl

/-- Claim C6.  With `na_restore = false`, `RollVarParallel` stores `NA` if and only if the
window's count of valid observations satisfies `n_obs ≤ 1` or `n_obs < min_obs`; otherwise
it stores `S / (sum_w - sumsq_w / sum_w)`, with `sum_w` and `sumsq_w` the sums of the weights
and of the squared weights of the valid rows of the window and `S` the weighted sum of
`(x - m)^2` over those rows, `m` being their weighted mean when `center` and `0` otherwise. -/
theorem rollVarParallel_formula (p : Args α) (i j : ℕ) (hr : p.na_restore = false) :
    let V := validRows p i j
    let w := fun r => p.arma_weights (p.n - 1 - (i - r))
    let sum_w := ∑ r in V, w r
    let sumsq_w := ∑ r in V, w r ^ 2
    let m := if p.center = true then (∑ r in V, w r * (p.x r j).get) / sum_w else 0
    let S := ∑ r in V, w r * ((p.x r j).get - m) ^ 2
    (RollVarParallel.cell p i j = Cell.NA ↔ ((V.card : ℤ) ≤ 1 ∨ (V.card : ℤ) < p.min_obs)) ∧
    (¬ ((V.card : ℤ) ≤ 1 ∨ (V.card : ℤ) < p.min_obs) →
      RollVarParallel.cell p i j =
        (LD.fin S / (LD.fin sum_w - LD.fin sumsq_w / LD.fin sum_w)).toCell) := by
  intro V w sum_w sumsq_w m S
  have hc : compute p i j := Or.inl hr
  obtain ⟨sx, h1, h2⟩ := RollVarParallel_foldl p (RollVarParallel.mean_x p i j) i j
    (min p.width (i + 1)) (by omega)
  have hcell : RollVarParallel.cell p i j =
      if (V.card : ℤ) > 1 ∧ (V.card : ℤ) ≥ p.min_obs then
        (sx / (LD.fin sum_w - LD.fin sumsq_w / LD.fin sum_w)).toCell
      else Cell.NA := by
    unfold RollVarParallel.cell
    rw [if_pos hc, whileWindow_eq_foldl, h1, ← validRows_eq]
  have hval : sx / (LD.fin sum_w - LD.fin sumsq_w / LD.fin sum_w) =
      LD.fin S / (LD.fin sum_w - LD.fin sumsq_w / LD.fin sum_w) := by
    by_cases hW : sum_w = 0
    · rw [hW, LD_div_zero_den, LD_div_zero_den]
    · have := h2 m (by
          intro hcen
          rw [RollVarParallel_mean_x_eq, if_pos hcen, LD.fin_div_fin_of_ne _ hW]
          simp only [m, if_pos hcen])
        (by intro hcen; simp [m, hcen])
      rw [this, ← validRows_eq]
  rw [hcell]
  constructor
  · constructor
    · intro h
      by_contra hn
      rw [if_pos (by omega)] at h
      exact LD.toCell_ne_NA _ h
    · intro h
      rw [if_neg (by omega)]
  · intro h
    rw [if_pos (by omega), hval]

/-- A witness of `rollVarParallel_formula`: row 2 of the column `[1, 2, 3]`, weights
`[1/4, 1/2, 1]`, `width = 2`. -/
theorem rollVarParallel_formula_witness :
    (RollVarParallel.cell exVar 2 0 = Cell.NA ↔
      (((validRows exVar 2 0).card : ℤ) ≤ 1 ∨ ((validRows exVar 2 0).card : ℤ) < exVar.min_obs)) :=
  (rollVarParallel_formula exVar 2 0 rfl).1

/-- Claim C7.  For each matrix engine (sum, product, mean, variance, standard deviation,
scale; online and direct), whatever the input, window, weights and mask: when `na_restore` is
true, the run over the whole index range leaves in every cell `(i, j)` whose own input
`x(i, j)` is missing exactly that input value, `NA` for `NA` and `NaN` for `NaN`. -/
theorem na_restore_passthrough (m : Prim α) (p : Args α) (dst : Mat α) (i j : ℕ)
    (hi : i < p.n_rows_x) (hj : j < p.n_cols_x) (hr : p.na_restore = true)
    (hx : (p.x i j).isnan = true) :
    RollSumOnline.operator p 0 p.n_cols_x dst i j = p.x i j ∧
    RollSumParallel.operator p 0 (p.n_rows_x * p.n_cols_x) dst i j = p.x i j ∧
    RollProdOnline.operator p 0 p.n_cols_x dst i j = p.x i j ∧
    RollProdParallel.operator p 0 (p.n_rows_x * p.n_cols_x) dst i j = p.x i j ∧
    RollMeanOnline.operator p 0 p.n_cols_x dst i j = p.x i j ∧
    RollMeanParallel.operator p 0 (p.n_rows_x * p.n_cols_x) dst i j = p.x i j ∧
    RollVarOnline.operator p 0 p.n_cols_x dst i j = p.x i j ∧
    RollVarParallel.operator p 0 (p.n_rows_x * p.n_cols_x) dst i j = p.x i j ∧
    RollSdOnline.operator m p 0 p.n_cols_x dst i j = p.x i j ∧
    RollSdParallel.operator m p 0 (p.n_rows_x * p.n_cols_x) dst i j = p.x i j ∧
    RollScaleOnline.operator m p 0 p.n_cols_x dst i j = p.x i j ∧
    RollScaleParallel.operator m p 0 (p.n_rows_x * p.n_cols_x) dst i j = p.x i j := by
  have hc : ¬ compute p i j := not_compute_of_restore p i j hr hx
  refine ⟨?_, ?_, ?_, ?_, ?_, ?_, ?_, ?_, ?_, ?_, ?_, ?_⟩
  · rw [RollSumOnline_operator_full p dst i j hi hj]
    simp only [RollSumOnline.cell, RollSumOnline.emit, if_neg hc]
  · rw [RollSumParallel_operator_full p dst i j hi hj]
    simp only [RollSumParallel.cell, if_neg hc]
  · rw [RollProdOnline_operator_full p dst i j hi hj]
    simp only [RollProdOnline.cell, RollProdOnline.emit, if_neg hc]
  · rw [RollProdParallel_operator_full p dst i j hi hj]
    simp only [RollProdParallel.cell, if_neg hc]
  · rw [RollMeanOnline_operator_full p dst i j hi hj]
    simp only [RollMeanOnline.cell, RollMeanOnline.emit, if_neg hc]
  · rw [RollMeanParallel_operator_full p dst i j hi hj]
    simp only [RollMeanParallel.cell, if_neg hc]
  · rw [RollVarOnline_operator_full p dst i j hi hj]
    simp only [RollVarOnline.cell, RollVarOnline.emit, if_neg hc]
  · rw [RollVarParallel_operator_full p dst i j hi hj]
    simp only [RollVarParallel.cell, if_neg hc]
  · rw [RollSdOnline_operator_full m p dst i j hi hj]
    simp only [RollSdOnline.cell, RollSdOnline.emit, if_neg hc]
  · rw [RollSdParallel_operator_full m p dst i j hi hj]
    simp only [RollSdParallel.cell, if_neg hc]
  · rw [RollScaleOnline_operator_full m p dst i j hi hj]
    simp only [RollScaleOnline.cell, RollScaleOnline.emit, if_neg hc]
  · rw [RollScaleParallel_operator_full m p dst i j hi hj]
    simp only [RollScaleParallel.cell, if_neg hc]

/-- A witness of `na_restore_passthrough`: row 2 of the column `[1, 2, NA, 4]`, whose own
input is `NA`, with `na_restore = true`; the sum engines return the `NA` of the input. -/
theorem na_restore_passthrough_witness :
    RollSumOnline.operator exRestore 0 exRestore.n_cols_x (fun _ _ => Cell.val 0) 2 0 =
      exRestore.x 2 0 ∧
    RollSumParallel.operator exRestore 0 (exRestore.n_rows_x * exRestore.n_cols_x)
      (fun _ _ => Cell.val 0) 2 0 = exRestore.x 2 0 :=
  have h := na_restore_passthrough exPrim exRestore (fun _ _ => Cell.val 0) 2 0
    (by decide) (by decide) rfl rfl
  ⟨h.1, h.2.1⟩

/-- Claim C9.  For the single column `[1, 2, 3, 4, 5]` with no mask, `width = 3`,
`min_obs = 1`, weights `[1, 1, 1]` and `na_restore = false`, both `RollMeanOnline` and
`RollMeanParallel` output `[1, 3/2, 2, 3, 4]`. -/
theorem rollMean_scenario (dst : Mat ℚ) :
    (List.range 5).map (fun i => RollMeanOnline.operator exMean 0 exMean.n_cols_x dst i 0) =
      [Cell.val 1, Cell.val (3 / 2), Cell.val 2, Cell.val 3, Cell.val 4] ∧
    (List.range 5).map (fun i =>
        RollMeanParallel.operator exMean 0 (exMean.n_rows_x * exMean.n_cols_x) dst i 0) =
      [Cell.val 1, Cell.val (3 / 2), Cell.val 2, Cell.val 3, Cell.val 4] := by
  have h1 : ∀ i ∈ List.range 5,
      RollMeanOnline.operator exMean 0 exMean.n_cols_x dst i 0 = RollMeanOnline.cell exMean i 0 :=
    fun i hi => RollMeanOnline_operator_full exMean dst i 0 (List.mem_range.1 hi) (by decide)
  have h2 : ∀ i ∈ List.range 5,
      RollMeanParallel.operator exMean 0 (exMean.n_rows_x * exMean.n_cols_x) dst i 0 =
        RollMeanParallel.cell exMean i 0 :=
    fun i hi => RollMeanParallel_operator_full exMean dst i 0 (List.mem_range.1 hi) (by decide)
  rw [List.map_congr_left h1, List.map_congr_left h2]
  exact ⟨exMean_online, exMean_parallel⟩

/-- Claim C10.  For the single column `[1, 2, NA, 4]` with mask `[0, 0, 1, 0]`, `width = 2`,
`min_obs = 2`, unit weights and `na_restore = false`, both `RollSumOnline` and
`RollSumParallel` store `3` at row 1 and `NA` at rows 2 and 3. -/
theorem rollSum_scenario (dst : Mat ℚ) :
    (RollSumOnline.operator exSum 0 exSum.n_cols_x dst 1 0 = Cell.val 3 ∧
      RollSumOnline.operator exSum 0 exSum.n_cols_x dst 2 0 = Cell.NA ∧
      RollSumOnline.operator exSum 0 exSum.n_cols_x dst 3 0 = Cell.NA) ∧
    (RollSumParallel.operator exSum 0 (exSum.n_rows_x * exSum.n_cols_x) dst 1 0 = Cell.val 3 ∧
      RollSumParallel.operator exSum 0 (exSum.n_rows_x * exSum.n_cols_x) dst 2 0 = Cell.NA ∧
      RollSumParallel.operator exSum 0 (exSum.n_rows_x * exSum.n_cols_x) dst 3 0 = Cell.NA) := by
  rw [RollSumOnline_operator_full exSum dst 1 0 (by decide) (by decide),
    RollSumOnline_operator_full exSum dst 2 0 (by decide) (by decide),
    RollSumOnline_operator_full exSum dst 3 0 (by decide) (by decide),
    RollSumParallel_operator_full exSum dst 1 0 (by decide) (by decide),
    RollSumParallel_operator_full exSum dst 2 0 (by decide) (by decide),
    RollSumParallel_operator_full exSum dst 3 0 (by decide) (by decide)]
  exact ⟨exSum_online, exSum_parallel⟩

/-- Claim C2.  For non-negative weights of length `n = width` whose ratio
`weights[c] / weights[c + 1]` is defined and constant, `scale = false`, and any `center`,
`min_obs`, `na_restore`, mask and missing-value pattern: the value the online recurrence of
`RollCovOnlineXX` stores at `(j, k, i)` is exactly the value `RollCovParallelXX` stores
there, for every pair of columns and every row; and when the weights are positive and the
entry is computed from at least two valid rows and at least `min_obs`, that value is the
two-pass covariance of the window, the sum of `w * (x - mean_x) * (y - mean_y)` divided by
`sum_w - sumsq_w / sum_w`. -/
theorem rollCov_online_eq_direct (m : Prim α) (p : Args α) (i j k : ℕ)
    (hn : p.n = p.width) (hw : 1 ≤ p.width)
    (hnn : ∀ c, c < p.n → 0 ≤ p.arma_weights c)
    (hratio : ∀ c, c + 1 < p.n → p.arma_weights (c + 1) ≠ 0 ∧
      p.arma_weights c / p.arma_weights (c + 1) =
        p.arma_weights (p.n - 2) / p.arma_weights (p.n - 1))
    (hs : p.scale = false) :
    RollCovOnlineXX.cell m p j k i = RollCovParallelXX.cell m p i j k ∧
    ((∀ c, c < p.n → 0 < p.arma_weights c) → compute2 p i j k →
      1 < (validRows2 p i j k).card → p.min_obs ≤ (validRows2 p i j k).card →
      RollCovParallelXX.cell m p i j k = Cell.val (covTwoPass p i j k)) := by
  refine ⟨?_, fun hpos hc h1 h2 =>
    RollCovParallelXX_cell_twoPass m p i j k hn hpos hs hc h1 h2⟩
  rcases weights_pos_or_degenerate p hnn hratio with hpos | ⟨h2, h0⟩
  · rw [RollCovOnlineXX_cell_eq m p i j k hn hw hpos (fun c hc => (hratio c hc).2) hs,
      RollCovParallelXX_cell_eq m p i j k hn hpos hs]
  · have hl : lambda p = LD.fin (lambdaVal p) := by
      apply lambda_eq_of_ne
      intro h
      have := (hratio (p.n - 2) (by omega)).1
      rwa [show p.n - 2 + 1 = p.n - 1 by omega] at this
    obtain ⟨sxy, hp⟩ := RollCovParallelXX_cell_from m p i j k hs
    rw [RollCovOnlineXX_cell_from m p i j k _ hn hw hl (lagWeight_succ_of_ne p hn hratio) hs,
      hp]
    exact covFrom_degenerate p i j k hn h2 h0 _ _

/-- A witness of `rollCov_online_eq_direct`: the entry `(1, 0, 3)` of the two-column input
`exCovDecay`, whose window holds the rows 2 and 3; both engines store `3`. -/
theorem rollCov_online_eq_direct_witness :
    RollCovOnlineXX.cell exPrim exCovDecay 1 0 3 =
      RollCovParallelXX.cell exPrim exCovDecay 3 1 0 ∧
    RollCovParallelXX.cell exPrim exCovDecay 3 1 0 = Cell.val 3 :=
  have h := rollCov_online_eq_direct exPrim exCovDecay 3 1 0 rfl (by decide)
    (fun c hc => (exCovDecay_weights_pos c hc).le) exCovDecay_ratio rfl
  ⟨h.1, (h.2 exCovDecay_weights_pos (Or.inl rfl)
    (by rw [exCovDecay_validRows]; decide) (by rw [exCovDecay_validRows]; decide)).trans
    (congrArg Cell.val exCovDecay_twoPass)⟩

/-- Claim C11 (amended).  With all weights equal to `1` and `center = true`, for every cell
that is computed (`na_restore` false, or `x(i, j)` itself not missing) and whose window holds
`m ≥ 2` valid observations, `m ≥ min_obs`: the variance denominator
`sum_w - sumsq_w / sum_w` equals `m - 1`, and `RollVarParallel` stores the classical unbiased
sample variance, the sum of `(x - xbar)^2` over the valid observations divided by `m - 1`. -/
theorem rollVarParallel_unit_weights (p : Args α) (i j : ℕ) (hc : compute p i j)
    (hw : ∀ c, p.arma_weights c = 1) (hcen : p.center = true)
    (h2 : 2 ≤ (validRows p i j).card) (hmin : p.min_obs ≤ (validRows p i j).card) :
    (∑ r in validRows p i j, p.arma_weights (p.n - 1 - (i - r))) -
        (∑ r in validRows p i j, p.arma_weights (p.n - 1 - (i - r)) ^ 2) /
          (∑ r in validRows p i j, p.arma_weights (p.n - 1 - (i - r))) =
      ((validRows p i j).card : α) - 1 ∧
    RollVarParallel.cell p i j = Cell.val (sampleVariance p i j) := by
  obtain ⟨eW, eQ⟩ := sum_unit_weights p i j hw
  have hm : (2 : α) ≤ ((validRows p i j).card : α) := by exact_mod_cast h2
  have hm0 : ((validRows p i j).card : α) ≠ 0 := by linarith
  have hm1 : ((validRows p i j).card : α) - 1 ≠ 0 := by linarith
  have hD : ((validRows p i j).card : α) -
      ((validRows p i j).card : α) / ((validRows p i j).card : α) =
        ((validRows p i j).card : α) - 1 := by
    rw [div_self hm0]
  refine ⟨by rw [eW, eQ, hD], ?_⟩
  rw [RollVarParallel_cell_centred p i j hc hcen (by omega) hmin (by rw [eW]; exact hm0),
    eW, eQ, LD.fin_div_fin_of_ne _ hm0, LD.fin_sub_fin, hD, LD.fin_div_fin_of_ne _ hm1,
    LD.toCell_fin]
  unfold sampleVariance
  simp [hw]

/-- A witness of `rollVarParallel_unit_weights`: row 2 of the column `[1, 2, 4]`, whose
window holds the three rows; the value stored is `7/3`. -/
theorem rollVarParallel_unit_weights_witness :
    RollVarParallel.cell exUnit 2 0 = Cell.val (7 / 3) :=
  (rollVarParallel_unit_weights exUnit 2 0 (Or.inl rfl) (fun _ => rfl) rfl
    (by rw [exUnit_validRows]; decide) (by rw [exUnit_validRows]; decide)).2.trans
    (congrArg Cell.val exUnit_sampleVariance)

/-- The claim C11 as stated fails on a restored cell: in row 2 of the column `[1, 2, NA]`
with `na_restore = true` the window holds two valid observations, and `RollVarParallel`
stores the missing input, not their sample variance. -/
theorem rollVarParallel_unit_weights_restored :
    (∀ c, exUnitRestore.arma_weights c = 1) ∧ exUnitRestore.center = true ∧
    2 ≤ (validRows exUnitRestore 2 0).card ∧
    exUnitRestore.min_obs ≤ (validRows exUnitRestore 2 0).card ∧
    RollVarParallel.cell exUnitRestore 2 0 = Cell.NA ∧
    RollVarParallel.cell exUnitRestore 2 0 ≠
      Cell.val (sampleVariance exUnitRestore 2 0) := by
  have hcell : RollVarParallel.cell exUnitRestore 2 0 = Cell.NA := by
    unfold RollVarParallel.cell
    rw [if_neg (not_compute_of_restore exUnitRestore 2 0 rfl rfl)]
    rfl
  refine ⟨fun _ => rfl, rfl, by rw [exUnitRestore_validRows]; decide,
    by rw [exUnitRestore_validRows]; decide, hcell, ?_⟩
  rw [hcell]
  exact fun h => Cell.noConfusion h

/-- Claim C12 (amended).  With `center = false`, `scale = false` and `na_restore = false`,
`RollScaleOnline` and `RollScaleParallel` store the input value `x(i, j)` unchanged at every
cell `(i, j)` whose own row is a valid row of its window (mask flag `0`, `x(i, j)` not
missing) and whose window holds at least `min_obs` valid observations, for every input
matrix and mask. -/
theorem rollScale_identity (m : Prim α) (p : Args α) (i j : ℕ) (hc : p.center = false)
    (hs : p.scale = false) (hr : p.na_restore = false) (hi : i ∈ validRows p i j)
    (hmin : p.min_obs ≤ (validRows p i j).card) :
    RollScaleOnline.cell m p i j = p.x i j ∧ RollScaleParallel.cell m p i j = p.x i j := by
  obtain ⟨hw, hv⟩ := mem_validRows p i j hi
  constructor
  · unfold RollScaleOnline.cell RollScaleOnline.emit
    rw [if_pos (Or.inl hr), RollScaleOnline_n_obs p j hw, ← validRows_card, if_pos hmin,
      scaleValue_plain m p _ _ _ _ hc hs, onlineState, RollScaleOnline_x_ij p j i _ hv,
      toCell_toLD_of_not_isnan hv.2]
  · obtain ⟨h1, h2⟩ := RollScaleParallel_foldl p i j (min p.width (i + 1)) (by omega)
    obtain ⟨-, hx⟩ := h2 (by omega) hv
    unfold RollScaleParallel.cell
    rw [if_pos (Or.inl hr)]
    dsimp only
    rw [whileWindow_eq_foldl, h1, ← validRows_eq, if_pos hmin,
      scaleValue_plain m p _ _ _ _ hc hs, hx, toCell_toLD_of_not_isnan hv.2]

/-- A witness of `rollScale_identity`: row 2 of the column `[1, NA, 3]`, where both engines
store `3`. -/
theorem rollScale_identity_witness :
    RollScaleOnline.cell exPrim exScaleValid 2 0 = Cell.val 3 ∧
    RollScaleParallel.cell exPrim exScaleValid 2 0 = Cell.val 3 :=
  rollScale_identity exPrim exScaleValid 2 0 rfl rfl rfl
    (by rw [exScaleValid_validRows]; decide) (by rw [exScaleValid_validRows]; decide)

/-- The claim C12 as stated fails on a cell whose own input is missing: in row 1 of the
column `[1, NA]` the window holds one valid observation, `min_obs = 1`, and both engines
store `1`, the most recent valid value, not the input `NA`. -/
theorem rollScale_identity_missing_row :
    exScale.center = false ∧ exScale.scale = false ∧ exScale.na_restore = false ∧
    exScale.min_obs ≤ (validRows exScale 1 0).card ∧
    exScale.x 1 0 = Cell.NA ∧
    RollScaleOnline.cell exPrim exScale 1 0 ≠ exScale.x 1 0 ∧
    RollScaleParallel.cell exPrim exScale 1 0 ≠ exScale.x 1 0 := by
  refine ⟨rfl, rfl, rfl, by rw [exScale_validRows]; decide, rfl, ?_, ?_⟩
  · rw [exScale_online]
    exact fun h => Cell.noConfusion h
  · rw [exScale_parallel]
    exact fun h => Cell.noConfusion h

/-- Claim C13, evaluated on the code at a failing input.  For the columns `[-3, 1, 4, 0]`
and `[-4, 4, 1, -4]`, `width = 2`, the decaying weights `[1/8, 1/4, 1/2, 1]` (length
`n = n_rows = 4`, ratio `1/2`), `center` and `scale` set: over the window `{1, 2}` of row 2
the weighted covariance is `-9/2` and both weighted variances are `9/2`, so the correlation
is `-1`; `RollCovOnlineXX` stores `1/3`, whose square times the product of the variances is
not the squared covariance.  In the rolling regime it removes the leaving observation with
`arma_weights[0]` where the window's oldest weight is `arma_weights[n - width]`. -/
theorem rollCov_online_correlation_differs :
    exCorr.scale = true ∧
    (∀ dst : Cube ℚ,
      RollCovOnlineXX.operator exPrimQ exCorr 0 exCorr.n_cols_x dst 1 0 2 = Cell.val (1 / 3)) ∧
    covWindow exCorr 2 1 0 1 0 = -(9 / 2) ∧
    covWindow exCorr 2 1 0 1 1 = 9 / 2 ∧
    covWindow exCorr 2 1 0 0 0 = 9 / 2 ∧
    (1 / 3 : ℚ) ^ 2 * (covWindow exCorr 2 1 0 1 1 * covWindow exCorr 2 1 0 0 0) ≠
      covWindow exCorr 2 1 0 1 0 ^ 2 := by
  refine ⟨rfl, ?_, exCorr_cov.1, exCorr_cov.2.1, exCorr_cov.2.2, ?_⟩
  · intro dst
    unfold RollCovOnlineXX.operator
    rw [onlineCubeWorker_apply _ _ _ _ _ _ (Nat.zero_le _), if_pos (by decide)]
    exact exCorr_online
  · rw [exCorr_cov.1, exCorr_cov.2.1, exCorr_cov.2.2]
    norm_num

/-- Claim C14, evaluated on the code at a failing input.  Five rows, all weights `1`,
`center` and `scale` set: the column `d * [1, -1, 1, -1, 0]` with `d = 2^(-26)` has the
weighted sum of squared deviations `4 * eps` and the denominator `sum_w - sumsq_w / sum_w`
is `4`, so its windowed variance is `eps` and its standard deviation `sqrt(eps)`, not above
`sqrt(eps)`.  The builders compare `sqrt` of the undivided sum, `2 * sqrt(eps)`, with
`sqrt(eps)` and store the correlation `1` instead of `NA`. -/
theorem rollCov_guard_ignores_denominator :
    exGuard.scale = true ∧ exGuard.na_restore = false ∧
    covWindow exGuard 4 1 0 1 1 = exPrimQ.eps ∧
    exPrimQ.sqrt (covWindow exGuard 4 1 0 1 1) ≤ exPrimQ.sqrt exPrimQ.eps ∧
    RollCovParallelXX.cell exPrimQ exGuard 4 1 0 = Cell.val 1 ∧
    (∀ dst : Cube ℚ,
      RollCovOnlineXX.operator exPrimQ exGuard 0 exGuard.n_cols_x dst 1 0 4 = Cell.val 1) ∧
    RollCovParallelXY.cell exPrimQ exGuardXY 4 0 0 = Cell.val 1 := by
  refine ⟨rfl, rfl, exGuard_variance, by rw [exGuard_variance], exGuard_parallel, ?_,
    exGuardXY_parallel⟩
  intro dst
  unfold RollCovOnlineXX.operator
  rw [onlineCubeWorker_apply _ _ _ _ _ _ (Nat.zero_le _), if_pos (by decide)]
  exact exGuard_online

/-- Claim C15.  With `scale = false` and `na_restore = false`, `RollCovParallelXY` stores at
`(j, k, i)`: `NA` if and only if the number of rows of `max(0, i - width + 1), …, i` that are
jointly valid (mask flag `0`, `x(r, j)` and `y(r, k)` not `NaN`) is `≤ 1` or `< min_obs`;
otherwise the sum over exactly those rows of `w_r * (x(r, j) - mean_x) * (y(r, k) - mean_y)`
divided by `sum_w - sumsq_w / sum_w`, the means, `sum_w` and `sumsq_w` being taken over the
same rows (the means are `0` when `center` is false).  Rows where only one of the two
columns is missing are in none of the sums. -/
theorem rollCovParallelXY_formula (m : Prim α) (q : ArgsXY α) (i j k : ℕ)
    (hs : q.scale = false) (hr : q.na_restore = false) :
    let V := validRowsXY q i j k
    let w := fun r => q.arma_weights (q.n - 1 - (i - r))
    let sum_w := ∑ r in V, w r
    let sumsq_w := ∑ r in V, w r * w r
    let mean_x := if q.center = true then (∑ r in V, w r * (q.x r j).get) / sum_w else 0
    let mean_y := if q.center = true then (∑ r in V, w r * (q.y r k).get) / sum_w else 0
    let S := ∑ r in V, w r * ((q.x r j).get - mean_x) * ((q.y r k).get - mean_y)
    (RollCovParallelXY.cell m q i j k = Cell.NA ↔
      ((V.card : ℤ) ≤ 1 ∨ (V.card : ℤ) < q.min_obs)) ∧
    (¬ ((V.card : ℤ) ≤ 1 ∨ (V.card : ℤ) < q.min_obs) →
      RollCovParallelXY.cell m q i j k =
        (LD.fin S / (LD.fin sum_w - LD.fin sumsq_w / LD.fin sum_w)).toCell) := by
  intro V w sum_w sumsq_w mean_x mean_y S
  have h := RollCovParallelXX_cell_plain m (q.pair j k) i 0 1 hs (Or.inl hr)
  rw [← RollCovParallelXY_cell_pair] at h
  have hcell : RollCovParallelXY.cell m q i j k =
      if (V.card : ℤ) > 1 ∧ (V.card : ℤ) ≥ q.min_obs then
        (LD.fin S / (LD.fin sum_w - LD.fin sumsq_w / LD.fin sum_w)).toCell
      else Cell.NA := h
  rw [hcell]
  constructor
  · constructor
    · intro h
      by_contra hn
      rw [if_pos (by omega)] at h
      exact LD.toCell_ne_NA _ h
    · intro h
      rw [if_neg (by omega)]
  · intro h
    rw [if_pos (by omega)]

/-- A witness of `rollCovParallelXY_formula`: the entry `(0, 0, 2)` of the input `exXY`,
whose window holds the rows 1 and 2 of which only row 2 is jointly valid. -/
theorem rollCovParallelXY_formula_witness :
    (RollCovParallelXY.cell exPrim exXY 2 0 0 = Cell.NA ↔
      (((validRowsXY exXY 2 0 0).card : ℤ) ≤ 1 ∨
        ((validRowsXY exXY 2 0 0).card : ℤ) < exXY.min_obs)) ∧
    (validRowsXY exXY 2 0 0).card = 1 :=
  ⟨(rollCovParallelXY_formula exPrim exXY 2 0 0 rfl rfl).1, by decide⟩

/-- Claim C17.  In both `RollLmInterceptTRUE` and `RollLmInterceptFALSE`, if the covariance
slice at time `i` holds a `NaN` or `NA` entry, then after a run over a range that contains
`i` the row `i` of the coefficient matrix, `arma_rsq[i]` and the row `i` of the
standard-error matrix are all `NA`; and the outputs of every other time index are
unaffected: they are the same whatever the slice `i` holds. -/
theorem rollLm_nan_slice (L : LinAlg α) (m : Prim α) (q : LmArgs α) (b e i : ℕ)
    (o : LmOut α) (hb : b ≤ i) (he : i < e)
    (hnan : ∃ a, a < q.n_cols_x ∧ ∃ c, c < q.n_cols_x ∧ (q.arma_cov a c i).isnan = true) :
    ((∀ c, c < q.n_cols_x →
        (RollLmInterceptTRUE.operator L m q b e o).arma_coef i c = Cell.NA ∧
        (RollLmInterceptTRUE.operator L m q b e o).arma_se i c = Cell.NA) ∧
      (RollLmInterceptTRUE.operator L m q b e o).arma_rsq i = Cell.NA) ∧
    ((∀ c, c < q.n_cols_x - 1 →
        (RollLmInterceptFALSE.operator L m q b e o).arma_coef i c = Cell.NA ∧
        (RollLmInterceptFALSE.operator L m q b e o).arma_se i c = Cell.NA) ∧
      (RollLmInterceptFALSE.operator L m q b e o).arma_rsq i = Cell.NA) ∧
    (∀ cov : Cube α, (∀ a c t, t ≠ i → cov a c t = q.arma_cov a c t) → ∀ t, t ≠ i →
      (RollLmInterceptTRUE.operator L m { q with arma_cov := cov } b e o).row t =
        (RollLmInterceptTRUE.operator L m q b e o).row t ∧
      (RollLmInterceptFALSE.operator L m { q with arma_cov := cov } b e o).row t =
        (RollLmInterceptFALSE.operator L m q b e o).row t) := by
  have hn := (sliceHasNan_iff q i).2 hnan
  have hbe : b ≤ e := by omega
  have hT := RollLmInterceptTRUE_operator_row L m q b e hbe o i
  have hF := RollLmInterceptFALSE_operator_row L m q b e hbe o i
  rw [if_pos ⟨hb, he⟩, RollLmInterceptTRUE_slice_nan L m q i o hn] at hT
  rw [if_pos ⟨hb, he⟩, RollLmInterceptFALSE_slice_nan L m q i o hn] at hF
  obtain ⟨t1, t2, t3⟩ := LmOut_row_eq _ _ i hT
  obtain ⟨f1, f2, f3⟩ := LmOut_row_eq _ _ i hF
  obtain ⟨nT, nTr⟩ := RollLmInterceptTRUE_noSolution_row q i o
  obtain ⟨nF, nFr⟩ := RollLmInterceptFALSE_noSolution_row q i o
  refine ⟨⟨fun c hc => ⟨by rw [t1, (nT c hc).1], by rw [t3, (nT c hc).2]⟩, by rw [t2, nTr]⟩,
    ⟨fun c hc => ⟨by rw [f1, (nF c hc).1], by rw [f3, (nF c hc).2]⟩, by rw [f2, nFr]⟩, ?_⟩
  intro cov hcov t ht
  rw [RollLmInterceptTRUE_operator_row L m _ b e hbe o t,
    RollLmInterceptTRUE_operator_row L m q b e hbe o t,
    RollLmInterceptFALSE_operator_row L m _ b e hbe o t,
    RollLmInterceptFALSE_operator_row L m q b e hbe o t,
    RollLmInterceptTRUE_slice_reads L m q cov t o (fun a c => hcov a c t ht),
    RollLmInterceptFALSE_slice_reads L m q cov t o (fun a c => hcov a c t ht)]
  exact ⟨rfl, rfl⟩

/-- A witness of `rollLm_nan_slice`: the slice `0` of `exLm` holds an `NA`. -/
theorem rollLm_nan_slice_witness :
    (RollLmInterceptTRUE.operator exLinAlg exPrim exLm 0 3 exLmOut).arma_coef 0 0 = Cell.NA ∧
    (RollLmInterceptTRUE.operator exLinAlg exPrim exLm 0 3 exLmOut).arma_rsq 0 = Cell.NA ∧
    (RollLmInterceptFALSE.operator exLinAlg exPrim exLm 0 3 exLmOut).arma_se 0 0 = Cell.NA :=
  have h := rollLm_nan_slice exLinAlg exPrim exLm 0 3 0 exLmOut (by decide) (by decide)
    ⟨0, by decide, 0, by decide, rfl⟩
  ⟨(h.1.1 0 (by decide)).1, h.1.2, (h.2.1.1 0 (by decide)).2⟩

/-- Claim C18.  If the observation count `arma_n_obs[i]` recorded for time `i` is below the
number of fitted parameters (`n_cols_x` for the intercept variant, `n_cols_x - 1` for the
variant without intercept), then after a run over a range that contains `i` the coefficient
row, `arma_rsq[i]` and the standard-error row of time `i` are all `NA`, whatever the solver
returns: also when the system `A * coef = b` has an exact solution. -/
theorem rollLm_few_observations (L : LinAlg α) (m : Prim α) (q : LmArgs α) (b e i : ℕ)
    (o : LmOut α) (v : α) (hb : b ≤ i) (he : i < e) (hv : q.arma_n_obs i = Cell.val v) :
    (v < (q.n_cols_x : α) →
      (∀ c, c < q.n_cols_x →
        (RollLmInterceptTRUE.operator L m q b e o).arma_coef i c = Cell.NA ∧
        (RollLmInterceptTRUE.operator L m q b e o).arma_se i c = Cell.NA) ∧
      (RollLmInterceptTRUE.operator L m q b e o).arma_rsq i = Cell.NA) ∧
    (v < (q.n_cols_x : α) - 1 →
      (∀ c, c < q.n_cols_x - 1 →
        (RollLmInterceptFALSE.operator L m q b e o).arma_coef i c = Cell.NA ∧
        (RollLmInterceptFALSE.operator L m q b e o).arma_se i c = Cell.NA) ∧
      (RollLmInterceptFALSE.operator L m q b e o).arma_rsq i = Cell.NA) := by
  have hbe : b ≤ e := by omega
  constructor
  · intro hlt
    have hn : nObsGe (q.arma_n_obs i) (q.n_cols_x : ℤ) = false := by
      rw [hv]
      unfold nObsGe
      simp only [Int.cast_natCast, decide_eq_false_iff_not, not_le]
      exact hlt
    have hT := RollLmInterceptTRUE_operator_row L m q b e hbe o i
    rw [if_pos ⟨hb, he⟩, RollLmInterceptTRUE_slice_few L m q i o hn] at hT
    obtain ⟨t1, t2, t3⟩ := LmOut_row_eq _ _ i hT
    obtain ⟨nT, nTr⟩ := RollLmInterceptTRUE_noSolution_row q i o
    exact ⟨fun c hc => ⟨by rw [t1, (nT c hc).1], by rw [t3, (nT c hc).2]⟩, by rw [t2, nTr]⟩
  · intro hlt
    have hn : nObsGe (q.arma_n_obs i) ((q.n_cols_x : ℤ) - 1) = false := by
      rw [hv]
      unfold nObsGe
      simp only [Int.cast_sub, Int.cast_natCast, Int.cast_one, decide_eq_false_iff_not, not_le]
      exact hlt
    have hF := RollLmInterceptFALSE_operator_row L m q b e hbe o i
    rw [if_pos ⟨hb, he⟩, RollLmInterceptFALSE_slice_few L m q i o hn] at hF
    obtain ⟨f1, f2, f3⟩ := LmOut_row_eq _ _ i hF
    obtain ⟨nF, nFr⟩ := RollLmInterceptFALSE_noSolution_row q i o
    exact ⟨fun c hc => ⟨by rw [f1, (nF c hc).1], by rw [f3, (nF c hc).2]⟩, by rw [f2, nFr]⟩

/-- A witness of `rollLm_few_observations`: at time `1` of `exLm` the count is `1`, below
the two parameters of the intercept variant, while `2 * coef = 1` has the solution `1/2`. -/
theorem rollLm_few_observations_witness :
    exLinAlg.solve 1 (sliceA exLm 1) (sliceB exLm 1) ≠ none ∧
    (RollLmInterceptTRUE.operator exLinAlg exPrim exLm 0 3 exLmOut).arma_coef 1 0 = Cell.NA ∧
    (RollLmInterceptTRUE.operator exLinAlg exPrim exLm 0 3 exLmOut).arma_coef 1 1 = Cell.NA ∧
    (RollLmInterceptTRUE.operator exLinAlg exPrim exLm 0 3 exLmOut).arma_rsq 1 = Cell.NA ∧
    (RollLmInterceptTRUE.operator exLinAlg exPrim exLm 0 3 exLmOut).arma_se 1 0 = Cell.NA :=
  have h := (rollLm_few_observations exLinAlg exPrim exLm 0 3 1 exLmOut 1 (by decide)
    (by decide) rfl).1 (by norm_num [exLm])
  ⟨by simp [exLinAlg, sliceA, exLm, Cell.get], (h.1 0 (by decide)).1, (h.1 1 (by decide)).1,
    h.2, (h.1 0 (by decide)).2⟩

/-- Claim C19, stated on the covariance slice the solver reads.  If two columns `a ≠ a'` of
the predictor block `A` of the slice at time `i` are identical, then `A` is singular, and
after a run over a range that contains `i` both regression workers have written `NA` to
every coefficient, to `arma_rsq[i]` and to every standard error of time `i`: the workers
are total functions, no error is raised.  The routine `arma::solve` with `no_approx` is
taken to report failure on a singular matrix. -/
theorem rollLm_identical_columns (L : LinAlg α) (m : Prim α) (q : LmArgs α) (b e i : ℕ)
    (o : LmOut α) (a a' : ℕ) (hb : b ≤ i) (he : i < e)
    (hsolve : ∀ rhs, singular (q.n_cols_x - 1) (sliceA q i) →
      L.solve (q.n_cols_x - 1) (sliceA q i) rhs = none)
    (ha : a < q.n_cols_x - 1) (ha' : a' < q.n_cols_x - 1) (hne : a ≠ a')
    (hcol : ∀ r, r < q.n_cols_x - 1 → q.arma_cov r a i = q.arma_cov r a' i) :
    singular (q.n_cols_x - 1) (sliceA q i) ∧
    ((∀ c, c < q.n_cols_x →
        (RollLmInterceptTRUE.operator L m q b e o).arma_coef i c = Cell.NA ∧
        (RollLmInterceptTRUE.operator L m q b e o).arma_se i c = Cell.NA) ∧
      (RollLmInterceptTRUE.operator L m q b e o).arma_rsq i = Cell.NA) ∧
    ((∀ c, c < q.n_cols_x - 1 →
        (RollLmInterceptFALSE.operator L m q b e o).arma_coef i c = Cell.NA ∧
        (RollLmInterceptFALSE.operator L m q b e o).arma_se i c = Cell.NA) ∧
      (RollLmInterceptFALSE.operator L m q b e o).arma_rsq i = Cell.NA) := by
  have hbe : b ≤ e := by omega
  have hsing : singular (q.n_cols_x - 1) (sliceA q i) :=
    singular_of_identical_columns _ _ a a' ha ha' hne
      (fun r hr => by unfold sliceA; rw [hcol r hr])
  have hnone := hsolve (sliceB q i) hsing
  refine ⟨hsing, ?_, ?_⟩
  · have hT := RollLmInterceptTRUE_operator_row L m q b e hbe o i
    rw [if_pos ⟨hb, he⟩, RollLmInterceptTRUE_slice_none L m q i o hnone] at hT
    obtain ⟨t1, t2, t3⟩ := LmOut_row_eq _ _ i hT
    obtain ⟨nT, nTr⟩ := RollLmInterceptTRUE_noSolution_row q i o
    exact ⟨fun c hc => ⟨by rw [t1, (nT c hc).1], by rw [t3, (nT c hc).2]⟩, by rw [t2, nTr]⟩
  · have hF := RollLmInterceptFALSE_operator_row L m q b e hbe o i
    rw [if_pos ⟨hb, he⟩, RollLmInterceptFALSE_slice_none L m q i o hnone] at hF
    obtain ⟨f1, f2, f3⟩ := LmOut_row_eq _ _ i hF
    obtain ⟨nF, nFr⟩ := RollLmInterceptFALSE_noSolution_row q i o
    exact ⟨fun c hc => ⟨by rw [f1, (nF c hc).1], by rw [f3, (nF c hc).2]⟩, by rw [f2, nFr]⟩

/-- A witness of `rollLm_identical_columns`: the two predictor columns of `exLmSingular` are
identical and `exLinAlg` refuses singular matrices. -/
theorem rollLm_identical_columns_witness :
    (RollLmInterceptTRUE.operator exLinAlg exPrim exLmSingular 0 1 exLmOut).arma_coef 0 0 =
      Cell.NA ∧
    (RollLmInterceptTRUE.operator exLinAlg exPrim exLmSingular 0 1 exLmOut).arma_coef 0 2 =
      Cell.NA ∧
    (RollLmInterceptTRUE.operator exLinAlg exPrim exLmSingular 0 1 exLmOut).arma_rsq 0 =
      Cell.NA ∧
    (RollLmInterceptFALSE.operator exLinAlg exPrim exLmSingular 0 1 exLmOut).arma_se 0 1 =
      Cell.NA :=
  have h := rollLm_identical_columns exLinAlg exPrim exLmSingular 0 1 0 exLmOut 0 1
    (by decide) (by decide) (fun rhs hs => exLinAlg_singular _ _ rhs hs) (by decide)
    (by decide) (by decide) (fun r _ => by simp [exLmSingular])
  ⟨(h.2.1.1 0 (by decide)).1, (h.2.1.1 2 (by decide)).1, h.2.1.2, (h.2.2.1 1 (by decide)).2⟩

/-- Claim C20.  When the slice at time `i` has no `NA`, the solve succeeds with `coef`, and
the count `v = arma_n_obs[i]` is at least the number `p` of fitted parameters
(`p = n_cols_x` with intercept, `n_cols_x - 1` without) while the residual degrees of
freedom `v - p` are `≤ 0`, then after a run over a range that contains `i` the
standard-error row `i` is entirely `NA` while the coefficient row `i` holds the
coefficients: the intercept `arma_mean(i, n_cols_x - 1) - mean_x * coef` and `coef` with
intercept, `coef` without.  The conversion to `int` is taken to send `0` to `0`. -/
theorem rollLm_no_residual_df (L : LinAlg α) (m : Prim α) (q : LmArgs α) (b e i : ℕ)
    (o : LmOut α) (coef : ℕ → α) (v : α) (hb : b ≤ i) (he : i < e)
    (hnan : sliceHasNan q i = false)
    (hs : L.solve (q.n_cols_x - 1) (sliceA q i) (sliceB q i) = some coef)
    (hv : q.arma_n_obs i = Cell.val v) (h0 : L.toInt 0 = 0) :
    ((q.n_cols_x : α) ≤ v → v - (q.n_cols_x : α) ≤ 0 →
      (∀ c, c < q.n_cols_x →
        (RollLmInterceptTRUE.operator L m q b e o).arma_se i c = Cell.NA) ∧
      (RollLmInterceptTRUE.operator L m q b e o).arma_coef i 0 =
        ((q.arma_mean i (q.n_cols_x - 1)).toLD -
          dotLD (q.n_cols_x - 1) (fun l => (q.arma_mean i l).toLD)
            (fun l => LD.fin (coef l))).toCell ∧
      ∀ l, l < q.n_cols_x - 1 →
        (RollLmInterceptTRUE.operator L m q b e o).arma_coef i (l + 1) = Cell.val (coef l)) ∧
    ((q.n_cols_x : α) - 1 ≤ v → v - ((q.n_cols_x : α) - 1) ≤ 0 →
      (∀ c, c < q.n_cols_x - 1 →
        (RollLmInterceptFALSE.operator L m q b e o).arma_se i c = Cell.NA) ∧
      ∀ l, l < q.n_cols_x - 1 →
        (RollLmInterceptFALSE.operator L m q b e o).arma_coef i l = Cell.val (coef l)) := by
  have hbe : b ≤ e := by omega
  constructor
  · intro h1 h2
    have hveq : v = (q.n_cols_x : α) := le_antisymm (by linarith) h1
    have hn : nObsGe (q.arma_n_obs i) (q.n_cols_x : ℤ) = true := by
      rw [hv]
      unfold nObsGe
      simp only [Int.cast_natCast, decide_eq_true_eq]
      exact h1
    have hdf : ¬ L.toInt ((q.arma_n_obs i).get - (q.n_cols_x : α)) > 0 := by
      rw [hv]
      have : (Cell.val v).get - (q.n_cols_x : α) = 0 := by
        show v - (q.n_cols_x : α) = 0
        rw [hveq]; ring
      rw [this, h0]
      exact lt_irrefl 0
    obtain ⟨s1, s2⟩ := RollLmInterceptTRUE_slice_no_resid L m q i o coef hnan hs hn hdf
    have hT := RollLmInterceptTRUE_operator_row L m q b e hbe o i
    rw [if_pos ⟨hb, he⟩] at hT
    obtain ⟨t1, _, t3⟩ := LmOut_row_eq _ _ i hT
    refine ⟨fun c hc => ?_, ?_, fun l hl => ?_⟩
    · rw [t3, s1, Mat_fillRow_self _ _ _ _ hc]
    · rw [t1, s2, Mat_setRow_before _ _ _ _ _ _ (by norm_num), Mat_set_self]
    · rw [t1, s2, Nat.add_comm l 1, Mat_setRow_self _ _ _ _ _ _ hl]
  · intro h1 h2
    have hveq : v = (q.n_cols_x : α) - 1 := le_antisymm (by linarith) h1
    have hn : nObsGe (q.arma_n_obs i) ((q.n_cols_x : ℤ) - 1) = true := by
      rw [hv]
      unfold nObsGe
      simp only [Int.cast_sub, Int.cast_natCast, Int.cast_one, decide_eq_true_eq]
      exact h1
    have hdf : ¬ L.toInt ((q.arma_n_obs i).get - (q.n_cols_x : α) + 1) > 0 := by
      rw [hv]
      have : (Cell.val v).get - (q.n_cols_x : α) + 1 = 0 := by
        show v - (q.n_cols_x : α) + 1 = 0
        rw [hveq]; ring
      rw [this, h0]
      exact lt_irrefl 0
    obtain ⟨s1, s2⟩ := RollLmInterceptFALSE_slice_no_resid L m q i o coef hnan hs hn hdf
    have hF := RollLmInterceptFALSE_operator_row L m q b e hbe o i
    rw [if_pos ⟨hb, he⟩] at hF
    obtain ⟨f1, _, f3⟩ := LmOut_row_eq _ _ i hF
    refine ⟨fun c hc => ?_, fun l hl => ?_⟩
    · rw [f3, s1, Mat_fillRow_self _ _ _ _ hc]
    · have := Mat_setRow_self o.arma_coef i 0 (q.n_cols_x - 1) (fun l => Cell.val (coef l)) l hl
      rw [Nat.zero_add] at this
      rw [f1, s2, this]

/-- A witness of `rollLm_no_residual_df`: at time `2` of `exLm` the count is `2`, the number
of parameters of the intercept variant, and `2 * coef = 1` has the solution `1/2`. -/
theorem rollLm_no_residual_df_witness :
    (RollLmInterceptTRUE.operator exLinAlg exPrim exLm 0 3 exLmOut).arma_se 2 0 = Cell.NA ∧
    (RollLmInterceptTRUE.operator exLinAlg exPrim exLm 0 3 exLmOut).arma_se 2 1 = Cell.NA ∧
    (RollLmInterceptTRUE.operator exLinAlg exPrim exLm 0 3 exLmOut).arma_coef 2 1 =
      Cell.val (1 / 2) :=
  have h := (rollLm_no_residual_df exLinAlg exPrim exLm 0 3 2 exLmOut (fun _ => 1 / 2) 2
    (by decide) (by decide) (by decide)
    (by simp [exLinAlg, sliceA, sliceB, exLm, Cell.get]) rfl (by decide)).1
    (by norm_num [exLm]) (by norm_num [exLm])
  ⟨h.1 0 (by decide), h.1 1 (by decide), h.2.2 0 (by decide)⟩

/-- Claim C16.  For regression with intercept on a window in which every row is valid for
every column and all weights are positive: whenever `RollLmInterceptTRUE`, fed by the
destinations that `RollCovParallelLm` has filled in a run over every index with
`intercept = true`, leaves numbers `beta 0` (intercept) and `beta 1, …` (predictors) in the
coefficient row of time `i`, they satisfy the weighted least-squares normal equations over
the rows `r` of the window: `sum_r w_r * e_r = 0` and `sum_r w_r * e_r * x(r, a) = 0` for
every predictor `a`, where `e_r` is the residual of row `r`, the response is the last
column and the solve of `A * coef = b` is taken as exact. -/
theorem rollLm_normal_equations (L : LinAlg α) (m : Prim α) (p : Args α) (d0 : LmDst α)
    (o : LmOut α) (b e i : ℕ) (beta : ℕ → α)
    (hb : b ≤ i) (he : i < e) (hi : i < p.n_rows_x) (hc : 0 < p.n_cols_x)
    (hint : p.intercept = true)
    (hvalid : ∀ r, r ∈ window p i → ∀ j, j < p.n_cols_x → notNA p r j)
    (hw : ∀ r, r ∈ window p i → 0 < lagWeight p (i - r))
    (hexact : ∀ d A bv c, L.solve d A bv = some c →
      ∀ a, a < d → (∑ l in Finset.range d, A a l * c l) = bv a)
    (hemit : ∀ c, c < p.n_cols_x →
      (RollLmInterceptTRUE.operator L m
        (lmArgsOf p (RollCovParallelLm.operator p 0 (p.n_rows_x * n_unique p.n_cols_x) d0))
        b e o).arma_coef i c = Cell.val (beta c)) :
    (∑ r in window p i, lagWeight p (i - r) * lmResidual p beta r) = 0 ∧
    ∀ a, a < p.n_cols_x - 1 →
      (∑ r in window p i, lagWeight p (i - r) * lmResidual p beta r * (p.x r a).get) = 0 := by
  by_cases hne : (window p i).Nonempty
  swap
  · rw [Finset.not_nonempty_iff_eq_empty.1 hne]
    simp
  have hmem : i ∈ window p i := by
    obtain ⟨r, hr⟩ := hne
    unfold window at hr ⊢
    rw [Finset.mem_Icc] at hr ⊢
    omega
  have hW : (∑ r in window p i, lagWeight p (i - r)) ≠ 0 :=
    ne_of_gt (Finset.sum_pos hw hne)
  obtain ⟨hmean, hcov⟩ := RollCovParallelLm_slice_values p d0 i hi hint hmem hvalid hW
  generalize RollCovParallelLm.operator p 0 (p.n_rows_x * n_unique p.n_cols_x) d0 = D
    at hemit hmean hcov
  have hrow := RollLmInterceptTRUE_operator_row L m (lmArgsOf p D) b e (by omega) o i
  rw [if_pos ⟨hb, he⟩] at hrow
  obtain ⟨r1, _, _⟩ := LmOut_row_eq _ _ i hrow
  obtain ⟨hnan, coef, hs, h0, hcoef⟩ := RollLmInterceptTRUE_slice_emits L m (lmArgsOf p D) i o beta
    hc (fun c hcc => by rw [← r1 c]; exact hemit c hcc)
  have hnn : ∀ a b, a < p.n_cols_x → b < p.n_cols_x → (D.arma_cov a b i).isnan = false := by
    intro a b ha hb
    rcases Bool.eq_false_or_eq_true ((D.arma_cov a b i).isnan) with h | h
    · have := (sliceHasNan_iff (lmArgsOf p D) i).2 ⟨a, ha, b, hb, h⟩
      rw [hnan] at this
      exact absurd this (by simp)
    · exact h
  have hA : ∀ a l, a < p.n_cols_x → l < p.n_cols_x →
      (D.arma_cov a l i).get = lmCross p i a l := by
    intro a l ha hl
    rw [hcov a l ha hl (hnn a l ha hl)]
    rfl
  have hbeta0 : beta 0 = lmMean p i (p.n_cols_x - 1) -
      ∑ l in Finset.range (p.n_cols_x - 1), lmMean p i l * coef l := by
    have e1 : dotLD (p.n_cols_x - 1) (fun l => (D.arma_mean i l).toLD)
        (fun l => LD.fin (coef l)) =
        LD.fin (∑ l in Finset.range (p.n_cols_x - 1), lmMean p i l * coef l) := by
      rw [← dotLD_fin]
      apply dotLD_congr
      · intro l hl
        rw [hmean l (by omega)]
        rfl
      · intro l _; rfl
    have e2 : (D.arma_mean i (p.n_cols_x - 1)).toLD = LD.fin (lmMean p i (p.n_cols_x - 1)) := by
      rw [hmean _ (by omega)]
      rfl
    change ((D.arma_mean i (p.n_cols_x - 1)).toLD -
      dotLD (p.n_cols_x - 1) (fun l => (D.arma_mean i l).toLD)
        (fun l => LD.fin (coef l))).toCell = Cell.val (beta 0) at h0
    rw [e1, e2, LD.fin_sub_fin, LD.toCell_fin] at h0
    exact (Cell.val.inj h0).symm
  have hsol := hexact _ _ _ _ hs
  obtain ⟨n1, n2⟩ := normal_equations_of_centred (window p i) (p.n_cols_x - 1)
    (fun r => lagWeight p (i - r)) (fun r a => (p.x r a).get)
    (fun r => (p.x r (p.n_cols_x - 1)).get) coef (lmMean p i) (lmMean p i (p.n_cols_x - 1))
    (fun a _ => lmMean_centred p i a hW) (lmMean_centred p i _ hW)
    (fun a ha => by
      have h1 : (∑ l in Finset.range (p.n_cols_x - 1),
          sliceA (lmArgsOf p D) i a l * coef l) = sliceB (lmArgsOf p D) i a := hsol a ha
      have h2 : ∀ l ∈ Finset.range (p.n_cols_x - 1),
          sliceA (lmArgsOf p D) i a l * coef l = lmCross p i a l * coef l := by
        intro l hl
        have hl2 := Finset.mem_range.1 hl
        unfold sliceA
        change (D.arma_cov a l i).get * coef l = _
        rw [hA a l (by omega) (by omega)]
      have h3 : sliceB (lmArgsOf p D) i a = lmCross p i a (p.n_cols_x - 1) := by
        unfold sliceB
        change (D.arma_cov a (p.n_cols_x - 1) i).get = _
        rw [hA a _ (by omega) (by omega)]
      rw [Finset.sum_congr rfl h2, h3] at h1
      exact h1)
  have hres : ∀ r, lmResidual p beta r =
      (p.x r (p.n_cols_x - 1)).get - (lmMean p i (p.n_cols_x - 1) -
        ∑ l in Finset.range (p.n_cols_x - 1), lmMean p i l * coef l) -
        ∑ l in Finset.range (p.n_cols_x - 1), coef l * (p.x r l).get := by
    intro r
    unfold lmResidual
    rw [hbeta0]
    congr 1
    apply Finset.sum_congr rfl
    intro l hl
    rw [← hcoef l (Finset.mem_range.1 hl)]
  refine ⟨?_, fun a ha => ?_⟩
  · rw [Finset.sum_congr rfl (fun r _ => by rw [hres r])]
    exact n1
  · rw [Finset.sum_congr rfl (fun r _ => by rw [hres r])]
    exact n2 a ha

/-- A witness of `rollLm_normal_equations`: the regression of the response `[0, 3, 3]` on the
predictor `[0, 1, 2]` at the last row, with intercept `1/2` and slope `3/2`; the residuals
are `-1/2, 1, -1/2`. -/
theorem rollLm_normal_equations_witness :
    (∑ r in window exLmData 2,
      lagWeight exLmData (2 - r) * lmResidual exLmData exLmBeta r) = 0 ∧
    (∑ r in window exLmData 2,
      lagWeight exLmData (2 - r) * lmResidual exLmData exLmBeta r * (exLmData.x r 0).get) = 0 :=
  have h := rollLm_normal_equations exLinAlg exPrim exLmData exLmDst exLmOut 0 3 2 exLmBeta
    (by decide) (by decide) (by decide) (by decide) rfl exLmData_valid exLmData_weights
    (fun d A bv c hs a ha => exLinAlg_exact d A bv c hs a ha) exLmData_emit
  ⟨h.1, h.2 0 (by decide)⟩

/-- Claim C23.  In the online engine `RollSumOnline`, after row `i` has been processed the
integer counter `n_obs` equals the number of rows `r` with `max(0, i - width + 1) ≤ r ≤ i`,
`mask[r] = 0` and `x(r, j)` not `NaN`: it equals the count that the direct engine
`RollSumParallel` obtains by scanning the window, it is never negative and never exceeds
`min(width, i + 1)`. -/
theorem rollSumOnline_n_obs_count (p : Args α) (i j : ℕ) :
    (onlineState (RollSumOnline.step p j) RollSumOnline.init (i + 1)).n_obs =
        ((validRows p i j).card : ℤ) ∧
    (onlineState (RollSumOnline.step p j) RollSumOnline.init (i + 1)).n_obs =
        (whileWindow p.width i (RollSumParallel.body p i j) ⟨0, 0⟩).n_obs ∧
    0 ≤ (onlineState (RollSumOnline.step p j) RollSumOnline.init (i + 1)).n_obs ∧
    (onlineState (RollSumOnline.step p j) RollSumOnline.init (i + 1)).n_obs ≤
        ((min p.width (i + 1) : ℕ) : ℤ) := by
  have h : (onlineState (RollSumOnline.step p j) RollSumOnline.init (i + 1)).n_obs =
      ((validRows p i j).card : ℤ) := by
    rw [RollSumOnline_n_obs, validRows_card]
  refine ⟨h, ?_, ?_, ?_⟩
  · rw [h, RollSumParallel_n_obs]
  · rw [h]; exact Int.natCast_nonneg _
  · rw [h]; exact_mod_cast validRows_card_le p i j

/-- Claim C21.  For every `width ≥ 1` (for `width = 1` the factor `lambda` is
`weights[n - 1]`), every weight sequence of length `n = width` whose ratio
`weights[c] / weights[c + 1]` is defined and constant, every mask, missing-value pattern,
`min_obs` and `na_restore`: the recurrence of `RollSumOnline` writes at every cell what
`RollSumParallel` writes there, which in a computed cell with enough observations is the sum
of `weights[n - 1 - (i - r)] * x(r, j)` over the valid rows `r` of the window. -/
theorem rollSum_online_eq_direct (p : Args α) (dst dst' : Mat α) (i j : ℕ)
    (hn : p.n = p.width) (hw : 1 ≤ p.width)
    (hratio : ∀ c, c + 1 < p.n → p.arma_weights (c + 1) ≠ 0 ∧
      p.arma_weights c / p.arma_weights (c + 1) =
        p.arma_weights (p.n - 2) / p.arma_weights (p.n - 1))
    (hi : i < p.n_rows_x) (hj : j < p.n_cols_x) :
    RollSumOnline.operator p 0 p.n_cols_x dst i j =
      RollSumParallel.operator p 0 (p.n_rows_x * p.n_cols_x) dst' i j ∧
    RollSumParallel.operator p 0 (p.n_rows_x * p.n_cols_x) dst' i j =
      if compute p i j then
        if ((validRows p i j).card : ℤ) ≥ p.min_obs then
          Cell.val (∑ r in validRows p i j, p.arma_weights (p.n - 1 - (i - r)) * (p.x r j).get)
        else Cell.NA
      else p.x i j := by
  have hl : lambda p = LD.fin (lambdaVal p) := by
    apply lambda_eq_of_ne
    intro h
    have := (hratio (p.n - 2) (by omega)).1
    rwa [show p.n - 2 + 1 = p.n - 1 by omega] at this
  rw [RollSumOnline_operator_full p dst i j hi hj, RollSumParallel_operator_full p dst' i j hi hj,
    RollSumOnline_cell_eq p i j _ hn hw hl (lagWeight_succ_of_ne p hn hratio),
    RollSumParallel_cell_eq]
  exact ⟨rfl, rfl⟩

/-- A witness of `rollSum_online_eq_direct`: the cell `(3, 1)` of `exCovDecay` (weights
`[1, 2]`), whose window holds `3` and `5`; both engines store `1 * 3 + 2 * 5 = 13`. -/
theorem rollSum_online_eq_direct_witness :
    RollSumOnline.operator exCovDecay 0 2 exMat 3 1 =
      RollSumParallel.operator exCovDecay 0 8 exMat 3 1 ∧
    RollSumParallel.operator exCovDecay 0 8 exMat 3 1 = Cell.val 13 :=
  have h := rollSum_online_eq_direct exCovDecay exMat exMat 3 1 rfl (by decide)
    exCovDecay_ratio (by decide) (by decide)
  ⟨h.1, h.2.trans (by
    rw [if_pos (show compute exCovDecay 3 1 from Or.inl rfl), exCovDecay_validRows1]
    norm_num [exCovDecay, vector, column, Cell.get])⟩

/-- Claim C24.  In `RollProdOnline` with a finite `lambda ≠ 0`, after every row `i` the
exponent term is `n_exp = lambda ^ m`, where `m` (the code's `n_new`, kept in `n_old`) is
the number of valid observations of the window of row `i` other than row `i` itself; from
one row to the next `n_exp` stays, or is multiplied or divided by `lambda` once; and
`n_exp = 1` whenever the observation count `n_obs` of the window is zero. -/
theorem rollProdOnline_n_exp (p : Args α) (i j : ℕ) (hw : 1 ≤ p.width)
    (hfin : p.width > 1 → p.arma_weights (p.n - 1) ≠ 0) (hlam : lambdaVal p ≠ 0) :
    (onlineState (RollProdOnline.step p j) RollProdOnline.init (i + 1)).n_old =
        (((validRows p i j).erase i).card : ℤ) ∧
    (onlineState (RollProdOnline.step p j) RollProdOnline.init (i + 1)).n_exp =
        LD.fin (lambdaVal p ^ ((validRows p i j).erase i).card) ∧
    ((onlineState (RollProdOnline.step p j) RollProdOnline.init (i + 2)).n_exp =
        (onlineState (RollProdOnline.step p j) RollProdOnline.init (i + 1)).n_exp ∨
      (onlineState (RollProdOnline.step p j) RollProdOnline.init (i + 2)).n_exp =
        (onlineState (RollProdOnline.step p j) RollProdOnline.init (i + 1)).n_exp * lambda p ∨
      (onlineState (RollProdOnline.step p j) RollProdOnline.init (i + 2)).n_exp =
        (onlineState (RollProdOnline.step p j) RollProdOnline.init (i + 1)).n_exp / lambda p) ∧
    ((onlineState (RollProdOnline.step p j) RollProdOnline.init (i + 1)).n_obs = 0 →
      (onlineState (RollProdOnline.step p j) RollProdOnline.init (i + 1)).n_exp = 1) := by
  have hl := lambda_eq_of_ne p hfin
  have e1 := RollProdOnline_n_exp p j _ hw hl hlam i
  have e2 := RollProdOnline_n_exp p j _ hw hl hlam (i + 1)
  refine ⟨?_, ?_, ?_, ?_⟩
  · rw [RollProdOnline_n_old p j hw, othersCount_eq_erase]
  · rw [e1, othersCount_eq_erase]
  · rw [e1, e2, hl]
    have h3 := othersCount_step p j i hw
    have hc : othersCount p j (i + 2) = othersCount p j (i + 1) ∨
        othersCount p j (i + 2) = othersCount p j (i + 1) + 1 ∨
        othersCount p j (i + 1) = othersCount p j (i + 2) + 1 := by
      split_ifs at h3 <;> omega
    rcases hc with h | h | h
    · left; rw [h]
    · right; left
      rw [h, LD.fin_mul_fin, pow_succ]
    · right; right
      rw [h, LD.fin_div_fin_of_ne _ hlam, pow_succ, mul_div_assoc, div_self hlam, mul_one]
  · intro h0
    rw [RollProdOnline_n_obs p j hw, validCount_enter p j i hw] at h0
    have : othersCount p j (i + 1) = 0 := by
      have h0' : othersCount p j (i + 1) + (if notNA p i j then 1 else 0) = 0 := by
        exact_mod_cast h0
      omega
    rw [e1, this, pow_zero]
    rfl

/-- A witness of `rollProdOnline_n_exp`: column `1` of `exCovDecay` (`[2, NA, 3, 5]`,
`width = 2`, `lambda = 1/2`) after row `3`, whose window holds one other valid row. -/
theorem rollProdOnline_n_exp_witness :
    (onlineState (RollProdOnline.step exCovDecay 1) RollProdOnline.init 4).n_old = 1 ∧
    (onlineState (RollProdOnline.step exCovDecay 1) RollProdOnline.init 4).n_exp =
      LD.fin (1 / 2) :=
  have h := rollProdOnline_n_exp exCovDecay 3 1 (by decide)
    (fun _ => by norm_num [exCovDecay, vector]) (by norm_num [lambdaVal, exCovDecay, vector])
  have hc : ((validRows exCovDecay 3 1).erase 3).card = 1 := by decide
  ⟨by rw [h.1, hc]; rfl, by rw [h.2.1, hc]; norm_num [lambdaVal, exCovDecay, vector]⟩

/-- Claim C22.  For weights of length `n = width` whose ratio `weights[c] / weights[c + 1]`
is defined, constant and not zero, every mask and missing-value pattern, and every column
`j` whose valid values are all non-zero, `RollProdOnline` writes at every cell of the
column what `RollProdParallel` writes there: in a computed cell the product over the valid
rows `r` of the window of `weights[n - 1 - (i - r)] * x(r, j)`, and `NA` when
`n_obs < min_obs`. -/
theorem rollProd_online_eq_direct (p : Args α) (dst dst' : Mat α) (i j : ℕ)
    (hn : p.n = p.width) (hw : 1 ≤ p.width)
    (hratio : ∀ c, c + 1 < p.n → p.arma_weights (c + 1) ≠ 0 ∧
      p.arma_weights c / p.arma_weights (c + 1) =
        p.arma_weights (p.n - 2) / p.arma_weights (p.n - 1))
    (hlam : lambdaVal p ≠ 0) (hx : ∀ r, notNA p r j → (p.x r j).get ≠ 0)
    (hi : i < p.n_rows_x) (hj : j < p.n_cols_x) :
    RollProdOnline.operator p 0 p.n_cols_x dst i j =
      RollProdParallel.operator p 0 (p.n_rows_x * p.n_cols_x) dst' i j ∧
    RollProdParallel.operator p 0 (p.n_rows_x * p.n_cols_x) dst' i j =
      if compute p i j then
        if ((validRows p i j).card : ℤ) ≥ p.min_obs then
          Cell.val (∏ r in validRows p i j, p.arma_weights (p.n - 1 - (i - r)) * (p.x r j).get)
        else Cell.NA
      else p.x i j := by
  have hl : lambda p = LD.fin (lambdaVal p) := by
    apply lambda_eq_of_ne
    intro h
    have := (hratio (p.n - 2) (by omega)).1
    rwa [show p.n - 2 + 1 = p.n - 1 by omega] at this
  have h0 : p.arma_weights 0 ≠ 0 := by
    by_cases h1 : p.width > 1
    · intro hz
      have h2 := (hratio 0 (by omega)).2
      rw [hz, zero_div] at h2
      apply hlam
      unfold lambdaVal
      rw [if_pos h1, ← h2]
    · intro hz
      apply hlam
      unfold lambdaVal
      rw [if_neg h1, show p.n - 1 = 0 by omega, hz]
  rw [RollProdOnline_operator_full p dst i j hi hj,
    RollProdParallel_operator_full p dst' i j hi hj,
    RollProdOnline_cell_eq p i j _ hn hw hl hlam (lagWeight_succ_of_ne p hn hratio) h0 hx,
    RollProdParallel_cell_eq]
  exact ⟨rfl, rfl⟩

/-- A witness of `rollProd_online_eq_direct`: the cell `(3, 1)` of `exCovDecay` (weights
`[1, 2]`, column `[2, NA, 3, 5]`); both engines store `(1 * 3) * (2 * 5) = 30`. -/
theorem rollProd_online_eq_direct_witness :
    RollProdOnline.operator exCovDecay 0 2 exMat 3 1 =
      RollProdParallel.operator exCovDecay 0 8 exMat 3 1 ∧
    RollProdParallel.operator exCovDecay 0 8 exMat 3 1 = Cell.val 30 :=
  have h := rollProd_online_eq_direct exCovDecay exMat exMat 3 1 rfl (by decide)
    exCovDecay_ratio (by norm_num [lambdaVal, exCovDecay, vector])
    (by
      intro r hr
      have h4 : r < 4 := by
        by_contra hge
        have : exCovDecay.x r 1 = Cell.NA := by
          simp only [exCovDecay, column]
          rw [if_neg (by decide), List.getD_eq_default _ _ (by simp; omega)]
        exact hr.2 (by rw [this]; rfl)
      interval_cases r
      · norm_num [exCovDecay, column, Cell.get]
      · exact absurd hr (by decide)
      · norm_num [exCovDecay, column, Cell.get]
      · norm_num [exCovDecay, column, Cell.get])
    (by decide) (by decide)
  ⟨h.1, h.2.trans (by
    rw [if_pos (show compute exCovDecay 3 1 from Or.inl rfl), exCovDecay_validRows1]
    norm_num [exCovDecay, vector, column, Cell.get])⟩

/-- Claim C25.  The closed-form inverse of the claim, in exact integers with the exact real
square root (`closedFormK`, `closedFormJ`), yields `0 ≤ k ≤ j < n_cols` for every `n_cols`
and every `z_unique < n_cols * (n_cols + 1) / 2`, and the map `z_unique ↦ (j, k)` is
injective and reaches every pair of the lower triangle.  The source evaluates the formula in
`int` (`triK`, `triJ`).  For `n_cols_x ≤ 23169` no operation overflows: the source's `k` and
`j` are the closed form, and a run of `RollCovParallelXX` over `z` in
`[0, n_rows * n_unique)` assigns every entry `(a, b, t)` of the tensor, whatever it held
before.  At `n_cols_x = 23170` the product `4 * n_cols_x * (n_cols_x + 1)` wraps to
`-2147479016`, and the index `z_unique = 0`, which the closed form sends to `(0, 0)`, is
decoded by the source to `k = -2147483648`, `j = -1073741824`, outside the tensor. -/
theorem rollCov_index_bijection (m : Prim α) (p : Args α) (dst : Cube α) :
    (∀ z, z < n_unique p.n_cols_x →
      0 ≤ closedFormK p.n_cols_x z ∧ closedFormK p.n_cols_x z ≤ closedFormJ p.n_cols_x z ∧
        closedFormJ p.n_cols_x z < p.n_cols_x) ∧
    (∀ z, z < n_unique p.n_cols_x →
      closedFormK p.n_cols_x z = (p.n_cols_x : ℤ) -
        ⌊(Real.sqrt (((4 * (p.n_cols_x : ℤ) * ((p.n_cols_x : ℤ) + 1) -
          (7 + 8 * (z : ℤ)) : ℤ) : ℝ)) - 1) / 2⌋ - 1) ∧
    (∀ z z', z < n_unique p.n_cols_x → z' < n_unique p.n_cols_x →
      closedFormK p.n_cols_x z = closedFormK p.n_cols_x z' →
      closedFormJ p.n_cols_x z = closedFormJ p.n_cols_x z' → z = z') ∧
    (∀ j k, k ≤ j → j < p.n_cols_x →
      ∃ z, z < n_unique p.n_cols_x ∧ closedFormK p.n_cols_x z = k ∧
        closedFormJ p.n_cols_x z = j) ∧
    (p.n_cols_x ≤ 23169 →
      (∀ z, z < n_unique p.n_cols_x →
        triK p.n_cols_x z = closedFormK p.n_cols_x z ∧
        triJ p.n_cols_x z = closedFormJ p.n_cols_x z ∧
        0 ≤ triK p.n_cols_x z ∧ triK p.n_cols_x z ≤ triJ p.n_cols_x z ∧
        triJ p.n_cols_x z < p.n_cols_x) ∧
      (∀ a b t, a < p.n_cols_x → b < p.n_cols_x → t < p.n_rows_x →
        RollCovParallelXX.operator m p 0 (p.n_rows_x * n_unique p.n_cols_x) dst a b t =
          RollCovParallelXX.cell m p t (max a b) (min a b))) ∧
    int32 (int32 (4 * 23170) * int32 (23170 + 1)) = -2147479016 ∧
    triK 23170 0 = -2147483648 ∧ triJ 23170 0 = -1073741824 ∧
    closedFormK 23170 0 = 0 ∧ closedFormJ 23170 0 = 0 := by
  have hrange : ∀ z, z < n_unique p.n_cols_x →
      0 ≤ closedFormK p.n_cols_x z ∧ closedFormK p.n_cols_x z ≤ closedFormJ p.n_cols_x z ∧
        closedFormJ p.n_cols_x z < p.n_cols_x := by
    intro z hz
    obtain ⟨j, k, hkj, hj, e1, e2⟩ := tri_range p.n_cols_x z hz
    rw [e1, e2]
    exact ⟨Int.natCast_nonneg _, by exact_mod_cast hkj, by exact_mod_cast hj⟩
  refine ⟨hrange, fun z hz => closedFormK_eq_floor p.n_cols_x z hz, ?_, ?_, ?_,
    triK_overflow.1, triK_overflow.2.1, triK_overflow.2.2,
    (closedForm_zero 23170 (by norm_num)).1, (closedForm_zero 23170 (by norm_num)).2⟩
  · intro z z' _ _ hk hj
    exact tri_injective p.n_cols_x z z' hk hj
  · intro j k hkj hj
    exact tri_decode p.n_cols_x j k hkj hj
  · intro hn
    refine ⟨fun z hz => ?_, fun a b t ha hb ht => parallelCubeWorker_full _ _ _ dst a b t ha hb ht⟩
    rw [triK_eq_closedForm p.n_cols_x z hn hz, triJ_eq_closedForm p.n_cols_x z hn hz]
    exact ⟨rfl, rfl, hrange z hz⟩

/-- A witness of `rollCov_index_bijection`: the two-column input `exCov`, whose three
flattened indices `0, 1, 2` decode to the pairs `(0, 0)`, `(1, 0)`, `(1, 1)`. -/
theorem rollCov_index_bijection_witness :
    (0 ≤ closedFormK 2 1 ∧ closedFormK 2 1 ≤ closedFormJ 2 1 ∧ closedFormJ 2 1 < 2) ∧
    (triK 2 1 = closedFormK 2 1 ∧ triJ 2 1 = closedFormJ 2 1 ∧
      0 ≤ triK 2 1 ∧ triK 2 1 ≤ triJ 2 1 ∧ triJ 2 1 < 2) ∧
    RollCovParallelXX.operator exPrim exCov 0 (3 * n_unique 2) exCube 0 1 2 =
      RollCovParallelXX.cell exPrim exCov 2 1 0 :=
  have h := rollCov_index_bijection exPrim exCov exCube
  ⟨h.1 1 (by decide), (h.2.2.2.2.1 (by decide)).1 1 (by decide),
    (h.2.2.2.2.1 (by decide)).2 0 1 2 (by decide) (by decide) (by decide)⟩

/-- Claim C27.  Under the preconditions `width ≥ 1`, weights of length `n ≥ width` (and
`n ≥ 2` when `width > 1`) and `0 ≤ i < n_rows`: every weight subscript the engines evaluate
(`n - 1`, `n - 2`, `0` and `n - count - 1`, as C `int` expressions) lies in `[0, n)`, every
row subscript they evaluate (`i - count` in the direct engine, `i` and `i - width` in the
online engine) lies in `[0, n_rows)`, the window loop of the direct engine makes exactly
`min(width, i + 1)` passes, and in each of them the natural-number subscripts of the
embedding are the C expressions.  The subscripts are collected for `RollSumOnline` and
`RollSumParallel`; the window loop of every direct engine runs over the same counts
`0, ..., min(width, i + 1) - 1`, for which `n - count - 1` and `i - count` are in bounds. -/
theorem subscripts_in_bounds (p : Args α) (i j : ℕ) (hw : 1 ≤ p.width) (hn : p.width ≤ p.n)
    (hn2 : p.width > 1 → 2 ≤ p.n) (hi : i < p.n_rows_x) :
    (∀ w, w ∈ RollSumOnline.lambdaSubscripts p ++ (RollSumOnline.subscripts p j i).weights →
      0 ≤ w ∧ w < p.n) ∧
    (∀ r, r ∈ (RollSumOnline.subscripts p j i).rows → 0 ≤ r ∧ r < p.n_rows_x) ∧
    (∀ w, w ∈ (RollSumParallel.subscripts p i j).weights → 0 ≤ w ∧ w < p.n) ∧
    (∀ r, r ∈ (RollSumParallel.subscripts p i j).rows → 0 ≤ r ∧ r < p.n_rows_x) ∧
    RollSumParallel.passes p i = min p.width (i + 1) ∧
    (∀ (σ : Type) (body : ℕ → σ → σ) (s : σ), whileWindow p.width i body s =
      (List.range (min p.width (i + 1))).foldl (fun s c => body c s) s) ∧
    (∀ count, count < RollSumParallel.passes p i →
      ((p.n - count - 1 : ℕ) : ℤ) = (p.n : ℤ) - count - 1 ∧
      ((i - count : ℕ) : ℤ) = (i : ℤ) - count ∧
      0 ≤ (p.n : ℤ) - count - 1 ∧ (p.n : ℤ) - count - 1 < p.n ∧
      0 ≤ (i : ℤ) - count ∧ (i : ℤ) - count < p.n_rows_x) := by
  refine ⟨?_, ?_, ?_, ?_, RollSumParallel_passes p i,
    fun σ body s => whileWindow_eq_foldl p.width i body s, ?_⟩
  · intro w hw'
    rw [List.mem_append] at hw'
    rcases hw' with h | h
    · unfold RollSumOnline.lambdaSubscripts at h
      by_cases h1 : p.width > 1
      · rw [if_pos h1] at h
        have := hn2 h1
        simp only [List.mem_cons, List.mem_singleton, List.not_mem_nil, or_false] at h
        rcases h with h | h <;> subst h <;> omega
      · rw [if_neg h1] at h
        simp only [List.mem_singleton] at h
        subst h; omega
    · unfold RollSumOnline.subscripts at h
      simp only [List.mem_append] at h
      rcases h with h | h
      · split_ifs at h
        · simp only [List.mem_singleton] at h
          subst h; omega
        · simp at h
      · split_ifs at h
        · simp only [List.mem_singleton] at h
          subst h; omega
        · simp at h
  · intro r hr
    unfold RollSumOnline.subscripts at hr
    dsimp only at hr
    split_ifs at hr with h1
    · simp only [List.mem_singleton] at hr
      subst hr; omega
    · simp only [List.mem_cons, List.mem_singleton, List.not_mem_nil, or_false] at hr
      rcases hr with h | h <;> subst h <;> omega
  · unfold RollSumParallel.subscripts
    by_cases hc : compute p i j
    · rw [if_pos hc, whileWindow_eq_foldl]
      apply foldl_range_invariant (fun s : Subscripts => ∀ w, w ∈ s.weights → 0 ≤ w ∧ w < p.n)
      · intro w h; simp at h
      · intro c hcm t ht w hw'
        unfold RollSumParallel.subscriptBody at hw'
        dsimp only at hw'
        split_ifs at hw'
        · rw [List.mem_append, List.mem_singleton] at hw'
          rcases hw' with h | h
          · exact ht w h
          · subst h; omega
        · exact ht w hw'
    · rw [if_neg hc]
      intro w h; simp at h
  · unfold RollSumParallel.subscripts
    by_cases hc : compute p i j
    · rw [if_pos hc, whileWindow_eq_foldl]
      apply foldl_range_invariant
        (fun s : Subscripts => ∀ r, r ∈ s.rows → 0 ≤ r ∧ r < p.n_rows_x)
      · intro r h
        dsimp only at h
        split_ifs at h
        · simp only [List.mem_singleton] at h
          subst h; omega
        · simp at h
      · intro c hcm t ht r hr
        unfold RollSumParallel.subscriptBody at hr
        dsimp only at hr
        rw [List.mem_append, List.mem_singleton] at hr
        rcases hr with h | h
        · exact ht r h
        · subst h; omega
    · rw [if_neg hc]
      intro r h
      simp only [List.mem_cons, List.mem_singleton, List.not_mem_nil, or_false, or_self] at h
      subst h; omega
  · intro count hcount
    rw [RollSumParallel_passes] at hcount
    omega

/-- A witness of `subscripts_in_bounds`: the decaying example at row `3`, column `1`
(`width = n = 2`, four rows): the preconditions hold, the row subscripts of the online pass
lie in `[0, 4)`, and the window loop makes two passes. -/
theorem subscripts_in_bounds_witness :
    (1 ≤ exCovDecay.width ∧ exCovDecay.width ≤ exCovDecay.n ∧ 3 < exCovDecay.n_rows_x) ∧
    (∀ r, r ∈ (RollSumOnline.subscripts exCovDecay 1 3).rows → 0 ≤ r ∧ r < (4 : ℤ)) ∧
    RollSumParallel.passes exCovDecay 3 = 2 :=
  have h := subscripts_in_bounds exCovDecay 3 1 (by decide) (by decide) (by decide) (by decide)
  ⟨by decide, h.2.1, h.2.2.2.2.1⟩

/-- Claim C28.  With `scale = false`, for every input, weights, mask, `center`, `min_obs`
and `na_restore`: after a full run `RollCovParallelXX` has stored at `(j, j, i)` exactly
what `RollVarParallel` with the same arguments has stored at `(i, j)`, the `NA` cells and
the restored cells included (second part: the two stored values agree at every index). -/
theorem rollCov_diagonal_eq_rollVar (m : Prim α) (p : Args α) (dst : Cube α) (dst' : Mat α)
    (i j : ℕ) (hs : p.scale = false) (hi : i < p.n_rows_x) (hj : j < p.n_cols_x) :
    RollCovParallelXX.operator m p 0 (p.n_rows_x * n_unique p.n_cols_x) dst j j i =
        RollVarParallel.operator p 0 (p.n_rows_x * p.n_cols_x) dst' i j ∧
      (∀ r c, RollCovParallelXX.cell m p r c c = RollVarParallel.cell p r c) := by
  refine ⟨?_, fun r c => RollCovParallelXX_cell_self m p r c hs⟩
  unfold RollCovParallelXX.operator RollVarParallel.operator
  rw [parallelCubeWorker_full _ _ _ _ _ _ _ hj hj hi, parallelWorker_full _ _ _ _ _ _ hi hj,
    max_self, min_self]
  exact RollCovParallelXX_cell_self m p i j hs

/-- A witness of `rollCov_diagonal_eq_rollVar`: the decaying example (`scale = false`) at
row `3`, column `1`. -/
theorem rollCov_diagonal_eq_rollVar_witness :
    exCovDecay.scale = false ∧
      RollCovParallelXX.operator exPrim exCovDecay 0 (4 * n_unique 2) exCube 1 1 3 =
        RollVarParallel.operator exCovDecay 0 (4 * 2) exMat 3 1 :=
  ⟨rfl, (rollCov_diagonal_eq_rollVar exPrim exCovDecay exCube exMat 3 1 rfl (by decide)
    (by decide)).1⟩

/-- Claim C30.  With strictly positive weights on the valid rows of the window, whenever
`RollVarParallel` stores a number `v` at `(i, j)`: the cell was computed, the window holds
`n_obs ≥ 2` valid observations, `sum_w` and `sumsq_w` are the finite sums `W` and `Q` of the
weights and of their squares, `W ≠ 0` and `Q < W ^ 2`, the denominator
`sum_w - sumsq_w / sum_w` is the finite number `W - Q / W > 0` (no division by zero), and
`v ≥ 0`. -/
theorem rollVar_denominator_pos (p : Args α) (i j : ℕ) (v : α)
    (hpos : ∀ r ∈ validRows p i j, 0 < p.arma_weights (p.n - 1 - (i - r)))
    (hv : RollVarParallel.cell p i j = Cell.val v) :
    compute p i j ∧
    (2 : ℤ) ≤ (whileWindow p.width i (RollVarParallel.body p (RollVarParallel.mean_x p i j) i j)
      ⟨0, 0, 0, 0⟩).n_obs ∧
    (whileWindow p.width i (RollVarParallel.body p (RollVarParallel.mean_x p i j) i j)
      ⟨0, 0, 0, 0⟩).n_obs = ((validRows p i j).card : ℤ) ∧
    (whileWindow p.width i (RollVarParallel.body p (RollVarParallel.mean_x p i j) i j)
      ⟨0, 0, 0, 0⟩).sum_w = LD.fin (∑ r in validRows p i j, p.arma_weights (p.n - 1 - (i - r))) ∧
    (whileWindow p.width i (RollVarParallel.body p (RollVarParallel.mean_x p i j) i j)
      ⟨0, 0, 0, 0⟩).sumsq_w =
        LD.fin (∑ r in validRows p i j, p.arma_weights (p.n - 1 - (i - r)) ^ 2) ∧
    (∑ r in validRows p i j, p.arma_weights (p.n - 1 - (i - r))) ≠ 0 ∧
    (∑ r in validRows p i j, p.arma_weights (p.n - 1 - (i - r)) ^ 2) <
      (∑ r in validRows p i j, p.arma_weights (p.n - 1 - (i - r))) ^ 2 ∧
    (whileWindow p.width i (RollVarParallel.body p (RollVarParallel.mean_x p i j) i j)
        ⟨0, 0, 0, 0⟩).sum_w -
      (whileWindow p.width i (RollVarParallel.body p (RollVarParallel.mean_x p i j) i j)
        ⟨0, 0, 0, 0⟩).sumsq_w /
      (whileWindow p.width i (RollVarParallel.body p (RollVarParallel.mean_x p i j) i j)
        ⟨0, 0, 0, 0⟩).sum_w =
      LD.fin ((∑ r in validRows p i j, p.arma_weights (p.n - 1 - (i - r))) -
        (∑ r in validRows p i j, p.arma_weights (p.n - 1 - (i - r)) ^ 2) /
          (∑ r in validRows p i j, p.arma_weights (p.n - 1 - (i - r)))) ∧
    0 < (∑ r in validRows p i j, p.arma_weights (p.n - 1 - (i - r))) -
        (∑ r in validRows p i j, p.arma_weights (p.n - 1 - (i - r)) ^ 2) /
          (∑ r in validRows p i j, p.arma_weights (p.n - 1 - (i - r))) ∧
    0 ≤ v := by
  obtain ⟨sx, e1, e2⟩ := RollVarParallel_foldl p (RollVarParallel.mean_x p i j) i j
    (min p.width (i + 1)) (by omega)
  rw [← validRows_eq] at e1 e2
  by_cases hc : compute p i j
  swap
  · exfalso
    unfold RollVarParallel.cell at hv
    rw [if_neg hc] at hv
    exact not_compute_not_val p i j v hc hv
  unfold RollVarParallel.cell at hv
  rw [if_pos hc, whileWindow_eq_foldl, e1] at hv
  dsimp only at hv
  rw [whileWindow_eq_foldl, e1]
  dsimp only
  by_cases hg : ((validRows p i j).card : ℤ) > 1 ∧ ((validRows p i j).card : ℤ) ≥ p.min_obs
  swap
  · rw [if_neg hg] at hv
    exact absurd hv (by simp)
  rw [if_pos hg] at hv
  have hcard : 1 < (validRows p i j).card := by exact_mod_cast hg.1
  obtain ⟨hW, hQ, hD⟩ := denominator_pos (validRows p i j)
    (fun r => p.arma_weights (p.n - 1 - (i - r))) hpos hcard
  have hden : (LD.fin (∑ r in validRows p i j, p.arma_weights (p.n - 1 - (i - r))) -
      LD.fin (∑ r in validRows p i j, p.arma_weights (p.n - 1 - (i - r)) ^ 2) /
        LD.fin (∑ r in validRows p i j, p.arma_weights (p.n - 1 - (i - r))) : LD α) =
      LD.fin ((∑ r in validRows p i j, p.arma_weights (p.n - 1 - (i - r))) -
        (∑ r in validRows p i j, p.arma_weights (p.n - 1 - (i - r)) ^ 2) /
          (∑ r in validRows p i j, p.arma_weights (p.n - 1 - (i - r)))) := by
    rw [LD.fin_div_fin_of_ne _ hW.ne', LD.fin_sub_fin]
  refine ⟨hc, by omega, rfl, rfl, rfl, hW.ne', hQ, hden, hD, ?_⟩
  -- the numerator is a finite sum of non-negative terms
  obtain ⟨mu, hmu1, hmu2⟩ : ∃ mu : α, (p.center = true → RollVarParallel.mean_x p i j = LD.fin mu) ∧
      (p.center = false → mu = 0) := by
    by_cases hcen : p.center = true
    · refine ⟨(∑ r in validRows p i j, p.arma_weights (p.n - 1 - (i - r)) * (p.x r j).get) /
        (∑ r in validRows p i j, p.arma_weights (p.n - 1 - (i - r))), fun _ => ?_, fun h => ?_⟩
      · rw [RollVarParallel_mean_x_eq, if_pos hcen, LD.fin_div_fin_of_ne _ hW.ne']
      · rw [hcen] at h
        exact absurd h (by decide)
    · exact ⟨0, fun h => absurd h hcen, fun _ => rfl⟩
  rw [e2 mu hmu1 hmu2, hden, LD.fin_div_fin_of_ne _ hD.ne', LD.toCell_fin] at hv
  have hv' : v = _ := (Cell.val.inj hv).symm
  rw [hv']
  apply div_nonneg _ hD.le
  apply Finset.sum_nonneg
  intro r hr
  exact mul_nonneg (hpos r hr).le (sq_nonneg _)

/-- A witness of `rollVar_denominator_pos`: the cell `(3, 0)` of `exCovDecay`, whose window
holds `4` and `7` with the weights `1` and `2`: the stored variance is `9 / 2` and the
denominator `3 - 5 / 3` is positive. -/
theorem rollVar_denominator_pos_witness :
    RollVarParallel.cell exCovDecay 3 0 = Cell.val (9 / 2) ∧
    0 < (∑ r in validRows exCovDecay 3 0, exCovDecay.arma_weights (exCovDecay.n - 1 - (3 - r))) -
        (∑ r in validRows exCovDecay 3 0,
          exCovDecay.arma_weights (exCovDecay.n - 1 - (3 - r)) ^ 2) /
          (∑ r in validRows exCovDecay 3 0,
            exCovDecay.arma_weights (exCovDecay.n - 1 - (3 - r))) :=
  have h := rollVar_denominator_pos exCovDecay 3 0 (9 / 2)
    (by
      rw [exCovDecay_validRows0]
      intro r hr
      simp only [Finset.mem_insert, Finset.mem_singleton] at hr
      rcases hr with h | h <;> subst h <;> norm_num [exCovDecay, vector])
    exCovDecay_var
  ⟨exCovDecay_var, h.2.2.2.2.2.2.2.2.1⟩

/-- Claim C29.  With `scale` set, non-negative weights on the jointly valid rows of the
window, either value of `center`, and a square root that is exact on the two sums of
squared deviations: every number stored by `RollCovParallelXX` at a pair `(j, k)` and every
number stored by `RollCovParallelXY` lies in `[-1, 1]`, and a number stored by
`RollCovParallelXX` on the diagonal `j = k` is `1` (for any weights). -/
theorem rollCov_correlation_bounded (m : Prim α) (p : Args α) (q : ArgsXY α) (i j k : ℕ) :
    (∀ v, p.scale = true →
      (∀ r ∈ validRows2 p i j k, 0 ≤ p.arma_weights (p.n - 1 - (i - r))) →
      (0 ≤ m.sqrt (winCross p i j k j j) ∧
        m.sqrt (winCross p i j k j j) * m.sqrt (winCross p i j k j j) = winCross p i j k j j) →
      (0 ≤ m.sqrt (winCross p i j k k k) ∧
        m.sqrt (winCross p i j k k k) * m.sqrt (winCross p i j k k k) = winCross p i j k k k) →
      RollCovParallelXX.cell m p i j k = Cell.val v → -1 ≤ v ∧ v ≤ 1) ∧
    (∀ v, p.scale = true →
      (0 ≤ m.sqrt (winCross p i j j j j) ∧
        m.sqrt (winCross p i j j j j) * m.sqrt (winCross p i j j j j) = winCross p i j j j j) →
      RollCovParallelXX.cell m p i j j = Cell.val v → v = 1) ∧
    (∀ v, q.scale = true →
      (∀ r ∈ validRowsXY q i j k, 0 ≤ q.arma_weights (q.n - 1 - (i - r))) →
      (0 ≤ m.sqrt (winCross (q.pair j k) i 0 1 0 0) ∧
        m.sqrt (winCross (q.pair j k) i 0 1 0 0) * m.sqrt (winCross (q.pair j k) i 0 1 0 0) =
          winCross (q.pair j k) i 0 1 0 0) →
      (0 ≤ m.sqrt (winCross (q.pair j k) i 0 1 1 1) ∧
        m.sqrt (winCross (q.pair j k) i 0 1 1 1) * m.sqrt (winCross (q.pair j k) i 0 1 1 1) =
          winCross (q.pair j k) i 0 1 1 1) →
      RollCovParallelXY.cell m q i j k = Cell.val v → -1 ≤ v ∧ v ≤ 1) := by
  refine ⟨fun v hs hw hx hy hv => RollCovParallelXX_scale_bounded m p i j k v hs hw hx hy hv,
    fun v hs hx hv => RollCovParallelXX_scale_diagonal m p i j v hs hx hv, ?_⟩
  intro v hs hw hx hy hv
  rw [RollCovParallelXY_cell_pair] at hv
  exact RollCovParallelXX_scale_bounded m (q.pair j k) i 0 1 v hs hw hx hy hv

/-- A witness of `rollCov_correlation_bounded`: the columns `[3, 4]` and `[4, 3]` with unit
weights and `center = false`, where both sums of squares are `25` (square root `5`) and the
sum of the products is `24`: both builders store `24 / 25`. -/
theorem rollCov_correlation_bounded_witness :
    RollCovParallelXX.cell exPrimQ exCorrPlain 1 0 1 = Cell.val (24 / 25) ∧
    RollCovParallelXY.cell exPrimQ exCorrPlainXY 1 0 0 = Cell.val (24 / 25) ∧
    (-1 ≤ (24 / 25 : ℚ) ∧ (24 / 25 : ℚ) ≤ 1) :=
  have h := rollCov_correlation_bounded exPrimQ exCorrPlain exCorrPlainXY 1 0 1
  ⟨exCorrPlain_cell, exCorrPlainXY_cell,
    h.1 (24 / 25) rfl (fun r _ => exCorrPlain_weights _)
      (by rw [exCorrPlain_cross.1]; exact exPrimQ_exact_25)
      (by rw [exCorrPlain_cross.2.1]; exact exPrimQ_exact_25) exCorrPlain_cell⟩

/-- Claim C31.  For every `c > 0` (every `c ≠ 0` would do), replacing every weight `w` by
`c * w` leaves every cell stored by `RollMeanParallel` and by `RollVarParallel` unchanged,
and so the whole output of a run, for every input, mask, `min_obs`, `center` and
`na_restore`. -/
theorem rescaled_weights_same_output (p : Args α) (c : α) (hc : 0 < c) (a b : ℕ)
    (dst : Mat α) :
    (∀ i j, RollMeanParallel.cell (p.rescale c) i j = RollMeanParallel.cell p i j) ∧
    (∀ i j, RollVarParallel.cell (p.rescale c) i j = RollVarParallel.cell p i j) ∧
    RollMeanParallel.operator (p.rescale c) a b dst = RollMeanParallel.operator p a b dst ∧
    RollVarParallel.operator (p.rescale c) a b dst = RollVarParallel.operator p a b dst := by
  have h1 : RollMeanParallel.cell (p.rescale c) = RollMeanParallel.cell p :=
    funext fun i => funext fun j => RollMeanParallel_cell_rescale p c hc.ne' i j
  have h2 : RollVarParallel.cell (p.rescale c) = RollVarParallel.cell p :=
    funext fun i => funext fun j => RollVarParallel_cell_rescale p c hc.ne' i j
  refine ⟨fun i j => congrFun (congrFun h1 i) j, fun i j => congrFun (congrFun h2 i) j, ?_, ?_⟩
  · unfold RollMeanParallel.operator
    rw [h1]
    rfl
  · unfold RollVarParallel.operator
    rw [h2]
    rfl

/-- A witness of `rescaled_weights_same_output`: the weights of `exMean` doubled. -/
theorem rescaled_weights_same_output_witness :
    (0 : ℚ) < 2 ∧
    RollMeanParallel.operator (exMean.rescale 2) 0 5 exMat = RollMeanParallel.operator exMean 0 5
      exMat ∧
    RollVarParallel.operator (exMean.rescale 2) 0 5 exMat = RollVarParallel.operator exMean 0 5
      exMat :=
  have h := rescaled_weights_same_output exMean 2 (by norm_num) 0 5 exMat
  ⟨by norm_num, h.2.2.1, h.2.2.2⟩

/-- Claim C32.  With `center = true`, adding a constant `c` to every value of a column that
is not missing leaves every cell stored by `RollVarParallel` unchanged, and so the whole
output of a run; this holds for either value of `na_restore` (a restored cell is missing and
is not shifted) and also when the weights of the window sum to zero (both runs store
`NaN`). -/
theorem shifted_column_same_variance (p : Args α) (j0 : ℕ) (c : α) (hcen : p.center = true)
    (a b : ℕ) (dst : Mat α) :
    (∀ i j, RollVarParallel.cell (p.shiftColumn j0 c) i j = RollVarParallel.cell p i j) ∧
    RollVarParallel.operator (p.shiftColumn j0 c) a b dst =
      RollVarParallel.operator p a b dst := by
  have h : ∀ i j, RollVarParallel.cell (p.shiftColumn j0 c) i j = RollVarParallel.cell p i j := by
    intro i j
    apply RollVarParallel_cell_shift p _ (if j = j0 then c else 0) i j hcen
    intro r
    by_cases hj : j = j0
    · rw [if_pos hj, if_pos hj]
    · rw [if_neg hj, if_neg hj, Cell_shift_zero]
  refine ⟨h, ?_⟩
  have h2 : RollVarParallel.cell (p.shiftColumn j0 c) = RollVarParallel.cell p :=
    funext fun i => funext fun j => h i j
  unfold RollVarParallel.operator
  rw [h2]
  rfl

/-- A witness of `shifted_column_same_variance`: column `0` of `exCovDecay` shifted by `10`;
the cell `(3, 0)` still holds the variance `9 / 2` of the window. -/
theorem shifted_column_same_variance_witness :
    exCovDecay.center = true ∧
    RollVarParallel.operator (exCovDecay.shiftColumn 0 10) 0 8 exMat =
      RollVarParallel.operator exCovDecay 0 8 exMat ∧
    RollVarParallel.cell (exCovDecay.shiftColumn 0 10) 3 0 = Cell.val (9 / 2) :=
  have h := shifted_column_same_variance exCovDecay 0 10 rfl 0 8 exMat
  ⟨rfl, h.2, (h.1 3 0).trans exCovDecay_var⟩

/-- Claim C33.  The flag `na_restore` affects only the cells whose own input is missing.  For
every input and each of the twelve matrix engines, when `x(i, j)` is not NaN the value stored
in cell `(i, j)` with `na_restore = true` is the value stored with `na_restore = false`, and
so is the entry `(i, j)` that a worker call over any range leaves in the output.  In the five
row loops of the online engines (the one of `RollSdOnline` is the one of `RollVarOnline`) the
accumulators after any number of rows of any column are the same in both runs, whatever the
input holds, so the rows after a restored row are not affected. -/
theorem na_restore_only_missing_cells (m : Prim α) (p : Args α) (lo hi : ℕ) (dst : Mat α)
    (i j : ℕ) (hx : ¬ (p.x i j).isnan = true) :
    (∀ c ∈ [RollSumOnline.cell, RollSumParallel.cell, RollProdOnline.cell, RollProdParallel.cell,
        RollMeanOnline.cell, RollMeanParallel.cell, RollVarOnline.cell, RollVarParallel.cell,
        RollSdOnline.cell m, RollSdParallel.cell m, RollScaleOnline.cell m,
        RollScaleParallel.cell m],
      c { p with na_restore := true } i j = c { p with na_restore := false } i j) ∧
    (∀ op ∈ [RollSumOnline.operator, RollSumParallel.operator, RollProdOnline.operator,
        RollProdParallel.operator, RollMeanOnline.operator, RollMeanParallel.operator,
        RollVarOnline.operator, RollVarParallel.operator, RollSdOnline.operator m,
        RollSdParallel.operator m, RollScaleOnline.operator m, RollScaleParallel.operator m],
      op { p with na_restore := true } lo hi dst i j =
        op { p with na_restore := false } lo hi dst i j) ∧
    (∀ c t, onlineState (RollSumOnline.step { p with na_restore := true } c) RollSumOnline.init t =
      onlineState (RollSumOnline.step { p with na_restore := false } c) RollSumOnline.init t) ∧
    (∀ c t, onlineState (RollProdOnline.step { p with na_restore := true } c) RollProdOnline.init t =
      onlineState (RollProdOnline.step { p with na_restore := false } c) RollProdOnline.init t) ∧
    (∀ c t, onlineState (RollMeanOnline.step { p with na_restore := true } c) RollMeanOnline.init t =
      onlineState (RollMeanOnline.step { p with na_restore := false } c) RollMeanOnline.init t) ∧
    (∀ c t, onlineState (RollVarOnline.step { p with na_restore := true } c) RollVarOnline.init t =
      onlineState (RollVarOnline.step { p with na_restore := false } c) RollVarOnline.init t) ∧
    (∀ c t, onlineState (RollScaleOnline.step { p with na_restore := true } c) RollScaleOnline.init t =
      onlineState (RollScaleOnline.step { p with na_restore := false } c) RollScaleOnline.init t) := by
  refine ⟨?_, ?_, fun _ _ => rfl, fun _ _ => rfl, fun _ _ => rfl, fun _ _ => rfl,
    fun _ _ => rfl⟩
  · intro c hc
    simp only [List.mem_cons, List.mem_singleton, List.mem_nil_iff, or_false] at hc
    rcases hc with rfl | rfl | rfl | rfl | rfl | rfl | rfl | rfl | rfl | rfl | rfl | rfl
    · exact (RollSumOnline_cell_restore p true i j hx).trans
        (RollSumOnline_cell_restore p false i j hx).symm
    · exact (RollSumParallel_cell_restore p true i j hx).trans
        (RollSumParallel_cell_restore p false i j hx).symm
    · exact (RollProdOnline_cell_restore p true i j hx).trans
        (RollProdOnline_cell_restore p false i j hx).symm
    · exact (RollProdParallel_cell_restore p true i j hx).trans
        (RollProdParallel_cell_restore p false i j hx).symm
    · exact (RollMeanOnline_cell_restore p true i j hx).trans
        (RollMeanOnline_cell_restore p false i j hx).symm
    · exact (RollMeanParallel_cell_restore p true i j hx).trans
        (RollMeanParallel_cell_restore p false i j hx).symm
    · exact (RollVarOnline_cell_restore p true i j hx).trans
        (RollVarOnline_cell_restore p false i j hx).symm
    · exact (RollVarParallel_cell_restore p true i j hx).trans
        (RollVarParallel_cell_restore p false i j hx).symm
    · exact (RollSdOnline_cell_restore m p true i j hx).trans
        (RollSdOnline_cell_restore m p false i j hx).symm
    · exact (RollSdParallel_cell_restore m p true i j hx).trans
        (RollSdParallel_cell_restore m p false i j hx).symm
    · exact (RollScaleOnline_cell_restore m p true i j hx).trans
        (RollScaleOnline_cell_restore m p false i j hx).symm
    · exact (RollScaleParallel_cell_restore m p true i j hx).trans
        (RollScaleParallel_cell_restore m p false i j hx).symm
  · intro op hop
    simp only [List.mem_cons, List.mem_singleton, List.mem_nil_iff, or_false] at hop
    rcases hop with rfl | rfl | rfl | rfl | rfl | rfl | rfl | rfl | rfl | rfl | rfl | rfl
    · exact (RollSumOnline_operator_restore p true lo hi dst i j hx).trans
        (RollSumOnline_operator_restore p false lo hi dst i j hx).symm
    · exact (RollSumParallel_operator_restore p true lo hi dst i j hx).trans
        (RollSumParallel_operator_restore p false lo hi dst i j hx).symm
    · exact (RollProdOnline_operator_restore p true lo hi dst i j hx).trans
        (RollProdOnline_operator_restore p false lo hi dst i j hx).symm
    · exact (RollProdParallel_operator_restore p true lo hi dst i j hx).trans
        (RollProdParallel_operator_restore p false lo hi dst i j hx).symm
    · exact (RollMeanOnline_operator_restore p true lo hi dst i j hx).trans
        (RollMeanOnline_operator_restore p false lo hi dst i j hx).symm
    · exact (RollMeanParallel_operator_restore p true lo hi dst i j hx).trans
        (RollMeanParallel_operator_restore p false lo hi dst i j hx).symm
    · exact (RollVarOnline_operator_restore p true lo hi dst i j hx).trans
        (RollVarOnline_operator_restore p false lo hi dst i j hx).symm
    · exact (RollVarParallel_operator_restore p true lo hi dst i j hx).trans
        (RollVarParallel_operator_restore p false lo hi dst i j hx).symm
    · exact (RollSdOnline_operator_restore m p true lo hi dst i j hx).trans
        (RollSdOnline_operator_restore m p false lo hi dst i j hx).symm
    · exact (RollSdParallel_operator_restore m p true lo hi dst i j hx).trans
        (RollSdParallel_operator_restore m p false lo hi dst i j hx).symm
    · exact (RollScaleOnline_operator_restore m p true lo hi dst i j hx).trans
        (RollScaleOnline_operator_restore m p false lo hi dst i j hx).symm
    · exact (RollScaleParallel_operator_restore m p true lo hi dst i j hx).trans
        (RollScaleParallel_operator_restore m p false lo hi dst i j hx).symm

/-- A witness of `na_restore_only_missing_cells`: row `1` of `exSum`, which is not missing;
both runs of `RollSumOnline` store `3` there. -/
theorem na_restore_only_missing_cells_witness :
    ¬ (exSum.x 1 0).isnan = true ∧
      RollSumOnline.cell { exSum with na_restore := true } 1 0 =
        RollSumOnline.cell { exSum with na_restore := false } 1 0 ∧
      RollSumOnline.cell { exSum with na_restore := false } 1 0 = Cell.val 3 :=
  have hx1 : ¬ (exSum.x 1 0).isnan = true := by decide
  ⟨hx1,
    (na_restore_only_missing_cells exPrim exSum 0 1 exMat 1 0 hx1).1 RollSumOnline.cell
      (List.mem_cons_self _ _),
    exSum_online.1⟩

/-- Claim C34.  On every input, with either `scale` setting, the pass of the pair `(j, k)` of
`RollCovOnlineXY` called with the same matrix on both sides is the pass of the pair `(j, k)`
of `RollCovOnlineXX`: the updates of the accumulators agree row by row and so do the stored
values; the last branch of the rolling update of `sumsq_x` and `sumsq_y`, which tests
`arma_any_na[i - width] == 0` in `RollCovOnlineXY` and `!= 0` in `RollCovOnlineXX`, is
reached only when row `i` is missing and is then taken by both.  Above the diagonal
`RollCovOnlineXX` holds the mirror of the pass `(k, j)`, and swapping the roles of the two
columns can change the cross term: on `exGap` (weights of length `n = 6`, `width = 2`, a
window that empties at row `3`) the window is left with `n_obs = 0` and `sum_w = 45/128`,
the cross terms of the two passes differ at row `5`, `RollCovOnlineXY` writes
`-230074/166007` at `(0, 1, 5)` where `RollCovOnlineXX` holds `-4237226/3077983`, and the
direct builder stores the covariance `-2` of the window for both orders. -/
theorem rollCovOnlineXY_same_matrix (m : Prim α) (p : Args α) (j k i : ℕ)
    (s : RollCovOnlineXX.State α) :
    RollCovOnlineXY.step p.twice j k i s = RollCovOnlineXX.step p j k i s ∧
    RollCovOnlineXY.cell m p.twice j k i = RollCovOnlineXX.cell m p j k i ∧
    ((¬ (notNA2 p i j k ∧ notNA2 p (i - p.width) j k) ∧
        ¬ (notNA2 p i j k ∧ isNA2 p (i - p.width) j k) ∧
        ¬ (isNA2 p i j k ∧ notNA2 p (i - p.width) j k) ∧
        (isNAxy p.twice i j k ∨ (p.twice.arma_any_na (i - p.twice.width) = 0 ∨
          (p.twice.x (i - p.twice.width) j).isnan = true ∨
          (p.twice.y (i - p.twice.width) k).isnan = true))) ↔
      (¬ (notNA2 p i j k ∧ notNA2 p (i - p.width) j k) ∧
        ¬ (notNA2 p i j k ∧ isNA2 p (i - p.width) j k) ∧
        ¬ (isNA2 p i j k ∧ notNA2 p (i - p.width) j k) ∧
        (isNA2 p i j k ∨ isNA2 p (i - p.width) j k))) ∧
    (onlineState (RollCovOnlineXX.step exGap 1 0) RollCovOnlineXX.init 4).n_obs = 0 ∧
    (onlineState (RollCovOnlineXX.step exGap 1 0) RollCovOnlineXX.init 4).sum_w =
      LD.fin (45 / 128) ∧
    (onlineState (RollCovOnlineXX.step exGap 1 0) RollCovOnlineXX.init 6).sumsq_xy =
      LD.fin (-230928817 / 210313344) ∧
    (onlineState (RollCovOnlineXY.step exGap.twice 0 1) RollCovOnlineXX.init 6).sumsq_xy =
      LD.fin (-115037 / 104064) ∧
    RollCovOnlineXY.operator exPrim exGap.twice 0 2 exCube 0 1 5 =
      Cell.val (-230074 / 166007) ∧
    RollCovOnlineXX.operator exPrim exGap 0 2 exCube 0 1 5 = Cell.val (-4237226 / 3077983) ∧
    RollCovOnlineXY.operator exPrim exGap.twice 0 2 exCube 0 1 5 ≠
      RollCovOnlineXX.operator exPrim exGap 0 2 exCube 0 1 5 ∧
    RollCovParallelXX.cell exPrim exGap 5 0 1 = Cell.val (-2) ∧
    RollCovParallelXX.cell exPrim exGap 5 1 0 = Cell.val (-2) := by
  have hxy : RollCovOnlineXY.operator exPrim exGap.twice 0 2 exCube 0 1 5 =
      Cell.val (-230074 / 166007) := by
    rw [← exGap_online_b, ← RollCovOnlineXY_cell_twice]
    exact RollCovOnlineXY_operator_full exPrim exGap.twice exCube 0 1 5 (by decide)
      (by decide) (by decide)
  have hxx : RollCovOnlineXX.operator exPrim exGap 0 2 exCube 0 1 5 =
      Cell.val (-4237226 / 3077983) := by
    rw [← exGap_online_a]
    exact RollCovOnlineXX_operator_full exPrim exGap exCube 0 1 5 (by decide) (by decide)
      (by decide)
  have hst : RollCovOnlineXY.step exGap.twice 0 1 = RollCovOnlineXX.step exGap 0 1 := by
    funext i s
    exact RollCovOnlineXY_step_twice exGap 0 1 i s
  refine ⟨RollCovOnlineXY_step_twice p j k i s, RollCovOnlineXY_cell_twice m p j k i, ?_,
    ?_, ?_, ?_, ?_, hxy, hxx, ?_, exGap_parallel.2, exGap_parallel.1⟩
  · constructor
    · rintro ⟨h1, h2, h3, h4⟩
      exact ⟨h1, h2, h3, (last_branch_iff p j k i h1 h2).1 h4⟩
    · rintro ⟨h1, h2, h3, h4⟩
      exact ⟨h1, h2, h3, (last_branch_iff p j k i h1 h2).2 h4⟩
  · rw [exGap_a4]
  · rw [exGap_a4]
  · rw [exGap_a6]
  · rw [hst, exGap_b6]
  · rw [hxy, hxx]
    intro h
    have h2 := Cell.val.inj h
    norm_num at h2

/-- Claim C35.  In the scale engines with `min_obs >= 1` and `na_restore = false` (and a
window of at least one row), whenever the window of row `i` holds at least `min_obs` valid
observations, which is the test `n_obs >= min_obs` of both engines since both counters hold
the number of valid rows of the window, there is a newest valid row `r` of the window rows
`max(0, i - width + 1), …, i`, and the value `x_ij` of both engines is the input of that row:
the value `RollScaleOnline` carries over (the last valid value seen so far) and the value
`RollScaleParallel` keeps (the first valid value scanning back from row `i`) coincide, neither
comes from a row outside the window, and the cell each engine stores is the centred and
scaled value of `x(r, j)`. -/
theorem rollScale_x_ij_most_recent (m : Prim α) (p : Args α) (i j : ℕ) (hw : 1 ≤ p.width)
    (hmin : 1 ≤ p.min_obs) (hr : p.na_restore = false)
    (hobs : p.min_obs ≤ (validRows p i j).card) :
    (onlineState (RollScaleOnline.step p j) RollScaleOnline.init (i + 1)).n_obs =
      (validRows p i j).card ∧
    (whileWindow p.width i (RollScaleParallel.body p i j) ⟨0, false, 0⟩).n_obs =
      (validRows p i j).card ∧
    ∃ r, r ∈ validRows p i j ∧ (∀ r' ∈ validRows p i j, r' ≤ r) ∧
      (i + 1 - p.width ≤ r ∧ r ≤ i) ∧ notNA p r j ∧
      (onlineState (RollScaleOnline.step p j) RollScaleOnline.init (i + 1)).x_ij =
        (p.x r j).toLD ∧
      (whileWindow p.width i (RollScaleParallel.body p i j) ⟨0, false, 0⟩).x_ij =
        (p.x r j).toLD ∧
      RollScaleOnline.cell m p i j =
        scaleValue m p (validRows p i j).card (p.x r j).toLD
          (onlineState (RollScaleOnline.step p j) RollScaleOnline.init (i + 1)).mean_x
          (onlineState (RollScaleOnline.step p j) RollScaleOnline.init (i + 1)).var_x ∧
      RollScaleParallel.cell m p i j =
        scaleValue m p (validRows p i j).card (p.x r j).toLD
          (RollVarParallel.mean_x p i j) (RollScaleParallel.var_x p i j) := by
  have hne : (validRows p i j).Nonempty := by
    rw [← Finset.card_pos]
    have : (0 : ℤ) < ((validRows p i j).card : ℤ) := by omega
    exact_mod_cast this
  have hon : (onlineState (RollScaleOnline.step p j) RollScaleOnline.init (i + 1)).n_obs =
      (validRows p i j).card := by
    rw [RollScaleOnline_n_obs p j hw, validRows_card]
  have hpn := RollScaleParallel_n_obs p i j
  obtain ⟨hmem, hmax⟩ : (validRows p i j).max' hne ∈ validRows p i j ∧
      ∀ r' ∈ validRows p i j, r' ≤ (validRows p i j).max' hne :=
    ⟨Finset.max'_mem _ hne, fun r' h => Finset.le_max' _ r' h⟩
  generalize (validRows p i j).max' hne = r at hmem hmax
  obtain ⟨r1, r2, rv⟩ := (mem_validRows_iff p i j r).1 hmem
  have hxo : (onlineState (RollScaleOnline.step p j) RollScaleOnline.init (i + 1)).x_ij =
      (p.x r j).toLD := by
    apply RollScaleOnline_x_ij_newest p j (i + 1) r (by omega) rv
    intro r' a1 a2
    by_cases hin : i + 1 - p.width ≤ r'
    · exact hmax r' ((mem_validRows_iff p i j r').2 ⟨hin, by omega, a2⟩)
    · omega
  have hxp : (whileWindow p.width i (RollScaleParallel.body p i j) ⟨0, false, 0⟩).x_ij =
      (p.x r j).toLD := by
    rw [whileWindow_eq_foldl]
    apply (RollScaleParallel_x_ij_newest p i j (min p.width (i + 1)) (by omega)).2 r
      (by omega) r2 rv
    intro r' a1 a2 a3
    exact hmax r' ((mem_validRows_iff p i j r').2 ⟨by omega, a2, a3⟩)
  refine ⟨hon, hpn, r, hmem, hmax, ⟨r1, r2⟩, rv, hxo, hxp, ?_, ?_⟩
  · unfold RollScaleOnline.cell RollScaleOnline.emit
    rw [if_pos (Or.inl hr), hon, if_pos hobs, hxo]
  · unfold RollScaleParallel.cell
    rw [if_pos (Or.inl hr)]
    dsimp only
    rw [hpn, if_pos hobs, hxp]

/-- A witness of `rollScale_x_ij_most_recent`: row `1` of the column `[1, NA]` with
`width = 2` and `min_obs = 1`; the newest valid row of the window is row `0`, and both
engines store its value `1`. -/
theorem rollScale_x_ij_most_recent_witness :
    exScale.x 1 0 = Cell.NA ∧ validRows exScale 1 0 = {0} ∧
    RollScaleOnline.cell exPrim exScale 1 0 = Cell.val 1 ∧
    RollScaleParallel.cell exPrim exScale 1 0 = Cell.val 1 ∧
    ∃ r, r ∈ validRows exScale 1 0 ∧ (∀ r' ∈ validRows exScale 1 0, r' ≤ r) ∧
      (1 + 1 - exScale.width ≤ r ∧ r ≤ 1) ∧ notNA exScale r 0 ∧
      (onlineState (RollScaleOnline.step exScale 0) RollScaleOnline.init (1 + 1)).x_ij =
        (exScale.x r 0).toLD ∧
      (whileWindow exScale.width 1 (RollScaleParallel.body exScale 1 0) ⟨0, false, 0⟩).x_ij =
        (exScale.x r 0).toLD ∧
      RollScaleOnline.cell exPrim exScale 1 0 =
        scaleValue exPrim exScale (validRows exScale 1 0).card (exScale.x r 0).toLD
          (onlineState (RollScaleOnline.step exScale 0) RollScaleOnline.init (1 + 1)).mean_x
          (onlineState (RollScaleOnline.step exScale 0) RollScaleOnline.init (1 + 1)).var_x ∧
      RollScaleParallel.cell exPrim exScale 1 0 =
        scaleValue exPrim exScale (validRows exScale 1 0).card (exScale.x r 0).toLD
          (RollVarParallel.mean_x exScale 1 0) (RollScaleParallel.var_x exScale 1 0) :=
  ⟨rfl, exScale_validRows, exScale_online, exScale_parallel,
    (rollScale_x_ij_most_recent exPrim exScale 1 0 (by decide) (by decide) rfl
      (by rw [exScale_validRows]; decide)).2.2⟩

/-- Claim C36.  Let the covariance slice at time `i` hold no missing value, be symmetric and
positive semidefinite, let its response entry `var_y` exceed machine epsilon (with
`sqrt(eps) < sqrt(var_y)`, as an exact square root gives), and let the solve return `coef`
with `A * coef = b` exactly.  Then the number `coefᵀ * A * coef / var_y` lies in `[0, 1]`,
and it is what both regression workers leave in `arma_rsq[i]` after a run over a range that
contains `i`, whenever the count `arma_n_obs[i]` reaches the number of fitted parameters
(`n_cols_x` with intercept, `n_cols_x - 1` without).  The invertibility of `A` is not used:
the exact solution is enough. -/
theorem rollLm_rsq_unit_interval (L : LinAlg α) (m : Prim α) (q : LmArgs α) (b e i : ℕ)
    (o : LmOut α) (coef : ℕ → α) (hb : b ≤ i) (he : i < e) (hcols : 1 ≤ q.n_cols_x)
    (hnan : sliceHasNan q i = false)
    (hsym : ∀ a c, a < q.n_cols_x → c < q.n_cols_x → q.arma_cov a c i = q.arma_cov c a i)
    (hpsd : ∀ z : ℕ → α, 0 ≤ ∑ a in Finset.range q.n_cols_x,
      ∑ c in Finset.range q.n_cols_x, z a * (q.arma_cov a c i).get * z c)
    (heps : 0 ≤ m.eps)
    (hvar : m.eps < (q.arma_cov (q.n_cols_x - 1) (q.n_cols_x - 1) i).get)
    (hsq : m.sqrt m.eps < m.sqrt (q.arma_cov (q.n_cols_x - 1) (q.n_cols_x - 1) i).get)
    (hs : L.solve (q.n_cols_x - 1) (sliceA q i) (sliceB q i) = some coef)
    (hex : ∀ a, a < q.n_cols_x - 1 →
      ∑ l in Finset.range (q.n_cols_x - 1), sliceA q i a l * coef l = sliceB q i a) :
    0 ≤ quadForm (q.n_cols_x - 1) (sliceA q i) coef /
      (q.arma_cov (q.n_cols_x - 1) (q.n_cols_x - 1) i).get ∧
    quadForm (q.n_cols_x - 1) (sliceA q i) coef /
      (q.arma_cov (q.n_cols_x - 1) (q.n_cols_x - 1) i).get ≤ 1 ∧
    (nObsGe (q.arma_n_obs i) (q.n_cols_x : ℤ) = true →
      (RollLmInterceptTRUE.operator L m q b e o).arma_rsq i =
        Cell.val (quadForm (q.n_cols_x - 1) (sliceA q i) coef /
          (q.arma_cov (q.n_cols_x - 1) (q.n_cols_x - 1) i).get)) ∧
    (nObsGe (q.arma_n_obs i) ((q.n_cols_x : ℤ) - 1) = true →
      (RollLmInterceptFALSE.operator L m q b e o).arma_rsq i =
        Cell.val (quadForm (q.n_cols_x - 1) (sliceA q i) coef /
          (q.arma_cov (q.n_cols_x - 1) (q.n_cols_x - 1) i).get)) := by
  have hbe : b ≤ e := by omega
  have hpos : 0 < (q.arma_cov (q.n_cols_x - 1) (q.n_cols_x - 1) i).get :=
    lt_of_le_of_lt heps hvar
  have hvy := cell_of_slice q i (q.n_cols_x - 1) (q.n_cols_x - 1) hnan (by omega) (by omega)
  have hld : (q.arma_cov (q.n_cols_x - 1) (q.n_cols_x - 1) i).toLD =
      LD.fin (q.arma_cov (q.n_cols_x - 1) (q.n_cols_x - 1) i).get := by
    nth_rewrite 1 [hvy]
    rfl
  obtain ⟨d, hd⟩ : ∃ d, q.n_cols_x = d + 1 := ⟨q.n_cols_x - 1, by omega⟩
  have hd1 : q.n_cols_x - 1 = d := by omega
  have hQ : 0 ≤ quadForm (q.n_cols_x - 1) (sliceA q i) coef ∧
      quadForm (q.n_cols_x - 1) (sliceA q i) coef ≤
        (q.arma_cov (q.n_cols_x - 1) (q.n_cols_x - 1) i).get := by
    rw [hd1]
    apply quadForm_bounds d (sliceA q i) coef
    · intro a ha
      unfold sliceA
      rw [hsym d a (by omega) (by omega)]
    · intro z
      have := hpsd z
      rw [hd] at this
      exact this
    · intro a ha
      have := hex a (by omega)
      rw [hd1] at this
      rw [this]
      unfold sliceB sliceA
      rw [hd1]
  refine ⟨div_nonneg hQ.1 hpos.le, (div_le_one hpos).2 hQ.2, fun hn => ?_, fun hn => ?_⟩
  · have hT := RollLmInterceptTRUE_operator_row L m q b e hbe o i
    rw [if_pos ⟨hb, he⟩] at hT
    obtain ⟨_, t2, _⟩ := LmOut_row_eq _ _ i hT
    rw [t2, RollLmInterceptTRUE_slice_rsq L m q i o coef hnan hs hn, hld,
      rsqValue_val m _ _ _ _ heps hvar hsq]
  · have hF := RollLmInterceptFALSE_operator_row L m q b e hbe o i
    rw [if_pos ⟨hb, he⟩] at hF
    obtain ⟨_, f2, _⟩ := LmOut_row_eq _ _ i hF
    rw [f2, RollLmInterceptFALSE_slice_rsq L m q i o coef hnan hs hn, hld,
      rsqValue_val m _ _ _ _ heps hvar hsq]

/-- A witness of `rollLm_rsq_unit_interval`: the slice `[[1, 1], [1, 4]]` of `exLmFit` with
the solution `coef = 1`; both workers store `1/4`. -/
theorem rollLm_rsq_unit_interval_witness :
    quadForm (exLmFit.n_cols_x - 1) (sliceA exLmFit 0) (fun _ => 1) /
      (exLmFit.arma_cov (exLmFit.n_cols_x - 1) (exLmFit.n_cols_x - 1) 0).get = 1 / 4 ∧
    (RollLmInterceptTRUE.operator exLinAlg exPrimQ exLmFit 0 1 exLmOut).arma_rsq 0 =
      Cell.val (quadForm (exLmFit.n_cols_x - 1) (sliceA exLmFit 0) (fun _ => 1) /
        (exLmFit.arma_cov (exLmFit.n_cols_x - 1) (exLmFit.n_cols_x - 1) 0).get) ∧
    (RollLmInterceptFALSE.operator exLinAlg exPrimQ exLmFit 0 1 exLmOut).arma_rsq 0 =
      Cell.val (quadForm (exLmFit.n_cols_x - 1) (sliceA exLmFit 0) (fun _ => 1) /
        (exLmFit.arma_cov (exLmFit.n_cols_x - 1) (exLmFit.n_cols_x - 1) 0).get) :=
  have h := rollLm_rsq_unit_interval exLinAlg exPrimQ exLmFit 0 1 0 exLmOut (fun _ => 1)
    (by decide) (by decide) (by decide) (by decide)
    (by
      intro a c ha hc
      have ha2 : a < 2 := ha
      have hc2 : c < 2 := hc
      interval_cases a <;> interval_cases c <;> rfl)
    (by
      intro z
      have e : exLmFit.n_cols_x = 2 := rfl
      rw [e]
      simp only [Finset.sum_range_succ, Finset.sum_range_zero, zero_add]
      norm_num [exLmFit, Cell.get]
      nlinarith [sq_nonneg (z 0 + z 1), sq_nonneg (z 1)])
    exPrimQ_eps_nonneg
    (by norm_num [exPrimQ, exLmFit, Cell.get])
    (by
      have h4 : exPrimQ.sqrt (exLmFit.arma_cov (exLmFit.n_cols_x - 1)
          (exLmFit.n_cols_x - 1) 0).get = 2 := by
        have := exPrimQ_sqrt_sq 2 (by norm_num)
        norm_num at this
        norm_num [exLmFit, Cell.get]
        exact this
      rw [h4, exPrimQ_sqrt_eps]
      norm_num)
    (by simp [exLinAlg, sliceA, sliceB, exLmFit, Cell.get])
    (by
      intro a ha
      have ha1 : a < 1 := ha
      interval_cases a
      simp [sliceA, sliceB, exLmFit, Cell.get])
  ⟨by norm_num [quadForm, sliceA, exLmFit, Cell.get], h.2.2.1 (by
      norm_num [nObsGe, exLmFit]), h.2.2.2 (by norm_num [nObsGe, exLmFit])⟩

/-- Claim C37.  For the column `[0, 2, 3]` with `width = 2`, weights `[1, 1]`, `min_obs = 1`
and no mask, the window of row `2` holds `2` and `3` and no longer the zero:
`RollProdParallel` stores their product `6` there, and `RollProdOnline` stores `NaN`,
because its `prod_x` is `0` after row `1` and the pass of row `2` multiplies it by
`x_new / x_old` with `x_old = x(0, 0) = 0`. -/
theorem rollProd_online_zero_leaves :
    RollProdParallel.operator exProdZero 0 3 exMat 2 0 = Cell.val 6 ∧
    RollProdOnline.operator exProdZero 0 1 exMat 2 0 = Cell.NaN ∧
    RollProdOnline.operator exProdZero 0 1 exMat 2 0 ≠
      RollProdParallel.operator exProdZero 0 3 exMat 2 0 ∧
    validRows exProdZero 2 0 = {1, 2} ∧
    (onlineState (RollProdOnline.step exProdZero 0) RollProdOnline.init 2).prod_x = LD.fin 0 ∧
    exProdZero.x (2 - exProdZero.width) 0 = Cell.val 0 ∧
    (onlineState (RollProdOnline.step exProdZero 0) RollProdOnline.init 3).prod_x =
      LD.nonfin := by
  have e1 : RollProdParallel.operator exProdZero 0 3 exMat 2 0 = Cell.val 6 := by
    rw [show (3 : ℕ) = exProdZero.n_rows_x * exProdZero.n_cols_x from rfl,
      RollProdParallel_operator_full exProdZero exMat 2 0 (by decide) (by decide)]
    exact exProdZero_parallel
  have e2 : RollProdOnline.operator exProdZero 0 1 exMat 2 0 = Cell.NaN := by
    rw [show (1 : ℕ) = exProdZero.n_cols_x from rfl,
      RollProdOnline_operator_full exProdZero exMat 2 0 (by decide) (by decide)]
    exact exProdZero_online
  refine ⟨e1, e2, ?_, by decide, ?_, rfl, ?_⟩
  · rw [e1, e2]
    exact fun h => Cell.noConfusion h
  · rw [exProdZero_state2]
  · rw [exProdZero_state3]

end Properties

end Roll
